import Mathlib

/-!
# The dependency engine of bake (`src/deplib.cpp`, `src/deplib.hpp`)

A shallow embedding of `DepSystem`.

Modelling conventions.

* `std::unordered_set<string>` is a duplicate-free `List String`; `insert` appends an absent
  element, `erase` removes it.  The list order stands for the (unspecified) iteration order.
* `symbols` (an `unordered_set<Symbol>` hashed and compared by `name`) is a `List Symbol`.
  The recurring pair `symbols.erase(x); symbols.insert(x);` stores `x` under `x.name`; the model
  (`putSym`) keeps the position of the record in the list.
* `shadowers` (an `unordered_multimap<string,string>`) is a `List (String × String)`;
  `emplace` appends.
* Dereferencing `symbols.find(..)` when it is `end()`, and a recursion that does not finish within
  the fuel it is given, have no defined result: helpers return `none`, public operations
  `Outcome.undefined`.
* A thrown exception is `Outcome.threw e d`, where `d` is the `DepSystem` left behind.
* A callback (`std::function<void(string,string)>`) is represented by an identifier; the empty
  function is `none`.
-/

namespace DepLib

/-- The enumeration `Symbol_State` of `deplib.hpp`, in its declared order. -/
inductive Symbol_State where
  | NONBUILT
  | DISABLED
  | STALE
  | INVALID
  | VALID
  deriving DecidableEq, Repr

open Symbol_State

/-- The record `DepSystem::Symbol`.  The defaults are those of the aggregate initialisation
`Symbol{name}`: every omitted member is value-initialised. -/
structure Symbol where
  name : String
  value : String := ""
  state : Symbol_State := NONBUILT
  callback : Option Nat := none
  dependency_edges : List String := []
  reverse_dependency_edges : List String := []
  dependency_list_list : List (List String) := []
  reverse_dependency_list_set : List String := []
  deriving DecidableEq, Repr

/-- The class `DepSystem`: its two data members. -/
structure DepSystem where
  symbols : List Symbol := []
  shadowers : List (String × String) := []
  deriving DecidableEq, Repr

/-- The kinds of exception thrown by `deplib.cpp` (the source throws C strings):
`NoSuchSymbol` for the "... called with nonexistent ..." messages, `CyclicDependency` for
"Attempted to add cyclic dependency: ...", `IndexOutOfRange` for
"delete_dependency_list() called with invalid index.", `Unbuildable` for
"get_build_plan() called with unbuildable symbol.". -/
inductive Error where
  | NoSuchSymbol
  | CyclicDependency
  | IndexOutOfRange
  | Unbuildable
  deriving DecidableEq, Repr

/-- Result of running a member function on a `DepSystem`. -/
inductive Outcome (α : Type) where
  | ok : α → Outcome α
  | threw : Error → DepSystem → Outcome α
  | undefined : Outcome α
  deriving DecidableEq, Repr

/-! ## Containers -/

/-- `unordered_set<string>::insert`. -/
def setInsert (x : String) (s : List String) : List String :=
  if x ∈ s then s else s ++ [x]

/-- `unordered_set<string>::erase`. -/
def setErase (x : String) : List String → List String
  | [] => []
  | y :: ys => if y = x then setErase x ys else y :: setErase x ys

/-- `unordered_set<string>::insert(first, last)`. -/
def setInsertAll : List String → List String → List String
  | s, [] => s
  | s, x :: xs => setInsertAll (setInsert x s) xs

/-- `symbols.find(Symbol{n})`; `none` is `symbols.end()`. -/
def findSym : List Symbol → String → Option Symbol
  | [], _ => none
  | s :: rest, n => if s.name = n then some s else findSym rest n

/-- `symbols.count(Symbol{n})`. -/
def countSym (syms : List Symbol) (n : String) : Bool :=
  (findSym syms n).isSome

/-- `symbols.erase(Symbol{n})`. -/
def eraseSym : List Symbol → String → List Symbol
  | [], _ => []
  | s :: rest, n => if s.name = n then eraseSym rest n else s :: eraseSym rest n

/-- `symbols.insert(s)`: no effect when a record of that name is present. -/
def insertSym (syms : List Symbol) (s : Symbol) : List Symbol :=
  if countSym syms s.name then syms else syms ++ [s]

/-- `symbols.erase(s); symbols.insert(s);`. -/
def putSym : List Symbol → Symbol → List Symbol
  | [], s => [s]
  | t :: rest, s => if t.name = s.name then s :: rest else t :: putSym rest s

/-- The first name of an ordered dependency list that is an existing symbol
(the loop `for(x : list) if(symbols.count(Symbol{x})) { ...; break; }`). -/
def firstExisting (syms : List Symbol) : List String → Option String
  | [] => none
  | x :: xs => if countSym syms x then some x else firstExisting syms xs

/-- `std::find_if(first, last, p)`: the range starting at the first element satisfying `p`
(the empty range when there is none). -/
def findIf (p : String → Bool) : List String → List String
  | [] => []
  | x :: xs => if p x then x :: xs else findIf p xs

/-- A loop whose body may have no defined result. -/
def foldOpt {σ α : Type} (f : σ → α → Option σ) : σ → List α → Option σ
  | s, [] => some s
  | s, x :: xs =>
    match f s x with
    | none => none
    | some t => foldOpt f t xs

/-- A loop that returns `true` as soon as its body does. -/
def anyOpt {α : Type} (f : α → Option Bool) : List α → Option Bool
  | [] => some false
  | x :: xs =>
    match f x with
    | none => none
    | some true => some true
    | some false => anyOpt f xs

/-! ## Queries -/

/-- `DepSystem::has_symbol`. -/
def has_symbol (D : DepSystem) (name : String) : Bool :=
  countSym D.symbols name

/-- `DepSystem::get_value`. -/
def get_value (D : DepSystem) (symbol_name : String) : Outcome String :=
  match findSym D.symbols symbol_name with
  | none => Outcome.threw Error.NoSuchSymbol D
  | some s => Outcome.ok s.value

/-- `DepSystem::get_state`. -/
def get_state (D : DepSystem) (symbol_name : String) : Outcome Symbol_State :=
  match findSym D.symbols symbol_name with
  | none => Outcome.threw Error.NoSuchSymbol D
  | some s => Outcome.ok s.state

/-- `DepSystem::select_syms_with_states`: the state of every listed name is read through
`symbols.find(..)->state`. -/
def select_syms_with_states (D : DepSystem) :
    List String → List Symbol_State → Option (List String)
  | [], _ => some []
  | x :: xs, states =>
    match findSym D.symbols x with
    | none => none
    | some s =>
      match select_syms_with_states D xs states with
      | none => none
      | some r => if s.state ∈ states then some (x :: r) else some r

/-- `DepSystem::has_dependency`. -/
def has_dependency (D : DepSystem) (from_name to_name : String) : Outcome Bool :=
  match findSym D.symbols from_name with
  | none => Outcome.threw Error.NoSuchSymbol D
  | some from_symbol =>
    match findSym D.symbols to_name with
    | none => Outcome.threw Error.NoSuchSymbol D
    | some _ => Outcome.ok (decide (to_name ∈ from_symbol.dependency_edges))

/-- `DepSystem::get_dependency_lists`. -/
def get_dependency_lists (D : DepSystem) (to_symbol : String) : Outcome (List (List String)) :=
  match findSym D.symbols to_symbol with
  | none => Outcome.threw Error.NoSuchSymbol D
  | some s => Outcome.ok s.dependency_list_list

/-- `DepSystem::get_dependency_edges`. -/
def get_dependency_edges (D : DepSystem) (symbol : String) : Outcome (List String) :=
  match findSym D.symbols symbol with
  | none => Outcome.threw Error.NoSuchSymbol D
  | some s => Outcome.ok s.dependency_edges

/-- `DepSystem::detect_cycle`. -/
def detect_cycle (D : DepSystem) : Nat → String → String → Option Bool
  | 0, _, _ => none
  | fuel + 1, detect_from, cycle_member =>
    if detect_from = cycle_member then some true
    else
      match findSym D.symbols detect_from with
      | none => none
      | some from_symbol =>
        match anyOpt (fun dep_sym_name =>
            if dep_sym_name = cycle_member then some true
            else detect_cycle D fuel dep_sym_name cycle_member) from_symbol.dependency_edges with
        | none => none
        | some true => some true
        | some false =>
          anyOpt (fun dep_list =>
            match firstExisting D.symbols dep_list with
            | none => some false
            | some list_sym_name => detect_cycle D fuel list_sym_name cycle_member)
            from_symbol.dependency_list_list

/-- The body shared by the two loops of `get_dependencies_recursive`: append the novel names of
`dep_deps` to `to_return` and insert `dep_deps` into `considered_symbols`. -/
def absorb (st : List String × List String) (dep_deps : List String) :
    List String × List String :=
  (st.1 ++ dep_deps.filter (fun x => decide (x ∉ st.2)), setInsertAll st.2 dep_deps)

/-- `DepSystem::get_dependencies_recursive`. -/
def get_dependencies_recursive (D : DepSystem) :
    Nat → Symbol → List String → Option (List String)
  | 0, _, _ => none
  | fuel + 1, symbol, considered_symbols =>
    if symbol.name ∈ considered_symbols then some []
    else
      match foldOpt (fun st dep_sym_name =>
          match findSym D.symbols dep_sym_name with
          | none => none
          | some dep =>
            match get_dependencies_recursive D fuel dep st.2 with
            | none => none
            | some dep_deps => some (absorb st dep_deps))
          ([], considered_symbols) symbol.dependency_edges with
      | none => none
      | some st1 =>
        match foldOpt (fun st dep_list =>
            match firstExisting D.symbols dep_list with
            | none => some st
            | some list_sym_name =>
              match findSym D.symbols list_sym_name with
              | none => none
              | some dep =>
                match get_dependencies_recursive D fuel dep st.2 with
                | none => none
                | some dep_deps => some (absorb st dep_deps))
            st1 symbol.dependency_list_list with
        | none => none
        | some st2 => some (st2.1 ++ [symbol.name])

/-- The final loop of `get_dependencies` and `get_symbols`: drop the names rejected by the
selector. -/
def selectLoop (D : DepSystem) (selector : String → String → Symbol_State → Bool) :
    List String → Option (List String)
  | [] => some []
  | x :: xs =>
    match findSym D.symbols x with
    | none => none
    | some s =>
      match selectLoop D selector xs with
      | none => none
      | some r => if selector s.name s.value s.state then some (x :: r) else some r

/-- The default selector of the traversal functions. -/
def selectAll : String → String → Symbol_State → Bool :=
  fun _ _ _ => true

/-- `DepSystem::get_dependencies`. -/
def get_dependencies (fuel : Nat) (D : DepSystem) (symbol : String)
    (selector : String → String → Symbol_State → Bool) : Outcome (List String) :=
  match findSym D.symbols symbol with
  | none => Outcome.threw Error.NoSuchSymbol D
  | some sym =>
    match get_dependencies_recursive D fuel sym [] with
    | none => Outcome.undefined
    | some to_return =>
      match selectLoop D selector to_return.dropLast with
      | none => Outcome.undefined
      | some r => Outcome.ok r

/-- `DepSystem::get_symbols`. -/
def get_symbols (fuel : Nat) (D : DepSystem)
    (selector : String → String → Symbol_State → Bool) : Outcome (List String) :=
  match foldOpt (fun st x =>
      match get_dependencies_recursive D fuel x st.2 with
      | none => none
      | some to_add => some (st.1 ++ to_add, setInsertAll st.2 to_add))
      (([] : List String), ([] : List String)) D.symbols with
  | none => Outcome.undefined
  | some st =>
    match selectLoop D selector st.1 with
    | none => Outcome.undefined
    | some r => Outcome.ok r

/-- `DepSystem::get_dependents_recursive`. -/
def get_dependents_recursive (D : DepSystem) : Nat → String → Option (List String)
  | 0, _ => none
  | fuel + 1, symname =>
    match findSym D.symbols symname with
    | none => none
    | some symbol =>
      match foldOpt (fun to_return revdep =>
          match get_dependents_recursive D fuel revdep with
          | none => none
          | some revdep_revdeps => some (setInsertAll to_return revdep_revdeps))
          [symname] symbol.reverse_dependency_edges with
      | none => none
      | some r1 =>
        foldOpt (fun to_return revdep =>
          match get_dependents_recursive D fuel revdep with
          | none => none
          | some revdep_revdeps => some (setInsertAll to_return revdep_revdeps))
          r1 symbol.reverse_dependency_list_set

/-- The loop of `get_dependents` that splices the per-dependent build plans.  The plan of a
dependent is computed from the fresh record `Symbol{symname}`. -/
def spliceLoop (D : DepSystem) (fuel : Nat) : List String → List String → Option (List String)
  | to_return, [] => some to_return
  | to_return, symname :: rest =>
    match get_dependencies_recursive D fuel { name := symname } [] with
    | none => none
    | some build_plan =>
      spliceLoop D fuel
        (build_plan.foldl (fun acc x => if x ∈ acc then acc else acc ++ [x]) to_return) rest

/-- A selector that may modify `symbols` (the lambda of `invalidate_dependents` does). -/
abbrev StSelector :=
  List Symbol → String → String → Symbol_State → Option (Bool × List Symbol)

/-- The final loop of `get_dependents`. -/
def dependentsLoop (selector : StSelector) (dependents : List String) :
    List Symbol → List String → Option (List String × List Symbol)
  | syms, [] => some ([], syms)
  | syms, x :: xs =>
    match findSym syms x with
    | none => none
    | some s =>
      if x ∈ dependents then
        match selector syms s.name s.value s.state with
        | none => none
        | some (keep, syms1) =>
          match dependentsLoop selector dependents syms1 xs with
          | none => none
          | some (r, syms2) => if keep then some (x :: r, syms2) else some (r, syms2)
      else dependentsLoop selector dependents syms xs

/-- `DepSystem::get_dependents`, with a selector that may modify `symbols`. -/
def get_dependents_st (fuel : Nat) (D : DepSystem) (symbol : String) (selector : StSelector) :
    Outcome (List String × DepSystem) :=
  match findSym D.symbols symbol with
  | none => Outcome.threw Error.NoSuchSymbol D
  | some _ =>
    match get_dependents_recursive D fuel symbol with
    | none => Outcome.undefined
    | some dependents =>
      match spliceLoop D fuel [] dependents with
      | none => Outcome.undefined
      | some to_return =>
        if symbol ∈ to_return then
          match dependentsLoop selector dependents D.symbols (to_return.erase symbol) with
          | none => Outcome.undefined
          | some (r, syms) => Outcome.ok (r, { D with symbols := syms })
        else Outcome.undefined

/-- `DepSystem::get_dependents` with a selector without side effects. -/
def get_dependents (fuel : Nat) (D : DepSystem) (symbol : String)
    (selector : String → String → Symbol_State → Bool) : Outcome (List String) :=
  match get_dependents_st fuel D symbol (fun syms n v st => some (selector n v st, syms)) with
  | Outcome.ok (r, _) => Outcome.ok r
  | Outcome.threw e d => Outcome.threw e d
  | Outcome.undefined => Outcome.undefined

/-- `DepSystem::get_build_plan`. -/
def get_build_plan (fuel : Nat) (D : DepSystem) (symbol : String) : Outcome (List String) :=
  match findSym D.symbols symbol with
  | none => Outcome.threw Error.NoSuchSymbol D
  | some sym =>
    match get_dependencies_recursive D fuel sym [] with
    | none => Outcome.undefined
    | some all_dependencies =>
      match select_syms_with_states D all_dependencies [INVALID] with
      | none => Outcome.undefined
      | some [] =>
        match select_syms_with_states D all_dependencies [NONBUILT, STALE] with
        | none => Outcome.undefined
        | some plan => Outcome.ok plan
      | some (_ :: _) => Outcome.threw Error.Unbuildable D

/-! ## Mutators -/

/-- `DepSystem::clear`. -/
def clear (_D : DepSystem) : DepSystem :=
  { symbols := [], shadowers := [] }

/-- `DepSystem::set_state`. -/
def set_state (D : DepSystem) (symbol_name : String) (new_state : Symbol_State) :
    Outcome DepSystem :=
  match findSym D.symbols symbol_name with
  | none => Outcome.threw Error.NoSuchSymbol D
  | some to_modify =>
    Outcome.ok { D with symbols := putSym D.symbols { to_modify with state := new_state } }

/-- `DepSystem::set_callback`. -/
def set_callback (D : DepSystem) (symbol_name : String) (callback : Option Nat) :
    Outcome DepSystem :=
  match findSym D.symbols symbol_name with
  | none => Outcome.threw Error.NoSuchSymbol D
  | some symbol =>
    Outcome.ok { D with symbols := putSym D.symbols { symbol with callback := callback } }

/-- `DepSystem::delete_dependency`.  Both records are copied before either is written back. -/
def delete_dependency (D : DepSystem) (from_name to_name : String) : Outcome DepSystem :=
  match findSym D.symbols from_name with
  | none => Outcome.threw Error.NoSuchSymbol D
  | some from_symbol_ =>
    match findSym D.symbols to_name with
    | none => Outcome.threw Error.NoSuchSymbol D
    | some to_symbol_ =>
      let from_symbol : Symbol :=
        { from_symbol_ with dependency_edges := setErase to_name from_symbol_.dependency_edges }
      let to_symbol : Symbol :=
        { to_symbol_ with
          reverse_dependency_edges := setErase from_name to_symbol_.reverse_dependency_edges }
      Outcome.ok { D with symbols := putSym (putSym D.symbols from_symbol) to_symbol }

/-- `DepSystem::add_dependency`.  Both records are copied before either is written back; the
cycle check runs on the modified system and, when it reports a cycle, `delete_dependency` is
called before the exception is thrown. -/
def add_dependency (fuel : Nat) (D : DepSystem) (from_name to_name : String) :
    Outcome DepSystem :=
  match findSym D.symbols from_name with
  | none => Outcome.threw Error.NoSuchSymbol D
  | some from_symbol_ =>
    match findSym D.symbols to_name with
    | none => Outcome.threw Error.NoSuchSymbol D
    | some to_symbol_ =>
      let from_symbol : Symbol :=
        { from_symbol_ with dependency_edges := setInsert to_name from_symbol_.dependency_edges }
      let to_symbol : Symbol :=
        { to_symbol_ with
          reverse_dependency_edges := setInsert from_name to_symbol_.reverse_dependency_edges }
      let D1 : DepSystem := { D with symbols := putSym (putSym D.symbols from_symbol) to_symbol }
      match detect_cycle D1 fuel to_name from_name with
      | none => Outcome.undefined
      | some false => Outcome.ok D1
      | some true =>
        match delete_dependency D1 from_name to_name with
        | Outcome.ok D2 => Outcome.threw Error.CyclicDependency D2
        | other => other

/-- `DepSystem::add_dependency_list`.  The record of `to_symbol_name` is copied first and written
back last. -/
def add_dependency_list (D : DepSystem) (deplist : List String) (to_symbol_name : String) :
    Outcome DepSystem :=
  match findSym D.symbols to_symbol_name with
  | none => Outcome.threw Error.NoSuchSymbol D
  | some to_symbol_ =>
    let absent := deplist.takeWhile (fun i => !countSym D.symbols i)
    let first_existing_symbol := (firstExisting D.symbols deplist).getD ""
    let shadowers1 := D.shadowers ++ absent.map (fun i => (i, to_symbol_name))
    let to_symbol : Symbol :=
      { to_symbol_ with dependency_list_list := to_symbol_.dependency_list_list ++ [deplist] }
    if first_existing_symbol ≠ "" then
      match findSym D.symbols first_existing_symbol with
      | none => Outcome.undefined
      | some sym =>
        let sym1 : Symbol :=
          { sym with
            reverse_dependency_list_set := setInsert to_symbol_name sym.reverse_dependency_list_set }
        Outcome.ok { symbols := putSym (putSym D.symbols sym1) to_symbol, shadowers := shadowers1 }
    else Outcome.ok { symbols := putSym D.symbols to_symbol, shadowers := shadowers1 }

/-- `DepSystem::delete_dependency_list`.  `index` is a C++ `int`. -/
def delete_dependency_list (D : DepSystem) (index : Int) (to_name : String) :
    Outcome DepSystem :=
  match findSym D.symbols to_name with
  | none => Outcome.threw Error.NoSuchSymbol D
  | some sym_ =>
    if index < 0 ∨ index ≥ (sym_.dependency_list_list.length : Int) then
      Outcome.threw Error.IndexOutOfRange D
    else
      let list_to_delete := sym_.dependency_list_list.getD index.toNat []
      let sym : Symbol :=
        { sym_ with dependency_list_list := sym_.dependency_list_list.eraseIdx index.toNat }
      let active_symbol := (firstExisting D.symbols list_to_delete).getD ""
      if active_symbol ≠ "" then
        let delete_revdep :=
          !(sym.dependency_list_list.any (fun deplist => deplist.any (countSym D.symbols)))
        if delete_revdep then
          match findSym D.symbols active_symbol with
          | none => Outcome.undefined
          | some revdep =>
            let revdep1 : Symbol :=
              { revdep with
                reverse_dependency_list_set := setErase to_name revdep.reverse_dependency_list_set }
            Outcome.ok { D with symbols := putSym (putSym D.symbols revdep1) sym }
        else Outcome.ok { D with symbols := putSym D.symbols sym }
      else Outcome.ok { D with symbols := putSym D.symbols sym }

/-- The lambda passed to `get_dependents` by `invalidate_dependents`. -/
def invalidateSelector : StSelector :=
  fun syms symname _ symstate =>
    match findSym syms symname with
    | none => none
    | some sym =>
      match symstate with
      | DISABLED => some (false, putSym syms { sym with state := INVALID })
      | VALID => some (false, putSym syms { sym with state := STALE })
      | _ => some (false, syms)

/-- `DepSystem::invalidate_dependents`. -/
def invalidate_dependents (fuel : Nat) (D : DepSystem) (symbol : String) : Outcome DepSystem :=
  match get_dependents_st fuel D symbol invalidateSelector with
  | Outcome.ok (_, D1) => Outcome.ok D1
  | Outcome.threw e d => Outcome.threw e d
  | Outcome.undefined => Outcome.undefined

/-- Body of the loop over `affected.dependency_list_list` in the insert path of
`add_set_symbol`.  The state is `symbols` together with `to_add.reverse_dependency_list_set`. -/
def shadowList (name : String) (affected : Symbol) (st : List Symbol × List String)
    (deplist : List String) : Option (List Symbol × List String) :=
  match findIf (fun val => countSym st.1 val || decide (val = name)) deplist with
  | [] => some st
  | p :: rest =>
    if p ≠ name then some st
    else
      match findIf (fun val => countSym st.1 val) (p :: rest) with
      | [] => some (st.1, setInsert affected.name st.2)
      | q :: _ =>
        match findSym st.1 q with
        | none => none
        | some shadowed =>
          let shadowed1 : Symbol :=
            { shadowed with
              reverse_dependency_list_set :=
                setErase affected.name shadowed.reverse_dependency_list_set }
          some (putSym st.1 shadowed1, setInsert affected.name st.2)

/-- Body of the loop over `shadowers.equal_range(name)` in the insert path of
`add_set_symbol`. -/
def shadowOwner (name : String) (st : List Symbol × List String) (owner : String) :
    Option (List Symbol × List String) :=
  match findSym st.1 owner with
  | none => none
  | some affected => foldOpt (shadowList name affected) st affected.dependency_list_list

/-- The test deciding between DISABLED and VALID in the update path of `add_set_symbol`. -/
def hasDependencies (syms : List Symbol) (s : Symbol) : Bool :=
  s.dependency_edges.length ≠ 0 ||
    s.dependency_list_list.any (fun deplist => deplist.any (fun depsym => countSym syms depsym))

/-- `DepSystem::add_set_symbol`.  When `shadowers.count(name)` is zero the loop over the
(empty) range and `shadowers.erase(name)` change nothing, so the guard is not modelled apart. -/
def add_set_symbol (fuel : Nat) (D : DepSystem) (name value : String) : Outcome DepSystem :=
  match findSym D.symbols name with
  | none =>
    let shadow_range := (D.shadowers.filter (fun e => decide (e.1 = name))).map Prod.snd
    match foldOpt (shadowOwner name) (D.symbols, []) shadow_range with
    | none => Outcome.undefined
    | some st =>
      let to_add : Symbol :=
        { name := name, value := value, state := VALID, reverse_dependency_list_set := st.2 }
      invalidate_dependents fuel
        { symbols := insertSym st.1 to_add,
          shadowers := D.shadowers.filter (fun e => decide (e.1 ≠ name)) } name
  | some cur =>
    if cur.value = value then Outcome.ok D
    else
      let to_add : Symbol :=
        { cur with
          value := value,
          state := if hasDependencies D.symbols cur then DISABLED else VALID }
      invalidate_dependents fuel { D with symbols := putSym D.symbols to_add } name

/-- The three loops of `delete_symbol` that follow `symbols.erase(to_delete)`. -/
def dropReverseEdge (name : String) (syms : List Symbol) (dependency : String) :
    Option (List Symbol) :=
  match findSym syms dependency with
  | none => none
  | some to_modify =>
    some (putSym syms
      { to_modify with
        reverse_dependency_edges := setErase name to_modify.reverse_dependency_edges })

/-- Second loop of `delete_symbol`. -/
def dropEdge (name : String) (syms : List Symbol) (revdep : String) : Option (List Symbol) :=
  match findSym syms revdep with
  | none => none
  | some to_modify =>
    some (putSym syms
      { to_modify with dependency_edges := setErase name to_modify.dependency_edges })

/-- Third loop of `delete_symbol`: for one owner, every list is walked from the first occurrence
of `name` while the names do not exist, and each of them is emplaced into `shadowers`. -/
def reshadow (name : String) (syms : List Symbol) (sh : List (String × String))
    (deplist_owner_ : String) : Option (List (String × String)) :=
  match findSym syms deplist_owner_ with
  | none => none
  | some deplist_owner =>
    some (deplist_owner.dependency_list_list.foldl (fun acc deplist =>
      acc ++ ((findIf (fun i => decide (i = name)) deplist).takeWhile
        (fun i => !countSym syms i)).map (fun i => (i, deplist_owner_))) sh)

/-- `DepSystem::delete_symbol`. -/
def delete_symbol (D : DepSystem) (name : String) : Outcome DepSystem :=
  match findSym D.symbols name with
  | none => Outcome.threw Error.NoSuchSymbol D
  | some to_delete =>
    match foldOpt (dropReverseEdge name) (eraseSym D.symbols name)
        to_delete.dependency_edges with
    | none => Outcome.undefined
    | some syms1 =>
      match foldOpt (dropEdge name) syms1 to_delete.reverse_dependency_edges with
      | none => Outcome.undefined
      | some syms2 =>
        match foldOpt (reshadow name syms2) D.shadowers
            to_delete.reverse_dependency_list_set with
        | none => Outcome.undefined
        | some sh => Outcome.ok { symbols := syms2, shadowers := sh }

/-- Body of the loop of `build_symbol`; the second component records the callback
invocations `(callback, name, value)`. -/
def buildStep (st : DepSystem × List (Nat × String × String)) (x_ : String) :
    Option (DepSystem × List (Nat × String × String)) :=
  match findSym st.1.symbols x_ with
  | none => none
  | some x =>
    let calls :=
      match x.callback with
      | none => st.2
      | some c => st.2 ++ [(c, x.name, x.value)]
    match set_state st.1 x.name VALID with
    | Outcome.ok D1 => some (D1, calls)
    | _ => none

/-- `DepSystem::build_symbol`, for callbacks that return normally and leave the `DepSystem`
alone. -/
def build_symbol (fuel : Nat) (D : DepSystem) (symbol : String) :
    Outcome (DepSystem × List (Nat × String × String)) :=
  match get_build_plan fuel D symbol with
  | Outcome.threw e d => Outcome.threw e d
  | Outcome.undefined => Outcome.undefined
  | Outcome.ok buildlist =>
    match foldOpt buildStep (D, []) buildlist with
    | none => Outcome.undefined
    | some r => Outcome.ok r

/-! ## Sequences of public operations -/

/-- The public mutating operations of `DepSystem`. -/
inductive Op where
  | add_set_symbol (name value : String)
  | delete_symbol (name : String)
  | clear
  | set_state (name : String) (new_state : Symbol_State)
  | set_callback (name : String) (callback : Option Nat)
  | add_dependency (from_name to_name : String)
  | delete_dependency (from_name to_name : String)
  | add_dependency_list (deplist : List String) (to_name : String)
  | delete_dependency_list (index : Int) (to_name : String)
  | build_symbol (name : String)
  | invalidate_dependents (name : String)
  deriving DecidableEq, Repr

/-- Run one operation. -/
def applyOp (fuel : Nat) (D : DepSystem) : Op → Outcome DepSystem
  | Op.add_set_symbol n v => DepLib.add_set_symbol fuel D n v
  | Op.delete_symbol n => DepLib.delete_symbol D n
  | Op.clear => Outcome.ok (DepLib.clear D)
  | Op.set_state n s => DepLib.set_state D n s
  | Op.set_callback n c => DepLib.set_callback D n c
  | Op.add_dependency f t => DepLib.add_dependency fuel D f t
  | Op.delete_dependency f t => DepLib.delete_dependency D f t
  | Op.add_dependency_list l t => DepLib.add_dependency_list D l t
  | Op.delete_dependency_list i t => DepLib.delete_dependency_list D i t
  | Op.build_symbol n =>
    match DepLib.build_symbol fuel D n with
    | Outcome.ok r => Outcome.ok r.1
    | Outcome.threw e d => Outcome.threw e d
    | Outcome.undefined => Outcome.undefined
  | Op.invalidate_dependents n => DepLib.invalidate_dependents fuel D n

/-- The `DepSystem` an operation leaves behind, whether it returned or threw; `none` when it has
no defined result. -/
def Outcome.after : Outcome DepSystem → Option DepSystem
  | Outcome.ok d => some d
  | Outcome.threw _ d => some d
  | Outcome.undefined => none

/-- Run a sequence of operations, successful or failed, from `D`. -/
def run (fuel : Nat) : DepSystem → List Op → Option DepSystem
  | D, [] => some D
  | D, op :: ops =>
    match (applyOp fuel D op).after with
    | none => none
    | some D1 => run fuel D1 ops

/-- The empty `DepSystem`. -/
def DepSystem.empty : DepSystem :=
  { symbols := [], shadowers := [] }

/-! ## The properties the specification states -/

/-- `q` depends directly on `p`: `p` is one of the dependency edges of `q`, or the first
existing name of one of the ordered dependency lists of `q` (its active choice). -/
def Dep (D : DepSystem) (q p : String) : Prop :=
  ∃ sq, findSym D.symbols q = some sq ∧
    (p ∈ sq.dependency_edges ∨
      ∃ l ∈ sq.dependency_list_list, firstExisting D.symbols l = some p)

/-- `a` depends on `b` through at least one arc. -/
def Reaches (D : DepSystem) (a b : String) : Prop :=
  Relation.TransGen (Dep D) a b

/-- Invariant 2: the graph of dependency edges and active list choices has no cycle. -/
def Acyclic (D : DepSystem) : Prop :=
  ∀ s, ¬ Reaches D s s

/-- `d` is recorded as a direct dependent of `a`, in `reverse_dependency_edges` or in
`reverse_dependency_list_set`. -/
def RevDep (D : DepSystem) (a d : String) : Prop :=
  ∃ sa, findSym D.symbols a = some sa ∧
    (d ∈ sa.reverse_dependency_edges ∨ d ∈ sa.reverse_dependency_list_set)

/-- `d` is a transitive dependent of `x` according to the reverse sets. -/
def DependsOn (D : DepSystem) (d x : String) : Prop :=
  Relation.TransGen (RevDep D) x d

/-- Invariant 1 with its converse: every dependency edge points to an existing symbol that
records the reverse edge, and every reverse edge comes from an existing symbol that has the
edge. -/
def EdgeSymmetric (D : DepSystem) : Prop :=
  ∀ b sb, findSym D.symbols b = some sb →
    (∀ a ∈ sb.dependency_edges,
      ∃ sa, findSym D.symbols a = some sa ∧ b ∈ sa.reverse_dependency_edges) ∧
    (∀ a ∈ sb.reverse_dependency_edges,
      ∃ sa, findSym D.symbols a = some sa ∧ b ∈ sa.dependency_edges)

/-- The names of an ordered list that precede its first existing element (all of them when no
element exists). -/
def shadowingNames (syms : List Symbol) (l : List String) : List String :=
  l.takeWhile (fun i => !countSym syms i)

/-- Invariant 3: for every list of every symbol `b`, the first existing element records `b` in
its `reverse_dependency_list_set` and every earlier name is a shadower pointing to `b`. -/
def ActiveBookkeeping (D : DepSystem) : Prop :=
  ∀ b sb, findSym D.symbols b = some sb → ∀ l ∈ sb.dependency_list_list,
    ∀ f, firstExisting D.symbols l = some f →
      (∃ sf, findSym D.symbols f = some sf ∧ b ∈ sf.reverse_dependency_list_set) ∧
      ∀ n ∈ shadowingNames D.symbols l, (n, b) ∈ D.shadowers

/-- The converse bookkeeping of the data model: a name recorded in a
`reverse_dependency_list_set` is an existing symbol one of whose lists has this symbol as its
first existing element. -/
def RevListsExact (D : DepSystem) : Prop :=
  ∀ f sf, findSym D.symbols f = some sf → ∀ b ∈ sf.reverse_dependency_list_set,
    ∃ sb, findSym D.symbols b = some sb ∧
      ∃ l ∈ sb.dependency_list_list, firstExisting D.symbols l = some f

/-- Invariant 4: `(n, b)` is a shadower entry exactly when `n` does not exist and stands in a
list of `b` before the first existing element (or in a list without existing element). -/
def ShadowersExact (D : DepSystem) : Prop :=
  ∀ n b, (n, b) ∈ D.shadowers ↔
    (countSym D.symbols n = false ∧
      ∃ sb, findSym D.symbols b = some sb ∧
        ∃ l ∈ sb.dependency_list_list, n ∈ shadowingNames D.symbols l)

/-- One half of invariant 4: every name in shadowing position has its entry. -/
def ShadowersComplete (D : DepSystem) : Prop :=
  ∀ b sb, findSym D.symbols b = some sb → ∀ l ∈ sb.dependency_list_list,
    ∀ n ∈ shadowingNames D.symbols l, (n, b) ∈ D.shadowers

/-- No key of `shadowers` is an existing symbol. -/
def ShadowKeysAbsent (D : DepSystem) : Prop :=
  ∀ e ∈ D.shadowers, countSym D.symbols e.1 = false

/-- Invariant 5: a DISABLED symbol has a dependency edge or a list containing an existing
symbol. -/
def DisabledHasDeps (D : DepSystem) : Prop :=
  ∀ b sb, findSym D.symbols b = some sb → sb.state = DISABLED →
    sb.dependency_edges ≠ [] ∨
      ∃ l ∈ sb.dependency_list_list, ∃ x ∈ l, countSym D.symbols x = true

/-- Every chain of `R`-steps starting at `s` has fewer than `k` steps. -/
inductive Bounded (R : String → String → Prop) : Nat → String → Prop where
  | mk (k : Nat) (s : String) : (∀ c, R s c → Bounded R k c) → Bounded R (k + 1) s

/-- `p` stands before `q` in the list `l`. -/
def Before (l : List String) (p q : String) : Prop :=
  ∃ l1 l2 l3, l = l1 ++ p :: (l2 ++ q :: l3)

/-! ## Runs that keep dependencies -/

/-- The operation `op`, run on `D`, neither removes a dependency nor assigns DISABLED directly:
it is not a deletion, not `set_state(_, DISABLED)`, and not an `add_dependency` that is rejected
(a rejected `add_dependency(f, t)` ends with `delete_dependency(f, t)`). -/
def KeepsDeps (fuel : Nat) (D : DepSystem) : Op → Prop
  | Op.delete_symbol _ => False
  | Op.delete_dependency _ _ => False
  | Op.delete_dependency_list _ _ => False
  | Op.set_state _ s => s ≠ DISABLED
  | Op.add_dependency f t =>
    ∀ d, DepLib.add_dependency fuel D f t ≠ Outcome.threw Error.CyclicDependency d
  | _ => True

/-- Every operation of the run satisfies `KeepsDeps` on the system it is applied to. -/
def RunKeepsDeps (fuel : Nat) : DepSystem → List Op → Prop
  | _, [] => True
  | D, op :: ops =>
    KeepsDeps fuel D op ∧
      match (applyOp fuel D op).after with
      | none => True
      | some D1 => RunKeepsDeps fuel D1 ops

/-! ## Auxiliary notions used in the proofs -/

/-- The state change made by the lambda of `invalidate_dependents`. -/
def invalidated : Symbol_State → Symbol_State
  | DISABLED => INVALID
  | VALID => STALE
  | s => s

/-- Two symbol tables hold records of the same names, and these agree under `p`. -/
def Agree {β : Type} (p : Symbol → β) (L L1 : List Symbol) : Prop :=
  ∀ n, (findSym L1 n).map p = (findSym L n).map p

/-- The record with its state blanked. -/
def noState (s : Symbol) : Symbol :=
  { s with state := NONBUILT }

/-- The record with its `reverse_dependency_list_set` blanked. -/
def noRevLists (s : Symbol) : Symbol :=
  { s with reverse_dependency_list_set := [] }

/-- From `L` to `L1` some records had their state passed through `invalidated`; nothing else
changed. -/
def StatesInvalidated (L L1 : List Symbol) : Prop :=
  ∀ n, findSym L1 n = findSym L n ∨
    findSym L1 n = (findSym L n).map (fun s => { s with state := invalidated s.state })

/-- The record with its ordered lists and its `reverse_dependency_list_set` blanked. -/
def noLists (s : Symbol) : Symbol :=
  { s with dependency_list_list := [], reverse_dependency_list_set := [] }

/-- The record with its two edge sets blanked. -/
def noEdges (s : Symbol) : Symbol :=
  { s with dependency_edges := [], reverse_dependency_edges := [] }

/-- The two edge sets of a record. -/
def edgesOf (s : Symbol) : List String × List String :=
  (s.dependency_edges, s.reverse_dependency_edges)

/-- `b` has the dependency edge to `a`. -/
def HasEdge (L : List Symbol) (b a : String) : Prop :=
  ∃ sb, findSym L b = some sb ∧ a ∈ sb.dependency_edges

/-- `a` records `b` in its `reverse_dependency_edges`. -/
def HasRev (L : List Symbol) (a b : String) : Prop :=
  ∃ sa, findSym L a = some sa ∧ b ∈ sa.reverse_dependency_edges

/-- Edge symmetry together with the absence of self edges, on a symbol table. -/
def EdgeInv (L : List Symbol) : Prop :=
  (∀ b a, HasEdge L b a ↔ HasRev L a b) ∧ ∀ b, ¬ HasEdge L b b

/-- The system `add_dependency` builds before it runs the cycle check. -/
def withEdge (D : DepSystem) (F T : Symbol) (f t : String) : DepSystem :=
  let from_symbol : Symbol :=
    { F with dependency_edges := setInsert t F.dependency_edges }
  let to_symbol : Symbol :=
    { T with reverse_dependency_edges := setInsert f T.reverse_dependency_edges }
  { D with symbols := putSym (putSym D.symbols from_symbol) to_symbol }

/-- The record with its value, state and `reverse_dependency_list_set` blanked: what
`add_set_symbol` never changes in a record that exists. -/
def coreOf (s : Symbol) : Symbol :=
  { s with state := NONBUILT, value := "", reverse_dependency_list_set := [] }

/-- The record inserted by the insert path of `add_set_symbol`. -/
def freshSymbol (name value : String) (r : List String) : Symbol :=
  { name := name, value := value, state := VALID, reverse_dependency_list_set := r }

/-- The record written back by the update path of `add_set_symbol`. -/
def updatedSymbol (syms : List Symbol) (cur : Symbol) (value : String) : Symbol :=
  { cur with value := value, state := if hasDependencies syms cur then DISABLED else VALID }

/-- What `get_dependencies_recursive` returns for the symbol `s`, not yet considered, when the
names `C` are considered: a duplicate-free list of existing symbols outside `C`, ending with
`s`, the others being dependencies of `s`, in which every member stands after those of its
direct dependencies that are not in `C`. -/
def DfsOut (D : DepSystem) (s : String) (C R : List String) : Prop :=
  R.Nodup ∧ (∀ x ∈ R, x ∉ C) ∧
    (∃ R0, R = R0 ++ [s] ∧ ∀ x ∈ R0, Reaches D s x) ∧
    (∀ x ∈ R, countSym D.symbols x = true) ∧
    (∀ q ∈ R, ∀ p, Dep D q p → p ∈ C ∨ List.Sublist [p, q] R)

/-- The invariant of the two loops of `get_dependencies_recursive` run for `s` with the names
`C` considered at entry; the state is `(to_return, considered_symbols)`. -/
def DfsInv (D : DepSystem) (s : String) (C : List String)
    (st : List String × List String) : Prop :=
  (∀ x, x ∈ st.2 ↔ x ∈ C ∨ x ∈ st.1) ∧ st.1.Nodup ∧ (∀ x ∈ st.1, x ∉ C) ∧
    (∀ x ∈ st.1, Reaches D s x) ∧
    (∀ x ∈ st.1, countSym D.symbols x = true) ∧
    (∀ q ∈ st.1, ∀ p, Dep D q p → p ∈ C ∨ List.Sublist [p, q] st.1)

/-- The test made by `select_syms_with_states` on one name. -/
def stateIn (D : DepSystem) (states : List Symbol_State) (x : String) : Bool :=
  match findSym D.symbols x with
  | some s => decide (s.state ∈ states)
  | none => false

/-- The two reverse sets of a record. -/
def revOf (s : Symbol) : List String × List String :=
  (s.reverse_dependency_edges, s.reverse_dependency_list_set)

/-- The body of the two loops of `get_dependents_recursive`, given the recursive call. -/
def gatherStep (recur : String → Option (List String)) (to_return : List String)
    (revdep : String) : Option (List String) :=
  match recur revdep with
  | none => none
  | some revdep_revdeps => some (setInsertAll to_return revdep_revdeps)

/-! ## Checks that evaluate on a concrete system -/

/-- All arcs of the dependency graph, as pairs (dependent, dependency). -/
def arcsOf (D : DepSystem) : List (String × String) :=
  D.symbols.flatMap (fun s =>
    s.dependency_edges.map (fun a => (s.name, a)) ++
      s.dependency_list_list.filterMap (fun l =>
        (firstExisting D.symbols l).map (fun a => (s.name, a))))

/-- Edge symmetry, checked record by record. -/
def edgeSymmetricCheck (D : DepSystem) : Bool :=
  D.symbols.all (fun sb =>
    sb.dependency_edges.all (fun a =>
      match findSym D.symbols a with
      | none => false
      | some sa => decide (sb.name ∈ sa.reverse_dependency_edges)) &&
    sb.reverse_dependency_edges.all (fun a =>
      match findSym D.symbols a with
      | none => false
      | some sa => decide (sb.name ∈ sa.dependency_edges)))

/-- The exactness of `reverse_dependency_list_set`, checked record by record. -/
def revListsCheck (D : DepSystem) : Bool :=
  D.symbols.all (fun sf =>
    sf.reverse_dependency_list_set.all (fun b =>
      match findSym D.symbols b with
      | none => false
      | some sb =>
        sb.dependency_list_list.any (fun l =>
          decide (firstExisting D.symbols l = some sf.name))))

/-! ## Example systems -/

/-- The system with the symbols `a`, `b` and the edge `a → b`. -/
def edgeExample : DepSystem :=
  { symbols :=
      [{ name := "a", value := "", state := VALID, dependency_edges := ["b"] },
        { name := "b", value := "", state := VALID, reverse_dependency_edges := ["a"] }],
    shadowers := [] }

/-- The system reached by `add_set_symbol("t","")`, `add_dependency_list(["a","b"],"t")`,
`add_set_symbol("b","")`. -/
def shadowExample : DepSystem :=
  { symbols :=
      [{ name := "t", value := "", state := STALE, dependency_list_list := [["a", "b"]] },
        { name := "b", value := "", state := VALID, reverse_dependency_list_set := ["t"] }],
    shadowers := [("a", "t")] }

/-- The system reached by `add_set_symbol("a","")`, `add_set_symbol("b","")`,
`add_dependency("a","b")`, `add_set_symbol("a","x")`. -/
def disabledExample : DepSystem :=
  { symbols :=
      [{ name := "a", value := "x", state := DISABLED, dependency_edges := ["b"] },
        { name := "b", value := "", state := VALID, reverse_dependency_edges := ["a"] }],
    shadowers := [] }

/-- The system of the cycle-rejection scenario: symbols `a`, `b`, `c` with the edges `a → b`
and `b → c`. -/
def chainExample : DepSystem :=
  { symbols :=
      [{ name := "a", value := "", state := VALID, dependency_edges := ["b"] },
        { name := "b", value := "", state := VALID, dependency_edges := ["c"],
          reverse_dependency_edges := ["a"] },
        { name := "c", value := "", state := VALID, reverse_dependency_edges := ["b"] }],
    shadowers := [] }

/-- A system in which `a` depends on `b` by an edge and `b` on `c` through the ordered list
`["n", "c"]` (`n` does not exist); `a` is STALE, `b` NONBUILT, `c` VALID. -/
def planExample : DepSystem :=
  { symbols :=
      [{ name := "a", value := "", state := STALE, dependency_edges := ["b"] },
        { name := "b", value := "", state := NONBUILT, reverse_dependency_edges := ["a"],
          dependency_list_list := [["n", "c"]] },
        { name := "c", value := "", state := VALID, reverse_dependency_list_set := ["b"] }],
    shadowers := [("n", "b")] }

/-- The system of `planExample` with all symbols VALID and `b` DISABLED: `a` depends on `b`
(edge) and `b` on `c` (list). -/
def invalidationExample : DepSystem :=
  { symbols :=
      [{ name := "a", value := "", state := VALID, dependency_edges := ["b"] },
        { name := "b", value := "", state := DISABLED, reverse_dependency_edges := ["a"],
          dependency_list_list := [["n", "c"]] },
        { name := "c", value := "", state := VALID, reverse_dependency_list_set := ["b"] }],
    shadowers := [("n", "b")] }

/-- The system reached by `add_set_symbol` of `s`, `p`, `q`, then `add_dependency("q","s")`,
`add_dependency("p","s")`, `add_dependency("q","p")`: `p` depends on `s`, and `q` on `s` and
`p`. -/
def diamondExample : DepSystem :=
  { symbols :=
      [{ name := "s", value := "", state := VALID, reverse_dependency_edges := ["q", "p"] },
        { name := "p", value := "", state := VALID, dependency_edges := ["s"],
          reverse_dependency_edges := ["q"] },
        { name := "q", value := "", state := VALID, dependency_edges := ["s", "p"] }],
    shadowers := [] }

/-- The system reached by `add_set_symbol` of `t`, `s`, `s2`, then
`add_dependency_list(["s"],"t")` and `add_dependency_list(["s2"],"t")`. -/
def twoListsExample : DepSystem :=
  { symbols :=
      [{ name := "t", value := "", state := VALID, dependency_list_list := [["s"], ["s2"]] },
        { name := "s", value := "", state := VALID, reverse_dependency_list_set := ["t"] },
        { name := "s2", value := "", state := VALID, reverse_dependency_list_set := ["t"] }],
    shadowers := [] }

/-- The pairs `delete_symbol(n)` emplaces into `shadowers`, in terms of the system before the
call: for every owner `b` in `reverse_dependency_list_set(n)` and every list of `b`, the names
from the first occurrence of `n` on, as long as they are `n` or do not exist. -/
def reshadowedPairs (D : DepSystem) (n : String) : List (String × String) :=
  match findSym D.symbols n with
  | none => []
  | some td =>
    td.reverse_dependency_list_set.flatMap (fun b =>
      match findSym D.symbols b with
      | none => []
      | some sb =>
        sb.dependency_list_list.flatMap (fun l =>
          ((findIf (fun i => decide (i = n)) l).takeWhile
            (fun i => decide (i = n) || !countSym D.symbols i)).map (fun i => (i, b))))

/-- The pairs the specification lets `delete_symbol(n)` add: as `reshadowedPairs`, but nothing
for a list in which an existing symbol precedes `n`. -/
def claimedReshadow (D : DepSystem) (n : String) : List (String × String) :=
  match findSym D.symbols n with
  | none => []
  | some td =>
    td.reverse_dependency_list_set.flatMap (fun b =>
      match findSym D.symbols b with
      | none => []
      | some sb =>
        sb.dependency_list_list.flatMap (fun l =>
          if (l.takeWhile (fun i => decide (i ≠ n))).any (fun i => countSym D.symbols i) then []
          else
            ((findIf (fun i => decide (i = n)) l).takeWhile
              (fun i => decide (i = n) || !countSym D.symbols i)).map (fun i => (i, b))))

/-- The system reached by `add_set_symbol` of `b`, `n`, `c`, then
`add_dependency_list(["n"],"b")` and `add_dependency_list(["c","n","m"],"b")`. -/
def reshadowExample : DepSystem :=
  { symbols :=
      [{ name := "b", value := "", state := VALID,
          dependency_list_list := [["n"], ["c", "n", "m"]] },
        { name := "n", value := "", state := VALID, reverse_dependency_list_set := ["b"] },
        { name := "c", value := "", state := VALID, reverse_dependency_list_set := ["b"] }],
    shadowers := [] }

/-- The callback invocation `build_symbol` makes for the plan entry `x`, if `x` has a
callback: `(callback, name, value)`. -/
def callOf (D : DepSystem) (x : String) : Option (Nat × String × String) :=
  match findSym D.symbols x with
  | none => none
  | some sx =>
    match sx.callback with
    | none => none
    | some c => some (c, sx.name, sx.value)

/-- From `L` to `L1` no record appeared, no `reverse_dependency_edges` changed and no
`reverse_dependency_list_set` gained a name. -/
def RevListsShrink (L L1 : List Symbol) : Prop :=
  ∀ a sa, findSym L1 a = some sa → ∃ s, findSym L a = some s ∧
    sa.reverse_dependency_edges = s.reverse_dependency_edges ∧
    ∀ d ∈ sa.reverse_dependency_list_set, d ∈ s.reverse_dependency_list_set

/-- Every owner recorded in `shadowers` is an existing symbol. -/
def ShadowOwnersExist (D : DepSystem) : Prop :=
  ∀ e ∈ D.shadowers, countSym D.symbols e.2 = true

/-! ## Full serialization (`operator<<` and `operator>>` of `deplib.cpp`)

A stream is represented by the list of the lines that successive calls of `std::getline` read
from it.  Every piece of output of `operator<<` ends with a newline, so writing `field << endl`
appends the lines of `field`.  A reading function returns `none` when the source does not
return a value: a loop waiting for a sentinel at the end of the stream never ends (`getline`
keeps delivering the empty line), and `stoi` throws on a text that is not a number. -/

/-- The lines read back from the characters of `field` followed by `endl`. -/
def fieldLines (field : String) : List String :=
  (field.data.splitOn '\n').map String.mk

/-- The lambda `output_sym` of `operator<<` for `Symbol`. -/
def output_sym (field terminus : String) : List String :=
  fieldLines field ++ [terminus]

/-- `std::to_string` applied to the integer value of a state. -/
def to_string : Symbol_State → String
  | NONBUILT => "0"
  | DISABLED => "1"
  | STALE => "2"
  | INVALID => "3"
  | VALID => "4"

/-- `operator<<` for `DepSystem::Symbol`. -/
def writeSymbol (x : Symbol) : List String :=
  output_sym x.name "%%%ENDSYMNAME%%%" ++
  output_sym x.value "%%%ENDSYMVALUE%%%" ++
  output_sym (to_string x.state) "%%%ENDSYMSTATE%%%" ++
  x.dependency_edges.flatMap (fun edge => output_sym edge "%%%ENDDEPEDGE%%%") ++
  ["%%%ENDDEPEDGES%%%"] ++
  x.reverse_dependency_edges.flatMap (fun edge => output_sym edge "%%%ENDREVDEPEDGE%%%") ++
  ["%%%ENDREVDEPEDGES%%%"] ++
  x.dependency_list_list.flatMap (fun deplist =>
    deplist.flatMap (fun depname => output_sym depname "%%%ENDDEPLISTITEM%%%") ++
      ["%%%ENDDEPLIST%%%"]) ++
  ["%%%ENDDEPLISTLIST%%%"] ++
  x.reverse_dependency_list_set.flatMap (fun revdep => output_sym revdep "%%%ENDREVDEP%%%") ++
  ["%%%ENDREVDEPLIST%%%"] ++
  ["%%%ENDSYMBOL%%%"]

/-- `operator<<` for `DepSystem`. -/
def writeDepSystem (x : DepSystem) : List String :=
  x.symbols.flatMap writeSymbol ++
  ["%%%ENDSYMBOLS%%%"] ++
  x.shadowers.flatMap (fun shadow_pair =>
    fieldLines shadow_pair.1 ++ ["%%%ENDSHADOWER%%%"] ++
      fieldLines shadow_pair.2 ++ ["%%%ENDSHADOWEE%%%"]) ++
  ["%%%ENDSHADOWERS%%%"]

/-- The loop of the lambda `getsym`, entered with the current `to_return`. -/
def getsymLoop (terminus : String) : String → List String → Option (String × List String)
  | _, [] => none
  | to_return, line :: rest =>
    if line = terminus then some (to_return, rest)
    else getsymLoop terminus (to_return ++ (if to_return = "" then line else "\n" ++ line)) rest

/-- The lambda `getsym` of `operator>>` for `Symbol`. -/
def getsym (terminus : String) (sin : List String) : Option (String × List String) :=
  getsymLoop terminus "" sin

/-- The loop of the lambda `getsymlist`; every iteration consumes at least one line, and
`fuel` bounds the number of iterations. -/
def getsymlistLoop (item_terminus list_terminus : String) :
    Nat → List String → List String → Option (List String × List String)
  | 0, _, _ => none
  | _ + 1, _, [] => none
  | fuel + 1, target, temp :: rest =>
    if temp = list_terminus then some (target, rest)
    else
      match getsym item_terminus rest with
      | none => none
      | some (item, rest1) =>
        getsymlistLoop item_terminus list_terminus fuel (setInsert (temp ++ item) target) rest1

/-- The lambda `getsymlist` of `operator>>` for `Symbol`. -/
def getsymlist (item_terminus list_terminus : String) (target sin : List String) :
    Option (List String × List String) :=
  getsymlistLoop item_terminus list_terminus (sin.length + 1) target sin

/-- The C++ `isspace` in the "C" locale. -/
def isspace (c : Char) : Bool :=
  c = ' ' || (9 ≤ c.toNat && c.toNat ≤ 13)

/-- The value of the longest run of decimal digits at the head of a text. -/
def digitsValue : Nat → List Char → Nat
  | acc, [] => acc
  | acc, c :: cs => if c.isDigit then digitsValue (acc * 10 + (c.toNat - 48)) cs else acc

/-- `std::stoi`: leading white space, an optional sign, then at least one digit; what follows
the digits is ignored.  `none` stands for the exceptions `invalid_argument` and
`out_of_range`. -/
def stoi (str : String) : Option Int :=
  let inRange : Int → Option Int := fun v =>
    if -2147483648 ≤ v ∧ v ≤ 2147483647 then some v else none
  match str.data.dropWhile isspace with
  | [] => none
  | c :: cs =>
    if c = '-' then
      match cs with
      | [] => none
      | d :: _ => if d.isDigit then inRange (-(digitsValue 0 cs : Int)) else none
    else if c = '+' then
      match cs with
      | [] => none
      | d :: _ => if d.isDigit then inRange (digitsValue 0 cs : Int) else none
    else if c.isDigit then inRange (digitsValue 0 (c :: cs) : Int) else none

/-- `static_cast<DepSystem::Symbol_State>` on an integer; an integer that is the value of no
enumerator gives no state. -/
def stateOfInt (v : Int) : Option Symbol_State :=
  if v = 0 then some NONBUILT
  else if v = 1 then some DISABLED
  else if v = 2 then some STALE
  else if v = 3 then some INVALID
  else if v = 4 then some VALID
  else none

/-- Modelled from the spec: `StringFunctions::tokenize(tokens, str, delimiters)`, whose header
`StringFunctions.h` is not among the sources ("tokenization"): the maximal runs of characters
of `str` that are not delimiters, in order; no empty token is produced. -/
def tokenize (str : String) (delimiters : List Char) : List String :=
  ((str.data.splitOnP (fun c => decide (c ∈ delimiters))).filter
    (fun t => decide (t ≠ []))).map String.mk

/-- Modelled from the spec: `StringFunctions::peekline(sin)`, whose header `StringFunctions.h`
is not among the sources ("peek-line"): the line the next `getline` would read, which stays in
the stream. -/
def peekline : List String → String
  | [] => ""
  | line :: _ => line

/-- Body of the loop over `lines` in `operator>>` for `Symbol`; the state is
`(x.dependency_list_list, to_push, temp)`. -/
def listStep (st : List (List String) × List String × String) (item : String) :
    List (List String) × List String × String :=
  if item = "%%%ENDDEPLIST%%%" then (st.1 ++ [st.2.1], [], st.2.2)
  else if item = "%%%ENDDEPLISTITEM%%%" then (st.1, st.2.1 ++ [st.2.2], "")
  else (st.1, st.2.1, if st.2.2 = "" then item else st.2.2 ++ "\n" ++ item)

/-- `operator>>` for `DepSystem::Symbol`, reading into a default-constructed record. -/
def readSymbol (sin : List String) : Option (Symbol × List String) :=
  match getsym "%%%ENDSYMNAME%%%" sin with
  | none => none
  | some (name, sin1) =>
    match getsym "%%%ENDSYMVALUE%%%" sin1 with
    | none => none
    | some (value, sin2) =>
      match getsym "%%%ENDSYMSTATE%%%" sin2 with
      | none => none
      | some (state_text, sin3) =>
        match (stoi state_text).bind stateOfInt with
        | none => none
        | some state =>
          match getsymlist "%%%ENDDEPEDGE%%%" "%%%ENDDEPEDGES%%%" [] sin3 with
          | none => none
          | some (dependency_edges, sin4) =>
            match getsymlist "%%%ENDREVDEPEDGE%%%" "%%%ENDREVDEPEDGES%%%" [] sin4 with
            | none => none
            | some (reverse_dependency_edges, sin5) =>
              match getsym "%%%ENDDEPLISTLIST%%%" sin5 with
              | none => none
              | some (temp, sin6) =>
                let lines := tokenize temp ['\n']
                let dependency_list_list := (lines.foldl listStep ([], [], "")).1
                match getsymlist "%%%ENDREVDEP%%%" "%%%ENDREVDEPLIST%%%" [] sin6 with
                | none => none
                | some (reverse_dependency_list_set, sin7) =>
                  some ({ name := name, value := value, state := state, callback := none,
                          dependency_edges := dependency_edges,
                          reverse_dependency_edges := reverse_dependency_edges,
                          dependency_list_list := dependency_list_list,
                          reverse_dependency_list_set := reverse_dependency_list_set },
                        sin7.drop 1)

/-- The first loop of `operator>>` for `DepSystem`; every iteration consumes at least one
line, and `fuel` bounds the number of iterations. -/
def readSymbols : Nat → List Symbol → List String → Option (List Symbol × List String)
  | 0, _, _ => none
  | fuel + 1, symbols, sin =>
    if peekline sin = "%%%ENDSYMBOLS%%%" then some (symbols, sin)
    else
      match readSymbol sin with
      | none => none
      | some (to_insert, sin1) => readSymbols fuel (insertSym symbols to_insert) sin1

/-- The two inner loops of the second loop of `operator>>` for `DepSystem`: lines are appended
to the name read so far until the sentinel is met. -/
def getmore (terminus : String) : String → List String → Option (String × List String)
  | _, [] => none
  | name, temp :: rest =>
    if temp = terminus then some (name, rest)
    else getmore terminus (name ++ "\n" ++ temp) rest

/-- The second loop of `operator>>` for `DepSystem`; the head of the stream is the line last
read into `shadower`. -/
def readShadowers :
    Nat → List (String × String) → List String → Option (List (String × String) × List String)
  | 0, _, _ => none
  | _ + 1, _, [] => none
  | fuel + 1, shadowers, shadower :: rest =>
    if shadower = "%%%ENDSHADOWERS%%%" then some (shadowers, rest)
    else
      match getmore "%%%ENDSHADOWER%%%" shadower rest with
      | none => none
      | some (_, []) => none
      | some (shadower1, shadowee :: rest1) =>
        match getmore "%%%ENDSHADOWEE%%%" shadowee rest1 with
        | none => none
        | some (shadowee1, rest2) =>
          readShadowers fuel (shadowers ++ [(shadower1, shadowee1)]) rest2

/-- `operator>>` for `DepSystem`, reading into `x`. -/
def readDepSystem (x : DepSystem) (sin : List String) : Option DepSystem :=
  match readSymbols (sin.length + 1) x.symbols sin with
  | none => none
  | some (symbols, sin1) =>
    match readShadowers (sin1.length + 1) x.shadowers (sin1.drop 1) with
    | none => none
    | some (shadowers, _) => some { symbols := symbols, shadowers := shadowers }

/-- The text `s` contains no newline. -/
def singleLine (s : String) : Prop :=
  '\n' ∉ s.data

/-- The records `operator>>` reads back as written.  The name and the value do not begin with
a newline and none of their lines is their sentinel; the first line of the name is not the
sentinel that ends the symbols.  The members of the three sets contain no newline and are not
the sentinel that ends their set; the sets have no duplicates.  No line of an item of an
ordered list is a sentinel of the lists, and an item other than the empty one has no empty
line. -/
def SerializableSymbol (s : Symbol) : Prop :=
  (s.name.data.head? ≠ some '\n' ∧ (∀ l ∈ fieldLines s.name, l ≠ "%%%ENDSYMNAME%%%") ∧
    (fieldLines s.name).head? ≠ some "%%%ENDSYMBOLS%%%") ∧
  (s.value.data.head? ≠ some '\n' ∧ ∀ l ∈ fieldLines s.value, l ≠ "%%%ENDSYMVALUE%%%") ∧
  (s.dependency_edges.Nodup ∧
    ∀ e ∈ s.dependency_edges, singleLine e ∧ e ≠ "%%%ENDDEPEDGES%%%") ∧
  (s.reverse_dependency_edges.Nodup ∧
    ∀ e ∈ s.reverse_dependency_edges, singleLine e ∧ e ≠ "%%%ENDREVDEPEDGES%%%") ∧
  (∀ l ∈ s.dependency_list_list, ∀ n ∈ l,
    (n = "" ∨ "" ∉ fieldLines n) ∧
    ∀ x ∈ fieldLines n, x ≠ "%%%ENDDEPLISTITEM%%%" ∧ x ≠ "%%%ENDDEPLIST%%%" ∧
      x ≠ "%%%ENDDEPLISTLIST%%%") ∧
  (s.reverse_dependency_list_set.Nodup ∧
    ∀ e ∈ s.reverse_dependency_list_set, singleLine e ∧ e ≠ "%%%ENDREVDEPLIST%%%")

/-- The systems `operator>>` reads back as written: distinct symbol names, serializable
records, and shadower entries such that the first line of the key is not the sentinel that
ends the shadowers and no later line of the key or of the owner is the sentinel that ends
it. -/
def Serializable (D : DepSystem) : Prop :=
  (D.symbols.map Symbol.name).Nodup ∧ (∀ s ∈ D.symbols, SerializableSymbol s) ∧
  ∀ p ∈ D.shadowers, (fieldLines p.1).head? ≠ some "%%%ENDSHADOWERS%%%" ∧
    (∀ l ∈ (fieldLines p.1).tail, l ≠ "%%%ENDSHADOWER%%%") ∧
    ∀ l ∈ (fieldLines p.2).tail, l ≠ "%%%ENDSHADOWEE%%%"

/-- The record as `operator>>` delivers it: callbacks are not serialized. -/
def noCallback (s : Symbol) : Symbol :=
  { s with callback := none }

/-- A system with a value of several lines (one of them empty, and a final newline), a
callback, an empty name in an ordered list, an empty ordered list, and a symbol name, a list
item, a shadower key and a shadower owner of two lines. -/
def serialExample : DepSystem :=
  { symbols :=
      [{ name := "a", value := "cc -c a.c\n\n# done\n", state := INVALID, callback := some 7,
          dependency_edges := ["b"], dependency_list_list := [["", "n", "b"], []] },
        { name := "b", value := "", state := VALID, reverse_dependency_edges := ["a"],
          reverse_dependency_list_set := ["a"] },
        { name := "p\nq", value := "", state := VALID,
          dependency_list_list := [["x\ny", "b"]] }],
    shadowers := [("", "a"), ("n", "a"), ("x\ny", "p\nq")] }

/-- The system reached by `add_set_symbol("b","")` and
`add_dependency_list(["%%%ENDSHADOWERS%%%"],"b")`. -/
def sentinelExample : DepSystem :=
  { symbols :=
      [{ name := "b", value := "", state := VALID,
          dependency_list_list := [["%%%ENDSHADOWERS%%%"]] }],
    shadowers := [("%%%ENDSHADOWERS%%%", "b")] }

/-- The system of `planExample` with the callback `1` set on `a` and the callback `2` on `b`. -/
def callbackExample : DepSystem :=
  { symbols :=
      [{ name := "a", value := "va", state := STALE, callback := some 1,
          dependency_edges := ["b"] },
        { name := "b", value := "vb", state := NONBUILT, callback := some 2,
          reverse_dependency_edges := ["a"], dependency_list_list := [["n", "c"]] },
        { name := "c", value := "", state := VALID, reverse_dependency_list_set := ["b"] }],
    shadowers := [("n", "b")] }

/-- The test the final loop of `get_symbols` makes on one name: the selector applied to the
stored record. -/
def selectedBy (D : DepSystem) (selector : String → String → Symbol_State → Bool)
    (x : String) : Bool :=
  match findSym D.symbols x with
  | some s => selector s.name s.value s.state
  | none => false

/-! ## The command scanner (`scan_line`, `get_command`, `bakery_execute` of
`src/bake_utilities.cpp`)

The index `i` of `scan_line` is represented by the characters of the line from position `i` on,
together with the character at position `i - 1` (absent when `i` is `0`).  The two inner loops
of `scan_line` move the same index, so they appear as modes of the one loop.  Strings under
construction are kept as lists of characters. -/

/-- The C strings thrown by `scan_line` and `get_command`: "Sentinel not preceded by
whitespace.", "Invalid character in sentinel", "Empty sentinel", "Invalid backslash escape.",
"EOF reached while reading sentinel.". -/
inductive ScanError where
  | SentinelNotPrecededByWhitespace
  | InvalidSentinelChar
  | EmptySentinel
  | InvalidEscape
  | UnterminatedSentinel
  deriving DecidableEq, Repr

/-- The variables of `scan_line` other than the index and `sentinel_mark`. -/
structure ScanState where
  tokens : List String := []
  sentinels : List String := []
  backslash_escape : Bool := false
  inside_double_quote : Bool := false
  current_token : List Char := []
  deriving DecidableEq, Repr

/-- Where the index of `scan_line` is moving: in the body of the outer `for` loop, in a `while`
loop that skips a run of spaces and tabs, on the second `<` of a sentinel (the step `i+=2` is
made in two halves), or in the inner `for` loop that collects `sentinel_mark`. -/
inductive ScanMode where
  | body
  | blanks
  | second
  | mark (sentinel_mark : List Char)
  deriving DecidableEq, Repr

/-- The test `line[i]==' ' || line[i]=='\t'`. -/
def isBlank (c : Char) : Bool :=
  c = ' ' || c = '\t'

/-- The statements that follow the loop collecting `sentinel_mark`. -/
def endMark (st : ScanState) (sentinel_mark : List Char) : Except ScanError ScanState :=
  if sentinel_mark = [] then Except.error ScanError.EmptySentinel
  else
    Except.ok { st with
      sentinels := st.sentinels ++ [String.mk sentinel_mark],
      tokens := st.tokens ++ [String.mk ('\n' :: sentinel_mark)] }

/-- The statement `current_token+=line[i]` reached through `break`. -/
def appendChar (st : ScanState) (c : Char) : ScanState :=
  { st with current_token := st.current_token ++ [c] }

/-- One step of the index of `scan_line` over the character `c` (`line[i]`), where `next` is
`line[i+1]` and `prev` is `line[i-1]`: the new mode and variables, or the exception thrown. -/
def scanStep (c : Char) (next prev : Option Char) (mode : ScanMode) (st : ScanState) :
    Except ScanError (ScanMode × ScanState) :=
  match mode with
  | ScanMode.second => Except.ok (ScanMode.mark [], st)
  | ScanMode.mark m =>
    if c = '<' ∨ c = '"' ∨ c = '\\' then Except.error ScanError.InvalidSentinelChar
    else if isBlank c then
      match endMark st m with
      | Except.error e => Except.error e
      | Except.ok st1 => Except.ok (ScanMode.blanks, st1)
    else Except.ok (ScanMode.mark (m ++ [c]), st)
  | mode =>
    if mode = ScanMode.blanks ∧ isBlank c = true then Except.ok (ScanMode.blanks, st)
    else if c = '<' then
      if st.backslash_escape ∨ next ≠ some '<' then
        Except.ok (ScanMode.body, appendChar { st with backslash_escape := false } c)
      else if (match prev with
          | none => false
          | some p => !isBlank p) = true then
        Except.error ScanError.SentinelNotPrecededByWhitespace
      else Except.ok (ScanMode.second, st)
    else if c = '\\' then
      Except.ok (ScanMode.body, { st with backslash_escape := !st.backslash_escape })
    else if c = '"' then
      if !st.backslash_escape then
        Except.ok (ScanMode.body, { st with inside_double_quote := !st.inside_double_quote })
      else Except.ok (ScanMode.body, appendChar { st with backslash_escape := false } c)
    else if isBlank c then
      if st.backslash_escape then Except.error ScanError.InvalidEscape
      else if !st.inside_double_quote then
        Except.ok (ScanMode.blanks,
          { st with
            tokens := if prev.isSome then st.tokens ++ [String.mk st.current_token] else st.tokens,
            current_token := [] })
      else Except.ok (ScanMode.body, appendChar st c)
    else if st.backslash_escape then Except.error ScanError.InvalidEscape
    else Except.ok (ScanMode.body, appendChar st c)

/-- The loops of `scan_line`, from the characters not yet passed by the index; `prev` is
`line[i-1]`. -/
def scanLoop : List Char → ScanMode → Option Char → ScanState → Except ScanError ScanState
  | [], ScanMode.mark m, _, st => endMark st m
  | [], ScanMode.second, _, st => endMark st []
  | [], _, _, st => Except.ok st
  | c :: rest, mode, prev, st =>
    match scanStep c rest.head? prev mode st with
    | Except.error e => Except.error e
    | Except.ok (mode1, st1) => scanLoop rest mode1 (some c) st1

/-- The end of `scan_line`: `if(current_token!="") tokens.push_back(current_token);`, and the
two reference parameters as the caller sees them afterwards. -/
def finishLine (st : ScanState) : List String × List String :=
  (if st.current_token ≠ [] then st.tokens ++ [String.mk st.current_token] else st.tokens,
    st.sentinels)

/-- `scan_line(tokens, sentinels, line)`: the vector `tokens` and the queue `sentinels` (front
first) afterwards. -/
def scan_line (tokens sentinels : List String) (line : String) :
    Except ScanError (List String × List String) :=
  (scanLoop line.data ScanMode.body none { tokens := tokens, sentinels := sentinels }).map
    finishLine

/-- The scan of the line `pre ++ suffix` from the first character of `pre` up to the first
character of `suffix`: the mode, the character before the index and the state reached there. -/
def scanTo : List Char → List Char → ScanMode → Option Char → ScanState →
    Except ScanError (ScanMode × Option Char × ScanState)
  | [], _, mode, prev, st => Except.ok (mode, prev, st)
  | c :: pre, suffix, mode, prev, st =>
    match scanStep c (pre ++ suffix).head? prev mode st with
    | Except.error e => Except.error e
    | Except.ok (mode1, st1) => scanTo pre suffix mode1 (some c) st1

/-- The scan of `line` is outside a sentinel mark in mode `mode`. -/
def ScanMode.outside (mode : ScanMode) : Bool :=
  mode = ScanMode.body || mode = ScanMode.blanks

/-- The outcome of a function of `bake_utilities.cpp`: a value, a thrown exception, or no
defined result (an access outside a vector, a loop that never ends). -/
inductive Result (ε α : Type) where
  | ok : α → Result ε α
  | threw : ε → Result ε α
  | undefined : Result ε α
  deriving DecidableEq, Repr

/-- A `std::istream`: the unread lines that end with a newline in the stream, the unread
characters after the last newline, and the state bits. -/
structure IStream where
  lines : List String
  rest : String := ""
  eofbit : Bool := false
  failbit : Bool := false
  badbit : Bool := false
  deriving DecidableEq, Repr

/-- `din.good()`. -/
def IStream.good (din : IStream) : Bool :=
  !din.eofbit && !din.failbit && !din.badbit

/-- `din.bad()`. -/
def IStream.bad (din : IStream) : Bool :=
  din.badbit

/-- `std::getline(din, line)`: the stream afterwards and the new content of `line`.  On a stream
that is not good the call sets `failbit` and leaves `line` alone; at the end of the stream
without any character left it empties `line` and sets `eofbit` and `failbit`; when the last
characters are read without a newline it sets `eofbit`. -/
def getline (din : IStream) (line : String) : IStream × String :=
  if !din.good then ({ din with failbit := true }, line)
  else
    match din.lines with
    | l :: ls => ({ din with lines := ls }, l)
    | [] =>
      if din.rest = "" then ({ din with eofbit := true, failbit := true }, "")
      else ({ din with rest := "", eofbit := true }, din.rest)

/-- The `while` loop of `get_command`; every iteration but the last one reads a line that ends
with a newline, and `fuel` bounds the number of iterations. -/
def commandLoop : Nat → IStream → List String → String → Option (IStream × String)
  | 0, _, _, _ => none
  | fuel + 1, din, sentinels, to_return =>
    if din.good && decide (sentinels.length ≠ 0) then
      let r := getline din ""
      let to_return1 := to_return ++ (r.2 ++ "\n")
      let sentinels1 := if sentinels.head? = some r.2 then sentinels.tail else sentinels
      commandLoop fuel r.1 sentinels1 to_return1
    else some (din, to_return)

/-- `get_command(din)`: the command and the stream afterwards. -/
def get_command (din : IStream) : Result ScanError (String × IStream) :=
  let r := getline din ""
  let to_return := r.2 ++ "\n"
  match scan_line [] [] r.2 with
  | Except.error e => Result.threw e
  | Except.ok (_, sentinels) =>
    match commandLoop (din.lines.length + 2) r.1 sentinels to_return with
    | none => Result.undefined
    | some (din1, to_return1) =>
      if din1.bad && decide (to_return1 ≠ "\n") then Result.threw ScanError.UnterminatedSentinel
      else Result.ok (to_return1, din1)

/-- Modelled from the spec: `StringFunctions::strsplit(lines, str, delimiters)`, whose header
`StringFunctions.h` is not among the sources ("line splitting"): the pieces of `str` between
the delimiters, in order, empty pieces included. -/
def strsplit (str : String) (delimiters : List Char) : List String :=
  (str.data.splitOnP (fun c => decide (c ∈ delimiters))).map String.mk

/-- The loop `while(lines[j]!=sentinel) { ...; tokens[i]+=lines[j]+"\n"; j++; }` of
`bakery_execute` followed by `j++`: the text collected and the lines from `j` on.  Reading
`lines[j]` past the end of the vector has no defined result. -/
def takeBody (sentinel : String) : List String → String → Option (String × List String)
  | [], _ => none
  | l :: ls, body =>
    if l = sentinel then some (body, ls) else takeBody sentinel ls (body ++ (l ++ "\n"))

/-- The loop over `tokens` of `bakery_execute`, from token `i` and line `j` on. -/
def substituteBodies : List String → List String → Option (List String)
  | [], _ => some []
  | t :: ts, lines =>
    if t.data.head? = some '\n' then
      match takeBody (String.mk (t.data.drop 1)) lines "" with
      | none => none
      | some (body, lines1) =>
        match substituteBodies ts lines1 with
        | none => none
        | some r => some (String.mk body.data.dropLast :: r)
    else
      match substituteBodies ts lines with
      | none => none
      | some r => some (t :: r)

/-- The first part of `bakery_execute`: the argument vector `tokens` handed to `exec`. -/
def bakery_execute_tokens (command : String) : Result ScanError (List String) :=
  match strsplit command ['\n'] with
  | [] => Result.undefined
  | first :: lines =>
    match scan_line [] [] first with
    | Except.error e => Result.threw e
    | Except.ok (tokens, _) =>
      match substituteBodies tokens lines with
      | none => Result.undefined
      | some r => Result.ok r

/-- The characters that may not occur in a sentinel mark. -/
def sentinelForbidden (c : Char) : Bool :=
  c = '<' || c = '"' || c = '\\'

/-- The maximal run of characters other than space and tab at the beginning of `chars`. -/
def markOf (chars : List Char) : List Char :=
  chars.takeWhile (fun c => !isBlank c)

/-- The characters of `chars` from the first space or tab on. -/
def afterMark (chars : List Char) : List Char :=
  chars.dropWhile (fun c => !isBlank c)

/-- The state of the scan after the sentinel `mark` has been accepted. -/
def withSentinel (st : ScanState) (mark : List Char) : ScanState :=
  { st with
    sentinels := st.sentinels ++ [String.mk mark],
    tokens := st.tokens ++ [String.mk ('\n' :: mark)] }

/-- The reference tokenization of a line without backslash and without `<`, written from the
words of the specification: runs of spaces and tabs outside double quotes separate tokens, a
double quote is removed and toggles the quoted mode, and a space or a tab inside quotes is
kept in the token.  `cur` is the token in progress, if one has been started (by a quote or by
a character), and `quoted` is the quoted mode. -/
def referenceLoop : List Char → Bool → Option (List Char) → List String
  | [], _, none => []
  | [], _, some t => [String.mk t]
  | c :: rest, quoted, cur =>
    if c = '"' then referenceLoop rest (!quoted) (some (cur.getD []))
    else if isBlank c = true ∧ quoted = false then
      match cur with
      | none => referenceLoop rest quoted none
      | some t => String.mk t :: referenceLoop rest quoted none
    else referenceLoop rest quoted (some (cur.getD [] ++ [c]))

/-- The reference tokenization of `line`. -/
def referenceTokens (line : String) : List String :=
  referenceLoop line.data false none

/-- The test `tokens[i][0]=='\n'` of `bakery_execute`: the token stands for a sentinel. -/
def isMarker (t : String) : Bool :=
  t.data.head? = some '\n'

/-- The sentinel marks that the marker tokens of `tokens` carry, in order. -/
def markersOf (tokens : List String) : List String :=
  (tokens.filter isMarker).map (fun t => String.mk (t.data.drop 1))

/-- The lines of here-documents: each body followed by the line that holds its mark. -/
def hereLines (docs : List (List String × String)) : List String :=
  docs.flatMap (fun d => d.1 ++ [d.2])

/-- The text in which every line of `lines` is followed by a newline. -/
def commandText (lines : List String) : String :=
  lines.foldl (fun acc l => acc ++ (l ++ "\n")) ""

/-- The tokens in which the marker tokens are replaced, in order, by the bodies joined with
single newlines. -/
def withBodies : List String → List (List String) → List String
  | [], _ => []
  | t :: ts, bodies =>
    if isMarker t then String.intercalate "\n" (bodies.headD []) :: withBodies ts bodies.tail
    else t :: withBodies ts bodies

/-- What the scan of a line without newline keeps true: the marker tokens carry the sentinel
marks in the order of the queue, and neither a mark nor the token in progress holds a
newline. -/
def ScanInv (st : ScanState) : Prop :=
  markersOf st.tokens = st.sentinels ∧ (∀ M ∈ st.sentinels, singleLine M) ∧
    '\n' ∉ st.current_token

/-- The mark under construction holds no newline. -/
def ModeInv : ScanMode → Prop
  | ScanMode.mark m => '\n' ∉ m
  | _ => True

/-! ## The interchange reader (`augment_depsystem` of `src/bake_utilities.cpp`)

A callback is an identifier, as in `set_callback`; `dep_callback` is the identifier of the
build callback.  The default value of the parameter `delimiters` of
`StringFunctions::tokenize`, whose header is not among the sources, is a parameter of the
model. -/

/-- The exceptions that leave `augment_depsystem`: those of `get_command`, those of the
`DepSystem` member functions, and its own three messages "Attempted to add symbol outside
working directory.", "Invalid dependency specification." and "Attempted to add dependency to
symbol outside working directory.". -/
inductive BakeError where
  | scan : ScanError → BakeError
  | deplib : Error → BakeError
  | SymbolOutsideWorkingDirectory
  | InvalidDependencySpecification
  | OutOfScopeDependency
  deriving DecidableEq, Repr

/-- The result of a step of `augment_depsystem`: the `DepSystem` afterwards, or the exception
with the `DepSystem` as it is left. -/
abbrev Augmented :=
  Result (BakeError × DepSystem) DepSystem

/-- The identifier of the function `dep_callback`. -/
def dep_callback : Nat :=
  0

/-- A call of a `DepSystem` member function from `augment_depsystem`. -/
def liftOutcome : Outcome DepSystem → Augmented
  | Outcome.ok D => Result.ok D
  | Outcome.threw e D => Result.threw (BakeError.deplib e, D)
  | Outcome.undefined => Result.undefined

/-- The test `symname.substr(0,3)=="../"`. -/
def startsOutside (symname : String) : Bool :=
  symname.data.take 3 = ['.', '.', '/']

/-- The two statements `add_set_symbol(symname, symval); set_callback(symname, dep_callback);`. -/
def addWithCallback (fuel : Nat) (D : DepSystem) (symname symval : String) : Augmented :=
  match liftOutcome (add_set_symbol fuel D symname symval) with
  | Result.ok D1 => liftOutcome (set_callback D1 symname (some dep_callback))
  | other => other

/-- The lambda `add_if_not_present` of `augment_depsystem`. -/
def add_if_not_present (fuel : Nat) (D : DepSystem) (symname symval : String) : Augmented :=
  if !has_symbol D symname then
    if startsOutside symname then
      Result.threw (BakeError.SymbolOutsideWorkingDirectory, D)
    else addWithCallback fuel D symname symval
  else Result.ok D

/-- The statement `A / B` of the loop of `augment_depsystem`, with `a` and `b` the mutated
names `mutator(tokens[0])` and `mutator(tokens[2])`. -/
def augmentDependency (fuel : Nat) (D : DepSystem) (a b : String) : Augmented :=
  match add_if_not_present fuel D a "" with
  | Result.ok D1 =>
    match add_if_not_present fuel D1 b "" with
    | Result.ok D2 =>
      if startsOutside b then
        match has_dependency D2 b a with
        | Outcome.ok true => liftOutcome (add_dependency fuel D2 b a)
        | Outcome.ok false => Result.threw (BakeError.OutOfScopeDependency, D2)
        | Outcome.threw e D3 => Result.threw (BakeError.deplib e, D3)
        | Outcome.undefined => Result.undefined
      else liftOutcome (add_dependency fuel D2 b a)
    | other => other
  | other => other

/-- The body of the loop of `augment_depsystem` for a line whose tokens are `t0 :: rest`, up
to the next call of `get_command`. -/
def augmentStatement (fuel : Nat) (mutator : String → String) (D : DepSystem) (line : String)
    (t0 : String) : List String → Augmented
  | [] => addWithCallback fuel D (mutator t0) (String.mk (line.data.drop (t0.length + 0)))
  | t1 :: rest =>
    if t1 ≠ "/" then
      addWithCallback fuel D (mutator t0) (String.mk (line.data.drop (t0.length + 1)))
    else
      match rest with
      | [t2] => augmentDependency fuel D (mutator t0) (mutator t2)
      | _ => Result.threw (BakeError.InvalidDependencySpecification, D)

/-- The `while` loop of `augment_depsystem`, entered with the command `line` just read.  A
line without token takes the `continue`, which jumps over `line = get_command(din)` at the end
of the body: the next iteration examines the same line with the same stream and the same
`DepSystem`.  `steps` bounds the number of iterations. -/
def augmentLoop (fuel : Nat) (mutator : String → String) (delimiters : List Char) :
    Nat → IStream → DepSystem → String → Result (BakeError × DepSystem) (DepSystem × IStream)
  | 0, _, _, _ => Result.undefined
  | steps + 1, din, D, line =>
    if line = "\n" then Result.ok (D, din)
    else
      match tokenize line delimiters with
      | [] => augmentLoop fuel mutator delimiters steps din D line
      | t0 :: rest =>
        match augmentStatement fuel mutator D line t0 rest with
        | Result.threw e => Result.threw e
        | Result.undefined => Result.undefined
        | Result.ok D1 =>
          match get_command din with
          | Result.threw e => Result.threw (BakeError.scan e, D1)
          | Result.undefined => Result.undefined
          | Result.ok (line1, din1) => augmentLoop fuel mutator delimiters steps din1 D1 line1

/-- `augment_depsystem(din, to_construct, mutator)`: the `DepSystem` and the stream
afterwards.  In a run that ends, every iteration of the loop examines a new command, and every
command but the last takes a line from the stream, which bounds the number of iterations. -/
def augment_depsystem (fuel : Nat) (din : IStream) (to_construct : DepSystem)
    (mutator : String → String) (delimiters : List Char) :
    Result (BakeError × DepSystem) (DepSystem × IStream) :=
  match get_command din with
  | Result.threw e => Result.threw (BakeError.scan e, to_construct)
  | Result.undefined => Result.undefined
  | Result.ok (line, din1) =>
    augmentLoop fuel mutator delimiters (din.lines.length + 2) din1 to_construct line

/-- What adding the missing symbol `n` with the value `v` (and then setting its callback)
does to the records: `n` did not exist; its record has the value `v`, no edge, no list, and
only existing symbols in its `reverse_dependency_list_set`; every other record comes from a
record with the same value, edges and lists, whose `reverse_dependency_list_set` contains the
new one; no symbol disappears; no shadower appears. -/
def Added (D D1 : DepSystem) (n v : String) : Prop :=
  findSym D.symbols n = none ∧
  (∃ s1, findSym D1.symbols n = some s1 ∧ s1.value = v ∧ s1.dependency_edges = [] ∧
    s1.reverse_dependency_edges = [] ∧ s1.dependency_list_list = [] ∧
    ∀ d ∈ s1.reverse_dependency_list_set, countSym D.symbols d = true) ∧
  (∀ m s1, m ≠ n → findSym D1.symbols m = some s1 →
    ∃ s, findSym D.symbols m = some s ∧ s1.value = s.value ∧
      s1.dependency_edges = s.dependency_edges ∧
      s1.reverse_dependency_edges = s.reverse_dependency_edges ∧
      s1.dependency_list_list = s.dependency_list_list ∧
      ∀ d ∈ s1.reverse_dependency_list_set, d ∈ s.reverse_dependency_list_set) ∧
  (∀ m, countSym D.symbols m = true → countSym D1.symbols m = true) ∧
  ∀ e ∈ D1.shadowers, e ∈ D.shadowers

/-- What the statements of `augment_depsystem` need and keep: symmetric edges, no cycle,
only existing symbols in the reverse sets, chains of dependencies and of dependents of at most
`b` steps, and existing shadower owners. -/
def AugmentInv (D : DepSystem) (b : Nat) : Prop :=
  EdgeSymmetric D ∧ Acyclic D ∧ (∀ a d, RevDep D a d → countSym D.symbols d = true) ∧
  (∀ c, countSym D.symbols c = true → Bounded (RevDep D) b c) ∧
  (∀ c, countSym D.symbols c = true → Bounded (Dep D) b c) ∧ ShadowOwnersExist D

/-- Every record of `D` is found in `D1` with the same value and dependency edges. -/
def Keeps (D D1 : DepSystem) : Prop :=
  ∀ m s, findSym D.symbols m = some s →
    ∃ s1, findSym D1.symbols m = some s1 ∧ s1.value = s.value ∧
      s1.dependency_edges = s.dependency_edges

/-! ## The path mutators of the sub mode (`main` of `src/bake.cpp`) -/

/-- The mutator `main` passes to `construct_depsystem` in the sub mode:
`[](string symname) noexcept { return string("../")+symname; }`. -/
def input_mutator (symname : String) : String :=
  "../" ++ symname

/-- The lambda `output_mutator` of `main`, with the captured `subdir` as first argument:
`symname.find("../")==0` holds exactly when `symname` begins with `../`, and
`strlen("../")` is 3. -/
def output_mutator (subdir symname : String) : String :=
  if startsOutside symname then String.mk (symname.data.drop 3)
  else subdir ++ "/" ++ symname

/-- The system a sub-directory holds after reading the parent's symbols `app` and `lib`
through the input mutator, with the dependency of `../app` on `../lib`. -/
def outsideExample : DepSystem :=
  { symbols :=
      [{ name := "../lib", value := "", state := VALID,
          reverse_dependency_edges := ["../app"] },
        { name := "../app", value := "", state := VALID, dependency_edges := ["../lib"] }],
    shadowers := [] }

/-- The owner `t` has the lists `["f","c"]`, satisfied by `f`, and `["c"]`, in which no name
exists; `c` is absent. -/
def noActiveExample : DepSystem :=
  { symbols :=
      [{ name := "t", value := "", state := VALID,
          dependency_list_list := [["f", "c"], ["c"]] },
        { name := "f", value := "", state := VALID, reverse_dependency_list_set := ["t"] }],
    shadowers := [("c", "t")] }

/-- The owner `t` has the list `["f","c"]` and the owner `u` the list `["c","f"]`; `f` exists
and satisfies both, `c` is absent and stands before `f` in the list of `u` only. -/
def lowerPriorityExample : DepSystem :=
  { symbols :=
      [{ name := "t", value := "", state := VALID, dependency_list_list := [["f", "c"]] },
        { name := "u", value := "", state := VALID, dependency_list_list := [["c", "f"]] },
        { name := "f", value := "", state := VALID,
          reverse_dependency_list_set := ["t", "u"] }],
    shadowers := [("c", "u")] }

/-! ## The interchange writer (`output_depsystem` of `src/bake_utilities.cpp`)

The output is the list of lines written, as for `operator<<`: `dout << text << endl` appends
the lines of `text`. -/

/-- The loop of `output_depsystem` over the vector `symbols`. -/
def outputLoop (to_output : DepSystem) (mutator : String → String) :
    List String → Outcome (List String)
  | [] => Outcome.ok []
  | sym :: rest =>
    match get_value to_output sym with
    | Outcome.threw e d => Outcome.threw e d
    | Outcome.undefined => Outcome.undefined
    | Outcome.ok value =>
      match get_dependency_edges to_output sym with
      | Outcome.threw e d => Outcome.threw e d
      | Outcome.undefined => Outcome.undefined
      | Outcome.ok edges =>
        match outputLoop to_output mutator rest with
        | Outcome.ok lines =>
          Outcome.ok
            (fieldLines (mutator sym ++ " " ++ value) ++
              edges.flatMap (fun depsym => fieldLines (mutator depsym ++ " / " ++ mutator sym))
              ++ lines)
        | other => other

/-- `output_depsystem(dout, to_output, mutator)`: the lines written to `dout`. -/
def output_depsystem (fuel : Nat) (to_output : DepSystem) (mutator : String → String) :
    Outcome (List String) :=
  match get_symbols fuel to_output selectAll with
  | Outcome.ok symbols => outputLoop to_output mutator symbols
  | Outcome.threw e d => Outcome.threw e d
  | Outcome.undefined => Outcome.undefined

/-- What the loop of `augment_depsystem` does on a stream each of whose commands is one of
the lines `stmts`: the statements one after the other. -/
def augmentLines (fuel : Nat) (mutator : String → String) (delimiters : List Char) :
    DepSystem → List String → Augmented
  | D, [] => Result.ok D
  | D, S :: more =>
    match tokenize (S ++ "\n") delimiters with
    | [] => Result.undefined
    | t0 :: rest =>
      match augmentStatement fuel mutator D (S ++ "\n") t0 rest with
      | Result.ok D1 => augmentLines fuel mutator delimiters D1 more
      | other => other

/-- The state of the reader of the interchange format when it has read the statements of the
symbols `P` of `D` and the dependency statements of the arcs `G`: no shadower; the symbols are
`P`; every arc joins two symbols read and is an arc of `D`; every record has the value of `D`
followed by a newline, the dependency edges and reverse dependency edges of `G`, and no
list. -/
def ReadBack (D Dk : DepSystem) (P : List String) (G : List (String × String)) : Prop :=
  Dk.shadowers = [] ∧
  (∀ x, countSym Dk.symbols x = true ↔ x ∈ P) ∧
  (∀ e ∈ G, e.1 ∈ P ∧ e.2 ∈ P ∧ Dep D e.1 e.2) ∧
  ∀ x rk, findSym Dk.symbols x = some rk →
    (∃ r, findSym D.symbols x = some r ∧ rk.value = r.value ++ "\n") ∧
    (∀ a, a ∈ rk.dependency_edges ↔ (x, a) ∈ G) ∧
    (∀ y, y ∈ rk.reverse_dependency_edges ↔ (y, x) ∈ G) ∧
    rk.dependency_list_list = [] ∧ rk.reverse_dependency_list_set = []

/-- A system with two symbols whose values are one-line commands, `app` depending on
`lib.o`. -/
def bifExample : DepSystem :=
  { symbols :=
      [{ name := "app", value := "cc -o app lib.o", state := STALE,
          dependency_edges := ["lib.o"] },
        { name := "lib.o", value := "cc -c lib.c", state := VALID,
          reverse_dependency_edges := ["app"] }],
    shadowers := [] }

/-- The lines `output_depsystem` writes for the symbol `sym` with the identity mutator when its
value and names are single lines: the assignment statement, then one dependency statement for
every dependency edge. -/
def statementsOf (D : DepSystem) (sym : String) : List String :=
  match findSym D.symbols sym with
  | none => []
  | some r =>
    (sym ++ " " ++ r.value) :: r.dependency_edges.map (fun depsym => depsym ++ " / " ++ sym)

/-- A system with two symbols without edge: `x` with the value `echo hi` and `y` with the
empty value. -/
def valueExample : DepSystem :=
  { symbols :=
      [{ name := "x", value := "echo hi", state := VALID },
        { name := "y", value := "", state := VALID }],
    shadowers := [] }

theorem findSym_name {L : List Symbol} {n : String} {s : Symbol}
    (h : findSym L n = some s) : s.name = n := by
  induction L with
  | nil => simp [findSym] at h
  | cons t rest ih =>
    unfold findSym at h
    split_ifs at h with ht
    · cases h; exact ht
    · exact ih h

theorem findSym_mem {L : List Symbol} {n : String} {s : Symbol}
    (h : findSym L n = some s) : s ∈ L := by
  induction L with
  | nil => simp [findSym] at h
  | cons t rest ih =>
    unfold findSym at h
    split_ifs at h with ht
    · cases h; exact List.mem_cons_self _ _
    · exact List.mem_cons_of_mem _ (ih h)

theorem findSym_putSym (L : List Symbol) (s : Symbol) (n : String) :
    findSym (putSym L s) n = if s.name = n then some s else findSym L n := by
  induction L with
  | nil => simp [putSym, findSym]
  | cons t rest ih =>
    unfold putSym
    by_cases ht : t.name = s.name
    · by_cases hn : s.name = n
      · simp [ht, hn, findSym]
      · have : ¬ t.name = n := fun h => hn (ht ▸ h)
        simp [ht, hn, findSym, this]
    · by_cases hn : s.name = n
      · have : ¬ t.name = n := fun h => ht (h.trans hn.symm)
        simp [ht, hn, findSym, this, ih]
      · simp [ht, hn, findSym, ih]

theorem findSym_eraseSym (L : List Symbol) (n m : String) :
    findSym (eraseSym L n) m = if n = m then none else findSym L m := by
  induction L with
  | nil => simp [eraseSym, findSym]
  | cons t rest ih =>
    unfold eraseSym
    by_cases ht : t.name = n
    · by_cases hn : n = m
      · subst hn
        simpa [ht] using ih
      · have : ¬ t.name = m := fun h => hn (ht ▸ h)
        simp [ht, hn, ih, findSym, this]
    · by_cases hn : n = m
      · subst hn
        simp [ht, findSym, ih]
      · simp [ht, hn, findSym, ih]

theorem findSym_append (L : List Symbol) (s : Symbol) (n : String) :
    findSym (L ++ [s]) n =
      match findSym L n with
      | some x => some x
      | none => if s.name = n then some s else none := by
  induction L with
  | nil => simp [findSym]
  | cons t rest ih =>
    by_cases ht : t.name = n
    · simp [findSym, ht]
    · simp [findSym, ht, ih]

theorem findSym_insertSym {L : List Symbol} {s : Symbol} (h : findSym L s.name = none)
    (n : String) :
    findSym (insertSym L s) n = if s.name = n then some s else findSym L n := by
  unfold insertSym countSym
  rw [h]
  simp only [Option.isSome_none, Bool.false_eq_true, if_false]
  rw [findSym_append]
  by_cases hn : s.name = n
  · subst hn; simp [h]
  · simp only [hn, if_false]
    cases findSym L n <;> rfl

theorem countSym_putSym (L : List Symbol) (s : Symbol) (n : String) :
    countSym (putSym L s) n = (decide (s.name = n) || countSym L n) := by
  unfold countSym
  rw [findSym_putSym]
  by_cases hn : s.name = n <;> simp [hn]

theorem putSym_self {L : List Symbol} {s : Symbol} (h : findSym L s.name = some s) :
    putSym L s = L := by
  induction L with
  | nil => simp [findSym] at h
  | cons t rest ih =>
    unfold findSym at h
    unfold putSym
    split_ifs at h with ht
    · cases h; simp
    · simp [ht, ih h]

theorem putSym_putSym_same (L : List Symbol) {s t : Symbol} (h : s.name = t.name) :
    putSym (putSym L s) t = putSym L t := by
  induction L with
  | nil => simp [putSym, h]
  | cons u rest ih =>
    by_cases hu : u.name = s.name
    · have hu2 : u.name = t.name := hu.trans h
      simp [putSym, hu, hu2, h]
    · have hu2 : ¬ u.name = t.name := fun e => hu (e.trans h.symm)
      simp [putSym, hu, hu2, ih]

theorem putSym_comm {L : List Symbol} {s t : Symbol} (hne : s.name ≠ t.name)
    (hs : countSym L s.name = true) (ht : countSym L t.name = true) :
    putSym (putSym L s) t = putSym (putSym L t) s := by
  induction L with
  | nil => simp [countSym, findSym] at hs
  | cons u rest ih =>
    by_cases hus : u.name = s.name
    · have hut : ¬ u.name = t.name := fun e => hne (hus.symm.trans e)
      have hst : ¬ s.name = t.name := hne
      simp [putSym, hus, hut, hst]
    · by_cases hut : u.name = t.name
      · have hts : ¬ t.name = s.name := fun e => hne e.symm
        simp [putSym, hus, hut, hts]
      · have hs2 : countSym rest s.name = true := by
          simpa [countSym, findSym, hus] using hs
        have ht2 : countSym rest t.name = true := by
          simpa [countSym, findSym, hut] using ht
        simp [putSym, hus, hut, ih hs2 ht2]

theorem countSym_eq_true {L : List Symbol} {n : String} :
    countSym L n = true ↔ ∃ s, findSym L n = some s := by
  unfold countSym
  cases findSym L n <;> simp

theorem countSym_eq_false {L : List Symbol} {n : String} :
    countSym L n = false ↔ findSym L n = none := by
  unfold countSym
  cases findSym L n <;> simp

theorem mem_setInsert {x y : String} {s : List String} :
    y ∈ setInsert x s ↔ y = x ∨ y ∈ s := by
  unfold setInsert
  split_ifs with h
  · constructor
    · exact Or.inr
    · rintro (rfl | h') <;> assumption
  · simp [or_comm]

theorem mem_setErase {x y : String} {s : List String} :
    y ∈ setErase x s ↔ y ∈ s ∧ y ≠ x := by
  induction s with
  | nil => simp [setErase]
  | cons z zs ih =>
    unfold setErase
    by_cases hz : z = x
    · subst hz
      simp only [if_true, ih, List.mem_cons]
      constructor
      · rintro ⟨h1, h2⟩; exact ⟨Or.inr h1, h2⟩
      · rintro ⟨h1 | h1, h2⟩
        · exact absurd h1 h2
        · exact ⟨h1, h2⟩
    · simp only [hz, if_false, List.mem_cons, ih]
      constructor
      · rintro (rfl | ⟨h1, h2⟩)
        · exact ⟨Or.inl rfl, hz⟩
        · exact ⟨Or.inr h1, h2⟩
      · rintro ⟨rfl | h1, h2⟩
        · exact Or.inl rfl
        · exact Or.inr ⟨h1, h2⟩

theorem setErase_of_not_mem {x : String} {s : List String} (h : x ∉ s) :
    setErase x s = s := by
  induction s with
  | nil => rfl
  | cons z zs ih =>
    have hz : ¬ z = x := fun e => h (e ▸ List.mem_cons_self _ _)
    have hzs : x ∉ zs := fun e => h (List.mem_cons_of_mem _ e)
    simp [setErase, hz, ih hzs]

theorem setErase_append_self {x : String} {s : List String} (h : x ∉ s) :
    setErase x (s ++ [x]) = s := by
  induction s with
  | nil => simp [setErase]
  | cons z zs ih =>
    have hz : ¬ z = x := fun e => h (e ▸ List.mem_cons_self _ _)
    have hzs : x ∉ zs := fun e => h (List.mem_cons_of_mem _ e)
    simp [setErase, hz, ih hzs]

theorem setErase_setInsert {x : String} {s : List String} (h : x ∉ s) :
    setErase x (setInsert x s) = s := by
  unfold setInsert
  simp only [h, if_false]
  exact setErase_append_self h

theorem mem_setInsertAll {y : String} {s xs : List String} :
    y ∈ setInsertAll s xs ↔ y ∈ s ∨ y ∈ xs := by
  induction xs generalizing s with
  | nil => simp [setInsertAll]
  | cons x xs ih =>
    unfold setInsertAll
    rw [ih, mem_setInsert, List.mem_cons]
    tauto

theorem firstExisting_congr {L L' : List Symbol} (h : ∀ n, countSym L' n = countSym L n)
    (l : List String) : firstExisting L' l = firstExisting L l := by
  induction l with
  | nil => rfl
  | cons x xs ih => simp [firstExisting, h, ih]

theorem firstExisting_some {L : List Symbol} {l : List String} {f : String}
    (h : firstExisting L l = some f) : f ∈ l ∧ countSym L f = true := by
  induction l with
  | nil => simp [firstExisting] at h
  | cons x xs ih =>
    unfold firstExisting at h
    split_ifs at h with hx
    · cases h; exact ⟨List.mem_cons_self _ _, hx⟩
    · exact ⟨List.mem_cons_of_mem _ (ih h).1, (ih h).2⟩

/-- C2: the code run on `add_set_symbol("t","")`, `add_dependency_list(["t"],"t")`: both
operations return normally and the resulting graph has the cycle `t → t` through the active
choice of the new list. -/
theorem C2_add_dependency_list_creates_cycle :
    ∃ D, run 5 DepSystem.empty
        [Op.add_set_symbol "t" "", Op.add_dependency_list ["t"] "t"] = some D ∧
      ¬ Acyclic D := by
  refine ⟨_, rfl, ?_⟩
  intro h
  exact h "t" (Relation.TransGen.single ⟨_, rfl, Or.inr ⟨["t"], by simp, rfl⟩⟩)

/-- C3: on the system holding only `t`, the list `["t"]` has `t` as its first existing element,
yet `add_dependency_list(["t"], "t")` returns normally and `t` keeps the new list: no cycle
check is made and nothing is reverted. -/
theorem C3_add_dependency_list_no_cycle_check :
    ∃ D D1, run 5 DepSystem.empty [Op.add_set_symbol "t" ""] = some D ∧
      firstExisting D.symbols ["t"] = some "t" ∧
      add_dependency_list D ["t"] "t" = Outcome.ok D1 ∧
      get_dependency_lists D1 "t" = Outcome.ok [["t"]] ∧
      get_dependency_lists D "t" = Outcome.ok [] :=
  ⟨_, _, rfl, rfl, rfl, rfl, rfl⟩

/-- C5: two runs after which the bookkeeping of the active element is broken.
(1) After `delete_symbol("s")`, where `s` was the active element of the list `["s","c"]` of `b`
and `c` exists, `c` is the first existing element of that list but `b` is not in
`reverse_dependency_list_set(c)`.
(2) After `add_set_symbol("a", "")`, where `b` owns the lists `["a","c"]` and `["c"]` and `c`
exists, `c` is still the first existing element of the list `["c"]` but `b` has been removed
from `reverse_dependency_list_set(c)`. -/
theorem C5_delete_symbol_breaks_active_bookkeeping :
    (∃ D, run 5 DepSystem.empty
        [Op.add_set_symbol "b" "", Op.add_set_symbol "s" "", Op.add_set_symbol "c" "",
          Op.add_dependency_list ["s", "c"] "b", Op.delete_symbol "s"] = some D ∧
      get_dependency_lists D "b" = Outcome.ok [["s", "c"]] ∧
      firstExisting D.symbols ["s", "c"] = some "c" ∧
      (∀ sc, findSym D.symbols "c" = some sc → "b" ∉ sc.reverse_dependency_list_set) ∧
      ¬ ActiveBookkeeping D) ∧
    (∃ D, run 5 DepSystem.empty
        [Op.add_set_symbol "b" "", Op.add_set_symbol "c" "",
          Op.add_dependency_list ["a", "c"] "b", Op.add_dependency_list ["c"] "b",
          Op.add_set_symbol "a" ""] = some D ∧
      get_dependency_lists D "b" = Outcome.ok [["a", "c"], ["c"]] ∧
      firstExisting D.symbols ["c"] = some "c" ∧
      (∀ sc, findSym D.symbols "c" = some sc → "b" ∉ sc.reverse_dependency_list_set) ∧
      ¬ ActiveBookkeeping D) := by
  constructor
  · refine ⟨_, rfl, rfl, rfl, ?_, ?_⟩
    · intro sc h
      have : sc = _ := (Option.some.inj h).symm
      subst this
      decide
    · intro h
      obtain ⟨⟨sf, hsf, hb⟩, -⟩ := h "b" _ rfl ["s", "c"] (by simp) "c" rfl
      have : sf = _ := (Option.some.inj hsf).symm
      subst this
      revert hb
      decide
  · refine ⟨_, rfl, rfl, rfl, ?_, ?_⟩
    · intro sc h
      have : sc = _ := (Option.some.inj h).symm
      subst this
      decide
    · intro h
      obtain ⟨⟨sf, hsf, hb⟩, -⟩ := h "b" _ rfl ["c"] (by simp) "c" rfl
      have : sf = _ := (Option.some.inj hsf).symm
      subst this
      revert hb
      decide

/-- C6, counterexample: after `add_dependency_list(["a"],"t")` and
`delete_dependency_list(0,"t")` the entry `a → t` is still in `shadowers` although `t` has no
list left. -/
theorem C6_counterexample :
    ∃ D, run 5 DepSystem.empty
        [Op.add_set_symbol "t" "", Op.add_dependency_list ["a"] "t",
          Op.delete_dependency_list 0 "t"] = some D ∧
      ¬ ShadowersExact D := by
  refine ⟨_, rfl, ?_⟩
  intro h
  obtain ⟨-, sb, hsb, l, hl, -⟩ := (h "a" "t").1 (by decide)
  have : sb = _ := (Option.some.inj hsb).symm
  subst this
  simp at hl

/-- C7, counterexample: `set_state("a", DISABLED)` on a symbol without dependencies. -/
theorem C7_counterexample :
    ∃ D, run 5 DepSystem.empty
        [Op.add_set_symbol "a" "", Op.set_state "a" DISABLED] = some D ∧
      ¬ DisabledHasDeps D := by
  refine ⟨_, rfl, ?_⟩
  intro h
  rcases h "a" _ rfl rfl with h1 | ⟨l, hl, -⟩
  · exact h1 rfl
  · simp at hl

/-! ## Frames of the loops -/

theorem Agree.refl {β : Type} (p : Symbol → β) (L : List Symbol) : Agree p L L :=
  fun _ => rfl

theorem Agree.trans {β : Type} {p : Symbol → β} {L L1 L2 : List Symbol}
    (h1 : Agree p L L1) (h2 : Agree p L1 L2) : Agree p L L2 :=
  fun n => (h2 n).trans (h1 n)

theorem Agree.comp {β γ : Type} {p : Symbol → β} {L L1 : List Symbol} (q : β → γ)
    (h : Agree p L L1) : Agree (fun s => q (p s)) L L1 := by
  intro n
  have := congrArg (Option.map q) (h n)
  simpa [Option.map_map, Function.comp] using this

theorem Agree.count {β : Type} {p : Symbol → β} {L L1 : List Symbol} (h : Agree p L L1)
    (n : String) : countSym L1 n = countSym L n := by
  have := congrArg Option.isSome (h n)
  simpa [countSym] using this

theorem Agree.put {β : Type} {p : Symbol → β} {L : List Symbol} {s s1 : Symbol}
    (hs : findSym L s1.name = some s) (hp : p s1 = p s) : Agree p L (putSym L s1) := by
  intro n
  rw [findSym_putSym]
  by_cases hn : s1.name = n
  · subst hn; simp [hs, hp]
  · simp [hn]

theorem Agree.find {β : Type} {p : Symbol → β} {L L1 : List Symbol} (h : Agree p L L1)
    {n : String} {s1 : Symbol} (hs : findSym L1 n = some s1) :
    ∃ s, findSym L n = some s ∧ p s1 = p s := by
  have := h n
  rw [hs] at this
  cases hf : findSym L n with
  | none => rw [hf] at this; simp at this
  | some s => rw [hf] at this; exact ⟨s, rfl, by simpa using this⟩

theorem Agree.find_rev {β : Type} {p : Symbol → β} {L L1 : List Symbol} (h : Agree p L L1)
    {n : String} {s : Symbol} (hs : findSym L n = some s) :
    ∃ s1, findSym L1 n = some s1 ∧ p s1 = p s := by
  have := h n
  rw [hs] at this
  cases hf : findSym L1 n with
  | none => rw [hf] at this; simp at this
  | some s1 => rw [hf] at this; exact ⟨s1, rfl, by simpa using this⟩

theorem foldOpt_induct {σ α : Type} {f : σ → α → Option σ} (P : σ → Prop)
    (hstep : ∀ s x t, P s → f s x = some t → P t) :
    ∀ (l : List α) (s t : σ), P s → foldOpt f s l = some t → P t := by
  intro l
  induction l with
  | nil =>
    intro s t hs h
    simp [foldOpt] at h
    exact h ▸ hs
  | cons x xs ih =>
    intro s t hs h
    unfold foldOpt at h
    cases hf : f s x with
    | none => rw [hf] at h; simp at h
    | some u =>
      rw [hf] at h
      exact ih u t (hstep s x u hs hf) h

theorem invalidated_idem (s : Symbol_State) : invalidated (invalidated s) = invalidated s := by
  cases s <;> rfl

theorem invalidateSelector_eq {syms : List Symbol} {s : Symbol}
    (hs : findSym syms s.name = some s) :
    invalidateSelector syms s.name s.value s.state =
      some (false, putSym syms { s with state := invalidated s.state }) := by
  unfold invalidateSelector
  rw [hs]
  cases hst : s.state <;> simp [invalidated]
  all_goals
    have : ({ s with state := s.state } : Symbol) = s := rfl
    rw [← hst]
    exact (putSym_self (by simpa using hs)).symm

/-- The loop of `get_dependents` run with the lambda of `invalidate_dependents`: it keeps no
name, and changes exactly the states of the listed names that are dependents. -/
theorem dependentsLoop_invalidate (deps : List String) :
    ∀ (xs : List String) (L : List Symbol) (r : List String) (L1 : List Symbol),
      dependentsLoop invalidateSelector deps L xs = some (r, L1) →
      r = [] ∧ ∀ n, findSym L1 n =
        (findSym L n).map (fun s =>
          if n ∈ xs ∧ n ∈ deps then { s with state := invalidated s.state } else s) := by
  intro xs
  induction xs with
  | nil =>
    intro L r L1 h
    simp [dependentsLoop] at h
    obtain ⟨rfl, rfl⟩ := h
    refine ⟨rfl, fun n => ?_⟩
    cases findSym L n <;> simp
  | cons x xs ih =>
    intro L r L1 h
    unfold dependentsLoop at h
    cases hx : findSym L x with
    | none => rw [hx] at h; simp at h
    | some s =>
      rw [hx] at h
      have hname : s.name = x := findSym_name hx
      by_cases hd : x ∈ deps
      · simp only [hd, if_true] at h
        rw [invalidateSelector_eq (by rw [hname]; exact hx)] at h
        simp only at h
        cases hrec : dependentsLoop invalidateSelector deps
            (putSym L { s with state := invalidated s.state }) xs with
        | none => rw [hrec] at h; simp at h
        | some res =>
          obtain ⟨r2, L2⟩ := res
          rw [hrec] at h
          simp at h
          obtain ⟨rfl, rfl⟩ := h
          obtain ⟨hr, hfind⟩ := ih _ _ _ hrec
          refine ⟨hr, fun n => ?_⟩
          rw [hfind n, findSym_putSym]
          by_cases hn : x = n
          · subst hn
            simp [hname, hx, hd]
            by_cases hxs : x ∈ xs
            · simp [hxs, invalidated_idem]
            · simp [hxs]
          · have hn2 : ¬ n = x := fun e => hn e.symm
            simp [hname, hn, hn2]
      · simp only [hd, if_false] at h
        obtain ⟨hr, hfind⟩ := ih _ _ _ h
        refine ⟨hr, fun n => ?_⟩
        rw [hfind n]
        by_cases hn : n = x
        · subst hn; simp [hd]
        · simp [hn]

/-- The loop of `get_dependents` run with the lambda of `invalidate_dependents` has a defined
result when every listed name exists. -/
theorem dependentsLoop_invalidate_defined (deps : List String) :
    ∀ (xs : List String) (L : List Symbol), (∀ x ∈ xs, countSym L x = true) →
      ∃ L1, dependentsLoop invalidateSelector deps L xs = some ([], L1) := by
  intro xs
  induction xs with
  | nil => intro L _; exact ⟨L, rfl⟩
  | cons x xs ih =>
    intro L hall
    obtain ⟨s, hx⟩ := countSym_eq_true.1 (hall x (List.mem_cons_self _ _))
    have hname : s.name = x := findSym_name hx
    unfold dependentsLoop
    rw [hx]
    by_cases hd : x ∈ deps
    · simp only [hd, if_true]
      rw [invalidateSelector_eq (by rw [hname]; exact hx)]
      have hall2 : ∀ y ∈ xs, countSym (putSym L { s with state := invalidated s.state }) y
          = true := by
        intro y hy
        rw [countSym_putSym, hall y (List.mem_cons_of_mem _ hy)]
        simp
      obtain ⟨L1, h1⟩ := ih _ hall2
      exact ⟨L1, by simp [h1]⟩
    · simp only [hd, if_false]
      exact ih L (fun y hy => hall y (List.mem_cons_of_mem _ hy))

theorem Agree.mono {β γ : Type} {p : Symbol → β} {q : Symbol → γ} {L L1 : List Symbol}
    (h : Agree p L L1) (r : β → γ) (hq : ∀ s, q s = r (p s)) : Agree q L L1 := by
  have h2 := h.comp r
  intro n
  have h3 := h2 n
  have e : q = fun s => r (p s) := funext hq
  rw [e]
  exact h3

theorem StatesInvalidated.same (L : List Symbol) : StatesInvalidated L L :=
  fun _ => Or.inl rfl

theorem StatesInvalidated.agree {L L1 : List Symbol} (h : StatesInvalidated L L1) :
    Agree noState L L1 := by
  intro n
  rcases h n with e | e
  · rw [e]
  · rw [e]
    cases findSym L n <;> simp [noState]

theorem StatesInvalidated.state {L L1 : List Symbol} (h : StatesInvalidated L L1)
    {n : String} {s1 : Symbol} (hs : findSym L1 n = some s1) :
    ∃ s, findSym L n = some s ∧ (s1 = s ∨ s1 = { s with state := invalidated s.state }) := by
  rcases h n with e | e
  · exact ⟨s1, by rw [← e, hs], Or.inl rfl⟩
  · rw [hs] at e
    cases hf : findSym L n with
    | none => rw [hf] at e; simp at e
    | some s =>
      rw [hf] at e
      simp at e
      exact ⟨s, rfl, Or.inr e⟩

/-- What `invalidate_dependents` leaves behind, when it returns. -/
theorem invalidate_dependents_ok {fuel : Nat} {D D1 : DepSystem} {x : String}
    (h : invalidate_dependents fuel D x = Outcome.ok D1) :
    D1.shadowers = D.shadowers ∧
    ∃ deps splice, get_dependents_recursive D fuel x = some deps ∧
      spliceLoop D fuel [] deps = some splice ∧ x ∈ splice ∧
      ∀ n, findSym D1.symbols n = (findSym D.symbols n).map (fun s =>
        if n ∈ splice.erase x ∧ n ∈ deps then { s with state := invalidated s.state } else s) := by
  unfold invalidate_dependents get_dependents_st at h
  cases hx : findSym D.symbols x with
  | none => rw [hx] at h; simp at h
  | some sx =>
    rw [hx] at h
    simp only at h
    cases hd : get_dependents_recursive D fuel x with
    | none => rw [hd] at h; simp at h
    | some deps =>
      rw [hd] at h
      simp only at h
      cases hsp : spliceLoop D fuel [] deps with
      | none => rw [hsp] at h; simp at h
      | some splice =>
        rw [hsp] at h
        simp only at h
        by_cases hmem : x ∈ splice
        · simp only [hmem, if_true] at h
          cases hl : dependentsLoop invalidateSelector deps D.symbols (splice.erase x) with
          | none => rw [hl] at h; simp at h
          | some res =>
            obtain ⟨r, L1⟩ := res
            rw [hl] at h
            simp at h
            subst h
            obtain ⟨-, hfind⟩ := dependentsLoop_invalidate deps _ _ _ _ hl
            exact ⟨rfl, deps, splice, rfl, hsp, hmem, hfind⟩
        · simp [hmem] at h

/-- When `invalidate_dependents` throws, nothing was changed. -/
theorem invalidate_dependents_threw {fuel : Nat} {D d : DepSystem} {x : String} {e : Error}
    (h : invalidate_dependents fuel D x = Outcome.threw e d) : d = D := by
  unfold invalidate_dependents get_dependents_st at h
  cases hx : findSym D.symbols x with
  | none => rw [hx] at h; simp at h; exact h.2.symm
  | some sx =>
    rw [hx] at h
    simp only at h
    cases hd : get_dependents_recursive D fuel x with
    | none => rw [hd] at h; simp at h
    | some deps =>
      rw [hd] at h
      simp only at h
      cases hsp : spliceLoop D fuel [] deps with
      | none => rw [hsp] at h; simp at h
      | some splice =>
        rw [hsp] at h
        simp only at h
        by_cases hmem : x ∈ splice
        · simp only [hmem, if_true] at h
          cases hl : dependentsLoop invalidateSelector deps D.symbols (splice.erase x) with
          | none => rw [hl] at h; simp at h
          | some res =>
            obtain ⟨r, L1⟩ := res
            rw [hl] at h
            simp at h
        · simp [hmem] at h

/-- Whatever `invalidate_dependents` leaves behind differs from the start in states only. -/
theorem invalidate_dependents_after {fuel : Nat} {D D1 : DepSystem} {x : String}
    (h : (invalidate_dependents fuel D x).after = some D1) :
    D1.shadowers = D.shadowers ∧ StatesInvalidated D.symbols D1.symbols := by
  cases ho : invalidate_dependents fuel D x with
  | ok d =>
    rw [ho] at h
    simp [Outcome.after] at h
    subst h
    obtain ⟨hsh, deps, splice, -, -, -, hfind⟩ := invalidate_dependents_ok ho
    refine ⟨hsh, fun n => ?_⟩
    rw [hfind n]
    by_cases hc : n ∈ splice.erase x ∧ n ∈ deps
    · right; simp only [hc, and_self, if_true]
    · left
      simp only [hc, if_false]
      cases findSym D.symbols n <;> rfl
  | threw e d =>
    rw [ho] at h
    simp [Outcome.after] at h
    subst h
    have := invalidate_dependents_threw ho
    subst this
    exact ⟨rfl, StatesInvalidated.same _⟩
  | undefined =>
    rw [ho] at h
    simp [Outcome.after] at h

theorem Agree.put2 {β : Type} {p : Symbol → β} {L L1 : List Symbol} {s s1 : Symbol}
    (h : Agree p L L1) (hs : findSym L s1.name = some s) (hp : p s1 = p s) :
    Agree p L (putSym L1 s1) := by
  intro n
  rw [findSym_putSym]
  by_cases hn : s1.name = n
  · subst hn; simp [hs, hp]
  · simp only [hn, if_false]; exact h n

theorem shadowList_agree {name : String} {affected : Symbol} {st st1 : List Symbol × List String}
    {deplist : List String} (h : shadowList name affected st deplist = some st1) :
    Agree noRevLists st.1 st1.1 := by
  unfold shadowList at h
  split at h
  · cases h; exact Agree.refl _ _
  · split_ifs at h with hp
    · cases h; exact Agree.refl _ _
    · split at h
      · cases h; exact Agree.refl _ _
      · rename_i q rest2 hq
        cases hf : findSym st.1 q with
        | none => rw [hf] at h; simp at h
        | some shadowed =>
          rw [hf] at h
          simp only [Option.some.injEq] at h
          subst h
          have hn : shadowed.name = q := findSym_name hf
          exact Agree.put (s := shadowed) (by simpa [hn] using hf) rfl

theorem shadowOwner_agree {name : String} {st st1 : List Symbol × List String}
    {owner : String} (h : shadowOwner name st owner = some st1) :
    Agree noRevLists st.1 st1.1 := by
  unfold shadowOwner at h
  cases hf : findSym st.1 owner with
  | none => rw [hf] at h; simp at h
  | some affected =>
    rw [hf] at h
    simp only at h
    exact foldOpt_induct (fun t => Agree noRevLists st.1 t.1)
      (fun _ _ _ hs hx => hs.trans (shadowList_agree hx)) _ _ _ (Agree.refl _ _) h

theorem shadowLoop_agree {name : String} {L : List Symbol} {range : List String}
    {st : List Symbol × List String}
    (h : foldOpt (shadowOwner name) (L, []) range = some st) :
    Agree noRevLists L st.1 :=
  foldOpt_induct (fun t => Agree noRevLists L t.1)
    (fun _ _ _ hs hx => hs.trans (shadowOwner_agree hx)) _ _ _ (Agree.refl _ _) h

/-- What `add_set_symbol` leaves behind, by path. -/
theorem add_set_symbol_after {fuel : Nat} {D D1 : DepSystem} {name value : String}
    (h : (add_set_symbol fuel D name value).after = some D1) :
    (findSym D.symbols name = none ∧
      ∃ L1 r, Agree noRevLists D.symbols L1 ∧
        StatesInvalidated (insertSym L1 (freshSymbol name value r)) D1.symbols ∧
        D1.shadowers = D.shadowers.filter (fun e => decide (e.1 ≠ name))) ∨
    (D1 = D ∧ ∃ cur, findSym D.symbols name = some cur ∧ cur.value = value) ∨
    (∃ cur, findSym D.symbols name = some cur ∧ cur.value ≠ value ∧
      StatesInvalidated (putSym D.symbols (updatedSymbol D.symbols cur value)) D1.symbols ∧
      D1.shadowers = D.shadowers) := by
  unfold add_set_symbol at h
  cases hf : findSym D.symbols name with
  | none =>
    rw [hf] at h
    simp only at h
    left
    refine ⟨rfl, ?_⟩
    cases hl : foldOpt (shadowOwner name) (D.symbols, [])
        ((D.shadowers.filter (fun e => decide (e.1 = name))).map Prod.snd) with
    | none => rw [hl] at h; simp [Outcome.after] at h
    | some st =>
      rw [hl] at h
      simp only at h
      obtain ⟨hsh, hst⟩ := invalidate_dependents_after h
      exact ⟨st.1, st.2, shadowLoop_agree hl, hst, hsh⟩
  | some cur =>
    rw [hf] at h
    simp only at h
    right
    by_cases hv : cur.value = value
    · left
      simp [hv, Outcome.after] at h
      exact ⟨h.symm, cur, rfl, hv⟩
    · right
      simp only [hv, if_false] at h
      obtain ⟨hsh, hst⟩ := invalidate_dependents_after h
      exact ⟨cur, rfl, hv, hst, hsh⟩

theorem get_build_plan_threw {fuel : Nat} {D d : DepSystem} {x : String} {e : Error}
    (h : get_build_plan fuel D x = Outcome.threw e d) : d = D := by
  unfold get_build_plan at h
  cases hx : findSym D.symbols x with
  | none => rw [hx] at h; simp at h; exact h.2.symm
  | some sx =>
    rw [hx] at h
    simp only at h
    cases hd : get_dependencies_recursive D fuel sx [] with
    | none => rw [hd] at h; simp at h
    | some deps =>
      rw [hd] at h
      simp only at h
      cases hs : select_syms_with_states D deps [INVALID] with
      | none => rw [hs] at h; simp at h
      | some l =>
        rw [hs] at h
        cases l with
        | nil =>
          simp only at h
          cases hs2 : select_syms_with_states D deps [NONBUILT, STALE] with
          | none => rw [hs2] at h; simp at h
          | some l2 => rw [hs2] at h; simp at h
        | cons y ys => simp at h; exact h.2.symm

theorem buildStep_frame {st st1 : DepSystem × List (Nat × String × String)} {x : String}
    (h : buildStep st x = some st1) :
    st1.1.shadowers = st.1.shadowers ∧
      ∃ s, findSym st.1.symbols x = some s ∧
        st1.1.symbols = putSym st.1.symbols { s with state := VALID } := by
  unfold buildStep at h
  cases hf : findSym st.1.symbols x with
  | none => rw [hf] at h; simp at h
  | some s =>
    have hn : s.name = x := findSym_name hf
    subst hn
    rw [hf] at h
    simp only [set_state, hf] at h
    simp only [Option.some.injEq] at h
    subst h
    exact ⟨rfl, s, rfl, rfl⟩

/-- What `build_symbol` leaves behind: only states differ, and a changed state is VALID. -/
theorem build_symbol_after {fuel : Nat} {D D1 : DepSystem} {x : String}
    (h : (applyOp fuel D (Op.build_symbol x)).after = some D1) :
    D1.shadowers = D.shadowers ∧ Agree noState D.symbols D1.symbols ∧
      ∀ n s1, findSym D1.symbols n = some s1 → s1.state = VALID ∨ findSym D.symbols n = some s1 := by
  simp only [applyOp, build_symbol] at h
  cases hp : get_build_plan fuel D x with
  | threw e d =>
    rw [hp] at h
    simp [Outcome.after] at h
    subst h
    have := get_build_plan_threw hp
    subst this
    exact ⟨rfl, Agree.refl _ _, fun n s1 hs => Or.inr hs⟩
  | undefined => rw [hp] at h; simp [Outcome.after] at h
  | ok plan =>
    rw [hp] at h
    simp only at h
    cases hl : foldOpt buildStep (D, []) plan with
    | none => rw [hl] at h; simp [Outcome.after] at h
    | some r =>
      rw [hl] at h
      simp [Outcome.after] at h
      subst h
      refine foldOpt_induct (fun t => t.1.shadowers = D.shadowers ∧
          Agree noState D.symbols t.1.symbols ∧
          ∀ n s1, findSym t.1.symbols n = some s1 →
            s1.state = VALID ∨ findSym D.symbols n = some s1) ?_ _ _ _
        ⟨rfl, Agree.refl _ _, fun n s1 hs => Or.inr hs⟩ hl
      intro s y t ⟨h1, h2, h3⟩ hy
      obtain ⟨hsh, sy, hfy, hsyms⟩ := buildStep_frame hy
      refine ⟨hsh.trans h1, ?_, ?_⟩
      · rw [hsyms]
        exact h2.trans (Agree.put (s := sy) (by simpa [findSym_name hfy] using hfy) rfl)
      · intro n s1 hs1
        rw [hsyms, findSym_putSym] at hs1
        by_cases hn : sy.name = n
        · simp [hn] at hs1
          left; rw [← hs1]
        · simp [hn] at hs1
          exact h3 n s1 hs1

/-! ## Edge symmetry -/

theorem edgeSymmetric_iff (D : DepSystem) :
    EdgeSymmetric D ↔ ∀ b a, HasEdge D.symbols b a ↔ HasRev D.symbols a b := by
  constructor
  · intro h b a
    constructor
    · rintro ⟨sb, hsb, ha⟩
      exact (h b sb hsb).1 a ha
    · rintro ⟨sa, hsa, hb⟩
      exact (h a sa hsa).2 b hb
  · intro h b sb hsb
    exact ⟨fun a ha => (h b a).1 ⟨sb, hsb, ha⟩, fun a ha => (h a b).2 ⟨sb, hsb, ha⟩⟩

theorem hasEdge_agree {L L1 : List Symbol} (h : Agree edgesOf L L1) (b a : String) :
    HasEdge L1 b a ↔ HasEdge L b a := by
  constructor
  · rintro ⟨sb, hsb, ha⟩
    obtain ⟨s, hs, hp⟩ := h.find hsb
    have : sb.dependency_edges = s.dependency_edges := congrArg Prod.fst hp
    exact ⟨s, hs, this ▸ ha⟩
  · rintro ⟨sb, hsb, ha⟩
    obtain ⟨s, hs, hp⟩ := h.find_rev hsb
    have : s.dependency_edges = sb.dependency_edges := congrArg Prod.fst hp
    exact ⟨s, hs, this ▸ ha⟩

theorem hasRev_agree {L L1 : List Symbol} (h : Agree edgesOf L L1) (a b : String) :
    HasRev L1 a b ↔ HasRev L a b := by
  constructor
  · rintro ⟨sb, hsb, ha⟩
    obtain ⟨s, hs, hp⟩ := h.find hsb
    have : sb.reverse_dependency_edges = s.reverse_dependency_edges := congrArg Prod.snd hp
    exact ⟨s, hs, this ▸ ha⟩
  · rintro ⟨sb, hsb, ha⟩
    obtain ⟨s, hs, hp⟩ := h.find_rev hsb
    have : s.reverse_dependency_edges = sb.reverse_dependency_edges := congrArg Prod.snd hp
    exact ⟨s, hs, this ▸ ha⟩

theorem edgeInv_of_same {L L1 : List Symbol} (h1 : ∀ b a, HasEdge L1 b a ↔ HasEdge L b a)
    (h2 : ∀ a b, HasRev L1 a b ↔ HasRev L a b) (h : EdgeInv L) : EdgeInv L1 :=
  ⟨fun b a => by rw [h1, h2]; exact h.1 b a, fun b => by rw [h1]; exact h.2 b⟩

theorem edgeInv_agree {L L1 : List Symbol} (ha : Agree edgesOf L L1) (h : EdgeInv L) :
    EdgeInv L1 :=
  edgeInv_of_same (hasEdge_agree ha) (hasRev_agree ha) h

theorem edgeInv_nil : EdgeInv [] :=
  ⟨fun b a => ⟨fun ⟨_, h, _⟩ => by simp [findSym] at h, fun ⟨_, h, _⟩ => by simp [findSym] at h⟩,
    fun b ⟨_, h, _⟩ => by simp [findSym] at h⟩

theorem edgeInv_insert {L : List Symbol} {s : Symbol} (hnew : findSym L s.name = none)
    (hd : s.dependency_edges = []) (hr : s.reverse_dependency_edges = []) (h : EdgeInv L) :
    EdgeInv (insertSym L s) := by
  refine edgeInv_of_same ?_ ?_ h
  · intro b a
    unfold HasEdge
    rw [findSym_insertSym hnew]
    by_cases hb : s.name = b
    · subst hb; simp [hd, hnew]
    · simp [hb]
  · intro a b
    unfold HasRev
    rw [findSym_insertSym hnew]
    by_cases hb : s.name = a
    · subst hb; simp [hr, hnew]
    · simp [hb]

/-- The edges after removing the edge `f → t` on both sides. -/
theorem edgeInv_remove {L L1 : List Symbol} {f t : String}
    (h1 : ∀ b a, HasEdge L1 b a ↔ HasEdge L b a ∧ ¬ (b = f ∧ a = t))
    (h2 : ∀ a b, HasRev L1 a b ↔ HasRev L a b ∧ ¬ (a = t ∧ b = f)) (h : EdgeInv L) :
    EdgeInv L1 := by
  refine ⟨fun b a => ?_, fun b hb => h.2 b ((h1 b b).1 hb).1⟩
  rw [h1, h2, h.1 b a]
  constructor
  · rintro ⟨hr, hne⟩; exact ⟨hr, fun ⟨e1, e2⟩ => hne ⟨e2, e1⟩⟩
  · rintro ⟨hr, hne⟩; exact ⟨hr, fun ⟨e1, e2⟩ => hne ⟨e2, e1⟩⟩

/-- The edges after adding the edge `f → t`, `f ≠ t`, on both sides. -/
theorem edgeInv_add {L L1 : List Symbol} {f t : String} (hft : f ≠ t)
    (h1 : ∀ b a, HasEdge L1 b a ↔ HasEdge L b a ∨ (b = f ∧ a = t))
    (h2 : ∀ a b, HasRev L1 a b ↔ HasRev L a b ∨ (a = t ∧ b = f)) (h : EdgeInv L) :
    EdgeInv L1 := by
  refine ⟨fun b a => ?_, fun b hb => ?_⟩
  · rw [h1, h2, h.1 b a]
    constructor
    · rintro (hr | ⟨e1, e2⟩)
      · exact Or.inl hr
      · exact Or.inr ⟨e2, e1⟩
    · rintro (hr | ⟨e1, e2⟩)
      · exact Or.inl hr
      · exact Or.inr ⟨e2, e1⟩
  · rcases (h1 b b).1 hb with hb1 | ⟨e1, e2⟩
    · exact h.2 b hb1
    · exact hft (e1.symm.trans e2)

/-- What `delete_dependency` does to the records. -/
theorem delete_dependency_ok {D D1 : DepSystem} {f t : String}
    (h : delete_dependency D f t = Outcome.ok D1) :
    D1.shadowers = D.shadowers ∧
    ∃ F T, findSym D.symbols f = some F ∧ findSym D.symbols t = some T ∧
      ∀ n, findSym D1.symbols n =
        if t = n then
          some { T with reverse_dependency_edges := setErase f T.reverse_dependency_edges }
        else if f = n then some { F with dependency_edges := setErase t F.dependency_edges }
        else findSym D.symbols n := by
  unfold delete_dependency at h
  cases hF : findSym D.symbols f with
  | none => rw [hF] at h; simp at h
  | some F =>
    rw [hF] at h
    simp only at h
    cases hT : findSym D.symbols t with
    | none => rw [hT] at h; simp at h
    | some T =>
      rw [hT] at h
      simp only [Outcome.ok.injEq] at h
      subst h
      refine ⟨rfl, F, T, rfl, rfl, fun n => ?_⟩
      simp only [findSym_putSym, findSym_name hF, findSym_name hT]

theorem delete_dependency_threw {D d : DepSystem} {f t : String} {e : Error}
    (h : delete_dependency D f t = Outcome.threw e d) : d = D := by
  unfold delete_dependency at h
  cases hF : findSym D.symbols f with
  | none => rw [hF] at h; simp at h; exact h.2.symm
  | some F =>
    rw [hF] at h
    simp only at h
    cases hT : findSym D.symbols t with
    | none => rw [hT] at h; simp at h; exact h.2.symm
    | some T => rw [hT] at h; simp at h

theorem delete_dependency_ne_undefined (D : DepSystem) (f t : String) :
    delete_dependency D f t ≠ Outcome.undefined := by
  unfold delete_dependency
  cases findSym D.symbols f with
  | none => simp
  | some F =>
    cases findSym D.symbols t with
    | none => simp
    | some T => simp

theorem edgeInv_delete_dependency {D D1 : DepSystem} {f t : String}
    (h : delete_dependency D f t = Outcome.ok D1) (hinv : EdgeInv D.symbols) :
    EdgeInv D1.symbols := by
  obtain ⟨-, F, T, hF, hT, hfind⟩ := delete_dependency_ok h
  have hnoself : ∀ b, ¬ HasRev D.symbols b b := fun b hb => hinv.2 b ((hinv.1 b b).2 hb)
  refine edgeInv_remove (f := f) (t := t) ?_ ?_ hinv
  · intro b a
    unfold HasEdge
    rw [hfind b]
    by_cases htb : t = b
    · subst htb
      simp only [if_true]
      constructor
      · rintro ⟨sb, hsb, ha⟩
        cases hsb
        refine ⟨⟨T, hT, ha⟩, ?_⟩
        rintro ⟨e1, e2⟩
        subst e2
        exact hinv.2 _ ⟨T, hT, ha⟩
      · rintro ⟨⟨sb, hsb, ha⟩, -⟩
        rw [hT] at hsb; cases hsb
        exact ⟨_, rfl, ha⟩
    · simp only [htb, if_false]
      by_cases hfb : f = b
      · subst hfb
        simp only [if_true]
        constructor
        · rintro ⟨sb, hsb, ha⟩
          cases hsb
          simp only [mem_setErase] at ha
          exact ⟨⟨F, hF, ha.1⟩, fun e => ha.2 e.2⟩
        · rintro ⟨⟨sb, hsb, ha⟩, hne⟩
          rw [hF] at hsb; cases hsb
          exact ⟨_, rfl, by simp only [mem_setErase]; exact ⟨ha, fun e => hne ⟨trivial, e⟩⟩⟩
      · simp only [hfb, if_false]
        constructor
        · rintro ⟨sb, hsb, ha⟩
          exact ⟨⟨sb, hsb, ha⟩, fun e => hfb e.1.symm⟩
        · rintro ⟨hx, -⟩; exact hx
  · intro a b
    unfold HasRev
    rw [hfind a]
    by_cases hta : t = a
    · subst hta
      simp only [if_true]
      constructor
      · rintro ⟨sb, hsb, ha⟩
        cases hsb
        simp only [mem_setErase] at ha
        exact ⟨⟨T, hT, ha.1⟩, fun e => ha.2 e.2⟩
      · rintro ⟨⟨sb, hsb, ha⟩, hne⟩
        rw [hT] at hsb; cases hsb
        exact ⟨_, rfl, by simp only [mem_setErase]; exact ⟨ha, fun e => hne ⟨trivial, e⟩⟩⟩
    · simp only [hta, if_false]
      by_cases hfa : f = a
      · subst hfa
        simp only [if_true]
        constructor
        · rintro ⟨sb, hsb, ha⟩
          cases hsb
          exact ⟨⟨F, hF, ha⟩, fun e => hta e.1.symm⟩
        · rintro ⟨⟨sb, hsb, ha⟩, -⟩
          rw [hF] at hsb; cases hsb
          exact ⟨_, rfl, ha⟩
      · simp only [hfa, if_false]
        constructor
        · rintro ⟨sb, hsb, ha⟩
          exact ⟨⟨sb, hsb, ha⟩, fun e => hta e.1.symm⟩
        · rintro ⟨hx, -⟩; exact hx

theorem detect_cycle_self (D : DepSystem) (fuel : Nat) (s : String) :
    detect_cycle D fuel s s ≠ some false := by
  cases fuel with
  | zero => simp [detect_cycle]
  | succ k => simp [detect_cycle]

/-- The paths of `add_dependency`. -/
theorem add_dependency_cases {fuel : Nat} {D D1 : DepSystem} {f t : String}
    (h : (add_dependency fuel D f t).after = some D1) :
    D1 = D ∨ ∃ F T, findSym D.symbols f = some F ∧ findSym D.symbols t = some T ∧
      ((detect_cycle (withEdge D F T f t) fuel t f = some false ∧ D1 = withEdge D F T f t ∧
          add_dependency fuel D f t = Outcome.ok D1) ∨
        (detect_cycle (withEdge D F T f t) fuel t f = some true ∧
          delete_dependency (withEdge D F T f t) f t = Outcome.ok D1 ∧
          add_dependency fuel D f t = Outcome.threw Error.CyclicDependency D1)) := by
  unfold add_dependency at h
  cases hF : findSym D.symbols f with
  | none => rw [hF] at h; simp [Outcome.after] at h; exact Or.inl h.symm
  | some F =>
    rw [hF] at h
    simp only at h
    cases hT : findSym D.symbols t with
    | none => rw [hT] at h; simp [Outcome.after] at h; exact Or.inl h.symm
    | some T =>
      rw [hT] at h
      simp only at h
      right
      refine ⟨F, T, rfl, rfl, ?_⟩
      change (match detect_cycle (withEdge D F T f t) fuel t f with
        | none => Outcome.undefined
        | some false => Outcome.ok (withEdge D F T f t)
        | some true =>
          match delete_dependency (withEdge D F T f t) f t with
          | Outcome.ok D2 => Outcome.threw Error.CyclicDependency D2
          | other => other).after = some D1 at h
      have hgoal : add_dependency fuel D f t = (match detect_cycle (withEdge D F T f t) fuel t f with
        | none => Outcome.undefined
        | some false => Outcome.ok (withEdge D F T f t)
        | some true =>
          match delete_dependency (withEdge D F T f t) f t with
          | Outcome.ok D2 => Outcome.threw Error.CyclicDependency D2
          | other => other) := by
        unfold add_dependency
        rw [hF, hT]
        rfl
      rw [hgoal]
      cases hd : detect_cycle (withEdge D F T f t) fuel t f with
      | none => rw [hd] at h; simp [Outcome.after] at h
      | some b =>
        rw [hd] at h
        cases b with
        | false =>
          simp [Outcome.after] at h
          exact Or.inl ⟨rfl, h.symm, by rw [h]⟩
        | true =>
          simp only at h
          right
          cases hdel : delete_dependency (withEdge D F T f t) f t with
          | ok D2 =>
            rw [hdel] at h
            simp [Outcome.after] at h
            subst h
            exact ⟨rfl, rfl, rfl⟩
          | threw e d =>
            exfalso
            unfold delete_dependency at hdel
            have h1 : findSym (withEdge D F T f t).symbols f ≠ none := by
              simp only [withEdge, findSym_putSym, findSym_name hF, findSym_name hT]
              split_ifs <;> simp [hF]
            have h2 : findSym (withEdge D F T f t).symbols t ≠ none := by
              simp only [withEdge, findSym_putSym, findSym_name hF, findSym_name hT]
              simp
            cases h3 : findSym (withEdge D F T f t).symbols f with
            | none => exact h1 h3
            | some x =>
              cases h4 : findSym (withEdge D F T f t).symbols t with
              | none => exact h2 h4
              | some y => rw [h3, h4] at hdel; simp at hdel
          | undefined => exact absurd hdel (delete_dependency_ne_undefined _ _ _)

theorem findSym_withEdge {D : DepSystem} {F T : Symbol} {f t : String}
    (hF : findSym D.symbols f = some F) (hT : findSym D.symbols t = some T) (n : String) :
    findSym (withEdge D F T f t).symbols n =
      if t = n then
        some { T with reverse_dependency_edges := setInsert f T.reverse_dependency_edges }
      else if f = n then some { F with dependency_edges := setInsert t F.dependency_edges }
      else findSym D.symbols n := by
  simp only [withEdge, findSym_putSym, findSym_name hF, findSym_name hT]

theorem edgeInv_withEdge {D : DepSystem} {F T : Symbol} {f t : String}
    (hF : findSym D.symbols f = some F) (hT : findSym D.symbols t = some T) (hft : f ≠ t)
    (hinv : EdgeInv D.symbols) : EdgeInv (withEdge D F T f t).symbols := by
  have htf : ¬ t = f := fun e => hft e.symm
  refine edgeInv_add (f := f) (t := t) hft ?_ ?_ hinv
  · intro b a
    unfold HasEdge
    rw [findSym_withEdge hF hT]
    by_cases htb : t = b
    · subst htb
      simp only [if_true]
      constructor
      · rintro ⟨sb, hsb, ha⟩
        cases hsb
        exact Or.inl ⟨T, hT, ha⟩
      · rintro (⟨sb, hsb, ha⟩ | ⟨e, -⟩)
        · rw [hT] at hsb; cases hsb
          exact ⟨_, rfl, ha⟩
        · exact absurd e htf
    · simp only [htb, if_false]
      by_cases hfb : f = b
      · subst hfb
        simp only [if_true]
        constructor
        · rintro ⟨sb, hsb, ha⟩
          cases hsb
          simp only [mem_setInsert] at ha
          rcases ha with ha | ha
          · exact Or.inr ⟨trivial, ha⟩
          · exact Or.inl ⟨F, hF, ha⟩
        · rintro (⟨sb, hsb, ha⟩ | ⟨-, e⟩)
          · rw [hF] at hsb; cases hsb
            exact ⟨_, rfl, by simp only [mem_setInsert]; exact Or.inr ha⟩
          · exact ⟨_, rfl, by simp only [mem_setInsert]; exact Or.inl e⟩
      · simp only [hfb, if_false]
        constructor
        · exact Or.inl
        · rintro (hx | ⟨e, -⟩)
          · exact hx
          · exact absurd e.symm hfb
  · intro a b
    unfold HasRev
    rw [findSym_withEdge hF hT]
    by_cases hta : t = a
    · subst hta
      simp only [if_true]
      constructor
      · rintro ⟨sb, hsb, ha⟩
        cases hsb
        simp only [mem_setInsert] at ha
        rcases ha with ha | ha
        · exact Or.inr ⟨trivial, ha⟩
        · exact Or.inl ⟨T, hT, ha⟩
      · rintro (⟨sb, hsb, ha⟩ | ⟨-, e⟩)
        · rw [hT] at hsb; cases hsb
          exact ⟨_, rfl, by simp only [mem_setInsert]; exact Or.inr ha⟩
        · exact ⟨_, rfl, by simp only [mem_setInsert]; exact Or.inl e⟩
    · simp only [hta, if_false]
      by_cases hfa : f = a
      · subst hfa
        simp only [if_true]
        constructor
        · rintro ⟨sb, hsb, ha⟩
          cases hsb
          exact Or.inl ⟨F, hF, ha⟩
        · rintro (⟨sb, hsb, ha⟩ | ⟨e, -⟩)
          · rw [hF] at hsb; cases hsb
            exact ⟨_, rfl, ha⟩
          · exact absurd e.symm hta
      · simp only [hfa, if_false]
        constructor
        · exact Or.inl
        · rintro (hx | ⟨e, -⟩)
          · exact hx
          · exact absurd e.symm hta

theorem edgeInv_add_dependency {fuel : Nat} {D D1 : DepSystem} {f t : String}
    (h : (add_dependency fuel D f t).after = some D1) (hinv : EdgeInv D.symbols) :
    EdgeInv D1.symbols := by
  rcases add_dependency_cases h with rfl | ⟨F, T, hF, hT, hc⟩
  · exact hinv
  · by_cases hft : f = t
    · subst hft
      rw [hF] at hT; cases hT
      rcases hc with ⟨hd, -, -⟩ | ⟨-, hdel, -⟩
      · exact absurd hd (detect_cycle_self _ _ _)
      · obtain ⟨-, F2, T2, hF2, hT2, hfind⟩ := delete_dependency_ok hdel
        rw [hF2] at hT2; cases hT2
        rw [findSym_withEdge hF hF] at hF2
        simp only [if_true, Option.some.injEq] at hF2
        subst hF2
        have hself : f ∉ F.reverse_dependency_edges := fun hm =>
          hinv.2 f ((hinv.1 f f).2 ⟨F, hF, hm⟩)
        refine edgeInv_of_same ?_ ?_ hinv
        · intro b a
          unfold HasEdge
          rw [hfind b]
          by_cases hb : f = b
          · subst hb
            simp only [if_true]
            constructor
            · rintro ⟨sb, hsb, ha⟩
              cases hsb
              exact ⟨F, hF, ha⟩
            · rintro ⟨sb, hsb, ha⟩
              rw [hF] at hsb; cases hsb
              exact ⟨_, rfl, ha⟩
          · simp only [hb, if_false]
            rw [findSym_withEdge hF hF]
            simp only [hb, if_false]
        · intro a b
          unfold HasRev
          rw [hfind a]
          by_cases ha : f = a
          · subst ha
            simp only [if_true]
            constructor
            · rintro ⟨sb, hsb, hm⟩
              cases hsb
              simp only [mem_setErase, mem_setInsert] at hm
              rcases hm with ⟨hm | hm, hne⟩
              · exact absurd hm hne
              · exact ⟨F, hF, hm⟩
            · rintro ⟨sb, hsb, hm⟩
              rw [hF] at hsb; cases hsb
              refine ⟨_, rfl, ?_⟩
              simp only [mem_setErase, mem_setInsert]
              exact ⟨Or.inr hm, fun e => hself (e ▸ hm)⟩
          · simp only [ha, if_false]
            rw [findSym_withEdge hF hF]
            simp only [ha, if_false]
    · have hmid := edgeInv_withEdge hF hT hft hinv
      rcases hc with ⟨-, rfl, -⟩ | ⟨-, hdel, -⟩
      · exact hmid
      · exact edgeInv_delete_dependency hdel hmid

/-- A loop that rewrites the record of each listed name with an idempotent `g`. -/
theorem foldOpt_modify (g : Symbol → Symbol) (hname : ∀ s, (g s).name = s.name)
    (hidem : ∀ s, g (g s) = g s) (step : List Symbol → String → Option (List Symbol))
    (hstep : ∀ syms k, step syms k =
      match findSym syms k with
      | none => none
      | some s => some (putSym syms (g s))) :
    ∀ (ks : List String) (L L1 : List Symbol), foldOpt step L ks = some L1 →
      (∀ k ∈ ks, countSym L k = true) ∧
      ∀ n, findSym L1 n = (findSym L n).map (fun s => if n ∈ ks then g s else s) := by
  intro ks
  induction ks with
  | nil =>
    intro L L1 h
    simp [foldOpt] at h
    subst h
    refine ⟨by simp, fun n => ?_⟩
    cases findSym L n <;> simp
  | cons k ks ih =>
    intro L L1 h
    unfold foldOpt at h
    rw [hstep] at h
    cases hk : findSym L k with
    | none => rw [hk] at h; simp at h
    | some s =>
      rw [hk] at h
      simp only at h
      obtain ⟨hex, hfind⟩ := ih _ _ h
      have hsn : s.name = k := findSym_name hk
      refine ⟨?_, fun n => ?_⟩
      · intro k2 hk2
        rcases List.mem_cons.1 hk2 with rfl | hk2
        · exact countSym_eq_true.2 ⟨s, hk⟩
        · have := hex k2 hk2
          rw [countSym_putSym] at this
          rcases Bool.or_eq_true_iff.1 this with e | e
          · have e2 : (g s).name = k2 := by simpa using e
            rw [hname, hsn] at e2
            subst e2
            exact countSym_eq_true.2 ⟨s, hk⟩
          · exact e
      · rw [hfind n, findSym_putSym, hname, hsn]
        by_cases hn : k = n
        · subst hn
          simp only [if_true, hk, Option.map_some', List.mem_cons, true_or]
          by_cases hks : k ∈ ks
          · simp [hks, hidem]
          · simp [hks]
        · have hn2 : ¬ n = k := fun e => hn e.symm
          simp only [hn, if_false, List.mem_cons, hn2, false_or]

/-- What `delete_symbol` does to the records, when it returns. -/
theorem delete_symbol_ok {D D1 : DepSystem} {name : String}
    (h : delete_symbol D name = Outcome.ok D1) :
    ∃ td, findSym D.symbols name = some td ∧
      (∀ k ∈ td.dependency_edges, k ≠ name ∧ countSym D.symbols k = true) ∧
      (∀ k ∈ td.reverse_dependency_edges, k ≠ name ∧ countSym D.symbols k = true) ∧
      foldOpt (reshadow name D1.symbols) D.shadowers td.reverse_dependency_list_set
        = some D1.shadowers ∧
      ∀ n, findSym D1.symbols n =
        if name = n then none
        else (findSym D.symbols n).map (fun s =>
          let s1 : Symbol :=
            if n ∈ td.dependency_edges then
              { s with reverse_dependency_edges := setErase name s.reverse_dependency_edges }
            else s
          if n ∈ td.reverse_dependency_edges then
            { s1 with dependency_edges := setErase name s1.dependency_edges }
          else s1) := by
  unfold delete_symbol at h
  cases htd : findSym D.symbols name with
  | none => rw [htd] at h; simp at h
  | some td =>
    rw [htd] at h
    simp only at h
    cases h1 : foldOpt (dropReverseEdge name) (eraseSym D.symbols name) td.dependency_edges with
    | none => rw [h1] at h; simp at h
    | some syms1 =>
      rw [h1] at h
      simp only at h
      cases h2 : foldOpt (dropEdge name) syms1 td.reverse_dependency_edges with
      | none => rw [h2] at h; simp at h
      | some syms2 =>
        rw [h2] at h
        simp only at h
        cases h3 : foldOpt (reshadow name syms2) D.shadowers td.reverse_dependency_list_set with
        | none => rw [h3] at h; simp at h
        | some sh =>
          rw [h3] at h
          simp only [Outcome.ok.injEq] at h
          subst h
          obtain ⟨hex1, hf1⟩ := foldOpt_modify
            (fun s => { s with
              reverse_dependency_edges := setErase name s.reverse_dependency_edges })
            (fun _ => rfl)
            (fun s => by
              simp only
              rw [setErase_of_not_mem (x := name)
                (s := setErase name s.reverse_dependency_edges)]
              simp [mem_setErase])
            (dropReverseEdge name) (fun _ _ => rfl) _ _ _ h1
          obtain ⟨hex2, hf2⟩ := foldOpt_modify
            (fun s => { s with dependency_edges := setErase name s.dependency_edges })
            (fun _ => rfl)
            (fun s => by
              simp only
              rw [setErase_of_not_mem (x := name) (s := setErase name s.dependency_edges)]
              simp [mem_setErase])
            (dropEdge name) (fun _ _ => rfl) _ _ _ h2
          have hcount0 : ∀ k, countSym (eraseSym D.symbols name) k = true →
              k ≠ name ∧ countSym D.symbols k = true := by
            intro k hk
            simp only [countSym, findSym_eraseSym] at hk
            by_cases e : name = k
            · simp [e] at hk
            · simp only [e, if_false] at hk
              exact ⟨fun e2 => e e2.symm, hk⟩
          have hcount1 : ∀ k, countSym syms1 k = countSym (eraseSym D.symbols name) k := by
            intro k
            simp only [countSym, hf1 k]
            cases findSym (eraseSym D.symbols name) k <;> simp
          refine ⟨td, rfl, fun k hk => hcount0 k (hex1 k hk),
            fun k hk => hcount0 k ((hcount1 k) ▸ hex2 k hk), h3, fun n => ?_⟩
          simp only
          rw [hf2 n, hf1 n, findSym_eraseSym]
          by_cases hn : name = n
          · simp [hn]
          · simp only [hn, if_false]
            cases findSym D.symbols n with
            | none => simp
            | some s =>
              simp only [Option.map_some']

theorem delete_symbol_threw {D d : DepSystem} {name : String} {e : Error}
    (h : delete_symbol D name = Outcome.threw e d) : d = D := by
  unfold delete_symbol at h
  cases htd : findSym D.symbols name with
  | none => rw [htd] at h; simp at h; exact h.2.symm
  | some td =>
    rw [htd] at h
    simp only at h
    cases h1 : foldOpt (dropReverseEdge name) (eraseSym D.symbols name) td.dependency_edges with
    | none => rw [h1] at h; simp at h
    | some syms1 =>
      rw [h1] at h
      simp only at h
      cases h2 : foldOpt (dropEdge name) syms1 td.reverse_dependency_edges with
      | none => rw [h2] at h; simp at h
      | some syms2 =>
        rw [h2] at h
        simp only at h
        cases h3 : foldOpt (reshadow name syms2) D.shadowers td.reverse_dependency_list_set with
        | none => rw [h3] at h; simp at h
        | some sh => rw [h3] at h; simp at h

theorem edgeInv_delete_symbol {D D1 : DepSystem} {name : String}
    (h : delete_symbol D name = Outcome.ok D1) (hinv : EdgeInv D.symbols) :
    EdgeInv D1.symbols := by
  obtain ⟨td, htd, -, -, -, hfind⟩ := delete_symbol_ok h
  have hE : ∀ b a, HasEdge D1.symbols b a ↔ HasEdge D.symbols b a ∧ b ≠ name ∧ a ≠ name := by
    intro b a
    unfold HasEdge
    rw [hfind b]
    by_cases hb : name = b
    · subst hb; simp
    · simp only [hb, if_false]
      have hb2 : b ≠ name := fun e => hb e.symm
      cases hsb : findSym D.symbols b with
      | none => simp
      | some s =>
        simp only [Option.map_some', Option.some.injEq, exists_eq_left']
        have key : b ∈ td.reverse_dependency_edges ↔ name ∈ s.dependency_edges := by
          constructor
          · intro hm
            obtain ⟨s2, hs2, hm2⟩ := (hinv.1 b name).2 ⟨td, htd, hm⟩
            rw [hsb] at hs2; cases hs2; exact hm2
          · intro hm
            obtain ⟨s2, hs2, hm2⟩ := (hinv.1 b name).1 ⟨s, hsb, hm⟩
            rw [htd] at hs2; cases hs2; exact hm2
        by_cases h1 : b ∈ td.dependency_edges <;> by_cases h2 : b ∈ td.reverse_dependency_edges
        all_goals simp only [h1, h2, if_true, if_false, mem_setErase]
        all_goals constructor
        all_goals first
          | (rintro ⟨hm, hne⟩; exact ⟨hm, hb2, hne⟩)
          | (rintro ⟨hm, -, hne⟩; exact ⟨hm, hne⟩)
          | (intro hm; exact ⟨hm, hb2, fun e => h2 (key.2 (e ▸ hm))⟩)
          | (rintro ⟨hm, -, -⟩; exact hm)
  have hR : ∀ a b, HasRev D1.symbols a b ↔ HasRev D.symbols a b ∧ a ≠ name ∧ b ≠ name := by
    intro a b
    unfold HasRev
    rw [hfind a]
    by_cases ha : name = a
    · subst ha; simp
    · simp only [ha, if_false]
      have ha2 : a ≠ name := fun e => ha e.symm
      cases hsa : findSym D.symbols a with
      | none => simp
      | some s =>
        simp only [Option.map_some', Option.some.injEq, exists_eq_left']
        have key : a ∈ td.dependency_edges ↔ name ∈ s.reverse_dependency_edges := by
          constructor
          · intro hm
            obtain ⟨s2, hs2, hm2⟩ := (hinv.1 name a).1 ⟨td, htd, hm⟩
            rw [hsa] at hs2; cases hs2; exact hm2
          · intro hm
            obtain ⟨s2, hs2, hm2⟩ := (hinv.1 name a).2 ⟨s, hsa, hm⟩
            rw [htd] at hs2; cases hs2; exact hm2
        by_cases h1 : a ∈ td.dependency_edges <;> by_cases h2 : a ∈ td.reverse_dependency_edges
        all_goals simp only [h1, h2, if_true, if_false, mem_setErase]
        all_goals constructor
        all_goals first
          | (rintro ⟨hm, hne⟩; exact ⟨hm, ha2, hne⟩)
          | (rintro ⟨hm, -, hne⟩; exact ⟨hm, hne⟩)
          | (intro hm; exact ⟨hm, ha2, fun e => h1 (key.2 (e ▸ hm))⟩)
          | (rintro ⟨hm, -, -⟩; exact hm)
  refine ⟨fun b a => ?_, fun b hb => hinv.2 b ((hE b b).1 hb).1⟩
  rw [hE, hR, hinv.1 b a]
  tauto

theorem set_state_after {D D1 : DepSystem} {n : String} {st : Symbol_State}
    (h : (set_state D n st).after = some D1) :
    D1.shadowers = D.shadowers ∧
      (D1 = D ∨ ∃ s, findSym D.symbols n = some s ∧
        D1.symbols = putSym D.symbols { s with state := st }) := by
  unfold set_state at h
  cases hf : findSym D.symbols n with
  | none => rw [hf] at h; simp [Outcome.after] at h; subst h; exact ⟨rfl, Or.inl rfl⟩
  | some s =>
    rw [hf] at h
    simp [Outcome.after] at h
    subst h
    exact ⟨rfl, Or.inr ⟨s, rfl, rfl⟩⟩

theorem set_callback_after {D D1 : DepSystem} {n : String} {c : Option Nat}
    (h : (set_callback D n c).after = some D1) :
    D1.shadowers = D.shadowers ∧
      (D1 = D ∨ ∃ s, findSym D.symbols n = some s ∧
        D1.symbols = putSym D.symbols { s with callback := c }) := by
  unfold set_callback at h
  cases hf : findSym D.symbols n with
  | none => rw [hf] at h; simp [Outcome.after] at h; subst h; exact ⟨rfl, Or.inl rfl⟩
  | some s =>
    rw [hf] at h
    simp [Outcome.after] at h
    subst h
    exact ⟨rfl, Or.inr ⟨s, rfl, rfl⟩⟩

/-- What `add_dependency_list` leaves behind. -/
theorem add_dependency_list_after {D D1 : DepSystem} {l : List String} {t : String}
    (h : (add_dependency_list D l t).after = some D1) :
    D1 = D ∨ (∃ T, findSym D.symbols t = some T ∧
      D1.shadowers = D.shadowers ++ (shadowingNames D.symbols l).map (fun i => (i, t)) ∧
      Agree noLists D.symbols D1.symbols ∧
      ∀ n s1, findSym D1.symbols n = some s1 → ∃ s, findSym D.symbols n = some s ∧
        s1.dependency_list_list =
          if n = t then s.dependency_list_list ++ [l] else s.dependency_list_list) := by
  unfold add_dependency_list at h
  cases hT : findSym D.symbols t with
  | none => rw [hT] at h; simp [Outcome.after] at h; exact Or.inl h.symm
  | some T =>
    rw [hT] at h
    simp only at h
    have hTn : T.name = t := findSym_name hT
    right
    refine ⟨T, rfl, ?_⟩
    split_ifs at h with hfe
    · cases hs : findSym D.symbols ((firstExisting D.symbols l).getD "") with
      | none => rw [hs] at h; simp [Outcome.after] at h
      | some sym =>
        rw [hs] at h
        simp [Outcome.after] at h
        subst h
        have hsn : sym.name = (firstExisting D.symbols l).getD "" := findSym_name hs
        refine ⟨rfl, ?_, ?_⟩
        · refine Agree.put2 (Agree.put (s := sym) ?_ rfl) (s := T) ?_ rfl
          · simpa [hsn] using hs
          · simpa [hTn] using hT
        · intro n s1 hs1
          simp only [findSym_putSym, hTn, hsn] at hs1
          by_cases hn : t = n
          · subst hn
            simp at hs1
            subst hs1
            exact ⟨T, hT, by simp⟩
          · have hn2 : ¬ n = t := fun e => hn e.symm
            simp only [hn, if_false] at hs1
            by_cases hn3 : (firstExisting D.symbols l).getD "" = n
            · simp only [hn3, if_true, Option.some.injEq] at hs1
              subst hs1
              exact ⟨sym, by rw [← hn3]; exact hs, by simp [hn2]⟩
            · simp only [hn3, if_false] at hs1
              exact ⟨s1, hs1, by simp [hn2]⟩
    · simp [Outcome.after] at h
      subst h
      refine ⟨rfl, ?_, ?_⟩
      · exact Agree.put (s := T) (by simpa [hTn] using hT) rfl
      · intro n s1 hs1
        simp only [findSym_putSym, hTn] at hs1
        by_cases hn : t = n
        · subst hn
          simp at hs1
          subst hs1
          exact ⟨T, hT, by simp⟩
        · have hn2 : ¬ n = t := fun e => hn e.symm
          simp only [hn, if_false] at hs1
          exact ⟨s1, hs1, by simp [hn2]⟩

/-- What `delete_dependency_list` leaves behind. -/
theorem delete_dependency_list_after {D D1 : DepSystem} {i : Int} {t : String}
    (h : (delete_dependency_list D i t).after = some D1) :
    D1 = D ∨ (∃ T, findSym D.symbols t = some T ∧
      D1.shadowers = D.shadowers ∧
      Agree noLists D.symbols D1.symbols ∧
      ∀ n s1, findSym D1.symbols n = some s1 → ∃ s, findSym D.symbols n = some s ∧
        s1.dependency_list_list =
          if n = t then s.dependency_list_list.eraseIdx i.toNat
          else s.dependency_list_list) := by
  unfold delete_dependency_list at h
  cases hT : findSym D.symbols t with
  | none => rw [hT] at h; simp [Outcome.after] at h; exact Or.inl h.symm
  | some T =>
    rw [hT] at h
    simp only at h
    have hTn : T.name = t := findSym_name hT
    by_cases hidx : i < 0 ∨ i ≥ (T.dependency_list_list.length : Int)
    · simp only [hidx, if_true, Outcome.after] at h
      simp at h
      exact Or.inl h.symm
    · simp only [hidx, if_false] at h
      right
      refine ⟨T, rfl, ?_⟩
      have plain : ∀ D2 : DepSystem,
          D2 = { D with symbols := (putSym D.symbols
            { T with dependency_list_list := T.dependency_list_list.eraseIdx i.toNat }) } →
          D2.shadowers = D.shadowers ∧ Agree noLists D.symbols D2.symbols ∧
          ∀ n s1, findSym D2.symbols n = some s1 → ∃ s, findSym D.symbols n = some s ∧
            s1.dependency_list_list =
              if n = t then s.dependency_list_list.eraseIdx i.toNat
              else s.dependency_list_list := by
        intro D2 hD2
        subst hD2
        refine ⟨rfl, Agree.put (s := T) (by simpa [hTn] using hT) rfl, ?_⟩
        intro n s1 hs1
        simp only [findSym_putSym, hTn] at hs1
        by_cases hn : t = n
        · subst hn
          simp at hs1
          subst hs1
          exact ⟨T, hT, by simp⟩
        · have hn2 : ¬ n = t := fun e => hn e.symm
          simp only [hn, if_false] at hs1
          exact ⟨s1, hs1, by simp [hn2]⟩
      split_ifs at h with hact hdel
      · cases hs : findSym D.symbols
            ((firstExisting D.symbols (T.dependency_list_list.getD i.toNat [])).getD "") with
        | none => rw [hs] at h; simp [Outcome.after] at h
        | some revdep =>
          rw [hs] at h
          simp [Outcome.after] at h
          subst h
          have hsn := findSym_name hs
          refine ⟨rfl, ?_, ?_⟩
          · refine Agree.put2 (Agree.put (s := revdep) ?_ rfl) (s := T) ?_ rfl
            · simpa [hsn] using hs
            · simpa [hTn] using hT
          · intro n s1 hs1
            simp only [findSym_putSym, hTn, hsn] at hs1
            by_cases hn : t = n
            · subst hn
              simp at hs1
              subst hs1
              exact ⟨T, hT, by simp⟩
            · have hn2 : ¬ n = t := fun e => hn e.symm
              simp only [hn, if_false] at hs1
              split_ifs at hs1 with hn3
              · simp only [Option.some.injEq] at hs1
                subst hs1
                exact ⟨revdep, by rw [← hn3]; exact hs, by simp [hn2]⟩
              · exact ⟨s1, hs1, by simp [hn2]⟩
      · simp [Outcome.after] at h
        exact plain _ h.symm
      · simp [Outcome.after] at h
        exact plain _ h.symm

theorem findSym_none_of_agree {β : Type} {p : Symbol → β} {L L1 : List Symbol}
    (h : Agree p L L1) {n : String} (hn : findSym L n = none) : findSym L1 n = none := by
  have := h n
  rw [hn] at this
  cases hf : findSym L1 n with
  | none => rfl
  | some s => rw [hf] at this; simp at this

theorem edgeInv_states {L L1 : List Symbol} (h : StatesInvalidated L L1) (hinv : EdgeInv L) :
    EdgeInv L1 :=
  edgeInv_agree (h.agree.mono edgesOf (fun _ => rfl)) hinv

theorem edgeInv_applyOp {fuel : Nat} {D D1 : DepSystem} {op : Op}
    (h : (applyOp fuel D op).after = some D1) (hinv : EdgeInv D.symbols) :
    EdgeInv D1.symbols := by
  cases op with
  | add_set_symbol name value =>
    rcases add_set_symbol_after h with ⟨hnone, L1, r, ha, hst, -⟩ | ⟨rfl, -⟩ |
      ⟨cur, hcur, -, hst, -⟩
    · refine edgeInv_states hst ?_
      exact edgeInv_insert (findSym_none_of_agree ha hnone) rfl rfl
        (edgeInv_agree (ha.mono edgesOf (fun _ => rfl)) hinv)
    · exact hinv
    · refine edgeInv_states hst ?_
      refine edgeInv_agree ?_ hinv
      exact Agree.put (s := cur)
        (by simpa [updatedSymbol, findSym_name hcur] using hcur) rfl
  | delete_symbol name =>
    simp only [applyOp] at h
    cases ho : delete_symbol D name with
    | ok d =>
      rw [ho] at h; simp [Outcome.after] at h; subst h
      exact edgeInv_delete_symbol ho hinv
    | threw e d =>
      rw [ho] at h; simp [Outcome.after] at h; subst h
      rw [delete_symbol_threw ho]; exact hinv
    | undefined => rw [ho] at h; simp [Outcome.after] at h
  | clear =>
    simp [applyOp, Outcome.after, clear] at h
    subst h
    exact edgeInv_nil
  | set_state n st =>
    rcases set_state_after h with ⟨-, rfl | ⟨s, hs, hD1⟩⟩
    · exact hinv
    · rw [hD1]
      exact edgeInv_agree (Agree.put (s := s) (by simpa [findSym_name hs] using hs) rfl) hinv
  | set_callback n c =>
    rcases set_callback_after h with ⟨-, rfl | ⟨s, hs, hD1⟩⟩
    · exact hinv
    · rw [hD1]
      exact edgeInv_agree (Agree.put (s := s) (by simpa [findSym_name hs] using hs) rfl) hinv
  | add_dependency f t => exact edgeInv_add_dependency h hinv
  | delete_dependency f t =>
    simp only [applyOp] at h
    cases ho : delete_dependency D f t with
    | ok d =>
      rw [ho] at h; simp [Outcome.after] at h; subst h
      exact edgeInv_delete_dependency ho hinv
    | threw e d =>
      rw [ho] at h; simp [Outcome.after] at h; subst h
      rw [delete_dependency_threw ho]; exact hinv
    | undefined => rw [ho] at h; simp [Outcome.after] at h
  | add_dependency_list l t =>
    rcases add_dependency_list_after h with rfl | ⟨T, -, -, ha, -⟩
    · exact hinv
    · exact edgeInv_agree (ha.mono edgesOf (fun _ => rfl)) hinv
  | delete_dependency_list i t =>
    rcases delete_dependency_list_after h with rfl | ⟨T, -, -, ha, -⟩
    · exact hinv
    · exact edgeInv_agree (ha.mono edgesOf (fun _ => rfl)) hinv
  | build_symbol n =>
    obtain ⟨-, ha, -⟩ := build_symbol_after h
    exact edgeInv_agree (ha.mono edgesOf (fun _ => rfl)) hinv
  | invalidate_dependents n =>
    obtain ⟨-, hst⟩ := invalidate_dependents_after h
    exact edgeInv_states hst hinv

/-- An invariant of single operations is an invariant of runs. -/
theorem run_induct (P : DepSystem → Prop) (fuel : Nat)
    (hstep : ∀ D D1 op, P D → (applyOp fuel D op).after = some D1 → P D1) :
    ∀ (ops : List Op) (D D1 : DepSystem), P D → run fuel D ops = some D1 → P D1 := by
  intro ops
  induction ops with
  | nil =>
    intro D D1 hD h
    simp [run] at h
    exact h ▸ hD
  | cons op ops ih =>
    intro D D1 hD h
    unfold run at h
    cases ho : (applyOp fuel D op).after with
    | none => rw [ho] at h; simp at h
    | some D2 =>
      rw [ho] at h
      exact ih D2 D1 (hstep D D2 op hD ho) h

/-- C4: after every sequence of public operations (successful or failed) started from the empty
`DepSystem`, every dependency edge `b → a` points to an existing symbol `a` that holds `b` in
its `reverse_dependency_edges`, and every reverse edge comes from an existing symbol that has
the edge; and when `delete_symbol(n)` then returns, no remaining symbol has `n` in its
`dependency_edges` or its `reverse_dependency_edges`. -/
theorem C4_edge_symmetry_invariant (fuel : Nat) (ops : List Op) (D : DepSystem)
    (h : run fuel DepSystem.empty ops = some D) :
    EdgeSymmetric D ∧
    ∀ n D1, delete_symbol D n = Outcome.ok D1 →
      has_symbol D1 n = false ∧
      ∀ b sb, findSym D1.symbols b = some sb →
        n ∉ sb.dependency_edges ∧ n ∉ sb.reverse_dependency_edges := by
  have hinv : EdgeInv D.symbols :=
    run_induct (fun d => EdgeInv d.symbols) fuel
      (fun _ _ _ hD hop => edgeInv_applyOp hop hD) ops _ _ edgeInv_nil h
  refine ⟨(edgeSymmetric_iff D).2 hinv.1, ?_⟩
  intro n D1 hdel
  have hinv1 := edgeInv_delete_symbol hdel hinv
  obtain ⟨td, -, -, -, -, hfind⟩ := delete_symbol_ok hdel
  have hgone : findSym D1.symbols n = none := by rw [hfind n]; simp
  refine ⟨countSym_eq_false.2 hgone, fun b sb hsb => ⟨fun hm => ?_, fun hm => ?_⟩⟩
  · obtain ⟨sa, hsa, -⟩ := (hinv1.1 b n).1 ⟨sb, hsb, hm⟩
    rw [hgone] at hsa; cases hsa
  · obtain ⟨sa, hsa, -⟩ := (hinv1.1 n b).2 ⟨sb, hsb, hm⟩
    rw [hgone] at hsa; cases hsa

/-- C4, witness: a run that adds two symbols and an edge and is refused the reverse edge. -/
theorem C4_edge_symmetry_invariant_witness :
    run 5 DepSystem.empty
        [Op.add_set_symbol "a" "", Op.add_set_symbol "b" "", Op.add_dependency "a" "b",
          Op.add_dependency "b" "a"] = some edgeExample ∧
    (EdgeSymmetric edgeExample ∧
      ∀ n D1, delete_symbol edgeExample n = Outcome.ok D1 →
        has_symbol D1 n = false ∧
        ∀ b sb, findSym D1.symbols b = some sb →
          n ∉ sb.dependency_edges ∧ n ∉ sb.reverse_dependency_edges) :=
  ⟨rfl, C4_edge_symmetry_invariant 5
    [Op.add_set_symbol "a" "", Op.add_set_symbol "b" "", Op.add_dependency "a" "b",
      Op.add_dependency "b" "a"] edgeExample rfl⟩

/-! ## Frames of `add_dependency` and `delete_dependency` -/

theorem delete_dependency_agree {D D1 : DepSystem} {f t : String}
    (h : delete_dependency D f t = Outcome.ok D1) :
    D1.shadowers = D.shadowers ∧ Agree noEdges D.symbols D1.symbols := by
  obtain ⟨hsh, F, T, hF, hT, hfind⟩ := delete_dependency_ok h
  refine ⟨hsh, fun n => ?_⟩
  rw [hfind n]
  by_cases ht : t = n
  · subst ht; simp [hT, noEdges]
  · by_cases hf : f = n
    · subst hf; simp [ht, hF, noEdges]
    · simp [ht, hf]

theorem withEdge_agree {D : DepSystem} {F T : Symbol} {f t : String}
    (hF : findSym D.symbols f = some F) (hT : findSym D.symbols t = some T) :
    Agree noEdges D.symbols (withEdge D F T f t).symbols := by
  intro n
  rw [findSym_withEdge hF hT]
  by_cases ht : t = n
  · subst ht; simp [hT, noEdges]
  · by_cases hf : f = n
    · subst hf; simp [ht, hF, noEdges]
    · simp [ht, hf]

theorem add_dependency_agree {fuel : Nat} {D D1 : DepSystem} {f t : String}
    (h : (add_dependency fuel D f t).after = some D1) :
    D1.shadowers = D.shadowers ∧ Agree noEdges D.symbols D1.symbols := by
  rcases add_dependency_cases h with rfl | ⟨F, T, hF, hT, hc⟩
  · exact ⟨rfl, Agree.refl _ _⟩
  · rcases hc with ⟨-, rfl, -⟩ | ⟨-, hdel, -⟩
    · exact ⟨rfl, withEdge_agree hF hT⟩
    · obtain ⟨hsh, ha⟩ := delete_dependency_agree hdel
      exact ⟨hsh, (withEdge_agree hF hT).trans ha⟩

theorem delete_dependency_after_agree {D D1 : DepSystem} {f t : String}
    (h : (delete_dependency D f t).after = some D1) :
    D1.shadowers = D.shadowers ∧ Agree noEdges D.symbols D1.symbols := by
  cases ho : delete_dependency D f t with
  | ok d =>
    rw [ho] at h; simp [Outcome.after] at h; subst h
    exact delete_dependency_agree ho
  | threw e d =>
    rw [ho] at h; simp [Outcome.after] at h; subst h
    rw [delete_dependency_threw ho]
    exact ⟨rfl, Agree.refl _ _⟩
  | undefined => rw [ho] at h; simp [Outcome.after] at h

/-! ## Shadowers -/

theorem mem_shadowingNames_absent {L : List Symbol} {l : List String} {n : String}
    (h : n ∈ shadowingNames L l) : countSym L n = false := by
  have := List.mem_takeWhile_imp h
  simpa using this

theorem shadowingNames_mono {L L1 : List Symbol}
    (hex : ∀ n, countSym L n = true → countSym L1 n = true) {l : List String} {n : String}
    (h : n ∈ shadowingNames L1 l) : n ∈ shadowingNames L l := by
  induction l with
  | nil => simp [shadowingNames] at h
  | cons x xs ih =>
    unfold shadowingNames at h ⊢
    rw [List.takeWhile_cons] at h ⊢
    by_cases hx1 : countSym L1 x = true
    · simp [hx1] at h
    · have hx : ¬ countSym L x = true := fun e => hx1 (hex x e)
      simp only [Bool.not_eq_true] at hx1 hx
      simp only [hx1, hx, Bool.not_false, if_true, List.mem_cons] at h ⊢
      rcases h with h | h
      · exact Or.inl h
      · exact Or.inr (ih h)

theorem shadowingNames_congr {L L1 : List Symbol}
    (hex : ∀ n, countSym L1 n = countSym L n) (l : List String) :
    shadowingNames L1 l = shadowingNames L l := by
  unfold shadowingNames
  congr 1
  funext i
  rw [hex]

/-- A sufficient condition for `ShadowersComplete` to pass from `D` to `D1`. -/
theorem shadowersComplete_step {D D1 : DepSystem}
    (hex : ∀ n, countSym D.symbols n = true → countSym D1.symbols n = true)
    (hlists : ∀ b s1, findSym D1.symbols b = some s1 → ∀ l ∈ s1.dependency_list_list,
      (∃ s, findSym D.symbols b = some s ∧ l ∈ s.dependency_list_list) ∨
        ∀ n ∈ shadowingNames D1.symbols l, (n, b) ∈ D1.shadowers)
    (hsh : ∀ e ∈ D.shadowers, countSym D1.symbols e.1 = false → e ∈ D1.shadowers)
    (h : ShadowersComplete D) : ShadowersComplete D1 := by
  intro b s1 hs1 l hl n hn
  rcases hlists b s1 hs1 l hl with ⟨s, hs, hl2⟩ | hnew
  · exact hsh _ (h b s hs l hl2 n (shadowingNames_mono hex hn)) (mem_shadowingNames_absent hn)
  · exact hnew n hn

/-- Operations that leave names, lists and shadowers alone keep `ShadowersComplete`. -/
theorem shadowersComplete_agree {D D1 : DepSystem} {β : Type} {p : Symbol → β}
    (ha : Agree p D.symbols D1.symbols)
    (hp : ∀ s s1 : Symbol, p s1 = p s → s1.dependency_list_list = s.dependency_list_list)
    (hsh : D1.shadowers = D.shadowers) (h : ShadowersComplete D) : ShadowersComplete D1 := by
  refine shadowersComplete_step (fun n hn => by rw [ha.count]; exact hn) ?_ ?_ h
  · intro b s1 hs1 l hl
    obtain ⟨s, hs, hps⟩ := ha.find hs1
    exact Or.inl ⟨s, hs, hp s s1 hps ▸ hl⟩
  · intro e he _
    rw [hsh]; exact he

theorem keysAbsent_agree {D D1 : DepSystem} {β : Type} {p : Symbol → β}
    (ha : Agree p D.symbols D1.symbols) (hsh : D1.shadowers = D.shadowers)
    (h : ShadowKeysAbsent D) : ShadowKeysAbsent D1 := by
  intro e he
  rw [ha.count]
  exact h e (hsh ▸ he)

theorem invalidated_ne_disabled (s : Symbol_State) : invalidated s ≠ DISABLED := by
  cases s <;> simp [invalidated]

/-- The records after `add_set_symbol(name, value)`, compared with the records before. -/
theorem add_set_symbol_view {fuel : Nat} {D D1 : DepSystem} {name value : String}
    (h : (add_set_symbol fuel D name value).after = some D1) :
    (∀ n s1, n ≠ name → findSym D1.symbols n = some s1 →
      ∃ s, findSym D.symbols n = some s ∧ coreOf s1 = coreOf s ∧
        (s1.state = s.state ∨ s1.state = invalidated s.state)) ∧
    (∀ n, countSym D.symbols n = true → countSym D1.symbols n = true) ∧
    ((findSym D.symbols name = none ∧
        D1.shadowers = D.shadowers.filter (fun e => decide (e.1 ≠ name)) ∧
        ∃ s1, findSym D1.symbols name = some s1 ∧ s1.dependency_edges = [] ∧
          s1.reverse_dependency_edges = [] ∧ s1.dependency_list_list = [] ∧
          s1.state ≠ DISABLED) ∨
      (D1.shadowers = D.shadowers ∧
        ∃ cur s1, findSym D.symbols name = some cur ∧ findSym D1.symbols name = some s1 ∧
          coreOf s1 = coreOf cur ∧
          (s1.state = DISABLED → hasDependencies D.symbols cur = true ∨ s1 = cur))) := by
  rcases add_set_symbol_after h with ⟨hnone, L1, r, ha, hst, hsh⟩ | ⟨rfl, cur, hcur, -⟩ |
    ⟨cur, hcur, -, hst, hsh⟩
  · have hnone1 : findSym L1 name = none := findSym_none_of_agree ha hnone
    refine ⟨?_, ?_, Or.inl ⟨hnone, hsh, ?_⟩⟩
    · intro n s1 hn hs1
      obtain ⟨s2, hs2, hcase⟩ := hst.state hs1
      rw [findSym_insertSym (by simpa [freshSymbol] using hnone1)] at hs2
      have hn2 : ¬ name = n := fun e => hn e.symm
      simp only [freshSymbol, hn2, if_false] at hs2
      obtain ⟨s, hs, hp⟩ := ha.find hs2
      have hcore : coreOf s2 = coreOf s := by
        have := congrArg coreOf hp
        simpa [coreOf, noRevLists] using this
      have hstate : s2.state = s.state := by
        have := congrArg Symbol.state hp
        simpa [noRevLists] using this
      refine ⟨s, hs, ?_, ?_⟩
      · rcases hcase with rfl | rfl
        · exact hcore
        · rw [← hcore]; rfl
      · rcases hcase with rfl | rfl
        · exact Or.inl hstate
        · right; simp [hstate]
    · intro n hn
      have h1 : countSym L1 n = true := by rw [ha.count]; exact hn
      have h2 : countSym (insertSym L1 (freshSymbol name value r)) n = true := by
        simp only [countSym] at h1 ⊢
        rw [findSym_insertSym (by simpa [freshSymbol] using hnone1)]
        split_ifs <;> simp [h1]
      rw [hst.agree.count]; exact h2
    · have h2 : findSym (insertSym L1 (freshSymbol name value r)) name =
          some (freshSymbol name value r) := by
        rw [findSym_insertSym (by simpa [freshSymbol] using hnone1)]; simp [freshSymbol]
      rcases hst name with e | e
      · rw [h2] at e
        exact ⟨_, e, rfl, rfl, rfl, by simp [freshSymbol]⟩
      · rw [h2] at e
        exact ⟨_, e, rfl, rfl, rfl, by simp [invalidated, freshSymbol]⟩
  · refine ⟨fun n s1 _ hs1 => ⟨s1, hs1, rfl, Or.inl rfl⟩, fun n hn => hn,
      Or.inr ⟨rfl, cur, cur, hcur, hcur, rfl, fun _ => Or.inr rfl⟩⟩
  · have hcn : cur.name = name := findSym_name hcur
    refine ⟨?_, ?_, Or.inr ⟨hsh, cur, ?_⟩⟩
    · intro n s1 hn hs1
      obtain ⟨s2, hs2, hcase⟩ := hst.state hs1
      rw [findSym_putSym] at hs2
      have hn2 : ¬ name = n := fun e => hn e.symm
      simp only [updatedSymbol, hcn, hn2, if_false] at hs2
      refine ⟨s2, hs2, ?_, ?_⟩
      · rcases hcase with rfl | rfl <;> rfl
      · rcases hcase with rfl | rfl
        · exact Or.inl rfl
        · exact Or.inr rfl
    · intro n hn
      rw [hst.agree.count, countSym_putSym, hn]; simp
    · have h2 : findSym (putSym D.symbols (updatedSymbol D.symbols cur value)) name =
          some (updatedSymbol D.symbols cur value) := by
        rw [findSym_putSym]; simp [hcn, updatedSymbol]
      rcases hst name with e | e
      · rw [h2] at e
        refine ⟨_, hcur, e, rfl, ?_⟩
        intro hdis
        left
        simp only [updatedSymbol] at hdis
        by_cases hd : hasDependencies D.symbols cur = true
        · exact hd
        · simp [hd] at hdis
      · rw [h2] at e
        refine ⟨_, hcur, e, rfl, ?_⟩
        intro hdis
        simp only [Option.map_some', updatedSymbol] at hdis
        exact absurd hdis (invalidated_ne_disabled _)

theorem coreOf_lists {s s1 : Symbol} (h : coreOf s1 = coreOf s) :
    s1.dependency_list_list = s.dependency_list_list := by
  have := congrArg Symbol.dependency_list_list h
  simpa [coreOf] using this

theorem coreOf_edges {s s1 : Symbol} (h : coreOf s1 = coreOf s) :
    s1.dependency_edges = s.dependency_edges := by
  have := congrArg Symbol.dependency_edges h
  simpa [coreOf] using this

theorem foldl_append_mem {α β : Type} (g : α → List β) (e : β) :
    ∀ (ds : List α) (acc : List β),
      e ∈ ds.foldl (fun acc d => acc ++ g d) acc → e ∈ acc ∨ ∃ d ∈ ds, e ∈ g d := by
  intro ds
  induction ds with
  | nil => intro acc h; exact Or.inl h
  | cons d ds ih =>
    intro acc h
    simp only [List.foldl_cons] at h
    rcases ih _ h with h1 | ⟨d2, hd2, he⟩
    · rcases List.mem_append.1 h1 with h2 | h2
      · exact Or.inl h2
      · exact Or.inr ⟨d, List.mem_cons_self _ _, h2⟩
    · exact Or.inr ⟨d2, List.mem_cons_of_mem _ hd2, he⟩

theorem reshadow_mem {name : String} {syms : List Symbol} {sh sh1 : List (String × String)}
    {owner : String} (h : reshadow name syms sh owner = some sh1) :
    ∀ e ∈ sh1, e ∈ sh ∨ countSym syms e.1 = false := by
  unfold reshadow at h
  cases hf : findSym syms owner with
  | none => rw [hf] at h; simp at h
  | some o =>
    rw [hf] at h
    simp only [Option.some.injEq] at h
    subst h
    intro e he
    rcases foldl_append_mem _ e _ _ he with h1 | ⟨d, -, hd⟩
    · exact Or.inl h1
    · right
      obtain ⟨i, hi, rfl⟩ := List.mem_map.1 hd
      have := List.mem_takeWhile_imp hi
      simpa using this

theorem keysAbsent_applyOp {fuel : Nat} {D D1 : DepSystem} {op : Op}
    (h : (applyOp fuel D op).after = some D1) (hinv : ShadowKeysAbsent D) :
    ShadowKeysAbsent D1 := by
  cases op with
  | add_set_symbol name value =>
    obtain ⟨hold, -, hcase⟩ := add_set_symbol_view h
    have key : ∀ e ∈ D.shadowers, e.1 ≠ name → countSym D1.symbols e.1 = false := by
      intro e he hne
      cases hf : findSym D1.symbols e.1 with
      | none => exact countSym_eq_false.2 hf
      | some s1 =>
        obtain ⟨s, hs, -⟩ := hold e.1 s1 hne hf
        have := hinv e he
        rw [countSym_eq_false.1 this] at hs
        cases hs
    rcases hcase with ⟨-, hsh, -⟩ | ⟨hsh, cur, s1, hcur, -, -, -⟩
    · intro e he
      rw [hsh] at he
      obtain ⟨he1, he2⟩ := List.mem_filter.1 he
      exact key e he1 (by simpa using he2)
    · intro e he
      rw [hsh] at he
      refine key e he ?_
      intro e2
      have := hinv e he
      rw [e2, countSym_eq_false, hcur] at this
      cases this
  | delete_symbol name =>
    simp only [applyOp] at h
    cases ho : delete_symbol D name with
    | ok d =>
      rw [ho] at h; simp [Outcome.after] at h; subst h
      obtain ⟨td, -, -, -, hsh, hfind⟩ := delete_symbol_ok ho
      have hP := foldOpt_induct
        (fun sh => ∀ e ∈ sh, e ∈ D.shadowers ∨ countSym d.symbols e.1 = false)
        (fun s x t hs hx e he => by
          rcases reshadow_mem hx e he with h1 | h1
          · exact hs e h1
          · exact Or.inr h1)
        _ _ _ (fun e he => Or.inl he) hsh
      intro e he
      rcases hP e he with h1 | h1
      · have := hinv e h1
        rw [countSym_eq_false] at this ⊢
        rw [hfind e.1, this]
        split_ifs <;> rfl
      · exact h1
    | threw e d =>
      rw [ho] at h; simp [Outcome.after] at h; subst h
      rw [delete_symbol_threw ho]; exact hinv
    | undefined => rw [ho] at h; simp [Outcome.after] at h
  | clear =>
    simp [applyOp, Outcome.after, clear] at h
    subst h
    intro e he
    simp at he
  | set_state n st =>
    rcases set_state_after h with ⟨hsh, rfl | ⟨s, hs, hD1⟩⟩
    · exact hinv
    · refine keysAbsent_agree (p := noState) ?_ hsh hinv
      rw [hD1]
      exact Agree.put (s := s) (by simpa [findSym_name hs] using hs) rfl
  | set_callback n c =>
    rcases set_callback_after h with ⟨hsh, rfl | ⟨s, hs, hD1⟩⟩
    · exact hinv
    · refine keysAbsent_agree (p := edgesOf) ?_ hsh hinv
      rw [hD1]
      exact Agree.put (s := s) (by simpa [findSym_name hs] using hs) rfl
  | add_dependency f t =>
    obtain ⟨hsh, ha⟩ := add_dependency_agree h
    exact keysAbsent_agree ha hsh hinv
  | delete_dependency f t =>
    obtain ⟨hsh, ha⟩ := delete_dependency_after_agree h
    exact keysAbsent_agree ha hsh hinv
  | add_dependency_list l t =>
    rcases add_dependency_list_after h with rfl | ⟨T, -, hsh, ha, -⟩
    · exact hinv
    · intro e he
      rw [hsh] at he
      rw [ha.count]
      rcases List.mem_append.1 he with h1 | h1
      · exact hinv e h1
      · obtain ⟨i, hi, rfl⟩ := List.mem_map.1 h1
        exact mem_shadowingNames_absent hi
  | delete_dependency_list i t =>
    rcases delete_dependency_list_after h with rfl | ⟨T, -, hsh, ha, -⟩
    · exact hinv
    · exact keysAbsent_agree ha hsh hinv
  | build_symbol n =>
    obtain ⟨hsh, ha, -⟩ := build_symbol_after h
    exact keysAbsent_agree ha hsh hinv
  | invalidate_dependents n =>
    obtain ⟨hsh, hst⟩ := invalidate_dependents_after h
    exact keysAbsent_agree hst.agree hsh hinv

theorem shadowersComplete_applyOp {fuel : Nat} {D D1 : DepSystem} {op : Op}
    (hop : ∀ n, op ≠ Op.delete_symbol n)
    (h : (applyOp fuel D op).after = some D1) (hinv : ShadowersComplete D) :
    ShadowersComplete D1 := by
  cases op with
  | add_set_symbol name value =>
    obtain ⟨hold, hex, hcase⟩ := add_set_symbol_view h
    refine shadowersComplete_step hex ?_ ?_ hinv
    · intro b s1 hs1 l hl
      by_cases hb : b = name
      · subst hb
        rcases hcase with ⟨-, -, s2, hs2, -, -, hl2, -⟩ | ⟨-, cur, s2, hcur, hs2, hcore, -⟩
        · rw [hs1] at hs2; cases hs2
          rw [hl2] at hl; simp at hl
        · rw [hs1] at hs2; cases hs2
          exact Or.inl ⟨cur, hcur, coreOf_lists hcore ▸ hl⟩
      · obtain ⟨s, hs, hcore, -⟩ := hold b s1 hb hs1
        exact Or.inl ⟨s, hs, coreOf_lists hcore ▸ hl⟩
    · intro e he habs
      rcases hcase with ⟨-, hsh, s2, hs2, -⟩ | ⟨hsh, -⟩
      · rw [hsh]
        refine List.mem_filter.2 ⟨he, ?_⟩
        have : e.1 ≠ name := by
          intro e2
          rw [e2, countSym_eq_false, hs2] at habs
          cases habs
        simpa using this
      · rw [hsh]; exact he
  | delete_symbol name => exact absurd rfl (hop name)
  | clear =>
    simp [applyOp, Outcome.after, clear] at h
    subst h
    intro b sb hsb
    simp [findSym] at hsb
  | set_state n st =>
    rcases set_state_after h with ⟨hsh, rfl | ⟨s, hs, hD1⟩⟩
    · exact hinv
    · refine shadowersComplete_agree (p := noState) ?_ ?_ hsh hinv
      · rw [hD1]
        exact Agree.put (s := s) (by simpa [findSym_name hs] using hs) rfl
      · intro s s1 hp
        have := congrArg Symbol.dependency_list_list hp
        simpa [noState] using this
  | set_callback n c =>
    rcases set_callback_after h with ⟨hsh, rfl | ⟨s, hs, hD1⟩⟩
    · exact hinv
    · refine shadowersComplete_agree (p := Symbol.dependency_list_list) ?_ ?_ hsh hinv
      · rw [hD1]
        exact Agree.put (s := s) (by simpa [findSym_name hs] using hs) rfl
      · intro s s1 hp
        exact hp
  | add_dependency f t =>
    obtain ⟨hsh, ha⟩ := add_dependency_agree h
    refine shadowersComplete_agree ha ?_ hsh hinv
    intro s s1 hp
    have := congrArg Symbol.dependency_list_list hp
    simpa [noEdges] using this
  | delete_dependency f t =>
    obtain ⟨hsh, ha⟩ := delete_dependency_after_agree h
    refine shadowersComplete_agree ha ?_ hsh hinv
    intro s s1 hp
    have := congrArg Symbol.dependency_list_list hp
    simpa [noEdges] using this
  | add_dependency_list l t =>
    rcases add_dependency_list_after h with rfl | ⟨T, -, hsh, ha, hl⟩
    · exact hinv
    · refine shadowersComplete_step (fun n hn => by rw [ha.count]; exact hn) ?_ ?_ hinv
      · intro b s1 hs1 l2 hl2
        obtain ⟨s, hs, hls⟩ := hl b s1 hs1
        rw [hls] at hl2
        by_cases hb : b = t
        · simp only [hb, if_true, List.mem_append, List.mem_singleton] at hl2
          rcases hl2 with hl2 | rfl
          · exact Or.inl ⟨s, hs, hl2⟩
          · right
            intro n hn
            rw [hsh, shadowingNames_congr (fun n => ha.count n)] at *
            exact List.mem_append_right _ (List.mem_map.2 ⟨n, hn, by rw [hb]⟩)
        · simp only [hb, if_false] at hl2
          exact Or.inl ⟨s, hs, hl2⟩
      · intro e he _
        rw [hsh]
        exact List.mem_append_left _ he
  | delete_dependency_list i t =>
    rcases delete_dependency_list_after h with rfl | ⟨T, -, hsh, ha, hl⟩
    · exact hinv
    · refine shadowersComplete_step (fun n hn => by rw [ha.count]; exact hn) ?_ ?_ hinv
      · intro b s1 hs1 l2 hl2
        obtain ⟨s, hs, hls⟩ := hl b s1 hs1
        rw [hls] at hl2
        split_ifs at hl2
        · exact Or.inl ⟨s, hs, (List.eraseIdx_sublist _ _).subset hl2⟩
        · exact Or.inl ⟨s, hs, hl2⟩
      · intro e he _
        rw [hsh]; exact he
  | build_symbol n =>
    obtain ⟨hsh, ha, -⟩ := build_symbol_after h
    refine shadowersComplete_agree ha ?_ hsh hinv
    intro s s1 hp
    have := congrArg Symbol.dependency_list_list hp
    simpa [noState] using this
  | invalidate_dependents n =>
    obtain ⟨hsh, hst⟩ := invalidate_dependents_after h
    refine shadowersComplete_agree hst.agree ?_ hsh hinv
    intro s s1 hp
    have := congrArg Symbol.dependency_list_list hp
    simpa [noState] using this

/-- An invariant of the allowed operations is an invariant of the runs made of them. -/
theorem run_induct_on (P : DepSystem → Prop) (allowed : Op → Prop) (fuel : Nat)
    (hstep : ∀ D D1 op, allowed op → P D → (applyOp fuel D op).after = some D1 → P D1) :
    ∀ (ops : List Op) (D D1 : DepSystem), (∀ op ∈ ops, allowed op) → P D →
      run fuel D ops = some D1 → P D1 := by
  intro ops
  induction ops with
  | nil =>
    intro D D1 _ hD h
    simp [run] at h
    exact h ▸ hD
  | cons op ops ih =>
    intro D D1 hall hD h
    unfold run at h
    cases ho : (applyOp fuel D op).after with
    | none => rw [ho] at h; simp at h
    | some D2 =>
      rw [ho] at h
      exact ih D2 D1 (fun o ho2 => hall o (List.mem_cons_of_mem _ ho2))
        (hstep D D2 op (hall op (List.mem_cons_self _ _)) hD ho) h

/-- C6 (amended): after every sequence of public operations started from the empty
`DepSystem`, every key of `shadowers` is a name that does not exist; and when the sequence
contains no `delete_symbol`, every name that does not exist and stands in a list of `b` before
the first existing element (or in a list of `b` without existing element) has its entry
`(n, b)` in `shadowers`. -/
theorem C6_shadowers_amended (fuel : Nat) (ops : List Op) (D : DepSystem)
    (h : run fuel DepSystem.empty ops = some D) :
    (∀ n b, (n, b) ∈ D.shadowers → countSym D.symbols n = false) ∧
    ((∀ op ∈ ops, ∀ n, op ≠ Op.delete_symbol n) →
      ∀ n b, (countSym D.symbols n = false ∧
          ∃ sb, findSym D.symbols b = some sb ∧
            ∃ l ∈ sb.dependency_list_list, n ∈ shadowingNames D.symbols l) →
        (n, b) ∈ D.shadowers) := by
  constructor
  · have hk : ShadowKeysAbsent D :=
      run_induct ShadowKeysAbsent fuel (fun _ _ _ hD hop => keysAbsent_applyOp hop hD) ops _ _
        (fun e he => by simp [DepSystem.empty] at he) h
    intro n b hm
    exact hk (n, b) hm
  · intro hall
    have hc : ShadowersComplete D :=
      run_induct_on ShadowersComplete (fun op => ∀ n, op ≠ Op.delete_symbol n) fuel
        (fun _ _ _ hop hD hafter => shadowersComplete_applyOp hop hafter hD) ops _ _ hall
        (fun b sb hsb => by simp [DepSystem.empty, findSym] at hsb) h
    rintro n b ⟨-, sb, hsb, l, hl, hn⟩
    exact hc b sb hsb l hl n hn

/-- C6 (amended), witness: the run `add_set_symbol("t","")`,
`add_dependency_list(["a","b"],"t")`, `add_set_symbol("b","")`. -/
theorem C6_shadowers_amended_witness :
    run 5 DepSystem.empty
        [Op.add_set_symbol "t" "", Op.add_dependency_list ["a", "b"] "t",
          Op.add_set_symbol "b" ""] = some shadowExample ∧
    ((∀ n b, (n, b) ∈ shadowExample.shadowers → countSym shadowExample.symbols n = false) ∧
    ((∀ op ∈ [Op.add_set_symbol "t" "", Op.add_dependency_list ["a", "b"] "t",
          Op.add_set_symbol "b" ""], ∀ n, op ≠ Op.delete_symbol n) →
      ∀ n b, (countSym shadowExample.symbols n = false ∧
          ∃ sb, findSym shadowExample.symbols b = some sb ∧
            ∃ l ∈ sb.dependency_list_list, n ∈ shadowingNames shadowExample.symbols l) →
        (n, b) ∈ shadowExample.shadowers)) :=
  ⟨rfl, C6_shadowers_amended 5
    [Op.add_set_symbol "t" "", Op.add_dependency_list ["a", "b"] "t",
      Op.add_set_symbol "b" ""] shadowExample rfl⟩

/-- A sufficient condition for `DisabledHasDeps` to pass from `D` to `D1`. -/
theorem disabled_step {D D1 : DepSystem}
    (hex : ∀ n, countSym D.symbols n = true → countSym D1.symbols n = true)
    (hrec : ∀ b s1, findSym D1.symbols b = some s1 → s1.state = DISABLED →
      (∃ s, findSym D.symbols b = some s ∧ s.state = DISABLED ∧
        (∀ a ∈ s.dependency_edges, a ∈ s1.dependency_edges) ∧
        (∀ l ∈ s.dependency_list_list, l ∈ s1.dependency_list_list)) ∨
      (s1.dependency_edges ≠ [] ∨
        ∃ l ∈ s1.dependency_list_list, ∃ x ∈ l, countSym D1.symbols x = true))
    (h : DisabledHasDeps D) : DisabledHasDeps D1 := by
  intro b s1 hs1 hdis
  rcases hrec b s1 hs1 hdis with ⟨s, hs, hsd, hdeps, hlists⟩ | hnew
  · rcases h b s hs hsd with hne | ⟨l, hl, x, hx, hcx⟩
    · left
      cases hd : s.dependency_edges with
      | nil => exact absurd hd hne
      | cons a as =>
        have : a ∈ s1.dependency_edges := hdeps a (by rw [hd]; exact List.mem_cons_self _ _)
        intro e
        rw [e] at this
        simp at this
    · exact Or.inr ⟨l, hlists l hl, x, hx, hex x hcx⟩
  · exact hnew

/-- Operations that keep names, states, edges and lists keep `DisabledHasDeps`. -/
theorem disabled_agree {D D1 : DepSystem} {β : Type} {p : Symbol → β}
    (ha : Agree p D.symbols D1.symbols)
    (hp : ∀ s s1 : Symbol, p s1 = p s → s1.state = s.state ∧
      s1.dependency_edges = s.dependency_edges ∧
      s1.dependency_list_list = s.dependency_list_list)
    (h : DisabledHasDeps D) : DisabledHasDeps D1 := by
  refine disabled_step (fun n hn => by rw [ha.count]; exact hn) ?_ h
  intro b s1 hs1 hdis
  obtain ⟨s, hs, hps⟩ := ha.find hs1
  obtain ⟨h1, h2, h3⟩ := hp s s1 hps
  exact Or.inl ⟨s, hs, h1 ▸ hdis, fun a ha => h2 ▸ ha, fun l hl => h3 ▸ hl⟩

theorem hasDependencies_iff {L : List Symbol} {s : Symbol} :
    hasDependencies L s = true ↔
      s.dependency_edges ≠ [] ∨
        ∃ l ∈ s.dependency_list_list, ∃ x ∈ l, countSym L x = true := by
  unfold hasDependencies
  simp only [Bool.or_eq_true, decide_eq_true_eq, List.any_eq_true, ne_eq,
    List.length_eq_zero]

theorem disabled_applyOp {fuel : Nat} {D D1 : DepSystem} {op : Op}
    (hop : KeepsDeps fuel D op)
    (h : (applyOp fuel D op).after = some D1) (hinv : DisabledHasDeps D) :
    DisabledHasDeps D1 := by
  cases op with
  | add_set_symbol name value =>
    obtain ⟨hold, hex, hcase⟩ := add_set_symbol_view h
    refine disabled_step hex ?_ hinv
    intro b s1 hs1 hdis
    by_cases hb : b = name
    · subst hb
      rcases hcase with ⟨-, -, s2, hs2, -, -, -, hst⟩ | ⟨-, cur, s2, hcur, hs2, hcore, hst⟩
      · rw [hs1] at hs2; cases hs2
        exact absurd hdis hst
      · rw [hs1] at hs2; cases hs2
        rcases hst hdis with hd | rfl
        · right
          rcases hasDependencies_iff.1 hd with hne | ⟨l, hl, x, hx, hcx⟩
          · exact Or.inl (coreOf_edges hcore ▸ hne)
          · exact Or.inr ⟨l, coreOf_lists hcore ▸ hl, x, hx, hex x hcx⟩
        · exact Or.inl ⟨s1, hcur, hdis, fun a ha => ha, fun l hl => hl⟩
    · obtain ⟨s, hs, hcore, hstate⟩ := hold b s1 hb hs1
      left
      refine ⟨s, hs, ?_, fun a ha => (coreOf_edges hcore) ▸ ha,
        fun l hl => (coreOf_lists hcore) ▸ hl⟩
      rcases hstate with e | e
      · rw [← e]; exact hdis
      · rw [e] at hdis
        exact absurd hdis (invalidated_ne_disabled _)
  | delete_symbol name => exact absurd hop (by simp [KeepsDeps])
  | clear =>
    simp [applyOp, Outcome.after, clear] at h
    subst h
    intro b sb hsb
    simp [findSym] at hsb
  | set_state n st =>
    have hst : st ≠ DISABLED := hop
    rcases set_state_after h with ⟨-, rfl | ⟨s, hs, hD1⟩⟩
    · exact hinv
    · have hsn : s.name = n := findSym_name hs
      refine disabled_step ?_ ?_ hinv
      · intro m hm
        rw [hD1, countSym_putSym, hm]; simp
      · intro b s1 hs1 hdis
        rw [hD1, findSym_putSym] at hs1
        by_cases hb : n = b
        · simp [hsn, hb] at hs1
          subst hs1
          exact absurd hdis hst
        · simp only [hsn, hb, if_false] at hs1
          exact Or.inl ⟨s1, hs1, hdis, fun a ha => ha, fun l hl => hl⟩
  | set_callback n c =>
    rcases set_callback_after h with ⟨-, rfl | ⟨s, hs, hD1⟩⟩
    · exact hinv
    · refine disabled_agree (p := fun s => (s.state, s.dependency_edges,
          s.dependency_list_list)) ?_ ?_ hinv
      · rw [hD1]
        exact Agree.put (s := s) (by simpa [findSym_name hs] using hs) rfl
      · intro s s1 hp
        simp only [Prod.mk.injEq] at hp
        exact hp
  | add_dependency f t =>
    rcases add_dependency_cases h with rfl | ⟨F, T, hF, hT, hc⟩
    · exact hinv
    · rcases hc with ⟨-, rfl, -⟩ | ⟨-, -, hthrew⟩
      · refine disabled_step ?_ ?_ hinv
        · intro m hm
          rw [(withEdge_agree hF hT).count]; exact hm
        · intro b s1 hs1 hdis
          rw [findSym_withEdge hF hT] at hs1
          left
          by_cases htb : t = b
          · subst htb
            simp only [if_true, Option.some.injEq] at hs1
            subst hs1
            exact ⟨T, hT, hdis, fun a ha => ha, fun l hl => hl⟩
          · simp only [htb, if_false] at hs1
            by_cases hfb : f = b
            · subst hfb
              simp only [if_true, Option.some.injEq] at hs1
              subst hs1
              refine ⟨F, hF, hdis, fun a ha => ?_, fun l hl => hl⟩
              simp only [mem_setInsert]
              exact Or.inr ha
            · simp only [hfb, if_false] at hs1
              exact ⟨s1, hs1, hdis, fun a ha => ha, fun l hl => hl⟩
      · exact absurd hthrew (hop D1)
  | delete_dependency f t => exact absurd hop (by simp [KeepsDeps])
  | add_dependency_list l t =>
    rcases add_dependency_list_after h with rfl | ⟨T, -, -, ha, hl⟩
    · exact hinv
    · refine disabled_step (fun n hn => by rw [ha.count]; exact hn) ?_ hinv
      intro b s1 hs1 hdis
      obtain ⟨s, hs, hls⟩ := hl b s1 hs1
      obtain ⟨s2, hs2, hp⟩ := ha.find hs1
      rw [hs] at hs2; cases hs2
      have hstate : s1.state = s.state := by
        have := congrArg Symbol.state hp
        simpa [noLists] using this
      have hdeps : s1.dependency_edges = s.dependency_edges := by
        have := congrArg Symbol.dependency_edges hp
        simpa [noLists] using this
      left
      refine ⟨s, hs, hstate ▸ hdis, fun a ha => hdeps ▸ ha, fun l2 hl2 => ?_⟩
      rw [hls]
      split_ifs
      · exact List.mem_append_left _ hl2
      · exact hl2
  | delete_dependency_list i t => exact absurd hop (by simp [KeepsDeps])
  | build_symbol n =>
    obtain ⟨-, ha, hst⟩ := build_symbol_after h
    refine disabled_step (fun n hn => by rw [ha.count]; exact hn) ?_ hinv
    intro b s1 hs1 hdis
    rcases hst b s1 hs1 with e | e
    · rw [e] at hdis; cases hdis
    · exact Or.inl ⟨s1, e, hdis, fun a ha => ha, fun l hl => hl⟩
  | invalidate_dependents n =>
    obtain ⟨-, hst⟩ := invalidate_dependents_after h
    refine disabled_step (fun n hn => by rw [hst.agree.count]; exact hn) ?_ hinv
    intro b s1 hs1 hdis
    obtain ⟨s, hs, hcase⟩ := hst.state hs1
    rcases hcase with rfl | rfl
    · exact Or.inl ⟨s1, hs, hdis, fun a ha => ha, fun l hl => hl⟩
    · exact absurd hdis (invalidated_ne_disabled _)

/-- C7 (amended): after every sequence of public operations started from the empty `DepSystem`
in which no operation is a deletion (`delete_symbol`, `delete_dependency`,
`delete_dependency_list`), a `set_state(_, DISABLED)` or a rejected `add_dependency`, every
DISABLED symbol has a non-empty `dependency_edges` set or an ordered dependency list containing
an existing symbol. -/
theorem C7_disabled_amended (fuel : Nat) (ops : List Op) (D : DepSystem)
    (hkeep : RunKeepsDeps fuel DepSystem.empty ops)
    (h : run fuel DepSystem.empty ops = some D) :
    ∀ b sb, findSym D.symbols b = some sb → sb.state = DISABLED →
      sb.dependency_edges ≠ [] ∨
        ∃ l ∈ sb.dependency_list_list, ∃ x ∈ l, countSym D.symbols x = true := by
  have gen : ∀ (ops : List Op) (D0 D1 : DepSystem), RunKeepsDeps fuel D0 ops →
      DisabledHasDeps D0 → run fuel D0 ops = some D1 → DisabledHasDeps D1 := by
    intro ops
    induction ops with
    | nil =>
      intro D0 D1 _ hD h
      simp [run] at h
      exact h ▸ hD
    | cons op ops ih =>
      intro D0 D1 hk hD h
      unfold run at h
      obtain ⟨hk1, hk2⟩ := hk
      cases ho : (applyOp fuel D0 op).after with
      | none => rw [ho] at h; simp at h
      | some D2 =>
        rw [ho] at h hk2
        exact ih D2 D1 hk2 (disabled_applyOp hk1 ho hD) h
  exact gen ops _ _ hkeep (fun b sb hsb => by simp [DepSystem.empty, findSym] at hsb) h

/-- C7 (amended), witness: the run `add_set_symbol("a","")`, `add_set_symbol("b","")`,
`add_dependency("a","b")`, `add_set_symbol("a","x")` leaves `a` DISABLED, and `a` has the
dependency edge to `b`. -/
theorem C7_disabled_amended_witness :
    (RunKeepsDeps 5 DepSystem.empty
        [Op.add_set_symbol "a" "", Op.add_set_symbol "b" "", Op.add_dependency "a" "b",
          Op.add_set_symbol "a" "x"] ∧
      run 5 DepSystem.empty
        [Op.add_set_symbol "a" "", Op.add_set_symbol "b" "", Op.add_dependency "a" "b",
          Op.add_set_symbol "a" "x"] = some disabledExample ∧
      findSym disabledExample.symbols "a" =
        some { name := "a", value := "x", state := DISABLED, dependency_edges := ["b"] } ∧
      Symbol.state { name := "a", value := "x", state := DISABLED, dependency_edges := ["b"] }
        = DISABLED) ∧
    (Symbol.dependency_edges
        { name := "a", value := "x", state := DISABLED, dependency_edges := ["b"] } ≠ [] ∨
      ∃ l ∈ Symbol.dependency_list_list
          { name := "a", value := "x", state := DISABLED, dependency_edges := ["b"] },
        ∃ x ∈ l, countSym disabledExample.symbols x = true) :=
  have hk : RunKeepsDeps 5 DepSystem.empty
      [Op.add_set_symbol "a" "", Op.add_set_symbol "b" "", Op.add_dependency "a" "b",
        Op.add_set_symbol "a" "x"] := by
    refine ⟨trivial, trivial, ?_, trivial, trivial⟩
    intro d hd
    have e : Outcome.ok edgeExample = Outcome.threw Error.CyclicDependency d :=
      Eq.trans rfl hd
    cases e
  ⟨⟨hk, rfl, rfl, rfl⟩, C7_disabled_amended 5
    [Op.add_set_symbol "a" "", Op.add_set_symbol "b" "", Op.add_dependency "a" "b",
      Op.add_set_symbol "a" "x"] disabledExample hk rfl "a"
    { name := "a", value := "x", state := DISABLED, dependency_edges := ["b"] } rfl rfl⟩

/-! ## Depth of acyclic graphs -/

theorem Bounded.weaken {R : String → String → Prop} {k : Nat} {s : String}
    (h : Bounded R k s) : ∀ j, k ≤ j → Bounded R j s := by
  induction h with
  | mk k s _ ih =>
    intro j hj
    obtain ⟨i, rfl⟩ : ∃ i, j = i + 1 := ⟨j - 1, by omega⟩
    exact Bounded.mk i s (fun c hc => ih c hc i (by omega))

/-- In an acyclic graph all of whose arcs end in the finite list `V`, no chain of steps is
longer than `V`. -/
theorem bounded_of_acyclic (R : String → String → Prop) (V : List String)
    (hclosed : ∀ a b, R a b → b ∈ V) (hacyc : ∀ s, ¬ Relation.TransGen R s s) :
    ∀ s ∈ V, Bounded R V.length s := by
  have gen : ∀ (k : Nat) (p : List String), p.Nodup → p ⊆ V → k + p.length = V.length →
      ∀ s ∈ V, s ∉ p → (∀ a ∈ p, Relation.TransGen R a s) → Bounded R k s := by
    intro k
    induction k with
    | zero =>
      intro p hp hsub hlen s hs hsp _
      exfalso
      have hnd : (s :: p).Nodup := List.nodup_cons.2 ⟨hsp, hp⟩
      have hsub2 : (s :: p) ⊆ V := List.cons_subset.2 ⟨hs, hsub⟩
      have := (hnd.subperm hsub2).length_le
      simp at this
      omega
    | succ k ih =>
      intro p hp hsub hlen s hs hsp hreach
      refine Bounded.mk k s (fun c hc => ?_)
      refine ih (s :: p) (List.nodup_cons.2 ⟨hsp, hp⟩) (List.cons_subset.2 ⟨hs, hsub⟩)
        (by simp; omega) c (hclosed s c hc) ?_ ?_
      · intro hmem
        rcases List.mem_cons.1 hmem with rfl | hmem
        · exact hacyc c (Relation.TransGen.single hc)
        · exact hacyc c (Relation.TransGen.tail (hreach c hmem) hc)
      · intro a ha
        rcases List.mem_cons.1 ha with rfl | ha
        · exact Relation.TransGen.single hc
        · exact Relation.TransGen.tail (hreach a ha) hc
  intro s hs
  exact gen V.length [] List.nodup_nil (List.nil_subset _) (by simp) s hs
    (List.not_mem_nil _) (fun a ha => absurd ha (List.not_mem_nil _))

theorem mem_names_of_count {L : List Symbol} {n : String} (h : countSym L n = true) :
    n ∈ L.map Symbol.name := by
  obtain ⟨s, hs⟩ := countSym_eq_true.1 h
  exact List.mem_map.2 ⟨s, findSym_mem hs, findSym_name hs⟩

/-- Every arc of the dependency graph ends in an existing symbol, when dependency edges do. -/
theorem dep_closed {D : DepSystem} (hE : EdgeSymmetric D) {q p : String} (h : Dep D q p) :
    countSym D.symbols p = true := by
  obtain ⟨sq, hsq, hp | ⟨l, -, hl⟩⟩ := h
  · obtain ⟨sa, hsa, -⟩ := (hE q sq hsq).1 p hp
    exact countSym_eq_true.2 ⟨sa, hsa⟩
  · exact (firstExisting_some hl).2

/-- In an acyclic system with existing edge targets, the depth of every existing symbol is
bounded by the number of symbols. -/
theorem bounded_dep {D : DepSystem} (hE : EdgeSymmetric D) (hA : Acyclic D) {s : String}
    (hs : countSym D.symbols s = true) {fuel : Nat} (hfuel : D.symbols.length ≤ fuel) :
    Bounded (Dep D) fuel s := by
  have := bounded_of_acyclic (Dep D) (D.symbols.map Symbol.name)
    (fun a b hab => mem_names_of_count (dep_closed hE hab)) hA s (mem_names_of_count hs)
  exact this.weaken fuel (by simpa using hfuel)

/-! ## `detect_cycle` -/

theorem anyOpt_spec {α : Type} {f : α → Option Bool} {P : α → Prop} :
    ∀ (l : List α), (∀ x ∈ l, ∃ b, f x = some b ∧ (b = true ↔ P x)) →
      ∃ b, anyOpt f l = some b ∧ (b = true ↔ ∃ x ∈ l, P x) := by
  intro l
  induction l with
  | nil => intro _; exact ⟨false, rfl, by simp⟩
  | cons x xs ih =>
    intro h
    obtain ⟨b, hb, hP⟩ := h x (List.mem_cons_self _ _)
    obtain ⟨b2, hb2, hP2⟩ := ih (fun y hy => h y (List.mem_cons_of_mem _ hy))
    unfold anyOpt
    rw [hb]
    cases b with
    | true => exact ⟨true, rfl, by simp; exact Or.inl (hP.1 rfl)⟩
    | false =>
      refine ⟨b2, hb2, ?_⟩
      rw [hP2]
      constructor
      · rintro ⟨y, hy, hPy⟩; exact ⟨y, List.mem_cons_of_mem _ hy, hPy⟩
      · rintro ⟨y, hy, hPy⟩
        rcases List.mem_cons.1 hy with rfl | hy
        · have := hP.2 hPy; simp at this
        · exact ⟨y, hy, hPy⟩

theorem reaches_iff_step {D : DepSystem} {s m : String} :
    Reaches D s m ↔ ∃ c, Dep D s c ∧ (c = m ∨ Reaches D c m) := by
  unfold Reaches
  rw [Relation.TransGen.head'_iff]
  constructor
  · rintro ⟨c, hc, hcm⟩
    refine ⟨c, hc, ?_⟩
    rcases Relation.reflTransGen_iff_eq_or_transGen.1 hcm with e | e
    · exact Or.inl e.symm
    · exact Or.inr e
  · rintro ⟨c, hc, hcm⟩
    refine ⟨c, hc, ?_⟩
    rcases hcm with rfl | e
    · exact Relation.ReflTransGen.refl
    · exact e.to_reflTransGen

/-- `detect_cycle(from, target)` on a symbol of bounded depth: it returns, and it returns `true`
exactly when `target = from` or `target` is reachable from `from`. -/
theorem detect_cycle_spec {D : DepSystem} (hE : EdgeSymmetric D) (m : String) :
    ∀ (k : Nat) (s : String), Bounded (Dep D) k s → countSym D.symbols s = true →
      ∃ b, detect_cycle D k s m = some b ∧ (b = true ↔ s = m ∨ Reaches D s m) := by
  intro k s hb
  induction hb with
  | mk k s hchild ih =>
    intro hs
    unfold detect_cycle
    by_cases hsm : s = m
    · exact ⟨true, by simp [hsm], by simp [hsm]⟩
    · simp only [hsm, if_false]
      obtain ⟨S, hS⟩ := countSym_eq_true.1 hs
      rw [hS]
      simp only
      have h1 := anyOpt_spec (f := fun dep_sym_name =>
          if dep_sym_name = m then some true else detect_cycle D k dep_sym_name m)
        (P := fun c => c = m ∨ Reaches D c m) S.dependency_edges (by
          intro c hc
          have hdep : Dep D s c := ⟨S, hS, Or.inl hc⟩
          by_cases hcm : c = m
          · exact ⟨true, by simp [hcm], by simp [hcm]⟩
          · obtain ⟨b, hb, hP⟩ := ih c hdep (dep_closed hE hdep)
            exact ⟨b, by simp only [hcm, if_false]; exact hb, hP⟩)
      obtain ⟨b1, hb1, hP1⟩ := h1
      rw [hb1]
      cases b1 with
      | true =>
        obtain ⟨c, hc, hcm⟩ := hP1.1 rfl
        exact ⟨true, rfl, by
          simp only [true_iff]
          exact Or.inr (reaches_iff_step.2 ⟨c, ⟨S, hS, Or.inl hc⟩, hcm⟩)⟩
      | false =>
        simp only
        have h2 := anyOpt_spec (f := fun dep_list =>
            match firstExisting D.symbols dep_list with
            | none => some false
            | some list_sym_name => detect_cycle D k list_sym_name m)
          (P := fun l => ∃ c, firstExisting D.symbols l = some c ∧ (c = m ∨ Reaches D c m))
          S.dependency_list_list (by
            intro l hl
            beta_reduce
            cases hfe : firstExisting D.symbols l with
            | none => exact ⟨false, rfl, by simp⟩
            | some c =>
              have hdep : Dep D s c := ⟨S, hS, Or.inr ⟨l, hl, hfe⟩⟩
              obtain ⟨b, hb, hP⟩ := ih c hdep (dep_closed hE hdep)
              exact ⟨b, hb, by
                rw [hP]
                constructor
                · intro h; exact ⟨c, rfl, h⟩
                · rintro ⟨c2, hc2, h⟩; cases hc2; exact h⟩)
        obtain ⟨b2, hb2, hP2⟩ := h2
        refine ⟨b2, hb2, ?_⟩
        rw [hP2]
        constructor
        · rintro ⟨l, hl, c, hfe, hcm⟩
          exact Or.inr (reaches_iff_step.2 ⟨c, ⟨S, hS, Or.inr ⟨l, hl, hfe⟩⟩, hcm⟩)
        · rintro (e | hr)
          · exact e.elim
          · obtain ⟨c, ⟨S2, hS2, hc⟩, hcm⟩ := reaches_iff_step.1 hr
            rw [hS] at hS2; cases hS2
            rcases hc with hc | ⟨l, hl, hfe⟩
            · have : false = true := hP1.2 ⟨c, hc, hcm⟩
              cases this
            · exact ⟨l, hl, c, hfe, hcm⟩

/-- `detect_cycle` towards `m` reads the records of all symbols but `m` only. -/
theorem detect_cycle_congr {D D1 : DepSystem} (m : String)
    (hcount : ∀ n, countSym D1.symbols n = countSym D.symbols n)
    (hrec : ∀ n s1, n ≠ m → findSym D1.symbols n = some s1 →
      ∃ s, findSym D.symbols n = some s ∧ s1.dependency_edges = s.dependency_edges ∧
        s1.dependency_list_list = s.dependency_list_list) :
    ∀ (k : Nat) (s : String), detect_cycle D1 k s m = detect_cycle D k s m := by
  intro k
  induction k with
  | zero => intro s; rfl
  | succ k ih =>
    intro s
    unfold detect_cycle
    by_cases hsm : s = m
    · simp [hsm]
    · simp only [hsm, if_false]
      cases h1 : findSym D1.symbols s with
      | none =>
        have : findSym D.symbols s = none := by
          rw [← countSym_eq_false, ← hcount, countSym_eq_false]; exact h1
        rw [this]
      | some s1 =>
        obtain ⟨s0, hs0, hd, hl⟩ := hrec s s1 hsm h1
        rw [hs0]
        simp only [hd, hl]
        have e1 : (fun dep_sym_name =>
            if dep_sym_name = m then some true else detect_cycle D1 k dep_sym_name m) =
            (fun dep_sym_name =>
            if dep_sym_name = m then some true else detect_cycle D k dep_sym_name m) := by
          funext c; rw [ih]
        have e2 : (fun dep_list =>
            match firstExisting D1.symbols dep_list with
            | none => some false
            | some list_sym_name => detect_cycle D1 k list_sym_name m) =
            (fun dep_list =>
            match firstExisting D.symbols dep_list with
            | none => some false
            | some list_sym_name => detect_cycle D k list_sym_name m) := by
          funext l
          rw [firstExisting_congr hcount]
          cases firstExisting D.symbols l with
          | none => rfl
          | some c => simp only [ih]
        rw [e1, e2]

/-! ## Checking the hypotheses on concrete systems -/

theorem dep_mem_arcsOf {D : DepSystem} {q p : String} (h : Dep D q p) : (q, p) ∈ arcsOf D := by
  obtain ⟨sq, hsq, hc⟩ := h
  have hn : sq.name = q := findSym_name hsq
  unfold arcsOf
  refine List.mem_flatMap.2 ⟨sq, findSym_mem hsq, ?_⟩
  rcases hc with hp | ⟨l, hl, hfe⟩
  · exact List.mem_append_left _ (List.mem_map.2 ⟨p, hp, by rw [hn]⟩)
  · refine List.mem_append_right _ (List.mem_filterMap.2 ⟨l, hl, ?_⟩)
    rw [hfe, hn]; rfl

/-- A ranking that decreases along every arc shows that the graph has no cycle. -/
theorem acyclic_of_rank {D : DepSystem} (rank : String → Nat)
    (h : ∀ e ∈ arcsOf D, rank e.2 < rank e.1) : Acyclic D := by
  have key : ∀ a b, Reaches D a b → rank b < rank a := by
    intro a b hab
    induction hab with
    | single hd => exact h _ (dep_mem_arcsOf hd)
    | tail _ hd ih => exact lt_trans (h _ (dep_mem_arcsOf hd)) ih
  intro s hs
  exact lt_irrefl _ (key s s hs)

theorem edgeSymmetric_of_check {D : DepSystem} (h : edgeSymmetricCheck D = true) :
    EdgeSymmetric D := by
  unfold edgeSymmetricCheck at h
  rw [List.all_eq_true] at h
  intro b sb hsb
  have hb := h sb (findSym_mem hsb)
  have hn : sb.name = b := findSym_name hsb
  rw [Bool.and_eq_true, List.all_eq_true, List.all_eq_true] at hb
  constructor
  · intro a ha
    have := hb.1 a ha
    cases hf : findSym D.symbols a with
    | none => rw [hf] at this; simp at this
    | some sa =>
      rw [hf] at this
      exact ⟨sa, rfl, by simpa [hn] using this⟩
  · intro a ha
    have := hb.2 a ha
    cases hf : findSym D.symbols a with
    | none => rw [hf] at this; simp at this
    | some sa =>
      rw [hf] at this
      exact ⟨sa, rfl, by simpa [hn] using this⟩

theorem putSym_restore1 (L : List Symbol) {F A B C : Symbol}
    (hF : findSym L F.name = some F) (hA : A.name = F.name) (hB : B.name = F.name)
    (hC : C.name = F.name) :
    putSym (putSym (putSym (putSym L A) B) C) F = L := by
  rw [putSym_putSym_same L (s := A) (t := B) (hA.trans hB.symm),
    putSym_putSym_same L (s := B) (t := C) (hB.trans hC.symm),
    putSym_putSym_same L (s := C) (t := F) hC, putSym_self hF]

theorem putSym_restore2 (L : List Symbol) {F T F1 T1 : Symbol}
    (hF : findSym L F.name = some F) (hT : findSym L T.name = some T)
    (hF1 : F1.name = F.name) (hT1 : T1.name = T.name) (hne : F.name ≠ T.name) :
    putSym (putSym (putSym (putSym L F1) T1) F) T = L := by
  have hcF : countSym (putSym L F1) F.name = true := by
    rw [countSym_putSym]; simp [hF1]
  have hcT : countSym (putSym L F1) T1.name = true := by
    rw [countSym_putSym, hT1]
    simp [countSym, hT]
  rw [putSym_comm (L := putSym L F1) (s := T1) (t := F) (by rw [hT1]; exact hne.symm) hcT hcF,
    putSym_putSym_same L (s := F1) (t := F) hF1, putSym_self hF,
    putSym_putSym_same L (s := T1) (t := T) hT1, putSym_self hT]

/-! ## Cycle rejection -/

/-- C1: in a `DepSystem` with symmetric edges and no cycle, if `from` and `to` exist and the edge
`from → to` would close a cycle (`from = to`, or `to` already reaches `from` through dependency
edges and active list choices), then `add_dependency(from, to)`, given fuel for the depth of the
graph, throws CyclicDependency and leaves exactly the `DepSystem` it started from; in that
system `from.dependency_edges` does not contain `to`. -/
theorem C1_cyclic_add_dependency_rejected (D : DepSystem) (from_name to_name : String)
    (fuel : Nat) (hE : EdgeSymmetric D) (hA : Acyclic D)
    (hf : has_symbol D from_name = true) (ht : has_symbol D to_name = true)
    (hcyc : from_name = to_name ∨ Reaches D to_name from_name)
    (hfuel : D.symbols.length ≤ fuel) :
    add_dependency fuel D from_name to_name = Outcome.threw Error.CyclicDependency D ∧
    ∀ sf, findSym D.symbols from_name = some sf → to_name ∉ sf.dependency_edges := by
  obtain ⟨F, hF⟩ := countSym_eq_true.1 hf
  obtain ⟨T, hT⟩ := countSym_eq_true.1 ht
  have hFn : F.name = from_name := findSym_name hF
  have hTn : T.name = to_name := findSym_name hT
  -- the edge is not there yet
  have hno : to_name ∉ F.dependency_edges := by
    intro hm
    have hd : Dep D from_name to_name := ⟨F, hF, Or.inl hm⟩
    rcases hcyc with e | hr
    · exact hA from_name (Relation.TransGen.single (e ▸ hd))
    · exact hA from_name (Relation.TransGen.head hd hr)
  have hnorev : from_name ∉ T.reverse_dependency_edges := by
    intro hm
    obtain ⟨sf, hsf, hm2⟩ := (hE to_name T hT).2 from_name hm
    rw [hF] at hsf; cases hsf
    exact hno hm2
  refine ⟨?_, fun sf hsf => by rw [hF] at hsf; cases hsf; exact hno⟩
  -- the cycle check on the modified system answers `true`
  have hpos : 0 < fuel := by
    have : 0 < D.symbols.length := by
      cases hL : D.symbols with
      | nil => rw [hL] at hF; simp [findSym] at hF
      | cons x xs => simp
    omega
  have hdet : detect_cycle (withEdge D F T from_name to_name) fuel to_name from_name
      = some true := by
    by_cases hft : from_name = to_name
    · obtain ⟨k, rfl⟩ : ∃ k, fuel = k + 1 := ⟨fuel - 1, by omega⟩
      simp [detect_cycle, hft]
    · have hr : Reaches D to_name from_name := by
        rcases hcyc with e | hr
        · exact absurd e hft
        · exact hr
      rw [detect_cycle_congr (D := D) from_name
        (fun n => (withEdge_agree hF hT).count n) ?_ fuel to_name]
      · obtain ⟨b, hb, hP⟩ := detect_cycle_spec hE from_name fuel to_name
          (bounded_dep hE hA ht hfuel) ht
        rw [hb, hP.2 (Or.inr hr)]
      · intro n s1 hn hs1
        rw [findSym_withEdge hF hT] at hs1
        by_cases htn : to_name = n
        · subst htn
          simp only [if_true, Option.some.injEq] at hs1
          subst hs1
          exact ⟨T, hT, rfl, rfl⟩
        · have hfn : ¬ from_name = n := fun e => hn e.symm
          simp only [htn, hfn, if_false] at hs1
          exact ⟨s1, hs1, rfl, rfl⟩
  -- `delete_dependency` restores the records
  have hdel : delete_dependency (withEdge D F T from_name to_name) from_name to_name
      = Outcome.ok D := by
    unfold delete_dependency
    rw [findSym_withEdge hF hT from_name, findSym_withEdge hF hT to_name]
    simp only [if_true]
    by_cases hft : from_name = to_name
    · subst hft
      rw [hF] at hT; cases hT
      simp only [if_true]
      have e1 : setErase from_name (setInsert from_name F.reverse_dependency_edges)
          = F.reverse_dependency_edges := setErase_setInsert hnorev
      simp only [e1, withEdge]
      refine congrArg Outcome.ok ?_
      cases D with
      | mk syms sh =>
        congr 1
        exact putSym_restore1 syms (F := F) (by rw [hFn]; exact hF) rfl rfl rfl
    · have htf : ¬ to_name = from_name := fun e => hft e.symm
      simp only [htf, if_false]
      have e1 : setErase to_name (setInsert to_name F.dependency_edges)
          = F.dependency_edges := setErase_setInsert hno
      have e2 : setErase from_name (setInsert from_name T.reverse_dependency_edges)
          = T.reverse_dependency_edges := setErase_setInsert hnorev
      simp only [e1, e2, withEdge]
      refine congrArg Outcome.ok ?_
      cases D with
      | mk syms sh =>
        congr 1
        exact putSym_restore2 syms (F := F) (T := T) (by rw [hFn]; exact hF)
          (by rw [hTn]; exact hT) rfl rfl (by rw [hFn, hTn]; exact hft)
  unfold add_dependency
  rw [hF, hT]
  change (match detect_cycle (withEdge D F T from_name to_name) fuel to_name from_name with
    | none => Outcome.undefined
    | some false => Outcome.ok (withEdge D F T from_name to_name)
    | some true =>
      match delete_dependency (withEdge D F T from_name to_name) from_name to_name with
      | Outcome.ok D2 => Outcome.threw Error.CyclicDependency D2
      | other => other) = _
  rw [hdet]
  simp only [hdel]


theorem chainExample_edges : EdgeSymmetric chainExample :=
  edgeSymmetric_of_check (by decide)

theorem chainExample_acyclic : Acyclic chainExample :=
  acyclic_of_rank (fun n => if n = "a" then 2 else if n = "b" then 1 else 0) (by decide)

theorem chainExample_reaches : Reaches chainExample "a" "c" := by
  have h1 : Dep chainExample "a" "b" :=
    ⟨{ name := "a", value := "", state := VALID, dependency_edges := ["b"] }, rfl,
      Or.inl (by decide)⟩
  have h2 : Dep chainExample "b" "c" :=
    ⟨{ name := "b", value := "", state := VALID, dependency_edges := ["c"],
        reverse_dependency_edges := ["a"] }, rfl, Or.inl (by decide)⟩
  exact Relation.TransGen.tail (Relation.TransGen.single h1) h2

/-- C1, witness: the cycle-rejection scenario of the specification, `a → b → c` and the attempt
`add_dependency("c", "a")`. -/
theorem C1_cyclic_add_dependency_rejected_witness :
    (EdgeSymmetric chainExample ∧ Acyclic chainExample ∧
      has_symbol chainExample "c" = true ∧ has_symbol chainExample "a" = true ∧
      ("c" = "a" ∨ Reaches chainExample "a" "c") ∧ chainExample.symbols.length ≤ 3) ∧
    (add_dependency 3 chainExample "c" "a"
        = Outcome.threw Error.CyclicDependency chainExample ∧
      ∀ sf, findSym chainExample.symbols "c" = some sf → "a" ∉ sf.dependency_edges) :=
  ⟨⟨chainExample_edges, chainExample_acyclic, rfl, rfl, Or.inr chainExample_reaches,
      by decide⟩,
    C1_cyclic_add_dependency_rejected chainExample "c" "a" 3 chainExample_edges
      chainExample_acyclic rfl rfl (Or.inr chainExample_reaches) (by decide)⟩

/-! ## `get_dependencies_recursive` -/

/-- A loop with an invariant indexed by the elements processed so far. -/
theorem foldOpt_prefix {σ α : Type} (f : σ → α → Option σ) (Inv : List α → σ → Prop) :
    ∀ (l done : List α) (st : σ), Inv done st →
      (∀ d st x, x ∈ l → Inv d st → ∃ st1, f st x = some st1 ∧ Inv (d ++ [x]) st1) →
      ∃ st1, foldOpt f st l = some st1 ∧ Inv (done ++ l) st1 := by
  intro l
  induction l with
  | nil => intro done st h _; exact ⟨st, rfl, by simpa using h⟩
  | cons x xs ih =>
    intro done st h hstep
    obtain ⟨st1, hf, hinv⟩ := hstep done st x (List.mem_cons_self _ _) h
    obtain ⟨st2, hf2, hinv2⟩ := ih (done ++ [x]) st1 hinv
      (fun d st y hy => hstep d st y (List.mem_cons_of_mem _ hy))
    refine ⟨st2, ?_, by simpa using hinv2⟩
    unfold foldOpt
    rw [hf]
    exact hf2

theorem pair_sublist_append {p q : String} {T R : List String} (hp : p ∈ T) (hq : q ∈ R) :
    List.Sublist [p, q] (T ++ R) := by
  have h1 : List.Sublist [p] T := List.singleton_sublist.2 hp
  have h2 : List.Sublist [q] R := List.singleton_sublist.2 hq
  exact h1.append h2

/-- One visit of a child `c` of `s` keeps the loop invariant and covers `c`. -/
theorem dfs_absorb {D : DepSystem} {s c : String} {C Rc : List String}
    {st : List String × List String} (hinv : DfsInv D s C st) (hdep : Dep D s c)
    (hin : c ∈ st.2 → Rc = []) (hout : c ∉ st.2 → DfsOut D c st.2 Rc) :
    DfsInv D s C (absorb st Rc) ∧ c ∈ (absorb st Rc).2 ∧
      ∀ x ∈ st.2, x ∈ (absorb st Rc).2 := by
  obtain ⟨hC, hnd, hdisj, hreach, hex, htopo⟩ := hinv
  by_cases hc : c ∈ st.2
  · have := hin hc
    subst this
    have e : absorb st [] = st := by
      simp [absorb, setInsertAll]
    rw [e]
    exact ⟨⟨hC, hnd, hdisj, hreach, hex, htopo⟩, hc, fun x hx => hx⟩
  · obtain ⟨hnd2, hdisj2, ⟨R0, hR0, hreach2⟩, hex2, htopo2⟩ := hout hc
    have hfilter : Rc.filter (fun x => decide (x ∉ st.2)) = Rc := by
      rw [List.filter_eq_self]
      intro x hx
      simpa using hdisj2 x hx
    have e1 : (absorb st Rc).1 = st.1 ++ Rc := by
      simp only [absorb]; rw [hfilter]
    have e2 : ∀ x, x ∈ (absorb st Rc).2 ↔ x ∈ st.2 ∨ x ∈ Rc := by
      intro x; simp [absorb, mem_setInsertAll]
    have hcRc : c ∈ Rc := by rw [hR0]; simp
    have hreachRc : ∀ x ∈ Rc, Reaches D s x := by
      intro x hx
      rw [hR0] at hx
      rcases List.mem_append.1 hx with h | h
      · exact Relation.TransGen.head hdep (hreach2 x h)
      · simp at h; subst h; exact Relation.TransGen.single hdep
    refine ⟨⟨?_, ?_, ?_, ?_, ?_, ?_⟩, (e2 c).2 (Or.inr hcRc), fun x hx => (e2 x).2 (Or.inl hx)⟩
    · intro x
      rw [e2, e1, hC, List.mem_append]
      tauto
    · rw [e1]
      refine List.nodup_append.2 ⟨hnd, hnd2, ?_⟩
      intro x hx1 hx2
      exact hdisj2 x hx2 ((hC x).2 (Or.inr hx1))
    · intro x hx
      rw [e1] at hx
      rcases List.mem_append.1 hx with h | h
      · exact hdisj x h
      · exact fun hxC => hdisj2 x h ((hC x).2 (Or.inl hxC))
    · intro x hx
      rw [e1] at hx
      rcases List.mem_append.1 hx with h | h
      · exact hreach x h
      · exact hreachRc x h
    · intro x hx
      rw [e1] at hx
      rcases List.mem_append.1 hx with h | h
      · exact hex x h
      · exact hex2 x h
    · intro q hq p hpq
      rw [e1] at hq ⊢
      rcases List.mem_append.1 hq with h | h
      · rcases htopo q h p hpq with h1 | h1
        · exact Or.inl h1
        · exact Or.inr (h1.trans (List.sublist_append_left _ _))
      · rcases htopo2 q h p hpq with h1 | h1
        · rcases (hC p).1 h1 with h2 | h2
          · exact Or.inl h2
          · exact Or.inr (pair_sublist_append h2 h)
        · exact Or.inr (h1.trans (List.sublist_append_right _ _))

/-- `get_dependencies_recursive` on a stored record of bounded depth, in an acyclic system with
existing edge targets: it returns; the result is empty when the symbol is already considered,
and otherwise satisfies `DfsOut`. -/
theorem get_dependencies_recursive_spec {D : DepSystem} (hE : EdgeSymmetric D)
    (hA : Acyclic D) :
    ∀ (k : Nat) (s : String), Bounded (Dep D) k s →
      ∀ (sym : Symbol) (C : List String), findSym D.symbols s = some sym →
        ∃ R, get_dependencies_recursive D k sym C = some R ∧
          (s ∈ C → R = []) ∧ (s ∉ C → DfsOut D s C R) := by
  intro k s hb
  induction hb with
  | mk k s hchild ih =>
    intro sym C hsym
    have hname : sym.name = s := findSym_name hsym
    unfold get_dependencies_recursive
    by_cases hsC : s ∈ C
    · exact ⟨[], by simp [hname, hsC], fun _ => rfl, fun h => absurd hsC h⟩
    · simp only [hname, hsC, if_false]
      -- the visit of one child
      have visit : ∀ (st : List String × List String) (c : String), DfsInv D s C st →
          Dep D s c →
          ∃ st1, (match findSym D.symbols c with
            | none => none
            | some dep =>
              match get_dependencies_recursive D k dep st.2 with
              | none => none
              | some dep_deps => some (absorb st dep_deps)) = some st1 ∧
            DfsInv D s C st1 ∧ c ∈ st1.2 ∧ ∀ x ∈ st.2, x ∈ st1.2 := by
        intro st c hinv hdep
        obtain ⟨dep, hdepf⟩ := countSym_eq_true.1 (dep_closed hE hdep)
        obtain ⟨Rc, hRc, hin, hout⟩ := ih c hdep dep st.2 hdepf
        rw [hdepf]
        simp only [hRc]
        exact ⟨_, rfl, dfs_absorb hinv hdep hin hout⟩
      have hinit : DfsInv D s C ([], C) :=
        ⟨fun x => by simp, List.nodup_nil, fun x hx => by simp at hx,
          fun x hx => by simp at hx, fun x hx => by simp at hx, fun q hq => by simp at hq⟩
      -- first loop: the dependency edges
      obtain ⟨st1, hst1, hinv1, hcov1⟩ := foldOpt_prefix
        (fun st dep_sym_name =>
          match findSym D.symbols dep_sym_name with
          | none => none
          | some dep =>
            match get_dependencies_recursive D k dep st.2 with
            | none => none
            | some dep_deps => some (absorb st dep_deps))
        (fun done st => DfsInv D s C st ∧ ∀ c ∈ done, c ∈ st.2)
        sym.dependency_edges [] ([], C) ⟨hinit, fun c hc => by simp at hc⟩
        (by
          intro d st c hc ⟨hinv, hcov⟩
          obtain ⟨st1, h1, h2, h3, h4⟩ := visit st c hinv ⟨sym, hsym, Or.inl hc⟩
          refine ⟨st1, h1, h2, ?_⟩
          intro c2 hc2
          rcases List.mem_append.1 hc2 with h | h
          · exact h4 c2 (hcov c2 h)
          · simp at h; subst h; exact h3)
      rw [hst1]
      simp only
      -- second loop: the ordered lists
      obtain ⟨st2, hst2, hinv2, hcov2, hcov3⟩ := foldOpt_prefix
        (fun st dep_list =>
          match firstExisting D.symbols dep_list with
          | none => some st
          | some list_sym_name =>
            match findSym D.symbols list_sym_name with
            | none => none
            | some dep =>
              match get_dependencies_recursive D k dep st.2 with
              | none => none
              | some dep_deps => some (absorb st dep_deps))
        (fun done st => DfsInv D s C st ∧ (∀ c ∈ sym.dependency_edges, c ∈ st.2) ∧
          ∀ l ∈ done, ∀ c, firstExisting D.symbols l = some c → c ∈ st.2)
        sym.dependency_list_list [] st1
        ⟨hinv1, by simpa using hcov1, fun l hl => by simp at hl⟩
        (by
          intro d st l hl ⟨hinv, hcovd, hcov⟩
          beta_reduce
          cases hfe : firstExisting D.symbols l with
          | none =>
            refine ⟨st, rfl, hinv, hcovd, ?_⟩
            intro l2 hl2 c hc
            rcases List.mem_append.1 hl2 with h | h
            · exact hcov l2 h c hc
            · simp at h; subst h; rw [hfe] at hc; cases hc
          | some c =>
            obtain ⟨st1, h1, h2, h3, h4⟩ := visit st c hinv ⟨sym, hsym, Or.inr ⟨l, hl, hfe⟩⟩
            refine ⟨st1, h1, h2, fun c2 hc2 => h4 c2 (hcovd c2 hc2), ?_⟩
            intro l2 hl2 c2 hc2
            rcases List.mem_append.1 hl2 with h | h
            · exact h4 c2 (hcov l2 h c2 hc2)
            · simp at h; subst h; rw [hfe] at hc2; cases hc2; exact h3)
      rw [hst2]
      simp only
      refine ⟨st2.1 ++ [s], rfl, fun h => h.elim, fun _ => ?_⟩
      obtain ⟨hC, hnd, hdisj, hreach, hex, htopo⟩ := hinv2
      have hs_not : s ∉ st2.1 := fun h => hA s (hreach s h)
      refine ⟨?_, ?_, ⟨st2.1, rfl, hreach⟩, ?_, ?_⟩
      · exact List.nodup_append.2 ⟨hnd, List.nodup_singleton s, by
          intro x hx1 hx2
          simp at hx2; subst hx2; exact hs_not hx1⟩
      · intro x hx
        rcases List.mem_append.1 hx with h | h
        · exact hdisj x h
        · simp at h; subst h; exact hsC
      · intro x hx
        rcases List.mem_append.1 hx with h | h
        · exact hex x h
        · simp at h; subst h; exact countSym_eq_true.2 ⟨sym, hsym⟩
      · intro q hq p hpq
        rcases List.mem_append.1 hq with h | h
        · rcases htopo q h p hpq with h1 | h1
          · exact Or.inl h1
          · exact Or.inr (h1.trans (List.sublist_append_left _ _))
        · simp at h; subst h
          obtain ⟨sq, hsq, hcase⟩ := hpq
          rw [hsym] at hsq; cases hsq
          have hp2 : p ∈ st2.2 := by
            rcases hcase with h1 | ⟨l, hl, hfe⟩
            · exact hcov2 p h1
            · exact hcov3 l (by simpa using hl) p hfe
          rcases (hC p).1 hp2 with h1 | h1
          · exact Or.inl h1
          · exact Or.inr (pair_sublist_append h1 (List.mem_singleton_self _))

/-! ## `get_build_plan` -/

theorem select_syms_with_states_eq {D : DepSystem} {states : List Symbol_State} :
    ∀ (l : List String), (∀ x ∈ l, countSym D.symbols x = true) →
      select_syms_with_states D l states = some (l.filter (stateIn D states)) := by
  intro l
  induction l with
  | nil => intro _; rfl
  | cons x xs ih =>
    intro h
    obtain ⟨sx, hsx⟩ := countSym_eq_true.1 (h x (List.mem_cons_self _ _))
    unfold select_syms_with_states
    rw [hsx, ih (fun y hy => h y (List.mem_cons_of_mem _ hy))]
    simp only [List.filter_cons, stateIn, hsx]
    by_cases hst : sx.state ∈ states <;> simp [hst]

theorem selectLoop_selectAll {D : DepSystem} :
    ∀ (l : List String), (∀ x ∈ l, countSym D.symbols x = true) →
      selectLoop D selectAll l = some l := by
  intro l
  induction l with
  | nil => intro _; rfl
  | cons x xs ih =>
    intro h
    obtain ⟨sx, hsx⟩ := countSym_eq_true.1 (h x (List.mem_cons_self _ _))
    unfold selectLoop
    rw [hsx, ih (fun y hy => h y (List.mem_cons_of_mem _ hy))]
    simp [selectAll]

theorem before_of_sublist {p q : String} :
    ∀ (l : List String), List.Sublist [p, q] l → Before l p q := by
  intro l
  induction l with
  | nil => intro h; simp at h
  | cons x xs ih =>
    intro h
    cases h with
    | cons _ h2 =>
      obtain ⟨l1, l2, l3, e⟩ := ih h2
      exact ⟨x :: l1, l2, l3, by rw [e]; rfl⟩
    | cons₂ _ h2 =>
      have hq : q ∈ xs := List.singleton_sublist.1 h2
      obtain ⟨l2, l3, e⟩ := List.append_of_mem hq
      exact ⟨[], l2, l3, by rw [e]; rfl⟩

/-- C10: in a `DepSystem` with symmetric edges and no cycle, for an existing symbol `s` and fuel
for the depth of the graph, `get_build_plan(s)` returns or throws (it is never undefined), and
whenever it returns a plan: every element of the plan is `s` or an element of
`get_dependencies(s)`; no name occurs twice; and whenever `p` and `q` are in the plan and `q`
depends directly on `p` (by a dependency edge or as the first existing element of one of the
lists of `q`), `p` stands before `q`. -/
theorem C10_build_plan_order (D : DepSystem) (s : String) (fuel : Nat)
    (hE : EdgeSymmetric D) (hA : Acyclic D) (hs : has_symbol D s = true)
    (hfuel : D.symbols.length ≤ fuel) :
    get_build_plan fuel D s ≠ Outcome.undefined ∧
    ∀ plan, get_build_plan fuel D s = Outcome.ok plan →
      (∃ deps, get_dependencies fuel D s selectAll = Outcome.ok deps ∧
        ∀ x ∈ plan, x = s ∨ x ∈ deps) ∧
      plan.Nodup ∧
      ∀ p q, p ∈ plan → q ∈ plan → Dep D q p → Before plan p q := by
  obtain ⟨sym, hsym⟩ := countSym_eq_true.1 hs
  obtain ⟨R, hR, -, hout⟩ := get_dependencies_recursive_spec hE hA fuel s
    (bounded_dep hE hA hs hfuel) sym [] hsym
  obtain ⟨hnd, -, ⟨R0, hR0, -⟩, hex, htopo⟩ := hout (List.not_mem_nil s)
  have hsel1 : select_syms_with_states D R [INVALID] = some (R.filter (stateIn D [INVALID])) :=
    select_syms_with_states_eq R hex
  have hsel2 : select_syms_with_states D R [NONBUILT, STALE]
      = some (R.filter (stateIn D [NONBUILT, STALE])) :=
    select_syms_with_states_eq R hex
  have hplan : get_build_plan fuel D s =
      match R.filter (stateIn D [INVALID]) with
      | [] => Outcome.ok (R.filter (stateIn D [NONBUILT, STALE]))
      | _ :: _ => Outcome.threw Error.Unbuildable D := by
    unfold get_build_plan
    rw [hsym]
    simp only [hR, hsel1]
    cases R.filter (stateIn D [INVALID]) with
    | nil => simp only [hsel2]
    | cons y ys => rfl
  constructor
  · rw [hplan]
    cases R.filter (stateIn D [INVALID]) <;> simp
  · intro plan hp
    rw [hplan] at hp
    have hplan2 : plan = R.filter (stateIn D [NONBUILT, STALE]) := by
      cases hinv : R.filter (stateIn D [INVALID]) with
      | nil => rw [hinv] at hp; simp at hp; exact hp.symm
      | cons y ys => rw [hinv] at hp; simp at hp
    refine ⟨⟨R0, ?_, ?_⟩, ?_, ?_⟩
    · unfold get_dependencies
      rw [hsym]
      simp only [hR]
      have hdrop : R.dropLast = R0 := by rw [hR0]; simp
      rw [hdrop, selectLoop_selectAll R0 (fun x hx => hex x (by rw [hR0]; simp [hx]))]
    · intro x hx
      rw [hplan2] at hx
      have hxR : x ∈ R := (List.mem_filter.1 hx).1
      rw [hR0] at hxR
      rcases List.mem_append.1 hxR with h | h
      · exact Or.inr h
      · simp at h; exact Or.inl h
    · rw [hplan2]; exact hnd.filter _
    · intro p q hp2 hq2 hdep
      rw [hplan2] at hp2 hq2 ⊢
      have hpf := (List.mem_filter.1 hp2).2
      have hqf := (List.mem_filter.1 hq2).2
      have hsub : List.Sublist [p, q] R := by
        rcases htopo q (List.mem_filter.1 hq2).1 p hdep with h | h
        · simp at h
        · exact h
      have := hsub.filter (stateIn D [NONBUILT, STALE])
      have e : [p, q].filter (stateIn D [NONBUILT, STALE]) = [p, q] := by
        simp [List.filter_cons, hpf, hqf]
      rw [e] at this
      exact before_of_sublist _ this

theorem planExample_edges : EdgeSymmetric planExample :=
  edgeSymmetric_of_check (by decide)

theorem planExample_acyclic : Acyclic planExample :=
  acyclic_of_rank (fun n => if n = "a" then 2 else if n = "b" then 1 else 0) (by decide)

theorem planExample_plan : get_build_plan 3 planExample "a" = Outcome.ok ["b", "a"] := by
  rfl

/-- C10, witness: the plan of `a` in `planExample` is `["b", "a"]`. -/
theorem C10_build_plan_order_witness :
    (EdgeSymmetric planExample ∧ Acyclic planExample ∧ has_symbol planExample "a" = true ∧
      planExample.symbols.length ≤ 3) ∧
    (get_build_plan 3 planExample "a" ≠ Outcome.undefined ∧
    ∀ plan, get_build_plan 3 planExample "a" = Outcome.ok plan →
      (∃ deps, get_dependencies 3 planExample "a" selectAll = Outcome.ok deps ∧
        ∀ x ∈ plan, x = "a" ∨ x ∈ deps) ∧
      plan.Nodup ∧
      ∀ p q, p ∈ plan → q ∈ plan → Dep planExample q p → Before plan p q) :=
  ⟨⟨planExample_edges, planExample_acyclic, rfl, by decide⟩,
    C10_build_plan_order planExample "a" 3 planExample_edges planExample_acyclic rfl
      (by decide)⟩

/-! ## `get_dependents_recursive` -/

theorem nodup_setInsert {x : String} {s : List String} (h : s.Nodup) :
    (setInsert x s).Nodup := by
  unfold setInsert
  split_ifs with hx
  · exact h
  · exact List.nodup_append.2 ⟨h, List.nodup_singleton x, by
      intro y hy1 hy2
      simp at hy2; subst hy2; exact hx hy1⟩

theorem nodup_setInsertAll {s : List String} (h : s.Nodup) :
    ∀ xs, (setInsertAll s xs).Nodup := by
  intro xs
  induction xs generalizing s with
  | nil => exact h
  | cons x xs ih => exact ih (nodup_setInsert h)

theorem revDep_agree {D D1 : DepSystem} (h : Agree revOf D.symbols D1.symbols) (a d : String) :
    RevDep D1 a d ↔ RevDep D a d := by
  constructor
  · rintro ⟨sa, hsa, hd⟩
    obtain ⟨s, hs, hp⟩ := h.find hsa
    have e1 : sa.reverse_dependency_edges = s.reverse_dependency_edges := congrArg Prod.fst hp
    have e2 : sa.reverse_dependency_list_set = s.reverse_dependency_list_set :=
      congrArg Prod.snd hp
    exact ⟨s, hs, by rw [← e1, ← e2]; exact hd⟩
  · rintro ⟨sa, hsa, hd⟩
    obtain ⟨s, hs, hp⟩ := h.find_rev hsa
    have e1 : s.reverse_dependency_edges = sa.reverse_dependency_edges := congrArg Prod.fst hp
    have e2 : s.reverse_dependency_list_set = sa.reverse_dependency_list_set :=
      congrArg Prod.snd hp
    exact ⟨s, hs, by rw [e1, e2]; exact hd⟩

/-- A recorded dependent really depends on the symbol, when the reverse sets are exact. -/
theorem dep_of_revDep {D : DepSystem} (hE : EdgeSymmetric D) (hR : RevListsExact D)
    {a d : String} (h : RevDep D a d) : Dep D d a := by
  obtain ⟨sa, hsa, hd | hd⟩ := h
  · obtain ⟨sd, hsd, hm⟩ := (hE a sa hsa).2 d hd
    exact ⟨sd, hsd, Or.inl hm⟩
  · obtain ⟨sd, hsd, l, hl, hfe⟩ := hR a sa hsa d hd
    exact ⟨sd, hsd, Or.inr ⟨l, hl, hfe⟩⟩

theorem reaches_of_revReach {D : DepSystem} (hE : EdgeSymmetric D) (hR : RevListsExact D)
    {a d : String} (h : Relation.TransGen (RevDep D) a d) : Reaches D d a := by
  induction h with
  | single h1 => exact Relation.TransGen.single (dep_of_revDep hE hR h1)
  | tail _ h2 ih => exact Relation.TransGen.head (dep_of_revDep hE hR h2) ih

theorem revDep_closed {D : DepSystem} (hE : EdgeSymmetric D) (hR : RevListsExact D)
    {a d : String} (h : RevDep D a d) : countSym D.symbols d = true := by
  obtain ⟨sd, hsd, -⟩ := dep_of_revDep hE hR h
  exact countSym_eq_true.2 ⟨sd, hsd⟩

theorem bounded_revDep {D : DepSystem} (hE : EdgeSymmetric D) (hA : Acyclic D)
    (hR : RevListsExact D) {s : String} (hs : countSym D.symbols s = true) {fuel : Nat}
    (hfuel : D.symbols.length ≤ fuel) : Bounded (RevDep D) fuel s := by
  have := bounded_of_acyclic (RevDep D) (D.symbols.map Symbol.name)
    (fun a b hab => mem_names_of_count (revDep_closed hE hR hab))
    (fun x hx => hA x (reaches_of_revReach hE hR hx)) s (mem_names_of_count hs)
  exact this.weaken fuel (by simpa using hfuel)

theorem bounded_congr {R R1 : String → String → Prop} (h : ∀ a b, R1 a b → R a b) {k : Nat}
    {s : String} (hb : Bounded R k s) : Bounded R1 k s := by
  induction hb with
  | mk k s _ ih => exact Bounded.mk k s (fun c hc => ih c (h s c hc))

/-- One loop of `get_dependents_recursive`. -/
theorem gather_loop {D : DepSystem} (recur : String → Option (List String)) :
    ∀ (cs : List String) (T0 : List String), T0.Nodup →
      (∀ c ∈ cs, ∃ R, recur c = some R ∧
        ∀ d, d ∈ R ↔ d = c ∨ Relation.TransGen (RevDep D) c d) →
      ∃ T, foldOpt (gatherStep recur) T0 cs = some T ∧ T.Nodup ∧
        ∀ d, d ∈ T ↔ d ∈ T0 ∨ ∃ c ∈ cs, d = c ∨ Relation.TransGen (RevDep D) c d := by
  intro cs
  induction cs with
  | nil => intro T0 h _; exact ⟨T0, rfl, h, by simp⟩
  | cons c cs ih =>
    intro T0 h hrec
    obtain ⟨R, hR, hmem⟩ := hrec c (List.mem_cons_self _ _)
    obtain ⟨T, hT, hnd, hT2⟩ := ih (setInsertAll T0 R) (nodup_setInsertAll h R)
      (fun c2 hc2 => hrec c2 (List.mem_cons_of_mem _ hc2))
    refine ⟨T, ?_, hnd, ?_⟩
    · unfold foldOpt
      simp only [gatherStep, hR]
      exact hT
    · intro d
      rw [hT2, mem_setInsertAll, hmem]
      simp only [List.mem_cons, exists_eq_or_imp]
      rw [or_assoc]

theorem revReach_iff_step {D : DepSystem} {s d : String} :
    Relation.TransGen (RevDep D) s d ↔
      ∃ c, RevDep D s c ∧ (d = c ∨ Relation.TransGen (RevDep D) c d) := by
  rw [Relation.TransGen.head'_iff]
  constructor
  · rintro ⟨c, hc, hcm⟩
    refine ⟨c, hc, ?_⟩
    rcases Relation.reflTransGen_iff_eq_or_transGen.1 hcm with e | e
    · exact Or.inl e
    · exact Or.inr e
  · rintro ⟨c, hc, hcm⟩
    refine ⟨c, hc, ?_⟩
    rcases hcm with rfl | e
    · exact Relation.ReflTransGen.refl
    · exact e.to_reflTransGen

/-- `get_dependents_recursive` on a symbol of bounded reverse depth returns the duplicate-free
set made of the symbol and of its transitive dependents. -/
theorem get_dependents_recursive_spec {D : DepSystem}
    (hclosed : ∀ a d, RevDep D a d → countSym D.symbols d = true) :
    ∀ (k : Nat) (s : String), Bounded (RevDep D) k s → countSym D.symbols s = true →
      ∃ R, get_dependents_recursive D k s = some R ∧ R.Nodup ∧
        ∀ d, d ∈ R ↔ d = s ∨ Relation.TransGen (RevDep D) s d := by
  intro k s hb
  induction hb with
  | mk k s hchild ih =>
    intro hs
    obtain ⟨S, hS⟩ := countSym_eq_true.1 hs
    unfold get_dependents_recursive
    rw [hS]
    simp only
    have hrec : ∀ c, RevDep D s c → ∃ R, get_dependents_recursive D k c = some R ∧
        ∀ d, d ∈ R ↔ d = c ∨ Relation.TransGen (RevDep D) c d := by
      intro c hc
      obtain ⟨R, h1, -, h2⟩ := ih c hc (hclosed s c hc)
      exact ⟨R, h1, h2⟩
    obtain ⟨T1, hT1, hnd1, hm1⟩ := gather_loop (D := D) (get_dependents_recursive D k)
      S.reverse_dependency_edges [s] (List.nodup_singleton s)
      (fun c hc => hrec c ⟨S, hS, Or.inl hc⟩)
    obtain ⟨T2, hT2, hnd2, hm2⟩ := gather_loop (D := D) (get_dependents_recursive D k)
      S.reverse_dependency_list_set T1 hnd1
      (fun c hc => hrec c ⟨S, hS, Or.inr hc⟩)
    have e1 : foldOpt (fun to_return revdep =>
        match get_dependents_recursive D k revdep with
        | none => none
        | some revdep_revdeps => some (setInsertAll to_return revdep_revdeps))
        [s] S.reverse_dependency_edges = some T1 := hT1
    rw [e1]
    simp only
    refine ⟨T2, hT2, hnd2, ?_⟩
    intro d
    rw [hm2, hm1, revReach_iff_step]
    simp only [List.mem_singleton]
    constructor
    · rintro ((h | ⟨c, hc, h⟩) | ⟨c, hc, h⟩)
      · exact Or.inl h
      · exact Or.inr ⟨c, ⟨S, hS, Or.inl hc⟩, h⟩
      · exact Or.inr ⟨c, ⟨S, hS, Or.inr hc⟩, h⟩
    · rintro (h | ⟨c, ⟨S2, hS2, hc⟩, h⟩)
      · exact Or.inl (Or.inl h)
      · rw [hS] at hS2; cases hS2
        rcases hc with hc | hc
        · exact Or.inl (Or.inr ⟨c, hc, h⟩)
        · exact Or.inr ⟨c, hc, h⟩

/-! ## `invalidate_dependents` -/

theorem fresh_plan (D : DepSystem) (k : Nat) (d : String) :
    get_dependencies_recursive D (k + 1) { name := d } [] = some [d] := by
  simp [get_dependencies_recursive, foldOpt]

/-- The splice loop of `get_dependents`: each per-dependent plan is the dependent alone, so the
loop returns the dependents in their iteration order. -/
theorem spliceLoop_eq (D : DepSystem) (k : Nat) :
    ∀ (deps acc : List String),
      spliceLoop D (k + 1) acc deps = some (setInsertAll acc deps) := by
  intro deps
  induction deps with
  | nil => intro acc; rfl
  | cons d ds ih =>
    intro acc
    unfold spliceLoop
    rw [fresh_plan]
    simp only [List.foldl_cons, List.foldl_nil]
    rw [ih]
    rfl

theorem bounded_pos {R : String → String → Prop} {k : Nat} {s : String}
    (h : Bounded R k s) : ∃ j, k = j + 1 := by
  cases h with
  | mk j s _ => exact ⟨j, rfl⟩

/-- `invalidate_dependents(x)` on an existing symbol of bounded reverse depth returns, and
passes through `invalidated` the state of exactly the transitive dependents of `x` other than
`x`. -/
theorem invalidate_dependents_spec {D : DepSystem}
    (hclosed : ∀ a d, RevDep D a d → countSym D.symbols d = true) {x : String}
    (hx : countSym D.symbols x = true) {fuel : Nat} (hb : Bounded (RevDep D) fuel x) :
    ∃ D1, invalidate_dependents fuel D x = Outcome.ok D1 ∧ D1.shadowers = D.shadowers ∧
      (∀ n, findSym D.symbols n = none → findSym D1.symbols n = none) ∧
      ∀ n s, findSym D.symbols n = some s →
        (n ≠ x ∧ Relation.TransGen (RevDep D) x n →
          findSym D1.symbols n = some { s with state := invalidated s.state }) ∧
        (¬ (n ≠ x ∧ Relation.TransGen (RevDep D) x n) → findSym D1.symbols n = some s) := by
  obtain ⟨deps, hdeps, hnd, hmem⟩ := get_dependents_recursive_spec hclosed fuel x hb hx
  obtain ⟨k, rfl⟩ := bounded_pos hb
  obtain ⟨sx, hsx⟩ := countSym_eq_true.1 hx
  have hsplice := spliceLoop_eq D k deps []
  have hsnd : (setInsertAll [] deps).Nodup := nodup_setInsertAll List.nodup_nil deps
  have hsmem : ∀ n, n ∈ setInsertAll [] deps ↔ n ∈ deps := by
    intro n; rw [mem_setInsertAll]; simp
  have hxs : x ∈ setInsertAll [] deps := (hsmem x).2 ((hmem x).2 (Or.inl rfl))
  have hexists : ∀ n ∈ deps, countSym D.symbols n = true := by
    intro n hn
    rcases (hmem n).1 hn with rfl | hr
    · exact hx
    · have : ∀ a b, Relation.TransGen (RevDep D) a b → countSym D.symbols b = true := by
        intro a b hab
        induction hab with
        | single h => exact hclosed _ _ h
        | tail _ h _ => exact hclosed _ _ h
      exact this x n hr
  obtain ⟨L1, hL1⟩ := dependentsLoop_invalidate_defined deps
    ((setInsertAll [] deps).erase x) D.symbols
    (fun n hn => hexists n ((hsmem n).1 (List.mem_of_mem_erase hn)))
  obtain ⟨-, hfind⟩ := dependentsLoop_invalidate deps _ _ _ _ hL1
  have hiff : ∀ n, (n ∈ (setInsertAll [] deps).erase x ∧ n ∈ deps) ↔
      (n ≠ x ∧ Relation.TransGen (RevDep D) x n) := by
    intro n
    rw [hsnd.mem_erase_iff, hsmem, hmem]
    constructor
    · rintro ⟨⟨hne, -⟩, h | h⟩
      · exact absurd h hne
      · exact ⟨hne, h⟩
    · rintro ⟨hne, h⟩
      exact ⟨⟨hne, Or.inr h⟩, Or.inr h⟩
  refine ⟨{ D with symbols := L1 }, ?_, rfl, ?_, ?_⟩
  · unfold invalidate_dependents get_dependents_st
    rw [hsx]
    simp only [hdeps, hsplice, hxs, if_true, hL1]
  · intro n hn
    show findSym L1 n = none
    rw [hfind n, hn]; rfl
  · intro n s hs
    show (_ → findSym L1 n = _) ∧ (_ → findSym L1 n = _)
    rw [hfind n, hs]
    simp only [Option.map_some']
    constructor
    · intro hc
      rw [if_pos ((hiff n).2 hc)]
    · intro hc
      rw [if_neg (fun h => hc ((hiff n).1 h))]

theorem revListsExact_of_check {D : DepSystem} (h : revListsCheck D = true) :
    RevListsExact D := by
  unfold revListsCheck at h
  rw [List.all_eq_true] at h
  intro f sf hsf b hb
  have hf := h sf (findSym_mem hsf)
  rw [List.all_eq_true] at hf
  have := hf b hb
  cases hfb : findSym D.symbols b with
  | none => rw [hfb] at this; simp at this
  | some sb =>
    rw [hfb] at this
    simp only [List.any_eq_true, decide_eq_true_eq] at this
    obtain ⟨l, hl, hfe⟩ := this
    exact ⟨sb, rfl, l, hl, by rw [hfe, findSym_name hsf]⟩

/-- C9: in a `DepSystem` with symmetric edges, exact reverse list sets and no cycle, for an
existing symbol `x` whose value differs from `v'` and fuel for the depth of the graph,
`add_set_symbol(x, v')` returns, and for every symbol `d ≠ x`: if `d` transitively depends on
`x` (through `reverse_dependency_edges` and `reverse_dependency_list_set`), a VALID `d` becomes
STALE, a DISABLED `d` becomes INVALID and a `d` in another state keeps it; if `d` does not
depend on `x`, it keeps its state. -/
theorem C9_invalidation_on_value_change (D : DepSystem) (x v' : String) (fuel : Nat)
    (cur : Symbol) (hE : EdgeSymmetric D) (hA : Acyclic D) (hR : RevListsExact D)
    (hx : findSym D.symbols x = some cur) (hv : cur.value ≠ v')
    (hfuel : D.symbols.length ≤ fuel) :
    ∃ D1, add_set_symbol fuel D x v' = Outcome.ok D1 ∧
      ∀ d sd, d ≠ x → findSym D.symbols d = some sd →
        ∃ sd1, findSym D1.symbols d = some sd1 ∧
          (DependsOn D d x →
            (sd.state = VALID → sd1.state = STALE) ∧
            (sd.state = DISABLED → sd1.state = INVALID) ∧
            (sd.state ≠ VALID → sd.state ≠ DISABLED → sd1.state = sd.state)) ∧
          (¬ DependsOn D d x → sd1.state = sd.state) := by
  have hcn : cur.name = x := findSym_name hx
  have hxc : countSym D.symbols x = true := countSym_eq_true.2 ⟨cur, hx⟩
  obtain ⟨D2, hD2⟩ : ∃ D2 : DepSystem,
      D2 = { D with symbols := putSym D.symbols (updatedSymbol D.symbols cur v') } := ⟨_, rfl⟩
  have hsyms : D2.symbols = putSym D.symbols (updatedSymbol D.symbols cur v') := by rw [hD2]
  have hagree : Agree revOf D.symbols D2.symbols := by
    rw [hsyms]
    exact Agree.put (s := cur) (by simpa [updatedSymbol, hcn] using hx) rfl
  have hclosed : ∀ a d, RevDep D2 a d → countSym D2.symbols d = true := by
    intro a d h
    rw [hagree.count]
    exact revDep_closed hE hR ((revDep_agree hagree a d).1 h)
  have hb : Bounded (RevDep D2) fuel x :=
    bounded_congr (fun a b h => (revDep_agree hagree a b).1 h)
      (bounded_revDep hE hA hR hxc hfuel)
  obtain ⟨D1, hD1, -, -, hfind⟩ := invalidate_dependents_spec hclosed
    (by rw [hagree.count]; exact hxc) hb
  have hreach : ∀ d, Relation.TransGen (RevDep D2) x d ↔ DependsOn D d x := by
    intro d
    constructor
    · exact Relation.TransGen.mono (fun a b h => (revDep_agree hagree a b).1 h)
    · exact Relation.TransGen.mono (fun a b h => (revDep_agree hagree a b).2 h)
  refine ⟨D1, ?_, ?_⟩
  · unfold add_set_symbol
    rw [hx]
    simp only [hv, if_false]
    rw [← hD1, hD2]
    rfl
  · intro d sd hd hsd
    have hsd2 : findSym D2.symbols d = some sd := by
      rw [hsyms, findSym_putSym]
      have : ¬ (updatedSymbol D.symbols cur v').name = d := by
        simp only [updatedSymbol, hcn]; exact fun e => hd e.symm
      simp only [this, if_false]
      exact hsd
    obtain ⟨h1, h2⟩ := hfind d sd hsd2
    by_cases hdep : DependsOn D d x
    · refine ⟨_, h1 ⟨hd, (hreach d).2 hdep⟩, fun _ => ?_, fun h => absurd hdep h⟩
      refine ⟨fun e => by simp [e, invalidated], fun e => by simp [e, invalidated], ?_⟩
      intro e1 e2
      cases hst : sd.state <;> simp_all [invalidated]
    · refine ⟨sd, h2 (fun h => hdep ((hreach d).1 h.2)), fun h => absurd h hdep, fun _ => rfl⟩

/-- The system `invalidationExample` satisfies the hypotheses of C9. -/
theorem invalidationExample_edges : EdgeSymmetric invalidationExample :=
  edgeSymmetric_of_check (by decide)

theorem invalidationExample_acyclic : Acyclic invalidationExample :=
  acyclic_of_rank (fun n => if n = "a" then 2 else if n = "b" then 1 else 0) (by decide)

theorem invalidationExample_revlists : RevListsExact invalidationExample :=
  revListsExact_of_check (by decide)

/-- C9, witness: changing the value of `c` in `invalidationExample`. -/
theorem C9_invalidation_on_value_change_witness :
    (EdgeSymmetric invalidationExample ∧ Acyclic invalidationExample ∧
      RevListsExact invalidationExample ∧
      findSym invalidationExample.symbols "c" =
        some { name := "c", value := "", state := VALID,
               reverse_dependency_list_set := ["b"] } ∧
      ("" : String) ≠ "new" ∧ invalidationExample.symbols.length ≤ 3) ∧
    ∃ D1, add_set_symbol 3 invalidationExample "c" "new" = Outcome.ok D1 ∧
      ∀ d sd, d ≠ "c" → findSym invalidationExample.symbols d = some sd →
        ∃ sd1, findSym D1.symbols d = some sd1 ∧
          (DependsOn invalidationExample d "c" →
            (sd.state = VALID → sd1.state = STALE) ∧
            (sd.state = DISABLED → sd1.state = INVALID) ∧
            (sd.state ≠ VALID → sd.state ≠ DISABLED → sd1.state = sd.state)) ∧
          (¬ DependsOn invalidationExample d "c" → sd1.state = sd.state) :=
  ⟨⟨invalidationExample_edges, invalidationExample_acyclic, invalidationExample_revlists,
      rfl, by decide, by decide⟩,
    C9_invalidation_on_value_change invalidationExample "c" "new" 3
      { name := "c", value := "", state := VALID, reverse_dependency_list_set := ["b"] }
      invalidationExample_edges invalidationExample_acyclic invalidationExample_revlists
      rfl (by decide) (by decide)⟩

theorem invalidationExample_run :
    add_set_symbol 3 invalidationExample "c" "new" = Outcome.ok
      { symbols :=
          [{ name := "a", value := "", state := STALE, dependency_edges := ["b"] },
            { name := "b", value := "", state := INVALID, reverse_dependency_edges := ["a"],
              dependency_list_list := [["n", "c"]] },
            { name := "c", value := "new", state := VALID,
              reverse_dependency_list_set := ["b"] }],
        shadowers := [("n", "b")] } := by
  rfl

/-- `invalidate_dependents(x)` never changes the record of `x` itself. -/
theorem invalidate_dependents_self {fuel : Nat} {D D1 : DepSystem} {x : String}
    (h : invalidate_dependents fuel D x = Outcome.ok D1) :
    findSym D1.symbols x = findSym D.symbols x := by
  obtain ⟨-, deps, splice, hdeps, hsplice, -, hfind⟩ := invalidate_dependents_ok h
  cases fuel with
  | zero => simp [get_dependents_recursive] at hdeps
  | succ k =>
    rw [spliceLoop_eq] at hsplice
    have hnd : splice.Nodup := by
      rw [← Option.some.inj hsplice]
      exact nodup_setInsertAll List.nodup_nil deps
    rw [hfind x]
    have hx : ¬ (x ∈ splice.erase x ∧ x ∈ deps) := by
      rintro ⟨h1, -⟩
      exact ((hnd.mem_erase_iff).1 h1).1 rfl
    simp only [hx, if_false]
    cases findSym D.symbols x <;> rfl

/-- After `add_set_symbol(x, v)` returned, `x` exists with the value `v`. -/
theorem add_set_symbol_value {fuel : Nat} {D D1 : DepSystem} {x v : String}
    (h : add_set_symbol fuel D x v = Outcome.ok D1) :
    ∃ s1, findSym D1.symbols x = some s1 ∧ s1.value = v := by
  unfold add_set_symbol at h
  cases hx : findSym D.symbols x with
  | none =>
    rw [hx] at h
    simp only at h
    cases hst : foldOpt (shadowOwner x) (D.symbols, []) 
        ((D.shadowers.filter (fun e => decide (e.1 = x))).map Prod.snd) with
    | none => rw [hst] at h; cases h
    | some st =>
      rw [hst] at h
      simp only at h
      have hself := invalidate_dependents_self h
      have hnone : findSym st.1 x = none := findSym_none_of_agree (shadowLoop_agree hst) hx
      refine ⟨freshSymbol x v st.2, hself.trans ?_, rfl⟩
      show findSym (insertSym st.1 (freshSymbol x v st.2)) x = _
      rw [findSym_insertSym (by exact hnone)]
      simp [freshSymbol]
  | some cur =>
    rw [hx] at h
    simp only at h
    by_cases hv : cur.value = v
    · rw [if_pos hv] at h
      cases h
      exact ⟨cur, hx, hv⟩
    · rw [if_neg hv] at h
      have hself := invalidate_dependents_self h
      refine ⟨updatedSymbol D.symbols cur v, hself.trans ?_, rfl⟩
      show findSym (putSym D.symbols (updatedSymbol D.symbols cur v)) x = _
      rw [findSym_putSym]
      simp [updatedSymbol, findSym_name hx]

/-- C14: `add_set_symbol(x, v)` on an existing symbol `x` whose value already is `v` returns
with the `DepSystem` unchanged (states, edges, lists, reverse sets and shadowers included);
consequently, for any `v`, a second `add_set_symbol(x, v)` changes nothing after a first one
that returned. -/
theorem C14_same_value_is_noop (D : DepSystem) (x v : String) (fuel : Nat) :
    (∀ cur, findSym D.symbols x = some cur → cur.value = v →
      add_set_symbol fuel D x v = Outcome.ok D) ∧
    (∀ D1, add_set_symbol fuel D x v = Outcome.ok D1 →
      add_set_symbol fuel D1 x v = Outcome.ok D1) := by
  have h1 : ∀ (E : DepSystem) (cur : Symbol), findSym E.symbols x = some cur → cur.value = v →
      add_set_symbol fuel E x v = Outcome.ok E := by
    intro E cur hx hv
    unfold add_set_symbol
    rw [hx]
    simp only [hv, if_true]
  refine ⟨h1 D, ?_⟩
  intro D1 h
  obtain ⟨s1, hs1, hv1⟩ := add_set_symbol_value h
  exact h1 D1 s1 hs1 hv1

/-- C14, witness: in `invalidationExample` the symbol `c` has the value `""`; setting it again
changes nothing, and setting the new value `"new"` twice equals setting it once. -/
theorem C14_same_value_is_noop_witness :
    add_set_symbol 3 invalidationExample "c" "" = Outcome.ok invalidationExample ∧
    ∃ D1, add_set_symbol 3 invalidationExample "c" "new" = Outcome.ok D1 ∧
      add_set_symbol 3 D1 "c" "new" = Outcome.ok D1 :=
  ⟨(C14_same_value_is_noop invalidationExample "c" "" 3).1 _ rfl rfl,
    _, invalidationExample_run,
    (C14_same_value_is_noop invalidationExample "c" "new" 3).2 _ invalidationExample_run⟩

/-- Under the graph invariants the update path of `add_set_symbol` returns. -/
theorem add_set_symbol_update_returns {D : DepSystem} {x v' : String} {fuel : Nat}
    {cur : Symbol} (hE : EdgeSymmetric D) (hA : Acyclic D) (hR : RevListsExact D)
    (hx : findSym D.symbols x = some cur) (hv : cur.value ≠ v')
    (hfuel : D.symbols.length ≤ fuel) :
    ∃ D1, add_set_symbol fuel D x v' = Outcome.ok D1 := by
  have hcn : cur.name = x := findSym_name hx
  have hxc : countSym D.symbols x = true := countSym_eq_true.2 ⟨cur, hx⟩
  obtain ⟨D2, hD2⟩ : ∃ D2 : DepSystem,
      D2 = { D with symbols := putSym D.symbols (updatedSymbol D.symbols cur v') } := ⟨_, rfl⟩
  have hsyms : D2.symbols = putSym D.symbols (updatedSymbol D.symbols cur v') := by rw [hD2]
  have hagree : Agree revOf D.symbols D2.symbols := by
    rw [hsyms]
    exact Agree.put (s := cur) (by simpa [updatedSymbol, hcn] using hx) rfl
  have hclosed : ∀ a d, RevDep D2 a d → countSym D2.symbols d = true := by
    intro a d h
    rw [hagree.count]
    exact revDep_closed hE hR ((revDep_agree hagree a d).1 h)
  have hb : Bounded (RevDep D2) fuel x :=
    bounded_congr (fun a b h => (revDep_agree hagree a b).1 h)
      (bounded_revDep hE hA hR hxc hfuel)
  obtain ⟨D1, hD1, -⟩ := invalidate_dependents_spec hclosed
    (by rw [hagree.count]; exact hxc) hb
  refine ⟨D1, ?_⟩
  unfold add_set_symbol
  rw [hx]
  simp only [hv, if_false]
  rw [← hD1, hD2]
  rfl

/-- C15: on the update path of `add_set_symbol(x, v')` (`x` exists with another value), whatever
the `DepSystem`: once the call has returned, `get_value(x)` is `v'`; `get_state(x)` is DISABLED
when `x` has a dependency edge or an ordered list containing an existing symbol, and VALID
otherwise, whatever the state of `x` was; the dependency edges, ordered lists and callback of
`x` (and its reverse sets) are those it had.  Under the graph invariants, with fuel for every
symbol, the call returns. -/
theorem C15_update_path (D : DepSystem) (x v' : String) (fuel : Nat) (cur : Symbol)
    (hx : findSym D.symbols x = some cur) (hv : cur.value ≠ v') :
    (∀ D1, add_set_symbol fuel D x v' = Outcome.ok D1 →
      get_value D1 x = Outcome.ok v' ∧
      ((cur.dependency_edges ≠ [] ∨
          ∃ l ∈ cur.dependency_list_list, ∃ y ∈ l, has_symbol D y = true) →
        get_state D1 x = Outcome.ok DISABLED) ∧
      (¬ (cur.dependency_edges ≠ [] ∨
          ∃ l ∈ cur.dependency_list_list, ∃ y ∈ l, has_symbol D y = true) →
        get_state D1 x = Outcome.ok VALID) ∧
      get_dependency_edges D1 x = Outcome.ok cur.dependency_edges ∧
      get_dependency_lists D1 x = Outcome.ok cur.dependency_list_list ∧
      ∃ s1, findSym D1.symbols x = some s1 ∧ s1.callback = cur.callback ∧
        s1.reverse_dependency_edges = cur.reverse_dependency_edges ∧
        s1.reverse_dependency_list_set = cur.reverse_dependency_list_set) ∧
    (EdgeSymmetric D → Acyclic D → RevListsExact D → D.symbols.length ≤ fuel →
      ∃ D1, add_set_symbol fuel D x v' = Outcome.ok D1) := by
  refine ⟨?_, fun hE hA hR hfuel => add_set_symbol_update_returns hE hA hR hx hv hfuel⟩
  intro D1 h
  have hfind : findSym D1.symbols x = some (updatedSymbol D.symbols cur v') := by
    unfold add_set_symbol at h
    rw [hx] at h
    simp only [hv, if_false] at h
    rw [invalidate_dependents_self h]
    show findSym (putSym D.symbols (updatedSymbol D.symbols cur v')) x = _
    rw [findSym_putSym]
    simp [updatedSymbol, findSym_name hx]
  have hdeps : hasDependencies D.symbols cur = true ↔
      (cur.dependency_edges ≠ [] ∨
        ∃ l ∈ cur.dependency_list_list, ∃ y ∈ l, has_symbol D y = true) := by
    unfold hasDependencies has_symbol
    simp [List.length_eq_zero]
  refine ⟨?_, ?_, ?_, ?_, ?_, _, hfind, rfl, rfl, rfl⟩
  · unfold get_value; rw [hfind]; rfl
  · intro hc
    unfold get_state; rw [hfind]
    simp [updatedSymbol, hdeps.2 hc]
  · intro hc
    have : hasDependencies D.symbols cur = false := by
      cases hh : hasDependencies D.symbols cur
      · rfl
      · exact absurd (hdeps.1 hh) hc
    unfold get_state; rw [hfind]
    simp [updatedSymbol, this]
  · unfold get_dependency_edges; rw [hfind]; rfl
  · unfold get_dependency_lists; rw [hfind]; rfl

/-- C15, witness: the value of `c` in `invalidationExample` is changed; `c` has no dependency
and ends VALID. -/
theorem C15_update_path_witness :
    (findSym invalidationExample.symbols "c" =
        some { name := "c", value := "", state := VALID,
               reverse_dependency_list_set := ["b"] } ∧ ("" : String) ≠ "new") ∧
    ∃ D1, add_set_symbol 3 invalidationExample "c" "new" = Outcome.ok D1 ∧
      get_value D1 "c" = Outcome.ok "new" ∧ get_state D1 "c" = Outcome.ok VALID :=
  ⟨⟨rfl, by decide⟩, _, invalidationExample_run,
    ((C15_update_path invalidationExample "c" "new" 3
      { name := "c", value := "", state := VALID, reverse_dependency_list_set := ["b"] }
      rfl (by decide)).1 _ invalidationExample_run).1,
    ((C15_update_path invalidationExample "c" "new" 3
      { name := "c", value := "", state := VALID, reverse_dependency_list_set := ["b"] }
      rfl (by decide)).1 _ invalidationExample_run).2.2.1 (by decide)⟩

/-- The final loop of `get_dependents` with a selector without side effects. -/
theorem dependentsLoop_pure (sel : String → String → Symbol_State → Bool)
    (deps : List String) (L : List Symbol) :
    ∀ (xs : List String), (∀ x ∈ xs, countSym L x = true) →
      dependentsLoop (fun syms n v st => some (sel n v st, syms)) deps L xs =
        some (xs.filter (fun x => decide (x ∈ deps) &&
          match findSym L x with
          | some s => sel s.name s.value s.state
          | none => false), L) := by
  intro xs
  induction xs with
  | nil => intro _; rfl
  | cons x xs ih =>
    intro h
    obtain ⟨s, hs⟩ := countSym_eq_true.1 (h x (List.mem_cons_self _ _))
    have ih1 := ih (fun y hy => h y (List.mem_cons_of_mem _ hy))
    unfold dependentsLoop
    rw [hs]
    by_cases hx : x ∈ deps
    · simp only [hx, if_true, ih1, List.filter_cons, hs, decide_True, Bool.true_and]
      cases sel s.name s.value s.state <;> simp
    · simp only [hx, if_false, ih1, List.filter_cons, decide_False, Bool.false_and]
      simp

/-- `get_dependents` with the default selector returns the names gathered by
`get_dependents_recursive`, in the order in which the set `dependents` is iterated, without the
symbol itself. -/
theorem get_dependents_eq {D : DepSystem}
    (hclosed : ∀ a d, RevDep D a d → countSym D.symbols d = true) {s : String}
    (hs : countSym D.symbols s = true) {fuel : Nat} (hb : Bounded (RevDep D) fuel s) :
    ∃ deps, get_dependents_recursive D fuel s = some deps ∧ deps.Nodup ∧
      (∀ d, d ∈ deps ↔ d = s ∨ Relation.TransGen (RevDep D) s d) ∧
      get_dependents fuel D s selectAll = Outcome.ok ((setInsertAll [] deps).erase s) := by
  obtain ⟨deps, hdeps, hnd, hmem⟩ := get_dependents_recursive_spec hclosed fuel s hb hs
  obtain ⟨k, rfl⟩ := bounded_pos hb
  obtain ⟨sx, hsx⟩ := countSym_eq_true.1 hs
  have hsplice := spliceLoop_eq D k deps []
  have hsmem : ∀ n, n ∈ setInsertAll [] deps ↔ n ∈ deps := by
    intro n; rw [mem_setInsertAll]; simp
  have hxs : s ∈ setInsertAll [] deps := (hsmem s).2 ((hmem s).2 (Or.inl rfl))
  have hexists : ∀ n ∈ deps, countSym D.symbols n = true := by
    intro n hn
    rcases (hmem n).1 hn with rfl | hr
    · exact hs
    · have : ∀ a b, Relation.TransGen (RevDep D) a b → countSym D.symbols b = true := by
        intro a b hab
        induction hab with
        | single h => exact hclosed _ _ h
        | tail _ h _ => exact hclosed _ _ h
      exact this s n hr
  have hall : ∀ n ∈ (setInsertAll [] deps).erase s, countSym D.symbols n = true :=
    fun n hn => hexists n ((hsmem n).1 (List.mem_of_mem_erase hn))
  have hloop := dependentsLoop_pure selectAll deps D.symbols _ hall
  have hfilter : ((setInsertAll [] deps).erase s).filter (fun x => decide (x ∈ deps) &&
      match findSym D.symbols x with
      | some s => selectAll s.name s.value s.state
      | none => false) = (setInsertAll [] deps).erase s := by
    rw [List.filter_eq_self]
    intro n hn
    obtain ⟨sn, hsn⟩ := countSym_eq_true.1 (hall n hn)
    simp [hsn, selectAll, (hsmem n).1 (List.mem_of_mem_erase hn)]
  refine ⟨deps, hdeps, hnd, hmem, ?_⟩
  unfold get_dependents get_dependents_st
  rw [hsx]
  simp only [hdeps, hsplice, hxs, if_true, hloop, hfilter]

/-- C19: under the graph invariants, `get_dependents(s)` with the default selector returns,
without duplicates and without `s`, exactly the symbols reachable from `s` through
`reverse_dependency_edges` and `reverse_dependency_list_set`. -/
theorem C19_get_dependents_reverse_reachable (D : DepSystem) (s : String) (fuel : Nat)
    (hE : EdgeSymmetric D) (hA : Acyclic D) (hR : RevListsExact D)
    (hs : has_symbol D s = true) (hfuel : D.symbols.length ≤ fuel) :
    ∃ r, get_dependents fuel D s selectAll = Outcome.ok r ∧ r.Nodup ∧ s ∉ r ∧
      ∀ d, d ∈ r ↔ DependsOn D d s := by
  obtain ⟨deps, -, -, hmem, hget⟩ := get_dependents_eq (fun a d h => revDep_closed hE hR h) hs
    (bounded_revDep hE hA hR hs hfuel)
  have hsnd : (setInsertAll [] deps).Nodup := nodup_setInsertAll List.nodup_nil deps
  have hsmem : ∀ n, n ∈ setInsertAll [] deps ↔ n ∈ deps := by
    intro n; rw [mem_setInsertAll]; simp
  refine ⟨_, hget, hsnd.erase s, fun h => ((hsnd.mem_erase_iff).1 h).1 rfl, ?_⟩
  intro d
  rw [hsnd.mem_erase_iff, hsmem, hmem]
  constructor
  · rintro ⟨hne, h | h⟩
    · exact absurd h hne
    · exact h
  · intro h
    refine ⟨?_, Or.inr h⟩
    rintro rfl
    exact hA d (reaches_of_revReach hE hR h)

theorem diamondExample_edges : EdgeSymmetric diamondExample :=
  edgeSymmetric_of_check (by decide)

theorem diamondExample_acyclic : Acyclic diamondExample :=
  acyclic_of_rank (fun n => if n = "q" then 2 else if n = "p" then 1 else 0) (by decide)

theorem diamondExample_revlists : RevListsExact diamondExample :=
  revListsExact_of_check (by decide)

/-- C19, witness: the dependents of `s` in `diamondExample`. -/
theorem C19_get_dependents_reverse_reachable_witness :
    (EdgeSymmetric diamondExample ∧ Acyclic diamondExample ∧ RevListsExact diamondExample ∧
      has_symbol diamondExample "s" = true ∧ diamondExample.symbols.length ≤ 3) ∧
    ∃ r, get_dependents 3 diamondExample "s" selectAll = Outcome.ok r ∧ r.Nodup ∧ "s" ∉ r ∧
      ∀ d, d ∈ r ↔ DependsOn diamondExample d "s" :=
  ⟨⟨diamondExample_edges, diamondExample_acyclic, diamondExample_revlists, rfl, by decide⟩,
    C19_get_dependents_reverse_reachable diamondExample "s" 3 diamondExample_edges
      diamondExample_acyclic diamondExample_revlists rfl (by decide)⟩

/-- C18: in `twoListsExample` the symbol `t` has the lists `["s"]` and `["s2"]`; after
`delete_dependency_list(0, "t")` the only remaining list of `t` has `s2` as its first existing
element, so `s` is the first existing element of no list of `t`, and yet `t` is still recorded
in `reverse_dependency_list_set(s)`. -/
theorem C18_reverse_entry_kept :
    run 1 DepSystem.empty
      [Op.add_set_symbol "t" "", Op.add_set_symbol "s" "", Op.add_set_symbol "s2" "",
        Op.add_dependency_list ["s"] "t", Op.add_dependency_list ["s2"] "t"]
      = some twoListsExample ∧
    ∃ D1, delete_dependency_list twoListsExample 0 "t" = Outcome.ok D1 ∧
      get_dependency_lists D1 "t" = Outcome.ok [["s2"]] ∧
      firstExisting D1.symbols ["s2"] = some "s2" ∧
      ∃ s1, findSym D1.symbols "s" = some s1 ∧ "t" ∈ s1.reverse_dependency_list_set :=
  ⟨rfl, _, rfl, rfl, rfl, _, rfl, by decide⟩

/-- C20: in `diamondExample` the symbols `p` and `q` are both dependents of `s` and `q` depends
directly on `p`, yet `get_dependents("s")` returns `q` before `p`: the result follows the
order in which the set of dependents is iterated. -/
theorem C20_dependents_not_in_buildable_order :
    run 3 DepSystem.empty
      [Op.add_set_symbol "s" "", Op.add_set_symbol "p" "", Op.add_set_symbol "q" "",
        Op.add_dependency "q" "s", Op.add_dependency "p" "s", Op.add_dependency "q" "p"]
      = some diamondExample ∧
    get_dependents 3 diamondExample "s" selectAll = Outcome.ok ["q", "p"] ∧
    Dep diamondExample "q" "p" ∧ ¬ Before ["q", "p"] "p" "q" := by
  refine ⟨rfl, rfl, ⟨_, rfl, Or.inl (by decide)⟩, ?_⟩
  rintro ⟨l1, l2, l3, h⟩
  cases l1 with
  | nil =>
    have := (List.cons.inj h).1
    exact absurd this (by decide)
  | cons a l1 =>
    cases l1 with
    | nil =>
      have h2 := (List.cons.inj (List.cons.inj h).2).2
      cases l2 <;> cases h2
    | cons b l1 =>
      have h2 := (List.cons.inj (List.cons.inj h).2).2
      cases l1 <;> cases h2

theorem foldl_append_flatMap {α β : Type} (f : α → List β) :
    ∀ (l : List α) (init : List β),
      l.foldl (fun acc x => acc ++ f x) init = init ++ l.flatMap f := by
  intro l
  induction l with
  | nil => intro init; simp
  | cons x xs ih => intro init; simp [ih]

/-- A loop that rewrites one record per key returns when every key exists. -/
theorem foldOpt_modify_defined (g : Symbol → Symbol)
    (step : List Symbol → String → Option (List Symbol))
    (hstep : ∀ syms k, step syms k =
      match findSym syms k with
      | none => none
      | some s => some (putSym syms (g s))) :
    ∀ (ks : List String) (L : List Symbol), (∀ k ∈ ks, countSym L k = true) →
      ∃ L1, foldOpt step L ks = some L1 := by
  intro ks
  induction ks with
  | nil => intro L _; exact ⟨L, rfl⟩
  | cons k ks ih =>
    intro L h
    obtain ⟨s, hs⟩ := countSym_eq_true.1 (h k (List.mem_cons_self _ _))
    have : ∀ k2 ∈ ks, countSym (putSym L (g s)) k2 = true := by
      intro k2 hk2
      rw [countSym_putSym, h k2 (List.mem_cons_of_mem _ hk2)]
      simp
    obtain ⟨L1, hL1⟩ := ih _ this
    refine ⟨L1, ?_⟩
    unfold foldOpt
    rw [hstep, hs]
    exact hL1

/-- The third loop of `delete_symbol` appends, owner by owner and list by list. -/
theorem reshadow_fold {name : String} {syms : List Symbol} :
    ∀ (owners : List String) (sh : List (String × String)),
      (∀ b ∈ owners, countSym syms b = true) →
      foldOpt (reshadow name syms) sh owners = some (sh ++ owners.flatMap (fun b =>
        match findSym syms b with
        | none => []
        | some sb =>
          sb.dependency_list_list.flatMap (fun l =>
            ((findIf (fun i => decide (i = name)) l).takeWhile
              (fun i => !countSym syms i)).map (fun i => (i, b))))) := by
  intro owners
  induction owners with
  | nil => intro sh _; simp [foldOpt]
  | cons b bs ih =>
    intro sh h
    obtain ⟨sb, hsb⟩ := countSym_eq_true.1 (h b (List.mem_cons_self _ _))
    unfold foldOpt
    simp only [reshadow, hsb, foldl_append_flatMap]
    rw [ih _ (fun c hc => h c (List.mem_cons_of_mem _ hc))]
    simp [hsb]

theorem flatMap_congr_mem {α β : Type} {f g : α → List β} :
    ∀ (l : List α), (∀ x ∈ l, f x = g x) → l.flatMap f = l.flatMap g := by
  intro l
  induction l with
  | nil => intro _; rfl
  | cons x xs ih =>
    intro h
    simp only [List.flatMap_cons]
    rw [h x (List.mem_cons_self _ _), ih (fun y hy => h y (List.mem_cons_of_mem _ hy))]

/-- Under the graph invariants `delete_symbol` of an existing symbol returns. -/
theorem delete_symbol_returns {D : DepSystem} {name : String} (hE : EdgeSymmetric D)
    (hA : Acyclic D) (hR : RevListsExact D) (hn : countSym D.symbols name = true) :
    ∃ D1, delete_symbol D name = Outcome.ok D1 := by
  obtain ⟨td, htd⟩ := countSym_eq_true.1 hn
  have hself : ∀ k, Dep D name k → k ≠ name := by
    rintro k hd rfl
    exact hA k (Relation.TransGen.single hd)
  have hcount : ∀ k, k ≠ name → countSym D.symbols k = true →
      countSym (eraseSym D.symbols name) k = true := by
    intro k hk hc
    unfold countSym at hc ⊢
    rw [findSym_eraseSym, if_neg (fun e => hk e.symm)]
    exact hc
  have h1 : ∀ k ∈ td.dependency_edges, countSym (eraseSym D.symbols name) k = true := by
    intro k hk
    obtain ⟨sk, hsk, -⟩ := (hE name td htd).1 k hk
    exact hcount k (hself k ⟨td, htd, Or.inl hk⟩) (countSym_eq_true.2 ⟨sk, hsk⟩)
  obtain ⟨syms1, hs1⟩ := foldOpt_modify_defined
    (fun s => { s with reverse_dependency_edges := setErase name s.reverse_dependency_edges })
    (dropReverseEdge name) (fun syms k => rfl) td.dependency_edges _ h1
  obtain ⟨-, hf1⟩ := foldOpt_modify
    (fun s => { s with reverse_dependency_edges := setErase name s.reverse_dependency_edges })
    (fun s => rfl) (fun s => by simp [setErase_of_not_mem, mem_setErase])
    (dropReverseEdge name) (fun syms k => rfl) _ _ _ hs1
  have hc1 : ∀ k, countSym syms1 k = countSym (eraseSym D.symbols name) k := by
    intro k
    unfold countSym
    rw [hf1 k]
    cases findSym (eraseSym D.symbols name) k <;> rfl
  have h2 : ∀ k ∈ td.reverse_dependency_edges, countSym syms1 k = true := by
    intro k hk
    obtain ⟨sk, hsk, hm⟩ := (hE name td htd).2 k hk
    rw [hc1]
    refine hcount k ?_ (countSym_eq_true.2 ⟨sk, hsk⟩)
    rintro rfl
    exact hself k ⟨td, htd, Or.inl (by rw [htd] at hsk; cases hsk; exact hm)⟩ rfl
  obtain ⟨syms2, hs2⟩ := foldOpt_modify_defined
    (fun s => { s with dependency_edges := setErase name s.dependency_edges })
    (dropEdge name) (fun syms k => rfl) td.reverse_dependency_edges _ h2
  obtain ⟨-, hf2⟩ := foldOpt_modify
    (fun s => { s with dependency_edges := setErase name s.dependency_edges })
    (fun s => rfl) (fun s => by simp [setErase_of_not_mem, mem_setErase])
    (dropEdge name) (fun syms k => rfl) _ _ _ hs2
  have hc2 : ∀ k, countSym syms2 k = countSym syms1 k := by
    intro k
    unfold countSym
    rw [hf2 k]
    cases findSym syms1 k <;> rfl
  have h3 : ∀ b ∈ td.reverse_dependency_list_set, countSym syms2 b = true := by
    intro b hb
    obtain ⟨sb, hsb, l, hl, hfe⟩ := hR name td htd b hb
    rw [hc2, hc1]
    refine hcount b ?_ (countSym_eq_true.2 ⟨sb, hsb⟩)
    rintro rfl
    rw [htd] at hsb
    cases hsb
    exact hself b ⟨td, htd, Or.inr ⟨l, hl, hfe⟩⟩ rfl
  obtain ⟨sh, hsh⟩ : ∃ sh, foldOpt (reshadow name syms2) D.shadowers
      td.reverse_dependency_list_set = some sh := ⟨_, reshadow_fold _ _ h3⟩
  refine ⟨{ symbols := syms2, shadowers := sh }, ?_⟩
  unfold delete_symbol
  rw [htd]
  simp only [hs1, hs2, hsh]

/-- When `delete_symbol(n)` returns, the pairs it appended to `shadowers` are
`reshadowedPairs`. -/
theorem delete_symbol_shadowers {D D1 : DepSystem} {name : String}
    (h : delete_symbol D name = Outcome.ok D1) :
    D1.shadowers = D.shadowers ++ reshadowedPairs D name := by
  obtain ⟨td, htd, -, -, hsh, hfind⟩ := delete_symbol_ok h
  have hcount : ∀ i, countSym D1.symbols i = (!decide (i = name) && countSym D.symbols i) := by
    intro i
    unfold countSym
    rw [hfind i]
    by_cases hi : name = i
    · subst hi; simp
    · have hi2 : ¬ i = name := fun e => hi e.symm
      simp only [hi, if_false, hi2, decide_False, Bool.not_false, Bool.true_and]
      cases findSym D.symbols i <;> rfl
  have hpred : (fun i => !countSym D1.symbols i) =
      (fun i => decide (i = name) || !countSym D.symbols i) := by
    funext i
    rw [hcount i]
    cases decide (i = name) <;> simp
  have hown : ∀ b ∈ td.reverse_dependency_list_set, countSym D1.symbols b = true := by
    intro b hb
    by_contra hc
    have hnone : findSym D1.symbols b = none := by
      cases hf : findSym D1.symbols b with
      | none => rfl
      | some s => exact absurd (countSym_eq_true.2 ⟨s, hf⟩) hc
    have hbad : ∀ (l : List String) (sh : List (String × String)), b ∈ l →
        foldOpt (reshadow name D1.symbols) sh l = none := by
      intro l
      induction l with
      | nil => intro sh hm; cases hm
      | cons x xs ih =>
        intro sh hm
        unfold foldOpt
        by_cases hx : x = b
        · subst hx
          simp [reshadow, hnone]
        · cases hr : reshadow name D1.symbols sh x with
          | none => rfl
          | some t =>
            simp only
            exact ih t (by
              rcases List.mem_cons.1 hm with e | e
              · exact absurd e.symm hx
              · exact e)
    rw [hbad _ _ hb] at hsh
    cases hsh
  rw [reshadow_fold _ _ hown] at hsh
  rw [← Option.some.inj hsh]
  congr 1
  unfold reshadowedPairs
  rw [htd]
  apply flatMap_congr_mem
  intro b hb
  obtain ⟨sb1, hsb1⟩ := countSym_eq_true.1 (hown b hb)
  have hb1 := hfind b
  rw [hsb1] at hb1
  by_cases hbn : name = b
  · rw [if_pos hbn] at hb1; cases hb1
  · rw [if_neg hbn] at hb1
    cases hsb : findSym D.symbols b with
    | none => rw [hsb] at hb1; cases hb1
    | some sb =>
      rw [hsb] at hb1
      have hl : sb1.dependency_list_list = sb.dependency_list_list := by
        have := Option.some.inj hb1
        rw [this]
        simp only [Option.map_some']
        split <;> split <;> rfl
      simp only [hsb1, hl, hpred]

theorem reshadowExample_edges : EdgeSymmetric reshadowExample :=
  edgeSymmetric_of_check (by decide)

theorem reshadowExample_acyclic : Acyclic reshadowExample :=
  acyclic_of_rank (fun n => if n = "b" then 1 else 0) (by decide)

theorem reshadowExample_revlists : RevListsExact reshadowExample :=
  revListsExact_of_check (by decide)

theorem reshadowExample_bookkeeping : ActiveBookkeeping reshadowExample := by
  intro b sb hsb l hl f hf
  have hmem := findSym_mem hsb
  have hname := findSym_name hsb
  simp only [reshadowExample, List.mem_cons, List.mem_singleton, List.not_mem_nil, or_false]
    at hmem
  rcases hmem with rfl | rfl | rfl
  · subst hname
    simp only [List.mem_cons, List.mem_singleton, List.not_mem_nil, or_false] at hl
    rcases hl with rfl | rfl
    · have : f = "n" := by
        have h2 : firstExisting reshadowExample.symbols ["n"] = some "n" := rfl
        rw [h2] at hf; exact (Option.some.inj hf).symm
      subst this
      exact ⟨⟨_, rfl, by decide⟩, by decide⟩
    · have : f = "c" := by
        have h2 : firstExisting reshadowExample.symbols ["c", "n", "m"] = some "c" := rfl
        rw [h2] at hf; exact (Option.some.inj hf).symm
      subst this
      exact ⟨⟨_, rfl, by decide⟩, by decide⟩
  · cases hl
  · cases hl

theorem reshadowExample_shadowers : ShadowersExact reshadowExample := by
  intro n b
  constructor
  · intro h; cases h
  · rintro ⟨hn, sb, hsb, l, hl, hm⟩
    exfalso
    have hmem := findSym_mem hsb
    simp only [reshadowExample, List.mem_cons, List.mem_singleton, List.not_mem_nil, or_false]
      at hmem
    rcases hmem with rfl | rfl | rfl
    · simp only [List.mem_cons, List.mem_singleton, List.not_mem_nil, or_false] at hl
      rcases hl with rfl | rfl
      · have h2 : shadowingNames reshadowExample.symbols ["n"] = [] := rfl
        rw [h2] at hm; cases hm
      · have h2 : shadowingNames reshadowExample.symbols ["c", "n", "m"] = [] := rfl
        rw [h2] at hm; cases hm
    · cases hl
    · cases hl

/-- C17, counterexample: in `reshadowExample` the owner `b` has the lists `["n"]` and
`["c","n","m"]`, where `c` exists and `m` does not; the system is reached by public operations
and satisfies the graph invariants.  `delete_symbol("n")` adds the pair
`("m","b")`, which comes from the list in which the existing symbol `c` precedes `n`; the
claim allows no pair for that list. -/
theorem C17_counterexample :
    run 1 DepSystem.empty
      [Op.add_set_symbol "b" "", Op.add_set_symbol "n" "", Op.add_set_symbol "c" "",
        Op.add_dependency_list ["n"] "b", Op.add_dependency_list ["c", "n", "m"] "b"]
      = some reshadowExample ∧
    (EdgeSymmetric reshadowExample ∧ Acyclic reshadowExample ∧
      ActiveBookkeeping reshadowExample ∧ RevListsExact reshadowExample ∧
      ShadowersExact reshadowExample) ∧
    get_dependency_lists reshadowExample "b" = Outcome.ok [["n"], ["c", "n", "m"]] ∧
    has_symbol reshadowExample "c" = true ∧
    ∃ D1, delete_symbol reshadowExample "n" = Outcome.ok D1 ∧
      D1.shadowers = [("n", "b"), ("n", "b"), ("m", "b")] ∧
      reshadowExample.shadowers ++ claimedReshadow reshadowExample "n" = [("n", "b")] ∧
      ("m", "b") ∈ D1.shadowers ∧
      ("m", "b") ∉ reshadowExample.shadowers ++ claimedReshadow reshadowExample "n" :=
  ⟨rfl, ⟨reshadowExample_edges, reshadowExample_acyclic, reshadowExample_bookkeeping,
      reshadowExample_revlists, reshadowExample_shadowers⟩,
    rfl, rfl, _, rfl, rfl, by decide, by decide⟩

/-- C17, amended: for a `DepSystem` satisfying the graph invariants and an existing symbol `n`,
`delete_symbol(n)` returns, and `shadowers` afterwards is the old content followed by, for every
owner `b` in `reverse_dependency_list_set(n)` and every ordered list of `b` (whether or not an
existing symbol precedes `n` in it), the pairs `(m, b)` for the names `m` from the first
occurrence of `n` in the list on (`n` itself included) up to but not including the next
symbol that still exists; nothing else is added. -/
theorem C17_reshadow_amended (D : DepSystem) (n : String) (hE : EdgeSymmetric D)
    (hA : Acyclic D) (hR : RevListsExact D) (hn : has_symbol D n = true) :
    ∃ D1, delete_symbol D n = Outcome.ok D1 ∧
      D1.shadowers = D.shadowers ++ reshadowedPairs D n := by
  obtain ⟨D1, h⟩ := delete_symbol_returns hE hA hR hn
  exact ⟨D1, h, delete_symbol_shadowers h⟩

/-- C17, witness of the amended statement on `reshadowExample`. -/
theorem C17_reshadow_amended_witness :
    (EdgeSymmetric reshadowExample ∧ Acyclic reshadowExample ∧
      RevListsExact reshadowExample ∧ has_symbol reshadowExample "n" = true) ∧
    ∃ D1, delete_symbol reshadowExample "n" = Outcome.ok D1 ∧
      D1.shadowers = reshadowExample.shadowers ++ reshadowedPairs reshadowExample "n" :=
  ⟨⟨reshadowExample_edges, reshadowExample_acyclic, reshadowExample_revlists, rfl⟩,
    C17_reshadow_amended reshadowExample "n" reshadowExample_edges reshadowExample_acyclic
      reshadowExample_revlists rfl⟩

/-- With nothing considered at entry, the list returned by `get_dependencies_recursive` for `s`
holds exactly `s` and its transitive dependencies. -/
theorem dfsOut_mem {D : DepSystem} {s : String} {R : List String} (h : DfsOut D s [] R) :
    ∀ x, x ∈ R ↔ x = s ∨ Reaches D s x := by
  obtain ⟨-, -, ⟨R0, hR0, hreach⟩, -, htopo⟩ := h
  have hs : s ∈ R := by rw [hR0]; simp
  have hstep : ∀ q ∈ R, ∀ p, Dep D q p → p ∈ R := by
    intro q hq p hd
    rcases htopo q hq p hd with hc | hsub
    · cases hc
    · exact hsub.subset (List.mem_cons_self _ _)
  intro x
  constructor
  · intro hx
    rw [hR0, List.mem_append, List.mem_singleton] at hx
    rcases hx with hx | hx
    · exact Or.inr (hreach x hx)
    · exact Or.inl hx
  · rintro (rfl | hx)
    · exact hs
    · induction hx with
      | single hd => exact hstep s hs _ hd
      | tail _ hd ih => exact hstep _ ih _ hd

theorem stateIn_eq_true {D : DepSystem} {states : List Symbol_State} {x : String} :
    stateIn D states x = true ↔ ∃ sx, findSym D.symbols x = some sx ∧ sx.state ∈ states := by
  unfold stateIn
  cases findSym D.symbols x <;> simp

/-- What `get_build_plan` computes under the graph invariants: `all` is the post-order list. -/
theorem get_build_plan_eq {D : DepSystem} {s : String} {fuel : Nat} (hE : EdgeSymmetric D)
    (hA : Acyclic D) (hs : countSym D.symbols s = true) (hfuel : D.symbols.length ≤ fuel) :
    ∃ sym all, findSym D.symbols s = some sym ∧
      get_dependencies_recursive D fuel sym [] = some all ∧ DfsOut D s [] all ∧
      get_build_plan fuel D s =
        (match all.filter (stateIn D [INVALID]) with
          | [] => Outcome.ok (all.filter (stateIn D [NONBUILT, STALE]))
          | _ :: _ => Outcome.threw Error.Unbuildable D) := by
  obtain ⟨sym, hsym⟩ := countSym_eq_true.1 hs
  obtain ⟨all, hall, -, hout⟩ := get_dependencies_recursive_spec hE hA fuel s
    (bounded_dep hE hA hs hfuel) sym [] hsym
  have hdfs := hout (List.not_mem_nil _)
  have hex : ∀ x ∈ all, countSym D.symbols x = true := hdfs.2.2.2.1
  refine ⟨sym, all, hsym, hall, hdfs, ?_⟩
  unfold get_build_plan
  rw [hsym]
  simp only [hall, select_syms_with_states_eq all hex]
  cases all.filter (stateIn D [INVALID]) <;> rfl

/-- C11: under the graph invariants, `get_build_plan(s)` fails with the "unbuildable" exception
exactly when `s` or one of its transitive dependencies is INVALID; otherwise it returns the
members of the post-order list of `s` and its transitive dependencies whose state is NONBUILT or
STALE, in that order; a returned plan never holds a DISABLED, VALID or INVALID symbol. -/
theorem C11_build_plan_contents (D : DepSystem) (s : String) (fuel : Nat)
    (hE : EdgeSymmetric D) (hA : Acyclic D) (hs : has_symbol D s = true)
    (hfuel : D.symbols.length ≤ fuel) :
    (get_build_plan fuel D s = Outcome.threw Error.Unbuildable D ↔
      ∃ x sx, (x = s ∨ Reaches D s x) ∧ findSym D.symbols x = some sx ∧ sx.state = INVALID) ∧
    ((¬ ∃ x sx, (x = s ∨ Reaches D s x) ∧ findSym D.symbols x = some sx ∧
        sx.state = INVALID) →
      ∃ sym all, findSym D.symbols s = some sym ∧
        get_dependencies_recursive D fuel sym [] = some all ∧
        (∀ x, x ∈ all ↔ x = s ∨ Reaches D s x) ∧
        get_build_plan fuel D s =
          Outcome.ok (all.filter (fun x => stateIn D [NONBUILT, STALE] x))) ∧
    (∀ plan, get_build_plan fuel D s = Outcome.ok plan →
      ∀ x ∈ plan, ∃ sx, findSym D.symbols x = some sx ∧
        (sx.state = NONBUILT ∨ sx.state = STALE)) := by
  obtain ⟨sym, all, hsym, hall, hdfs, hplan⟩ := get_build_plan_eq hE hA hs hfuel
  have hmem := dfsOut_mem hdfs
  have hinv : all.filter (stateIn D [INVALID]) = [] ↔
      ¬ ∃ x sx, (x = s ∨ Reaches D s x) ∧ findSym D.symbols x = some sx ∧
        sx.state = INVALID := by
    rw [List.filter_eq_nil_iff]
    constructor
    · rintro h ⟨x, sx, hx, hsx, hst⟩
      exact h x ((hmem x).2 hx) (stateIn_eq_true.2 ⟨sx, hsx, by simp [hst]⟩)
    · intro h x hx hc
      obtain ⟨sx, hsx, hst⟩ := stateIn_eq_true.1 hc
      exact h ⟨x, sx, (hmem x).1 hx, hsx, by simpa using hst⟩
  refine ⟨?_, ?_, ?_⟩
  · rw [hplan]
    constructor
    · intro h
      by_contra hc
      rw [hinv.2 hc] at h
      cases h
    · intro h
      cases hf : all.filter (stateIn D [INVALID]) with
      | nil => exact absurd h (hinv.1 hf)
      | cons a l => rfl
  · intro h
    refine ⟨sym, all, hsym, hall, hmem, ?_⟩
    rw [hplan, hinv.2 h]
  · intro plan hp x hx
    rw [hplan] at hp
    cases hf : all.filter (stateIn D [INVALID]) with
    | nil =>
      rw [hf] at hp
      cases hp
      obtain ⟨sx, hsx, hst⟩ := stateIn_eq_true.1 (List.mem_filter.1 hx).2
      refine ⟨sx, hsx, ?_⟩
      simpa using hst
    | cons a l => rw [hf] at hp; cases hp

/-- C11, witness: the plan of `a` in `planExample`. -/
theorem C11_build_plan_contents_witness :
    (EdgeSymmetric planExample ∧ Acyclic planExample ∧ has_symbol planExample "a" = true ∧
      planExample.symbols.length ≤ 3) ∧
    ∀ plan, get_build_plan 3 planExample "a" = Outcome.ok plan →
      ∀ x ∈ plan, ∃ sx, findSym planExample.symbols x = some sx ∧
        (sx.state = NONBUILT ∨ sx.state = STALE) :=
  ⟨⟨planExample_edges, planExample_acyclic, rfl, by decide⟩,
    (C11_build_plan_contents planExample "a" 3 planExample_edges planExample_acyclic rfl
      (by decide)).2.2⟩

theorem agree_noState_cases {L L1 : List Symbol} (h : Agree noState L L1) (n : String) :
    (findSym L1 n = none ∧ findSym L n = none) ∨
      ∃ s1 s, findSym L1 n = some s1 ∧ findSym L n = some s ∧ noState s1 = noState s := by
  have hn := h n
  cases h1 : findSym L1 n with
  | none =>
    cases h0 : findSym L n with
    | none => exact Or.inl ⟨rfl, rfl⟩
    | some s => rw [h1, h0] at hn; cases hn
  | some s1 =>
    cases h0 : findSym L n with
    | none => rw [h1, h0] at hn; cases hn
    | some s =>
      rw [h1, h0] at hn
      exact Or.inr ⟨s1, s, rfl, rfl, Option.some.inj hn⟩

/-- `get_dependencies_recursive` does not read the states. -/
theorem get_dependencies_recursive_congr {D D1 : DepSystem}
    (h : Agree noState D.symbols D1.symbols) :
    ∀ (k : Nat) (sym sym1 : Symbol) (C : List String), noState sym1 = noState sym →
      get_dependencies_recursive D1 k sym1 C = get_dependencies_recursive D k sym C := by
  intro k
  induction k with
  | zero => intro sym sym1 C _; rfl
  | succ k ih =>
    intro sym sym1 C hs
    have hname : sym1.name = sym.name := by
      have := congrArg Symbol.name hs; exact this
    have hedges : sym1.dependency_edges = sym.dependency_edges := by
      have := congrArg Symbol.dependency_edges hs; exact this
    have hlists : sym1.dependency_list_list = sym.dependency_list_list := by
      have := congrArg Symbol.dependency_list_list hs; exact this
    have hstep1 : (fun (st : List String × List String) dep_sym_name =>
          match findSym D1.symbols dep_sym_name with
          | none => none
          | some dep =>
            match get_dependencies_recursive D1 k dep st.2 with
            | none => none
            | some dep_deps => some (absorb st dep_deps)) =
        (fun (st : List String × List String) dep_sym_name =>
          match findSym D.symbols dep_sym_name with
          | none => none
          | some dep =>
            match get_dependencies_recursive D k dep st.2 with
            | none => none
            | some dep_deps => some (absorb st dep_deps)) := by
      funext st n
      rcases agree_noState_cases h n with ⟨h1, h0⟩ | ⟨s1, s, h1, h0, he⟩
      · rw [h1, h0]
      · rw [h1, h0]
        simp only [ih s s1 st.2 he]
    have hstep2 : (fun (st : List String × List String) dep_list =>
          match firstExisting D1.symbols dep_list with
          | none => some st
          | some list_sym_name =>
            match findSym D1.symbols list_sym_name with
            | none => none
            | some dep =>
              match get_dependencies_recursive D1 k dep st.2 with
              | none => none
              | some dep_deps => some (absorb st dep_deps)) =
        (fun (st : List String × List String) dep_list =>
          match firstExisting D.symbols dep_list with
          | none => some st
          | some list_sym_name =>
            match findSym D.symbols list_sym_name with
            | none => none
            | some dep =>
              match get_dependencies_recursive D k dep st.2 with
              | none => none
              | some dep_deps => some (absorb st dep_deps)) := by
      funext st l
      rw [firstExisting_congr (fun n => h.count n) l]
      cases firstExisting D.symbols l with
      | none => rfl
      | some n =>
        have := congrFun (congrFun hstep1 st) n
        exact this
    unfold get_dependencies_recursive
    rw [hname, hedges, hlists, hstep1, hstep2]

/-- The loop of `build_symbol`: the callbacks of the plan entries are invoked in plan order, and
the state of every entry becomes VALID. -/
theorem buildLoop_spec :
    ∀ (plan : List String) (D : DepSystem) (tr : List (Nat × String × String)),
      (∀ x ∈ plan, countSym D.symbols x = true) →
      ∃ D1, foldOpt buildStep (D, tr) plan = some (D1, tr ++ plan.filterMap (callOf D)) ∧
        D1.shadowers = D.shadowers ∧
        ∀ n, findSym D1.symbols n = (findSym D.symbols n).map (fun sx =>
          if n ∈ plan then { sx with state := VALID } else sx) := by
  intro plan
  induction plan with
  | nil =>
    intro D tr _
    refine ⟨D, by simp [foldOpt], rfl, ?_⟩
    intro n
    cases findSym D.symbols n <;> simp
  | cons x xs ih =>
    intro D tr h
    obtain ⟨sx, hsx⟩ := countSym_eq_true.1 (h x (List.mem_cons_self _ _))
    have hname : sx.name = x := findSym_name hsx
    obtain ⟨D2, hD2⟩ : ∃ D2 : DepSystem,
        D2 = { D with symbols := putSym D.symbols { sx with state := VALID } } := ⟨_, rfl⟩
    have hfind2 : ∀ n, findSym D2.symbols n =
        if x = n then some { sx with state := VALID } else findSym D.symbols n := by
      intro n
      rw [hD2]
      show findSym (putSym D.symbols { sx with state := VALID }) n = _
      rw [findSym_putSym]
      simp only [hname]
    have hcount2 : ∀ y ∈ xs, countSym D2.symbols y = true := by
      intro y hy
      unfold countSym
      rw [hfind2 y]
      by_cases hxy : x = y
      · simp [hxy]
      · simp only [hxy, if_false]
        exact h y (List.mem_cons_of_mem _ hy)
    have hcall : ∀ y, callOf D2 y = callOf D y := by
      intro y
      unfold callOf
      rw [hfind2 y]
      by_cases hxy : x = y
      · subst hxy
        simp only [if_true, hsx]
      · simp only [hxy, if_false]
    obtain ⟨D1, hfold, hsh, hfind⟩ := ih D2
      (match sx.callback with
        | none => tr
        | some c => tr ++ [(c, sx.name, sx.value)]) hcount2
    refine ⟨D1, ?_, ?_, ?_⟩
    · unfold foldOpt
      have hstep : buildStep (D, tr) x = some (D2,
          match sx.callback with
          | none => tr
          | some c => tr ++ [(c, sx.name, sx.value)]) := by
        unfold buildStep set_state
        simp only [hsx, hname, hD2]
      rw [hstep]
      simp only
      rw [hfold]
      congr 2
      have hx : callOf D x = match sx.callback with
          | none => none
          | some c => some (c, sx.name, sx.value) := by
        unfold callOf; rw [hsx]
      rw [List.filterMap_cons, hx, List.filterMap_congr (fun y _ => hcall y)]
      cases sx.callback <;> simp
    · rw [hsh, hD2]
    · intro n
      rw [hfind n, hfind2 n]
      by_cases hxn : x = n
      · subst hxn
        simp only [if_true, hsx, Option.map_some', List.mem_cons, true_or]
        split <;> rfl
      · have hnx : ¬ n = x := fun e => hxn e.symm
        simp only [hxn, if_false, List.mem_cons, hnx, false_or]

/-- C12: under the graph invariants, when `get_build_plan(s)` returns the plan `P` (which has
no duplicates), `build_symbol(s)` returns after invoking, in the order of `P`, the callback of
each entry of `P` that has one, once, with the name and value of the entry; afterwards every
entry of `P` is VALID and nothing else is changed (the state of the other symbols, all values,
callbacks, edges, lists, reverse sets and `shadowers`), and `get_build_plan(s)` returns the
empty list. -/
theorem C12_build_symbol (D : DepSystem) (s : String) (fuel : Nat) (plan : List String)
    (hE : EdgeSymmetric D) (hA : Acyclic D) (hfuel : D.symbols.length ≤ fuel)
    (hplan : get_build_plan fuel D s = Outcome.ok plan) :
    plan.Nodup ∧
    ∃ D1, build_symbol fuel D s = Outcome.ok (D1, plan.filterMap (callOf D)) ∧
      D1.shadowers = D.shadowers ∧
      (∀ n, findSym D1.symbols n = (findSym D.symbols n).map (fun sx =>
        if n ∈ plan then { sx with state := VALID } else sx)) ∧
      get_build_plan fuel D1 s = Outcome.ok [] := by
  have hs : countSym D.symbols s = true := by
    cases hf : findSym D.symbols s with
    | none => unfold get_build_plan at hplan; rw [hf] at hplan; cases hplan
    | some sym => exact countSym_eq_true.2 ⟨sym, hf⟩
  obtain ⟨sym, all, hsym, hall, hdfs, heq⟩ := get_build_plan_eq hE hA hs hfuel
  have hex : ∀ x ∈ all, countSym D.symbols x = true := hdfs.2.2.2.1
  rw [hplan] at heq
  have hinv : all.filter (stateIn D [INVALID]) = [] := by
    cases hf : all.filter (stateIn D [INVALID]) with
    | nil => rfl
    | cons a l => rw [hf] at heq; cases heq
  rw [hinv] at heq
  have hp : plan = all.filter (stateIn D [NONBUILT, STALE]) := Outcome.ok.inj heq
  have hpex : ∀ x ∈ plan, countSym D.symbols x = true := by
    intro x hx
    rw [hp] at hx
    exact hex x (List.mem_filter.1 hx).1
  obtain ⟨D1, hfold, hsh, hfind⟩ := buildLoop_spec plan D [] hpex
  have hagree : Agree noState D.symbols D1.symbols := by
    intro n
    rw [hfind n]
    cases findSym D.symbols n with
    | none => rfl
    | some sx =>
      simp only [Option.map_some']
      split <;> rfl
  have hsym1 : ∃ sym1, findSym D1.symbols s = some sym1 ∧ noState sym1 = noState sym := by
    rcases agree_noState_cases hagree s with ⟨-, h0⟩ | ⟨s1, s0, h1, h0, he⟩
    · rw [hsym] at h0; cases h0
    · rw [hsym] at h0; cases h0; exact ⟨s1, h1, he⟩
  obtain ⟨sym1, hsym1, hns⟩ := hsym1
  have hall1 : get_dependencies_recursive D1 fuel sym1 [] = some all := by
    rw [get_dependencies_recursive_congr hagree fuel sym sym1 [] hns, hall]
  have hex1 : ∀ x ∈ all, countSym D1.symbols x = true := by
    intro x hx; rw [hagree.count]; exact hex x hx
  have hstate : ∀ x ∈ all, ∃ sx1, findSym D1.symbols x = some sx1 ∧
      sx1.state ≠ INVALID ∧ sx1.state ≠ NONBUILT ∧ sx1.state ≠ STALE := by
    intro x hx
    obtain ⟨sx, hsx⟩ := countSym_eq_true.1 (hex x hx)
    have h1 := hfind x
    rw [hsx] at h1
    simp only [Option.map_some'] at h1
    by_cases hxp : x ∈ plan
    · rw [if_pos hxp] at h1
      exact ⟨_, h1, by simp, by simp, by simp⟩
    · rw [if_neg hxp] at h1
      refine ⟨sx, h1, ?_, ?_, ?_⟩
      · intro e
        have : x ∈ all.filter (stateIn D [INVALID]) :=
          List.mem_filter.2 ⟨hx, stateIn_eq_true.2 ⟨sx, hsx, by simp [e]⟩⟩
        rw [hinv] at this; cases this
      · intro e
        apply hxp
        rw [hp]
        exact List.mem_filter.2 ⟨hx, stateIn_eq_true.2 ⟨sx, hsx, by simp [e]⟩⟩
      · intro e
        apply hxp
        rw [hp]
        exact List.mem_filter.2 ⟨hx, stateIn_eq_true.2 ⟨sx, hsx, by simp [e]⟩⟩
  have hnil : ∀ states : List Symbol_State,
      (∀ st ∈ states, st = INVALID ∨ st = NONBUILT ∨ st = STALE) →
      all.filter (stateIn D1 states) = [] := by
    intro states hst
    rw [List.filter_eq_nil_iff]
    intro x hx hc
    obtain ⟨sx1, hsx1, hm⟩ := stateIn_eq_true.1 hc
    obtain ⟨sx2, hsx2, n1, n2, n3⟩ := hstate x hx
    rw [hsx1] at hsx2
    cases hsx2
    rcases hst _ hm with e | e | e
    · exact n1 e
    · exact n2 e
    · exact n3 e
  refine ⟨?_, D1, ?_, hsh, hfind, ?_⟩
  · rw [hp]; exact hdfs.1.filter _
  · unfold build_symbol
    rw [hplan]
    simp only [hfold, List.nil_append]
  · unfold get_build_plan
    rw [hsym1]
    simp only [hall1, select_syms_with_states_eq all hex1]
    rw [hnil [INVALID] (by simp)]
    simp only
    rw [hnil [NONBUILT, STALE] (by simp)]

theorem callbackExample_edges : EdgeSymmetric callbackExample :=
  edgeSymmetric_of_check (by decide)

theorem callbackExample_acyclic : Acyclic callbackExample :=
  acyclic_of_rank (fun n => if n = "a" then 2 else if n = "b" then 1 else 0) (by decide)

/-- C12, witness: building `a` in `callbackExample`, whose plan is `["b", "a"]`: the callback
of `b` is invoked first, then that of `a`. -/
theorem C12_build_symbol_witness :
    (EdgeSymmetric callbackExample ∧ Acyclic callbackExample ∧
      callbackExample.symbols.length ≤ 3 ∧
      get_build_plan 3 callbackExample "a" = Outcome.ok ["b", "a"]) ∧
    ["b", "a"].filterMap (callOf callbackExample) = [(2, "b", "vb"), (1, "a", "va")] ∧
    ["b", "a"].Nodup ∧
    ∃ D1, build_symbol 3 callbackExample "a" =
        Outcome.ok (D1, ["b", "a"].filterMap (callOf callbackExample)) ∧
      D1.shadowers = callbackExample.shadowers ∧
      (∀ n, findSym D1.symbols n = (findSym callbackExample.symbols n).map (fun sx =>
        if n ∈ ["b", "a"] then { sx with state := VALID } else sx)) ∧
      get_build_plan 3 D1 "a" = Outcome.ok [] :=
  ⟨⟨callbackExample_edges, callbackExample_acyclic, by decide, rfl⟩, rfl,
    C12_build_symbol callbackExample "a" 3 ["b", "a"] callbackExample_edges
      callbackExample_acyclic (by decide) rfl⟩

theorem findIf_head {p : String → Bool} {l : List String} {q : String} {r : List String}
    (h : findIf p l = q :: r) : p q = true := by
  induction l with
  | nil => cases h
  | cons x xs ih =>
    unfold findIf at h
    by_cases hx : p x = true
    · rw [if_pos hx] at h
      cases h
      exact hx
    · rw [if_neg hx] at h
      exact ih h

theorem RevListsShrink.unchanged (L : List Symbol) : RevListsShrink L L :=
  fun _ sa h => ⟨sa, h, rfl, fun _ hd => hd⟩

theorem RevListsShrink.step {L L1 L2 : List Symbol} (h1 : RevListsShrink L L1)
    (h2 : RevListsShrink L1 L2) : RevListsShrink L L2 := by
  intro a sa hsa
  obtain ⟨s1, hs1, e1, m1⟩ := h2 a sa hsa
  obtain ⟨s, hs, e, m⟩ := h1 a s1 hs1
  exact ⟨s, hs, e1.trans e, fun d hd => m d (m1 d hd)⟩

theorem shadowList_shrink {name : String} {affected : Symbol}
    {st st1 : List Symbol × List String} {deplist : List String}
    (h : shadowList name affected st deplist = some st1) :
    RevListsShrink st.1 st1.1 ∧ ∀ b ∈ st1.2, b ∈ st.2 ∨ b = affected.name := by
  unfold shadowList at h
  split at h
  · cases h; exact ⟨RevListsShrink.unchanged _, fun b hb => Or.inl hb⟩
  · split_ifs at h with hp
    · cases h; exact ⟨RevListsShrink.unchanged _, fun b hb => Or.inl hb⟩
    · split at h
      · cases h
        refine ⟨RevListsShrink.unchanged _, fun b hb => ?_⟩
        rcases mem_setInsert.1 hb with e | e
        · exact Or.inr e
        · exact Or.inl e
      · rename_i q rest2 hq
        cases hf : findSym st.1 q with
        | none => rw [hf] at h; simp at h
        | some shadowed =>
          rw [hf] at h
          simp only [Option.some.injEq] at h
          subst h
          have hn : shadowed.name = q := findSym_name hf
          refine ⟨?_, fun b hb => ?_⟩
          · intro a sa hsa
            simp only at hsa
            rw [findSym_putSym] at hsa
            by_cases ha : shadowed.name = a
            · simp only [ha, if_true, Option.some.injEq] at hsa
              subst hsa
              refine ⟨shadowed, by rw [← ha, hn]; exact hf, rfl, fun d hd => ?_⟩
              exact (mem_setErase.1 hd).1
            · simp only [ha, if_false] at hsa
              exact ⟨sa, hsa, rfl, fun _ hd => hd⟩
          · rcases mem_setInsert.1 hb with e | e
            · exact Or.inr e
            · exact Or.inl e

theorem shadowList_defined (name : String) (affected : Symbol)
    (st : List Symbol × List String) (deplist : List String) :
    ∃ st1, shadowList name affected st deplist = some st1 := by
  unfold shadowList
  split
  · exact ⟨_, rfl⟩
  · split_ifs with hp
    · exact ⟨_, rfl⟩
    · split
      · exact ⟨_, rfl⟩
      · rename_i q rest2 hq
        have hc : countSym st.1 q = true := findIf_head hq
        obtain ⟨s, hs⟩ := countSym_eq_true.1 hc
        rw [hs]
        exact ⟨_, rfl⟩

theorem foldOpt_total {σ α : Type} {f : σ → α → Option σ} (h : ∀ s x, ∃ t, f s x = some t) :
    ∀ (l : List α) (s : σ), ∃ t, foldOpt f s l = some t := by
  intro l
  induction l with
  | nil => intro s; exact ⟨s, rfl⟩
  | cons x xs ih =>
    intro s
    obtain ⟨t, ht⟩ := h s x
    obtain ⟨u, hu⟩ := ih t
    exact ⟨u, by unfold foldOpt; rw [ht]; exact hu⟩

theorem shadowOwner_shrink {name : String} {st st1 : List Symbol × List String}
    {owner : String} (h : shadowOwner name st owner = some st1) :
    RevListsShrink st.1 st1.1 ∧ ∀ b ∈ st1.2, b ∈ st.2 ∨ b = owner := by
  unfold shadowOwner at h
  cases hf : findSym st.1 owner with
  | none => rw [hf] at h; simp at h
  | some affected =>
    rw [hf] at h
    simp only at h
    have hn : affected.name = owner := findSym_name hf
    exact foldOpt_induct
      (fun t => RevListsShrink st.1 t.1 ∧ ∀ b ∈ t.2, b ∈ st.2 ∨ b = owner)
      (fun s x t hs hstep => by
        obtain ⟨h1, h2⟩ := shadowList_shrink hstep
        refine ⟨hs.1.step h1, fun b hb => ?_⟩
        rcases h2 b hb with e | e
        · exact hs.2 b e
        · exact Or.inr (e.trans hn))
      _ _ _ ⟨RevListsShrink.unchanged _, fun b hb => Or.inl hb⟩ h

theorem shadowLoop_shrink {name : String} :
    ∀ (range : List String) (st st1 : List Symbol × List String),
      foldOpt (shadowOwner name) st range = some st1 →
      RevListsShrink st.1 st1.1 ∧ ∀ b ∈ st1.2, b ∈ st.2 ∨ b ∈ range := by
  intro range
  induction range with
  | nil =>
    intro st st1 h
    cases h
    exact ⟨RevListsShrink.unchanged _, fun b hb => Or.inl hb⟩
  | cons o os ih =>
    intro st st1 h
    unfold foldOpt at h
    cases ho : shadowOwner name st o with
    | none => rw [ho] at h; cases h
    | some t =>
      rw [ho] at h
      obtain ⟨h1, h2⟩ := shadowOwner_shrink ho
      obtain ⟨h3, h4⟩ := ih t st1 h
      refine ⟨h1.step h3, fun b hb => ?_⟩
      rcases h4 b hb with e | e
      · rcases h2 b e with e2 | e2
        · exact Or.inl e2
        · exact Or.inr (by rw [e2]; exact List.mem_cons_self _ _)
      · exact Or.inr (List.mem_cons_of_mem _ e)

theorem shadowLoop_defined {name : String} :
    ∀ (range : List String) (st : List Symbol × List String),
      (∀ o ∈ range, countSym st.1 o = true) →
      ∃ st1, foldOpt (shadowOwner name) st range = some st1 := by
  intro range
  induction range with
  | nil => intro st _; exact ⟨st, rfl⟩
  | cons o os ih =>
    intro st h
    obtain ⟨affected, ha⟩ := countSym_eq_true.1 (h o (List.mem_cons_self _ _))
    obtain ⟨t, ht⟩ : ∃ t, shadowOwner name st o = some t := by
      unfold shadowOwner
      rw [ha]
      exact foldOpt_total (shadowList_defined name affected) _ _
    have hc : ∀ o2 ∈ os, countSym t.1 o2 = true := by
      intro o2 ho2
      rw [(shadowOwner_agree ht).count]
      exact h o2 (List.mem_cons_of_mem _ ho2)
    obtain ⟨st1, hst1⟩ := ih t hc
    exact ⟨st1, by unfold foldOpt; rw [ht]; exact hst1⟩

/-- Depth bounds carry over to a relation that, on the names satisfying `P`, is included in the
bounded one and stays inside `P`. -/
theorem bounded_transfer {R R1 : String → String → Prop} (P : String → Prop)
    (hP : ∀ a b, P a → R1 a b → R a b ∧ P b) {k : Nat} {s : String} (hb : Bounded R k s) :
    P s → Bounded R1 k s := by
  induction hb with
  | mk k s _ ih =>
    intro hs
    exact Bounded.mk k s (fun c hc => ih c (hP s c hs hc).1 (hP s c hs hc).2)

/-- Under the graph invariants the insert path of `add_set_symbol` returns. -/
theorem add_set_symbol_insert_returns {D : DepSystem} {n v : String} {fuel : Nat}
    (hE : EdgeSymmetric D) (hA : Acyclic D) (hR : RevListsExact D) (hO : ShadowOwnersExist D)
    (hn : findSym D.symbols n = none) (hfuel : D.symbols.length + 1 ≤ fuel) :
    ∃ D1, add_set_symbol fuel D n v = Outcome.ok D1 := by
  have hrange : ∀ o ∈ (D.shadowers.filter (fun e => decide (e.1 = n))).map Prod.snd,
      countSym D.symbols o = true := by
    intro o ho
    obtain ⟨e, he, rfl⟩ := List.mem_map.1 ho
    exact hO e (List.mem_filter.1 he).1
  obtain ⟨st, hst⟩ : ∃ st, foldOpt (shadowOwner n) (D.symbols, [])
      ((D.shadowers.filter (fun e => decide (e.1 = n))).map Prod.snd) = some st :=
    shadowLoop_defined _ (D.symbols, []) hrange
  obtain ⟨hshrink, hst2⟩ := shadowLoop_shrink _ _ _ hst
  have hagree : Agree noRevLists D.symbols st.1 := shadowLoop_agree hst
  have hnone1 : findSym st.1 n = none := findSym_none_of_agree hagree hn
  obtain ⟨D2, hD2⟩ : ∃ D2 : DepSystem,
      D2 = { symbols := insertSym st.1 (freshSymbol n v st.2),
             shadowers := D.shadowers.filter (fun e => decide (e.1 ≠ n)) } := ⟨_, rfl⟩
  have hfind2 : ∀ m, findSym D2.symbols m =
      if n = m then some (freshSymbol n v st.2) else findSym st.1 m := by
    intro m
    rw [hD2]
    exact findSym_insertSym (s := freshSymbol n v st.2) hnone1 m
  have hcount2 : ∀ m, countSym D.symbols m = true → countSym D2.symbols m = true := by
    intro m hm
    unfold countSym
    rw [hfind2 m]
    by_cases hnm : n = m
    · simp [hnm]
    · simp only [hnm, if_false]
      have := hagree.count m
      unfold countSym at this hm
      rw [this]; exact hm
  have hroot : ∀ d, RevDep D2 n d → countSym D.symbols d = true := by
    rintro d ⟨sa, hsa, hd⟩
    rw [hfind2 n] at hsa
    simp only [if_true, Option.some.injEq] at hsa
    subst hsa
    rcases hd with hd | hd
    · simp [freshSymbol] at hd
    · rcases hst2 d hd with e | e
      · cases e
      · exact hrange d e
  have hold : ∀ a d, countSym D.symbols a = true → RevDep D2 a d →
      RevDep D a d ∧ countSym D.symbols d = true := by
    rintro a d ha ⟨sa, hsa, hd⟩
    have hna : ¬ n = a := by
      rintro rfl
      rw [countSym_eq_true] at ha
      obtain ⟨s, hs⟩ := ha
      rw [hn] at hs; cases hs
    rw [hfind2 a] at hsa
    simp only [hna, if_false] at hsa
    obtain ⟨s, hs, e1, m1⟩ := hshrink a sa hsa
    have hrd : RevDep D a d := by
      refine ⟨s, hs, ?_⟩
      rcases hd with hd | hd
      · exact Or.inl (e1 ▸ hd)
      · exact Or.inr (m1 d hd)
    exact ⟨hrd, revDep_closed hE hR hrd⟩
  have hclosed : ∀ a d, RevDep D2 a d → countSym D2.symbols d = true := by
    intro a d h
    by_cases hna : n = a
    · subst hna; exact hcount2 d (hroot d h)
    · have ha : countSym D.symbols a = true := by
        obtain ⟨sa, hsa, -⟩ := h
        rw [hfind2 a] at hsa
        simp only [hna, if_false] at hsa
        rw [← hagree.count]
        exact countSym_eq_true.2 ⟨sa, hsa⟩
      exact hcount2 d (hold a d ha h).2
  have hx : countSym D2.symbols n = true := by
    unfold countSym; rw [hfind2 n]; simp
  obtain ⟨k, rfl⟩ : ∃ k, fuel = k + 1 := ⟨fuel - 1, by omega⟩
  have hb : Bounded (RevDep D2) (k + 1) n :=
    Bounded.mk k n (fun c hc =>
      bounded_transfer (fun a => countSym D.symbols a = true) hold
        (bounded_revDep hE hA hR (hroot c hc) (by omega)) (hroot c hc))
  obtain ⟨D1, hD1, -⟩ := invalidate_dependents_spec hclosed hx hb
  refine ⟨D1, ?_⟩
  unfold add_set_symbol
  rw [hn]
  simp only [hst]
  rw [← hD1, hD2]
  rfl

/-- The record of a symbol just inserted by `add_set_symbol`. -/
theorem add_set_symbol_insert_self {fuel : Nat} {D D1 : DepSystem} {n v : String}
    (hn : findSym D.symbols n = none) (h : add_set_symbol fuel D n v = Outcome.ok D1) :
    ∃ r, findSym D1.symbols n = some (freshSymbol n v r) := by
  unfold add_set_symbol at h
  rw [hn] at h
  simp only at h
  cases hst : foldOpt (shadowOwner n) (D.symbols, [])
      ((D.shadowers.filter (fun e => decide (e.1 = n))).map Prod.snd) with
  | none => rw [hst] at h; cases h
  | some st =>
    rw [hst] at h
    simp only at h
    have hself := invalidate_dependents_self h
    have hnone : findSym st.1 n = none := findSym_none_of_agree (shadowLoop_agree hst) hn
    refine ⟨st.2, hself.trans ?_⟩
    show findSym (insertSym st.1 (freshSymbol n v st.2)) n = _
    rw [findSym_insertSym (by exact hnone)]
    simp [freshSymbol]

/-- Invariant 4 gives every shadower an existing owner. -/
theorem shadowOwnersExist_of_exact {D : DepSystem} (h : ShadowersExact D) :
    ShadowOwnersExist D := by
  intro e he
  obtain ⟨-, sb, hsb, -⟩ := (h e.1 e.2).1 he
  exact countSym_eq_true.2 ⟨sb, hsb⟩

/-- C16: under the graph invariants, with every shadower owner existing, `add_set_symbol(n, v)`
for a name `n` that does not exist returns, and afterwards `n` exists with the value `v`, the
state VALID, no dependency edge, no reverse dependency edge and no ordered list; `shadowers`
has no entry keyed `n`; every symbol that existed keeps its value, dependency edges, reverse
dependency edges and ordered lists. -/
theorem C16_insert_path (D : DepSystem) (n v : String) (fuel : Nat)
    (hE : EdgeSymmetric D) (hA : Acyclic D) (hR : RevListsExact D) (hO : ShadowOwnersExist D)
    (hn : has_symbol D n = false) (hfuel : D.symbols.length + 1 ≤ fuel) :
    ∃ D1, add_set_symbol fuel D n v = Outcome.ok D1 ∧
      has_symbol D1 n = true ∧ get_value D1 n = Outcome.ok v ∧
      get_state D1 n = Outcome.ok VALID ∧
      get_dependency_edges D1 n = Outcome.ok [] ∧
      get_dependency_lists D1 n = Outcome.ok [] ∧
      (∃ s1, findSym D1.symbols n = some s1 ∧ s1.reverse_dependency_edges = []) ∧
      (∀ e ∈ D1.shadowers, e.1 ≠ n) ∧
      ∀ m s, findSym D.symbols m = some s →
        ∃ s1, findSym D1.symbols m = some s1 ∧ s1.value = s.value ∧
          s1.dependency_edges = s.dependency_edges ∧
          s1.reverse_dependency_edges = s.reverse_dependency_edges ∧
          s1.dependency_list_list = s.dependency_list_list := by
  have hnone : findSym D.symbols n = none := countSym_eq_false.1 hn
  obtain ⟨D1, h⟩ := add_set_symbol_insert_returns (v := v) hE hA hR hO hnone hfuel
  obtain ⟨r, hself⟩ := add_set_symbol_insert_self hnone h
  have hafter : (add_set_symbol fuel D n v).after = some D1 := by rw [h]; rfl
  refine ⟨D1, h, ?_, ?_, ?_, ?_, ?_, ⟨_, hself, rfl⟩, ?_, ?_⟩
  · exact countSym_eq_true.2 ⟨_, hself⟩
  · unfold get_value; rw [hself]; rfl
  · unfold get_state; rw [hself]; rfl
  · unfold get_dependency_edges; rw [hself]; rfl
  · unfold get_dependency_lists; rw [hself]; rfl
  · rcases add_set_symbol_after hafter with ⟨-, -, -, -, -, hsh⟩ | ⟨-, cur, hc, -⟩ |
      ⟨cur, hc, -⟩
    · intro e he
      rw [hsh] at he
      simpa using (List.mem_filter.1 he).2
    · rw [hnone] at hc; cases hc
    · rw [hnone] at hc; cases hc
  · intro m s hs
    have hmn : ¬ n = m := by
      rintro rfl
      rw [hnone] at hs; cases hs
    rcases add_set_symbol_after hafter with ⟨-, L1, r1, hag, hinv, -⟩ | ⟨-, cur, hc, -⟩ |
      ⟨cur, hc, -⟩
    · obtain ⟨s2, hs2, he⟩ := hag.find_rev hs
      have hL1n : findSym L1 n = none := findSym_none_of_agree hag hnone
      have hins : findSym (insertSym L1 (freshSymbol n v r1)) m = some s2 := by
        rw [findSym_insertSym (s := freshSymbol n v r1) hL1n m]
        simp only [freshSymbol, hmn, if_false]
        exact hs2
      have e1 : s2.value = s.value := by
        have := congrArg Symbol.value he; exact this
      have e2 : s2.dependency_edges = s.dependency_edges := by
        have := congrArg Symbol.dependency_edges he; exact this
      have e3 : s2.reverse_dependency_edges = s.reverse_dependency_edges := by
        have := congrArg Symbol.reverse_dependency_edges he; exact this
      have e4 : s2.dependency_list_list = s.dependency_list_list := by
        have := congrArg Symbol.dependency_list_list he; exact this
      rcases hinv m with hm | hm
      · rw [hins] at hm
        exact ⟨s2, hm, e1, e2, e3, e4⟩
      · rw [hins] at hm
        exact ⟨_, hm, e1, e2, e3, e4⟩
    · rw [hnone] at hc; cases hc
    · rw [hnone] at hc; cases hc

theorem planExample_revlists : RevListsExact planExample :=
  revListsExact_of_check (by decide)

theorem planExample_owners : ShadowOwnersExist planExample := by
  intro e he
  simp only [planExample, List.mem_singleton] at he
  subst he
  rfl

/-- C16, witness: the absent name `n`, which shadows `c` in the list `["n","c"]` of `b`, is
added to `planExample`. -/
theorem C16_insert_path_witness :
    (EdgeSymmetric planExample ∧ Acyclic planExample ∧ RevListsExact planExample ∧
      ShadowOwnersExist planExample ∧ has_symbol planExample "n" = false ∧
      planExample.symbols.length + 1 ≤ 4) ∧
    ∃ D1, add_set_symbol 4 planExample "n" "v" = Outcome.ok D1 ∧
      has_symbol D1 "n" = true ∧ get_value D1 "n" = Outcome.ok "v" ∧
      get_state D1 "n" = Outcome.ok VALID ∧
      get_dependency_edges D1 "n" = Outcome.ok [] ∧
      get_dependency_lists D1 "n" = Outcome.ok [] ∧
      (∃ s1, findSym D1.symbols "n" = some s1 ∧ s1.reverse_dependency_edges = []) ∧
      (∀ e ∈ D1.shadowers, e.1 ≠ "n") ∧
      ∀ m s, findSym planExample.symbols m = some s →
        ∃ s1, findSym D1.symbols m = some s1 ∧ s1.value = s.value ∧
          s1.dependency_edges = s.dependency_edges ∧
          s1.reverse_dependency_edges = s.reverse_dependency_edges ∧
          s1.dependency_list_list = s.dependency_list_list :=
  ⟨⟨planExample_edges, planExample_acyclic, planExample_revlists, planExample_owners, rfl,
      by decide⟩,
    C16_insert_path planExample "n" "v" 4 planExample_edges planExample_acyclic
      planExample_revlists planExample_owners rfl (by decide)⟩

theorem splitOn_single {cs : List Char} (h : '\n' ∉ cs) : cs.splitOn '\n' = [cs] := by
  have := List.splitOn_intercalate [cs] '\n' (by simpa using h) (by simp)
  simpa [List.intercalate] using this

theorem fieldLines_single {s : String} (h : singleLine s) : fieldLines s = [s] := by
  unfold fieldLines
  rw [splitOn_single h]
  rfl

theorem splitOnP_append_sep (p : Char → Bool) (sep : Char) (hsep : p sep = true)
    (bs : List Char) :
    ∀ as : List Char, List.splitOnP p (as ++ sep :: bs) = List.splitOnP p as ++ List.splitOnP p bs := by
  intro as
  induction as with
  | nil => simp [List.splitOnP_cons, hsep, List.splitOnP_nil]
  | cons a as ih =>
    rw [List.cons_append, List.splitOnP_cons, List.splitOnP_cons, ih]
    by_cases ha : p a = true
    · simp [ha]
    · simp only [ha, if_false]
      cases hs : List.splitOnP p as with
      | nil => exact absurd hs (List.splitOnP_ne_nil p as)
      | cons x xs => rfl

theorem intercalate_cons_eq (x : Char) (a : List Char) :
    ∀ ls : List (List Char),
      [x].intercalate (a :: ls) = a ++ (ls.map (fun l => x :: l)).flatten := by
  intro ls
  induction ls generalizing a with
  | nil => simp [List.intercalate]
  | cons b bs ih =>
    have := ih b
    simp only [List.intercalate, List.intersperse_cons_cons, List.flatten_cons] at this ⊢
    rw [this]
    simp

theorem string_append_ne_empty {a b : String} (h : a ≠ "") : a ++ b ≠ "" := by
  intro e
  apply h
  have := congrArg String.data e
  rw [String.data_append] at this
  apply String.ext
  simp at this
  exact this.1

theorem string_eq_empty_iff {a : String} : a = "" ↔ a.data = [] := by
  constructor
  · intro h; rw [h]
  · intro h; exact String.ext h

theorem getsymLoop_nonempty (T : String) (rest : List String) :
    ∀ (ls : List String) (acc : String), acc ≠ "" → (∀ l ∈ ls, l ≠ T) →
      getsymLoop T acc (ls ++ T :: rest) =
        some (ls.foldl (fun a l => a ++ ("\n" ++ l)) acc, rest) := by
  intro ls
  induction ls with
  | nil =>
    intro acc _ _
    simp [getsymLoop]
  | cons l ls ih =>
    intro acc hacc hls
    have hl : l ≠ T := hls l (List.mem_cons_self _ _)
    rw [List.cons_append, getsymLoop]
    simp only [hl, if_false, hacc]
    rw [ih _ (string_append_ne_empty hacc) (fun x hx => hls x (List.mem_cons_of_mem _ hx))]
    rfl

theorem foldl_newline_data :
    ∀ (ls : List String) (acc : String),
      (ls.foldl (fun a l => a ++ ("\n" ++ l)) acc).data =
        acc.data ++ (ls.map (fun l => '\n' :: l.data)).flatten := by
  intro ls
  induction ls with
  | nil => intro acc; simp
  | cons l ls ih =>
    intro acc
    rw [List.foldl_cons, ih]
    simp [String.data_append]

/-- `getsym` reads back a text that was written by `output_sym`, when the text does not begin
with a newline and none of its lines is the sentinel. -/
theorem getsym_field (T v : String) (rest : List String)
    (hhead : v.data.head? ≠ some '\n') (hlines : ∀ l ∈ fieldLines v, l ≠ T) :
    getsym T (output_sym v T ++ rest) = some (v, rest) := by
  unfold getsym output_sym
  rw [List.append_assoc, List.singleton_append]
  have hint := List.intercalate_splitOn v.data '\n'
  unfold fieldLines at hlines ⊢
  cases hs : v.data.splitOn '\n' with
  | nil => exact absurd hs (List.splitOnP_ne_nil _ _)
  | cons seg1 segs =>
    rw [hs] at hint hlines
    rw [intercalate_cons_eq] at hint
    simp only [List.map_cons] at hlines ⊢
    have h1 : String.mk seg1 ≠ T := hlines _ (List.mem_cons_self _ _)
    have hrest : ∀ l ∈ segs.map String.mk, l ≠ T :=
      fun l hl => hlines l (List.mem_cons_of_mem _ hl)
    by_cases hseg : seg1 = []
    · subst hseg
      have hsegs : segs = [] := by
        cases segs with
        | nil => rfl
        | cons b bs =>
          exfalso
          apply hhead
          rw [← hint]
          simp
      subst hsegs
      have hv : v = "" := String.ext (by rw [← hint]; simp)
      subst hv
      have h0 : ("" : String) ≠ T := h1
      simp [getsymLoop, h0]
    · have hne : String.mk seg1 ≠ "" := by
        intro e
        exact hseg (by have := congrArg String.data e; simpa using this)
      rw [List.cons_append, getsymLoop]
      simp only [h1, if_false, if_true, String.empty_append]
      rw [getsymLoop_nonempty T rest _ _ hne hrest]
      congr 2
      apply String.ext
      rw [foldl_newline_data, ← hint, List.map_map]
      rfl

theorem singleLine_head {n : String} (h : singleLine n) : n.data.head? ≠ some '\n' := by
  intro e
  apply h
  cases hd : n.data with
  | nil => rw [hd] at e; cases e
  | cons c cs =>
    rw [hd] at e
    simp only [List.head?_cons, Option.some.injEq] at e
    rw [e]
    exact List.mem_cons_self _ _

/-- `getsym` on a name without newline. -/
theorem getsym_name (T n : String) (rest : List String) (h : singleLine n) (hT : n ≠ T) :
    getsym T (n :: T :: rest) = some (n, rest) := by
  have := getsym_field T n rest (singleLine_head h)
    (by rw [fieldLines_single h]; intro l hl; rw [List.mem_singleton.1 hl]; exact hT)
  unfold output_sym at this
  rw [fieldLines_single h] at this
  exact this

theorem getsym_empty (T : String) (rest : List String) :
    getsym T (T :: rest) = some ("", rest) := by
  simp [getsym, getsymLoop]

theorem length_le_flatMap {α β : Type} (f : α → List β) (hf : ∀ x, 1 ≤ (f x).length) :
    ∀ l : List α, l.length ≤ (l.flatMap f).length := by
  intro l
  induction l with
  | nil => simp
  | cons x xs ih =>
    simp only [List.flatMap_cons, List.length_cons, List.length_append]
    have := hf x
    omega

theorem getsymlistLoop_members (it lt : String) (rest : List String) :
    ∀ (members target : List String) (fuel : Nat), members.length < fuel →
      (target ++ members).Nodup → (∀ m ∈ members, singleLine m ∧ m ≠ lt) →
      getsymlistLoop it lt fuel target
          (members.flatMap (fun m => output_sym m it) ++ lt :: rest) =
        some (target ++ members, rest) := by
  intro members
  induction members with
  | nil =>
    intro target fuel hfuel _ _
    obtain ⟨k, rfl⟩ : ∃ k, fuel = k + 1 := ⟨fuel - 1, by simp at hfuel; omega⟩
    simp [getsymlistLoop]
  | cons m ms ih =>
    intro target fuel hfuel hnd hm
    obtain ⟨k, rfl⟩ : ∃ k, fuel = k + 1 := ⟨fuel - 1, by simp at hfuel; omega⟩
    obtain ⟨hsl, hne⟩ := hm m (List.mem_cons_self _ _)
    have hnot : m ∉ target := by
      intro hmt
      have := List.nodup_append.1 hnd
      exact this.2.2 hmt (List.mem_cons_self _ _)
    have hnd2 : ((target ++ [m]) ++ ms).Nodup := by
      rw [List.append_assoc]; exact hnd
    have hshape : (m :: ms).flatMap (fun m => output_sym m it) ++ lt :: rest =
        m :: it :: (ms.flatMap (fun m => output_sym m it) ++ lt :: rest) := by
      simp [output_sym, fieldLines_single hsl]
    have hins : setInsert m target = target ++ [m] := by
      unfold setInsert; rw [if_neg hnot]
    rw [hshape, getsymlistLoop]
    simp only [hne, if_false, getsym_empty, String.append_empty]
    rw [hins, ih (target ++ [m]) k (by simp at hfuel; omega) hnd2
      (fun x hx => hm x (List.mem_cons_of_mem _ hx)), List.append_assoc]
    rfl

/-- `getsymlist` reads back a set that was written member by member. -/
theorem getsymlist_members (it lt : String) (rest : List String) (members : List String)
    (hnd : members.Nodup) (hm : ∀ m ∈ members, singleLine m ∧ m ≠ lt) :
    getsymlist it lt [] (members.flatMap (fun m => output_sym m it) ++ lt :: rest) =
      some (members, rest) := by
  unfold getsymlist
  have hlen : members.length <
      (members.flatMap (fun m => output_sym m it) ++ lt :: rest).length + 1 := by
    have := length_le_flatMap (fun m => output_sym m it)
      (fun x => by simp [output_sym]) members
    simp only [List.length_append, List.length_cons]
    omega
  have := getsymlistLoop_members it lt rest members [] _ hlen (by simpa using hnd) hm
  simpa using this

theorem stoi_to_string (st : Symbol_State) : (stoi (to_string st)).bind stateOfInt = some st := by
  cases st <;> rfl

theorem getsymLoop_all (T : String) (rest : List String) :
    ∀ (ls : List String) (acc : String), (∀ l ∈ ls, l ≠ T) →
      getsymLoop T acc (ls ++ T :: rest) =
        some (ls.foldl (fun a l => a ++ (if a = "" then l else "\n" ++ l)) acc, rest) := by
  intro ls
  induction ls with
  | nil =>
    intro acc _
    simp [getsymLoop]
  | cons l ls ih =>
    intro acc hls
    have hl : l ≠ T := hls l (List.mem_cons_self _ _)
    rw [List.cons_append, getsymLoop]
    simp only [hl, if_false]
    rw [ih _ (fun x hx => hls x (List.mem_cons_of_mem _ hx))]
    rfl

theorem tokenize_append_newline (a b : String) :
    tokenize (a ++ ("\n" ++ b)) ['\n'] = tokenize a ['\n'] ++ tokenize b ['\n'] := by
  unfold tokenize
  have hd : (a ++ ("\n" ++ b)).data = a.data ++ '\n' :: b.data := by
    simp [String.data_append]
  rw [hd, splitOnP_append_sep _ '\n' (by simp) b.data a.data, List.filter_append,
    List.map_append]

theorem tokenize_empty : tokenize "" ['\n'] = [] := by
  rfl

theorem tokenize_single {l : String} (h : singleLine l) :
    tokenize l ['\n'] = if l = "" then [] else [l] := by
  unfold tokenize
  have hs : l.data.splitOnP (fun c => decide (c ∈ ['\n'])) = [l.data] := by
    have := splitOn_single h
    unfold List.splitOn at this
    have hp : (fun c : Char => decide (c ∈ ['\n'])) = (fun x => x == '\n') := by
      funext c
      by_cases hc : c = '\n' <;> simp [hc]
    rw [hp]
    exact this
  rw [hs]
  by_cases hl : l = ""
  · subst hl; rfl
  · have hd : l.data ≠ [] := fun e => hl (string_eq_empty_iff.2 e)
    simp [hd, hl]

theorem tokenize_accumulate :
    ∀ (ls : List String) (acc : String), (∀ l ∈ ls, singleLine l) →
      tokenize (ls.foldl (fun a l => a ++ (if a = "" then l else "\n" ++ l)) acc) ['\n'] =
        tokenize acc ['\n'] ++ ls.filter (fun l => decide (l ≠ "")) := by
  intro ls
  induction ls with
  | nil => intro acc _; simp
  | cons l ls ih =>
    intro acc hls
    have hl := hls l (List.mem_cons_self _ _)
    rw [List.foldl_cons, ih _ (fun x hx => hls x (List.mem_cons_of_mem _ hx))]
    by_cases hacc : acc = ""
    · subst hacc
      simp only [if_true, String.empty_append, tokenize_empty, List.nil_append,
        tokenize_single hl, List.filter_cons]
      by_cases hl0 : l = ""
      · simp [hl0]
      · simp [hl0]
    · simp only [hacc, if_false, tokenize_append_newline, tokenize_single hl,
        List.filter_cons, List.append_assoc]
      by_cases hl0 : l = ""
      · simp [hl0]
      · simp [hl0]

theorem fieldLines_ne_nil (v : String) : fieldLines v ≠ [] := by
  unfold fieldLines
  intro h
  exact List.splitOnP_ne_nil _ _ (List.map_eq_nil_iff.1 h)

theorem splitOnP_segments (p : Char → Bool) :
    ∀ (xs : List Char), ∀ seg ∈ List.splitOnP p xs, ∀ c ∈ seg, p c = false := by
  intro xs
  induction xs with
  | nil =>
    intro seg hseg c hc
    rw [List.splitOnP_nil, List.mem_singleton] at hseg
    subst hseg
    cases hc
  | cons x xs ih =>
    intro seg hseg c hc
    rw [List.splitOnP_cons] at hseg
    by_cases hx : p x = true
    · rw [if_pos hx] at hseg
      rcases List.mem_cons.1 hseg with rfl | hseg
      · cases hc
      · exact ih seg hseg c hc
    · rw [if_neg hx] at hseg
      cases hs : List.splitOnP p xs with
      | nil => exact absurd hs (List.splitOnP_ne_nil p xs)
      | cons h t =>
        rw [hs] at hseg ih
        simp only [List.modifyHead_cons, List.mem_cons] at hseg
        rcases hseg with rfl | hseg
        · rcases List.mem_cons.1 hc with rfl | hc
          · simpa using hx
          · exact ih h (List.mem_cons_self _ _) c hc
        · exact ih seg (List.mem_cons_of_mem _ hseg) c hc

/-- The lines of a text contain no newline. -/
theorem fieldLines_singleLine {v l : String} (h : l ∈ fieldLines v) : singleLine l := by
  unfold fieldLines at h
  obtain ⟨seg, hseg, rfl⟩ := List.mem_map.1 h
  unfold singleLine
  intro hmem
  have := splitOnP_segments (fun x => x == '\n') v.data seg hseg '\n' hmem
  simp at this

/-- The lines of a text, joined by newlines, give the text. -/
theorem fieldLines_join {v l1 : String} {ls : List String} (h : fieldLines v = l1 :: ls) :
    ls.foldl (fun a l => a ++ ("\n" ++ l)) l1 = v := by
  have hint := List.intercalate_splitOn v.data '\n'
  unfold fieldLines at h
  cases hs : v.data.splitOn '\n' with
  | nil => exact absurd hs (List.splitOnP_ne_nil _ _)
  | cons seg1 segs =>
    rw [hs] at hint h
    rw [intercalate_cons_eq] at hint
    simp only [List.map_cons, List.cons.injEq] at h
    obtain ⟨h1, h2⟩ := h
    subst h1 h2
    apply String.ext
    rw [foldl_newline_data, ← hint, List.map_map]
    rfl

theorem listStep_more (L0 : List (List String)) (P : List String) :
    ∀ (ls : List String) (acc : String), acc ≠ "" →
      (∀ l ∈ ls, l ≠ "%%%ENDDEPLISTITEM%%%" ∧ l ≠ "%%%ENDDEPLIST%%%") →
      ls.foldl listStep (L0, P, acc) = (L0, P, ls.foldl (fun a l => a ++ ("\n" ++ l)) acc) := by
  intro ls
  induction ls with
  | nil => intro acc _ _; rfl
  | cons l ls ih =>
    intro acc hacc h
    obtain ⟨h1, h2⟩ := h l (List.mem_cons_self _ _)
    rw [List.foldl_cons, List.foldl_cons]
    have hstep : listStep (L0, P, acc) l = (L0, P, acc ++ ("\n" ++ l)) := by
      simp only [listStep, h1, h2, if_false, hacc, String.append_assoc]
    rw [hstep]
    exact ih _ (string_append_ne_empty hacc) (fun x hx => h x (List.mem_cons_of_mem _ hx))

/-- The loop over the tokenized lines of one list item gives the item. -/
theorem listStep_field (L0 : List (List String)) (P : List String) {n : String}
    (hne : n = "" ∨ "" ∉ fieldLines n)
    (hs : ∀ x ∈ fieldLines n, x ≠ "%%%ENDDEPLISTITEM%%%" ∧ x ≠ "%%%ENDDEPLIST%%%") :
    ((fieldLines n).filter (fun x => decide (x ≠ ""))).foldl listStep (L0, P, "") =
      (L0, P, n) := by
  rcases hne with rfl | hne
  · rfl
  · have hf : (fieldLines n).filter (fun x => decide (x ≠ "")) = fieldLines n := by
      apply List.filter_eq_self.2
      intro x hx
      simp only [ne_eq, decide_eq_true_eq]
      intro e
      exact hne (e ▸ hx)
    rw [hf]
    cases hl : fieldLines n with
    | nil => exact absurd hl (fieldLines_ne_nil n)
    | cons l1 ls =>
      rw [hl] at hs hne
      obtain ⟨h1, h2⟩ := hs l1 (List.mem_cons_self _ _)
      have hl1 : l1 ≠ "" := fun e => hne (e ▸ List.mem_cons_self _ _)
      rw [List.foldl_cons]
      have hstep : listStep (L0, P, "") l1 = (L0, P, l1) := by
        simp only [listStep, h1, h2, if_false, if_true]
      rw [hstep, listStep_more L0 P ls l1 hl1 (fun x hx => hs x (List.mem_cons_of_mem _ hx)),
        fieldLines_join hl]

theorem listStep_items :
    ∀ (l : List String) (L0 : List (List String)) (P : List String),
      (∀ n ∈ l, (n = "" ∨ "" ∉ fieldLines n) ∧
        ∀ x ∈ fieldLines n, x ≠ "%%%ENDDEPLISTITEM%%%" ∧ x ≠ "%%%ENDDEPLIST%%%") →
      ((l.flatMap (fun n => fieldLines n ++ ["%%%ENDDEPLISTITEM%%%"])).filter
          (fun x => decide (x ≠ ""))).foldl listStep (L0, P, "") = (L0, P ++ l, "") := by
  intro l
  induction l with
  | nil => intro L0 P _; simp
  | cons n ns ih =>
    intro L0 P h
    obtain ⟨h1, h2⟩ := h n (List.mem_cons_self _ _)
    have ih1 := ih L0 (P ++ [n]) (fun x hx => h x (List.mem_cons_of_mem _ hx))
    have hIL : ("%%%ENDDEPLISTITEM%%%" : String) ≠ "%%%ENDDEPLIST%%%" := by decide
    have hf : (["%%%ENDDEPLISTITEM%%%"] : List String).filter (fun x => decide (x ≠ "")) =
        ["%%%ENDDEPLISTITEM%%%"] := by decide
    rw [List.flatMap_cons, List.filter_append, List.filter_append, List.foldl_append,
      List.foldl_append, listStep_field L0 P h1 h2, hf]
    simp only [List.foldl_cons, List.foldl_nil, listStep, hIL, if_false, if_true]
    rw [ih1, List.append_assoc]
    rfl

theorem listStep_lists :
    ∀ (lists L0 : List (List String)),
      (∀ l ∈ lists, ∀ n ∈ l, (n = "" ∨ "" ∉ fieldLines n) ∧
        ∀ x ∈ fieldLines n, x ≠ "%%%ENDDEPLISTITEM%%%" ∧ x ≠ "%%%ENDDEPLIST%%%") →
      ((lists.flatMap (fun l =>
          l.flatMap (fun n => fieldLines n ++ ["%%%ENDDEPLISTITEM%%%"]) ++
            ["%%%ENDDEPLIST%%%"])).filter
          (fun x => decide (x ≠ ""))).foldl listStep (L0, [], "") = (L0 ++ lists, [], "") := by
  intro lists
  induction lists with
  | nil => intro L0 _; simp
  | cons l ls ih =>
    intro L0 h
    have hl := h l (List.mem_cons_self _ _)
    have hf : (["%%%ENDDEPLIST%%%"] : List String).filter (fun x => decide (x ≠ "")) =
        ["%%%ENDDEPLIST%%%"] := by decide
    rw [List.flatMap_cons, List.filter_append, List.filter_append, List.foldl_append,
      List.foldl_append, listStep_items l L0 [] hl, hf]
    simp only [List.foldl_cons, List.foldl_nil, listStep, if_true, List.nil_append]
    rw [ih (L0 ++ [l]) (fun x hx => h x (List.mem_cons_of_mem _ hx)), List.append_assoc]
    rfl

theorem singleLine_of_no_newline (s : String) (h : decide ('\n' ∈ s.data) = false) :
    singleLine s := by
  unfold singleLine
  simpa using h

/-- The lines written for the ordered lists are read back by the `getsym`, `tokenize` and loop
of `operator>>`, when no line of an item is a sentinel of the lists and no item other than the
empty one has an empty line. -/
theorem read_lists (lists : List (List String)) (rest : List String)
    (h : ∀ l ∈ lists, ∀ n ∈ l, (n = "" ∨ "" ∉ fieldLines n) ∧
      ∀ x ∈ fieldLines n, x ≠ "%%%ENDDEPLISTITEM%%%" ∧ x ≠ "%%%ENDDEPLIST%%%" ∧
        x ≠ "%%%ENDDEPLISTLIST%%%") :
    ∃ temp, getsym "%%%ENDDEPLISTLIST%%%"
        (lists.flatMap (fun deplist =>
          deplist.flatMap (fun depname => output_sym depname "%%%ENDDEPLISTITEM%%%") ++
            ["%%%ENDDEPLIST%%%"]) ++ "%%%ENDDEPLISTLIST%%%" :: rest) = some (temp, rest) ∧
      ((tokenize temp ['\n']).foldl listStep ([], [], "")).1 = lists := by
  have hmem : ∀ x ∈ lists.flatMap (fun deplist =>
      deplist.flatMap (fun depname => output_sym depname "%%%ENDDEPLISTITEM%%%") ++
        ["%%%ENDDEPLIST%%%"]),
      singleLine x ∧ x ≠ "%%%ENDDEPLISTLIST%%%" := by
    intro x hx
    obtain ⟨l, hl, hx⟩ := List.mem_flatMap.1 hx
    rcases List.mem_append.1 hx with hx | hx
    · obtain ⟨n, hn, hx⟩ := List.mem_flatMap.1 hx
      unfold output_sym at hx
      rcases List.mem_append.1 hx with hx | hx
      · exact ⟨fieldLines_singleLine hx, ((h l hl n hn).2 x hx).2.2⟩
      · rw [List.mem_singleton.1 hx]
        exact ⟨singleLine_of_no_newline _ (by decide), by decide⟩
    · rw [List.mem_singleton.1 hx]
      exact ⟨singleLine_of_no_newline _ (by decide), by decide⟩
  refine ⟨_, getsymLoop_all _ rest _ "" (fun x hx => (hmem x hx).2), ?_⟩
  rw [tokenize_accumulate _ "" (fun x hx => (hmem x hx).1), tokenize_empty, List.nil_append]
  have := listStep_lists lists []
    (fun l hl n hn => ⟨(h l hl n hn).1,
      fun x hx => ⟨((h l hl n hn).2 x hx).1, ((h l hl n hn).2 x hx).2.1⟩⟩)
  unfold output_sym
  rw [this]
  rfl

theorem getsym_single (T n : String) (rest : List String) (h : singleLine n) (hT : n ≠ T) :
    getsym T (output_sym n T ++ rest) = some (n, rest) :=
  getsym_field T n rest (singleLine_head h)
    (by rw [fieldLines_single h]; intro l hl; rw [List.mem_singleton.1 hl]; exact hT)

theorem to_string_single (st : Symbol_State) :
    singleLine (to_string st) ∧ to_string st ≠ "%%%ENDSYMSTATE%%%" := by
  cases st <;> exact ⟨singleLine_of_no_newline _ (by decide), by decide⟩

/-- `operator>>` for `Symbol` reads back what `operator<<` wrote for a serializable record,
the callback apart. -/
theorem readSymbol_writeSymbol (s : Symbol) (rest : List String) (h : SerializableSymbol s) :
    readSymbol (writeSymbol s ++ rest) = some (noCallback s, rest) := by
  obtain ⟨⟨hn1, hn2, -⟩, ⟨hv1, hv2⟩, ⟨he1, he2⟩, ⟨hr1, hr2⟩, hl, ⟨hd1, hd2⟩⟩ := h
  obtain ⟨temp, htemp, hlists⟩ := read_lists s.dependency_list_list
    (s.reverse_dependency_list_set.flatMap (fun revdep => output_sym revdep "%%%ENDREVDEP%%%") ++
      "%%%ENDREVDEPLIST%%%" :: "%%%ENDSYMBOL%%%" :: rest) hl
  unfold writeSymbol readSymbol
  simp only [List.append_assoc, List.singleton_append, List.cons_append, List.nil_append]
  rw [getsym_field _ _ _ hn1 hn2]
  simp only
  rw [getsym_field _ _ _ hv1 hv2]
  simp only
  rw [getsym_single _ _ _ (to_string_single s.state).1 (to_string_single s.state).2]
  simp only [stoi_to_string]
  rw [getsymlist_members _ _ _ _ he1 he2]
  simp only
  rw [getsymlist_members _ _ _ _ hr1 hr2]
  simp only
  rw [htemp]
  simp only [hlists]
  rw [getsymlist_members _ _ _ _ hd1 hd2]
  simp only [List.drop_succ_cons, List.drop_zero]
  rfl

/-- The first line written for a record is the first line of its name. -/
theorem writeSymbol_head (s : Symbol) :
    ∃ l1 tail, (fieldLines s.name).head? = some l1 ∧ writeSymbol s = l1 :: tail := by
  cases hl : fieldLines s.name with
  | nil => exact absurd hl (fieldLines_ne_nil _)
  | cons l1 ls =>
    have htail : ∃ tail, writeSymbol s = l1 :: tail := by
      unfold writeSymbol output_sym
      rw [hl]
      simp only [List.append_assoc, List.singleton_append, List.cons_append, List.nil_append]
      exact ⟨_, rfl⟩
    obtain ⟨tail, htail⟩ := htail
    exact ⟨l1, tail, rfl, htail⟩

theorem readSymbols_written (rest : List String) :
    ∀ (syms done : List Symbol) (fuel : Nat), syms.length < fuel →
      ((done ++ syms).map Symbol.name).Nodup → (∀ s ∈ syms, SerializableSymbol s) →
      readSymbols fuel (done.map noCallback)
          (syms.flatMap writeSymbol ++ "%%%ENDSYMBOLS%%%" :: rest) =
        some ((done ++ syms).map noCallback, "%%%ENDSYMBOLS%%%" :: rest) := by
  intro syms
  induction syms with
  | nil =>
    intro done fuel hfuel _ _
    obtain ⟨k, rfl⟩ : ∃ k, fuel = k + 1 := ⟨fuel - 1, by simp at hfuel; omega⟩
    simp [readSymbols, peekline]
  | cons s ss ih =>
    intro done fuel hfuel hnd hser
    obtain ⟨k, rfl⟩ : ∃ k, fuel = k + 1 := ⟨fuel - 1, by simp at hfuel; omega⟩
    have hs := hser s (List.mem_cons_self _ _)
    obtain ⟨l1, tail, hl1, htail⟩ := writeSymbol_head s
    have hpeek : peekline ((s :: ss).flatMap writeSymbol ++ "%%%ENDSYMBOLS%%%" :: rest) =
        l1 := by
      rw [List.flatMap_cons, htail]
      rfl
    have hl1ne : l1 ≠ "%%%ENDSYMBOLS%%%" := by
      intro e
      apply hs.1.2.2
      rw [hl1, e]
    have hnot : countSym (done.map noCallback) (noCallback s).name = false := by
      cases hc : countSym (done.map noCallback) (noCallback s).name with
      | false => rfl
      | true =>
        exfalso
        have hm := mem_names_of_count hc
        rw [List.map_map] at hm
        have hm2 : s.name ∈ done.map Symbol.name := hm
        rw [List.map_append] at hnd
        exact (List.nodup_append.1 hnd).2.2 hm2 (by simp)
    have hins : insertSym (done.map noCallback) (noCallback s) =
        (done ++ [s]).map noCallback := by
      unfold insertSym
      rw [hnot]
      simp
    rw [readSymbols, hpeek]
    simp only [hl1ne, if_false]
    rw [List.flatMap_cons, List.append_assoc, readSymbol_writeSymbol s _ hs]
    simp only
    rw [hins, ih (done ++ [s]) k (by simp at hfuel; omega) (by simpa using hnd)
      (fun x hx => hser x (List.mem_cons_of_mem _ hx))]
    simp

theorem getmore_now (T name : String) (rest : List String) :
    getmore T name (T :: rest) = some (name, rest) := by
  simp [getmore]

theorem getmore_lines (T : String) (rest : List String) :
    ∀ (ls : List String) (name : String), (∀ l ∈ ls, l ≠ T) →
      getmore T name (ls ++ T :: rest) =
        some (ls.foldl (fun a l => a ++ ("\n" ++ l)) name, rest) := by
  intro ls
  induction ls with
  | nil => intro name _; exact getmore_now T name rest
  | cons l ls ih =>
    intro name h
    have hl : l ≠ T := h l (List.mem_cons_self _ _)
    rw [List.cons_append, getmore]
    simp only [hl, if_false]
    rw [ih _ (fun x hx => h x (List.mem_cons_of_mem _ hx)), List.foldl_cons,
      String.append_assoc]

/-- The inner loops of the second loop of `operator>>` read back a name from its lines, the
first of which is already read. -/
theorem getmore_field (T v l1 : String) (ls rest : List String)
    (hl : fieldLines v = l1 :: ls) (h : ∀ l ∈ ls, l ≠ T) :
    getmore T l1 (ls ++ T :: rest) = some (v, rest) := by
  rw [getmore_lines T rest ls l1 h, fieldLines_join hl]

theorem readShadowers_written (rest : List String) :
    ∀ (sh done : List (String × String)) (fuel : Nat), sh.length < fuel →
      (∀ p ∈ sh, (fieldLines p.1).head? ≠ some "%%%ENDSHADOWERS%%%" ∧
        (∀ l ∈ (fieldLines p.1).tail, l ≠ "%%%ENDSHADOWER%%%") ∧
        ∀ l ∈ (fieldLines p.2).tail, l ≠ "%%%ENDSHADOWEE%%%") →
      readShadowers fuel done
          (sh.flatMap (fun shadow_pair =>
            fieldLines shadow_pair.1 ++ ["%%%ENDSHADOWER%%%"] ++
              fieldLines shadow_pair.2 ++ ["%%%ENDSHADOWEE%%%"]) ++
            "%%%ENDSHADOWERS%%%" :: rest) =
        some (done ++ sh, rest) := by
  intro sh
  induction sh with
  | nil =>
    intro done fuel hfuel _
    obtain ⟨k, rfl⟩ : ∃ k, fuel = k + 1 := ⟨fuel - 1, by simp at hfuel; omega⟩
    simp [readShadowers]
  | cons p ps ih =>
    intro done fuel hfuel h
    obtain ⟨k, rfl⟩ : ∃ k, fuel = k + 1 := ⟨fuel - 1, by simp at hfuel; omega⟩
    obtain ⟨h1, h2, h3⟩ := h p (List.mem_cons_self _ _)
    cases hk : fieldLines p.1 with
    | nil => exact absurd hk (fieldLines_ne_nil _)
    | cons k1 ks =>
      cases ho : fieldLines p.2 with
      | nil => exact absurd ho (fieldLines_ne_nil _)
      | cons o1 os =>
        rw [hk] at h1 h2
        rw [ho] at h3
        have hk1 : k1 ≠ "%%%ENDSHADOWERS%%%" := fun e => h1 (by rw [e]; rfl)
        have hshape : (p :: ps).flatMap (fun shadow_pair =>
              fieldLines shadow_pair.1 ++ ["%%%ENDSHADOWER%%%"] ++
                fieldLines shadow_pair.2 ++ ["%%%ENDSHADOWEE%%%"]) ++
              "%%%ENDSHADOWERS%%%" :: rest =
            k1 :: (ks ++ "%%%ENDSHADOWER%%%" :: o1 :: (os ++ "%%%ENDSHADOWEE%%%" ::
              (ps.flatMap (fun shadow_pair =>
                fieldLines shadow_pair.1 ++ ["%%%ENDSHADOWER%%%"] ++
                  fieldLines shadow_pair.2 ++ ["%%%ENDSHADOWEE%%%"]) ++
                "%%%ENDSHADOWERS%%%" :: rest))) := by
          rw [List.flatMap_cons, hk, ho]
          simp
        rw [hshape, readShadowers]
        simp only [hk1, if_false]
        rw [getmore_field _ p.1 k1 ks _ hk h2]
        simp only
        rw [getmore_field _ p.2 o1 os _ ho h3]
        simp only
        rw [ih (done ++ [(p.1, p.2)]) k (by simp at hfuel; omega)
          (fun x hx => h x (List.mem_cons_of_mem _ hx))]
        simp

/-- C13, counterexample: the system `sentinelExample`, reached by two public operations, has the
shadower entry `("%%%ENDSHADOWERS%%%", "b")`; reading back what `operator<<` wrote for it
yields a system without any shadower entry.  What does not come back as written either: a
value that begins with a newline (`"\nfoo"` comes back as `"foo"`), a member of an edge set
with a newline (`"a\nb"` comes back as `"ab"`), and an item of an ordered list with an empty
line (`"a\n\nb"` comes back as `"a\nb"`). -/
theorem C13_counterexample :
    run 1 DepSystem.empty
      [Op.add_set_symbol "b" "", Op.add_dependency_list ["%%%ENDSHADOWERS%%%"] "b"]
      = some sentinelExample ∧
    sentinelExample.shadowers = [("%%%ENDSHADOWERS%%%", "b")] ∧
    (∃ D1, readDepSystem DepSystem.empty (writeDepSystem sentinelExample) = some D1 ∧
      D1.shadowers = []) ∧
    readDepSystem DepSystem.empty
      (writeDepSystem { symbols := [{ name := "a", value := "\nfoo", state := VALID }],
                        shadowers := [] }) =
      some { symbols := [{ name := "a", value := "foo", state := VALID }], shadowers := [] } ∧
    readDepSystem DepSystem.empty
      (writeDepSystem { symbols := [{ name := "a", value := "", state := VALID,
                                      dependency_edges := ["a\nb"] }],
                        shadowers := [] }) =
      some { symbols := [{ name := "a", value := "", state := VALID,
                           dependency_edges := ["ab"] }], shadowers := [] } ∧
    readDepSystem DepSystem.empty
      (writeDepSystem { symbols := [{ name := "a", value := "", state := VALID,
                                      dependency_list_list := [["a\n\nb"]] }],
                        shadowers := [] }) =
      some { symbols := [{ name := "a", value := "", state := VALID,
                           dependency_list_list := [["a\nb"]] }], shadowers := [] } := by
  refine ⟨rfl, rfl, ⟨_, rfl, rfl⟩, rfl, rfl, rfl⟩

/-- C13, amended: for every `DepSystem` whose symbol names are distinct, whose sets have no
duplicates and whose texts avoid what the reader cannot give back, reading the output of
`operator<<` with `operator>>` into an empty `DepSystem` returns the same symbols, with the
same name, value, state, edge sets, ordered lists and reverse sets, and the same shadowers;
callbacks are empty.  Names and values may be empty and may have several lines.  The
conditions: a symbol name or value does not begin with a newline and has no line equal to its
sentinel (and the first line of a name is not `%%%ENDSYMBOLS%%%`); a member of a set has no
newline and is not the sentinel that ends the set; an item of an ordered list has no line equal
to a sentinel of the lists and, unless it is empty, no empty line; the first line of a shadower
key is not `%%%ENDSHADOWERS%%%`, and no later line of a key or of an owner is its
sentinel. -/
theorem C13_round_trip_amended (D : DepSystem) (h : Serializable D) :
    readDepSystem DepSystem.empty (writeDepSystem D) =
      some { symbols := D.symbols.map noCallback, shadowers := D.shadowers } := by
  obtain ⟨hnd, hsyms, hsh⟩ := h
  have happ : ∀ (A B : List String) (x y : String),
      A ++ [x] ++ B ++ [y] = A ++ x :: (B ++ y :: []) := by
    intro A B x y; simp
  have hshape : writeDepSystem D =
      D.symbols.flatMap writeSymbol ++ "%%%ENDSYMBOLS%%%" ::
        (D.shadowers.flatMap (fun shadow_pair =>
          fieldLines shadow_pair.1 ++ ["%%%ENDSHADOWER%%%"] ++
            fieldLines shadow_pair.2 ++ ["%%%ENDSHADOWEE%%%"]) ++
          "%%%ENDSHADOWERS%%%" :: []) := by
    unfold writeDepSystem
    exact happ _ _ _ _
  have hlen1 : D.symbols.length ≤ (D.symbols.flatMap writeSymbol).length :=
    length_le_flatMap writeSymbol (fun x => by
      unfold writeSymbol
      rw [List.length_append]
      exact Nat.le_add_left _ _) D.symbols
  have hlen2 : D.shadowers.length ≤ (D.shadowers.flatMap (fun shadow_pair =>
      fieldLines shadow_pair.1 ++ ["%%%ENDSHADOWER%%%"] ++
        fieldLines shadow_pair.2 ++ ["%%%ENDSHADOWEE%%%"])).length :=
    length_le_flatMap _ (fun x => by
      rw [List.length_append]
      exact Nat.le_add_left _ _) D.shadowers
  rw [hshape]
  generalize hsec : D.shadowers.flatMap (fun shadow_pair =>
      fieldLines shadow_pair.1 ++ ["%%%ENDSHADOWER%%%"] ++
        fieldLines shadow_pair.2 ++ ["%%%ENDSHADOWEE%%%"]) = sec at hlen2
  have h2 : ∀ fuel, D.shadowers.length < fuel →
      readShadowers fuel [] (sec ++ "%%%ENDSHADOWERS%%%" :: []) = some (D.shadowers, []) := by
    intro fuel hfuel
    have := readShadowers_written [] D.shadowers [] fuel hfuel hsh
    rw [hsec] at this
    simpa using this
  have h1 := readSymbols_written (sec ++ "%%%ENDSHADOWERS%%%" :: []) D.symbols []
    ((D.symbols.flatMap writeSymbol ++ "%%%ENDSYMBOLS%%%" ::
      (sec ++ "%%%ENDSHADOWERS%%%" :: [])).length + 1)
    (by simp only [List.length_append, List.length_cons]; omega)
    (by simpa using hnd) hsyms
  simp only [List.map_nil, List.nil_append] at h1
  unfold readDepSystem
  have hempty : DepSystem.empty.symbols = [] := rfl
  have hempty2 : DepSystem.empty.shadowers = [] := rfl
  rw [hempty, hempty2, h1]
  simp only [List.drop_succ_cons, List.drop_zero]
  rw [h2 _ (by simp only [List.length_append, List.length_cons]; omega)]

theorem serialExample_serializable : Serializable serialExample := by
  refine ⟨by decide, ?_, ?_⟩
  · intro s hs
    simp only [serialExample, List.mem_cons, List.mem_singleton, List.not_mem_nil, or_false]
      at hs
    rcases hs with rfl | rfl | rfl
    · unfold SerializableSymbol singleLine
      decide
    · unfold SerializableSymbol singleLine
      decide
    · unfold SerializableSymbol singleLine
      decide
  · intro p hp
    simp only [serialExample, List.mem_cons, List.mem_singleton, List.not_mem_nil, or_false]
      at hp
    rcases hp with rfl | rfl | rfl
    · decide
    · decide
    · decide

/-- C13, witness of the amended statement on `serialExample`, which has a symbol name, a list
item, a shadower key and a shadower owner of two lines. -/
theorem C13_round_trip_amended_witness :
    Serializable serialExample ∧
    readDepSystem DepSystem.empty (writeDepSystem serialExample) =
      some { symbols := serialExample.symbols.map noCallback,
             shadowers := serialExample.shadowers } :=
  ⟨serialExample_serializable, C13_round_trip_amended serialExample serialExample_serializable⟩

theorem selectLoop_eq {D : DepSystem} (selector : String → String → Symbol_State → Bool) :
    ∀ (l : List String), (∀ x ∈ l, countSym D.symbols x = true) →
      selectLoop D selector l = some (l.filter (selectedBy D selector)) := by
  intro l
  induction l with
  | nil => intro _; rfl
  | cons x xs ih =>
    intro h
    obtain ⟨sx, hsx⟩ := countSym_eq_true.1 (h x (List.mem_cons_self _ _))
    unfold selectLoop
    rw [hsx, ih (fun y hy => h y (List.mem_cons_of_mem _ hy))]
    simp only [List.filter_cons, selectedBy, hsx]
    cases selector sx.name sx.value sx.state <;> simp

theorem findSym_of_mem_nodup :
    ∀ (L : List Symbol), (L.map Symbol.name).Nodup → ∀ x ∈ L, findSym L x.name = some x := by
  intro L
  induction L with
  | nil => intro _ x hx; cases hx
  | cons t rest ih =>
    intro hnd x hx
    rw [List.map_cons, List.nodup_cons] at hnd
    unfold findSym
    rcases List.mem_cons.1 hx with rfl | hx
    · simp
    · have hne : ¬ t.name = x.name := by
        intro e
        exact hnd.1 (e ▸ List.mem_map.2 ⟨x, hx, rfl⟩)
      simp only [hne, if_false]
      exact ih hnd.2 x hx

/-- The first loop of `get_symbols` under the graph invariants. -/
theorem get_symbols_loop {D : DepSystem} (hN : (D.symbols.map Symbol.name).Nodup)
    (hE : EdgeSymmetric D) (hA : Acyclic D) {fuel : Nat} (hfuel : D.symbols.length ≤ fuel) :
    ∃ st, foldOpt (fun (st : List String × List String) (x : Symbol) =>
        match get_dependencies_recursive D fuel x st.2 with
        | none => none
        | some to_add => some (st.1 ++ to_add, setInsertAll st.2 to_add))
        (([] : List String), ([] : List String)) D.symbols = some st ∧
      st.1.Nodup ∧ (∀ n ∈ st.1, countSym D.symbols n = true) ∧
      (∀ q ∈ st.1, ∀ p, Dep D q p → List.Sublist [p, q] st.1) ∧
      ∀ x ∈ D.symbols, x.name ∈ st.1 := by
  have key := foldOpt_prefix
    (fun (st : List String × List String) (x : Symbol) =>
        match get_dependencies_recursive D fuel x st.2 with
        | none => none
        | some to_add => some (st.1 ++ to_add, setInsertAll st.2 to_add))
    (fun (done : List Symbol) (st : List String × List String) =>
      (∀ n, n ∈ st.2 ↔ n ∈ st.1) ∧ st.1.Nodup ∧ (∀ n ∈ st.1, countSym D.symbols n = true) ∧
      (∀ q ∈ st.1, ∀ p, Dep D q p → List.Sublist [p, q] st.1) ∧
      ∀ x ∈ done, x.name ∈ st.1)
    D.symbols [] ([], [])
    ⟨fun n => Iff.rfl, List.nodup_nil, fun n hn => (by cases hn), fun q hq => (by cases hq),
      fun x hx => (by cases hx)⟩
    (by
      intro d st x hx ⟨hC, hnd, hex, htopo, hdone⟩
      have hfx := findSym_of_mem_nodup D.symbols hN x hx
      have hcx : countSym D.symbols x.name = true := countSym_eq_true.2 ⟨x, hfx⟩
      obtain ⟨R, hR, hin, hout⟩ := get_dependencies_recursive_spec hE hA fuel x.name
        (bounded_dep hE hA hcx hfuel) x st.2 hfx
      refine ⟨(st.1 ++ R, setInsertAll st.2 R), by simp only [hR], ?_⟩
      by_cases hxc : x.name ∈ st.2
      · rw [hin hxc]
        refine ⟨?_, by simpa using hnd, by simpa using hex, by simpa using htopo, ?_⟩
        · intro n; simp [setInsertAll, hC n]
        · intro y hy
          rcases List.mem_append.1 hy with hy | hy
          · simpa using hdone y hy
          · rw [List.mem_singleton.1 hy]
            simpa using (hC _).1 hxc
      · obtain ⟨hRnd, hRC, ⟨R0, hR0, -⟩, hRex, hRtopo⟩ := hout hxc
        refine ⟨?_, ?_, ?_, ?_, ?_⟩
        · intro n
          show n ∈ setInsertAll st.2 R ↔ n ∈ st.1 ++ R
          rw [mem_setInsertAll, List.mem_append, hC n]
        · show (st.1 ++ R).Nodup
          rw [List.nodup_append]
          refine ⟨hnd, hRnd, ?_⟩
          intro a ha hb
          exact hRC a hb ((hC a).2 ha)
        · intro n hn
          rcases List.mem_append.1 hn with hn | hn
          · exact hex n hn
          · exact hRex n hn
        · intro q hq p hd
          rcases List.mem_append.1 hq with hq | hq
          · exact (htopo q hq p hd).trans (List.sublist_append_left _ _)
          · rcases hRtopo q hq p hd with hp | hp
            · exact pair_sublist_append ((hC p).1 hp) hq
            · exact hp.trans (List.sublist_append_right _ _)
        · intro y hy
          show y.name ∈ st.1 ++ R
          rcases List.mem_append.1 hy with hy | hy
          · exact List.mem_append_left _ (hdone y hy)
          · rw [List.mem_singleton.1 hy, hR0]
            simp)
  obtain ⟨st, hst, -, h2, h3, h4, h5⟩ := key
  exact ⟨st, hst, h2, h3, h4, by simpa using h5⟩

/-- C21: under the graph invariants (the stored symbols having distinct names), `get_symbols`
with the default selector returns a list that holds every existing symbol exactly once and in
which every symbol stands after each of its direct dependencies (the members of its
`dependency_edges` and the first existing element of each of its ordered lists); with any
selector it returns the sub-list of that ordering whose records satisfy the selector. -/
theorem C21_get_symbols_order (D : DepSystem) (fuel : Nat)
    (hN : (D.symbols.map Symbol.name).Nodup) (hE : EdgeSymmetric D) (hA : Acyclic D)
    (hfuel : D.symbols.length ≤ fuel) :
    ∃ order, get_symbols fuel D selectAll = Outcome.ok order ∧ order.Nodup ∧
      (∀ n, n ∈ order ↔ has_symbol D n = true) ∧
      (∀ p q, q ∈ order → Dep D q p → Before order p q) ∧
      ∀ selector, get_symbols fuel D selector =
        Outcome.ok (order.filter (selectedBy D selector)) := by
  obtain ⟨st, hst, hnd, hex, htopo, hall⟩ := get_symbols_loop hN hE hA hfuel
  refine ⟨st.1, ?_, hnd, ?_, ?_, ?_⟩
  · unfold get_symbols
    rw [hst]
    simp only [selectLoop_selectAll st.1 hex]
  · intro n
    constructor
    · exact hex n
    · intro hn
      obtain ⟨s, hs⟩ := countSym_eq_true.1 hn
      have := hall s (findSym_mem hs)
      rwa [findSym_name hs] at this
  · intro p q hq hd
    exact before_of_sublist _ (htopo q hq p hd)
  · intro selector
    unfold get_symbols
    rw [hst]
    simp only [selectLoop_eq selector st.1 hex]

/-- C21, witness: the symbols of `diamondExample`. -/
theorem C21_get_symbols_order_witness :
    ((diamondExample.symbols.map Symbol.name).Nodup ∧ EdgeSymmetric diamondExample ∧
      Acyclic diamondExample ∧ diamondExample.symbols.length ≤ 3) ∧
    ∃ order, get_symbols 3 diamondExample selectAll = Outcome.ok order ∧ order.Nodup ∧
      (∀ n, n ∈ order ↔ has_symbol diamondExample n = true) ∧
      (∀ p q, q ∈ order → Dep diamondExample q p → Before order p q) ∧
      ∀ selector, get_symbols 3 diamondExample selector =
        Outcome.ok (order.filter (selectedBy diamondExample selector)) :=
  ⟨⟨by decide, diamondExample_edges, diamondExample_acyclic, by decide⟩,
    C21_get_symbols_order diamondExample 3 (by decide) diamondExample_edges
      diamondExample_acyclic (by decide)⟩

theorem scanLoop_scanTo (pre : List Char) : ∀ (suffix : List Char) mode prev st,
    scanLoop (pre ++ suffix) mode prev st =
      match scanTo pre suffix mode prev st with
      | Except.error e => Except.error e
      | Except.ok (mode1, prev1, st1) => scanLoop suffix mode1 prev1 st1 := by
  induction pre with
  | nil => intro suffix mode prev st; simp [scanTo]
  | cons c pre ih =>
    intro suffix mode prev st
    simp only [List.cons_append, scanLoop, scanTo]
    cases h : scanStep c (pre ++ suffix).head? prev mode st with
    | error e => rfl
    | ok r => obtain ⟨mode1, st1⟩ := r; exact ih suffix mode1 (some c) st1

theorem scan_line_of_scanTo {pre suffix : List Char} {tokens sentinels : List String}
    {mode prev st}
    (h : scanTo pre suffix ScanMode.body none { tokens := tokens, sentinels := sentinels } =
      Except.ok (mode, prev, st)) :
    scan_line tokens sentinels (String.mk (pre ++ suffix)) =
      (scanLoop suffix mode prev st).map finishLine := by
  unfold scan_line
  rw [scanLoop_scanTo, h]

theorem scanTo_append (p1 : List Char) : ∀ (p2 suffix : List Char) mode prev st,
    scanTo (p1 ++ p2) suffix mode prev st =
      match scanTo p1 (p2 ++ suffix) mode prev st with
      | Except.error e => Except.error e
      | Except.ok (mode1, prev1, st1) => scanTo p2 suffix mode1 prev1 st1 := by
  induction p1 with
  | nil => intro p2 suffix mode prev st; simp [scanTo]
  | cons c p1 ih =>
    intro p2 suffix mode prev st
    show scanTo (c :: (p1 ++ p2)) suffix mode prev st = _
    simp only [scanTo]
    rw [List.append_assoc]
    cases h : scanStep c (p1 ++ (p2 ++ suffix)).head? prev mode st with
    | error e => rfl
    | ok r => obtain ⟨mode1, st1⟩ := r; exact ih p2 suffix mode1 (some c) st1

theorem scanTo_prev (pre : List Char) : ∀ (suffix : List Char) mode prev st mode1 prev1 st1,
    scanTo pre suffix mode prev st = Except.ok (mode1, prev1, st1) →
    prev1 = (pre.getLast?).or prev := by
  induction pre with
  | nil =>
    intro suffix mode prev st mode1 prev1 st1 h
    simp only [scanTo, Except.ok.injEq, Prod.mk.injEq] at h
    simp [h.2.1]
  | cons c pre ih =>
    intro suffix mode prev st mode1 prev1 st1 h
    simp only [scanTo] at h
    cases hs : scanStep c (pre ++ suffix).head? prev mode st with
    | error e => rw [hs] at h; cases h
    | ok r =>
      obtain ⟨m2, st2⟩ := r
      rw [hs] at h
      have := ih suffix m2 (some c) st2 mode1 prev1 st1 h
      rw [this]
      cases pre with
      | nil => simp
      | cons d pre =>
        cases hl : (d :: pre).getLast? with
        | none => simp at hl
        | some x => simp [hl]

/-- An unescaped backslash outside a sentinel mark sets the escape flag. -/
theorem scanStep_backslash {mode : ScanMode} (hm : mode.outside = true) (next prev st) :
    scanStep '\\' next prev mode st =
      Except.ok (ScanMode.body, { st with backslash_escape := !st.backslash_escape }) := by
  cases mode with
  | body => simp [scanStep, isBlank]
  | blanks => simp [scanStep, isBlank]
  | second => simp [ScanMode.outside] at hm
  | mark m => simp [ScanMode.outside] at hm

theorem scanStep_escaped_blank {c : Char} (hc : isBlank c = true) (next prev)
    (st : ScanState) (he : st.backslash_escape = true) :
    scanStep c next prev ScanMode.body st = Except.error ScanError.InvalidEscape := by
  have h1 : c ≠ '<' := by rintro rfl; simp [isBlank] at hc
  have h2 : c ≠ '\\' := by rintro rfl; simp [isBlank] at hc
  have h3 : c ≠ '"' := by rintro rfl; simp [isBlank] at hc
  simp [scanStep, h1, h2, h3, hc, he]

theorem get_command_threw {l : String} {e : ScanError} (h : scan_line [] [] l = Except.error e)
    (ls : List String) : get_command { lines := l :: ls } = Result.threw e := by
  simp [get_command, getline, IStream.good, h]

/-- C23: the line `a\` ends with an unescaped backslash, a backslash that escapes nothing,
and the scan does not fail with InvalidEscape: `scan_line` returns the single token `a` and
`get_command` returns the line as a command; the flag the backslash sets is tested only when a
next character is looked at, as on the lines `a\ b` and `a\b`, which fail with
InvalidEscape. -/
theorem C23_trailing_backslash_accepted :
    scan_line [] [] "a\\" = Except.ok (["a"], []) ∧
    scan_line [] [] "a\\" ≠ Except.error ScanError.InvalidEscape ∧
    get_command { lines := ["a\\"] } = Result.ok ("a\\\n", { lines := [] }) ∧
    scan_line [] [] "a\\ b" = Except.error ScanError.InvalidEscape ∧
    scan_line [] [] "a\\b" = Except.error ScanError.InvalidEscape := by
  refine ⟨rfl, ?_, rfl, rfl, rfl⟩
  rw [show scan_line [] [] "a\\" = Except.ok (["a"], []) from rfl]
  intro h
  cases h

/-- When the scan of a line reaches an unescaped backslash outside a sentinel mark, and the
next character is a space or a tab, `scan_line` fails with InvalidEscape (and so does
`get_command` on a stream that begins with this line); when the backslash is the last
character of the line, the scan succeeds with the tokens collected before the backslash. -/
theorem backslash_before_blank (tokens sentinels : List String) (pre suffix : List Char)
    (mode : ScanMode) (prev : Option Char) (st : ScanState)
    (hreach : scanTo pre ('\\' :: suffix) ScanMode.body none
      { tokens := tokens, sentinels := sentinels } = Except.ok (mode, prev, st))
    (hmode : mode.outside = true) (hesc : st.backslash_escape = false) :
    (∀ c rest, suffix = c :: rest → isBlank c = true →
      scan_line tokens sentinels (String.mk (pre ++ '\\' :: suffix)) =
        Except.error ScanError.InvalidEscape ∧
      (tokens = [] → sentinels = [] → ∀ more,
        get_command { lines := String.mk (pre ++ '\\' :: suffix) :: more } =
          Result.threw ScanError.InvalidEscape)) ∧
    (suffix = [] →
      scan_line tokens sentinels (String.mk (pre ++ ['\\'])) = Except.ok (finishLine st)) := by
  have hline := scan_line_of_scanTo hreach
  constructor
  · intro c rest hs hc
    have h1 : scan_line tokens sentinels (String.mk (pre ++ '\\' :: suffix)) =
        Except.error ScanError.InvalidEscape := by
      rw [hline, hs]
      simp only [scanLoop, scanStep_backslash hmode]
      rw [scanStep_escaped_blank hc _ _ _ (by simp [hesc])]
      rfl
    refine ⟨h1, ?_⟩
    intro ht hsn more
    subst ht hsn
    exact get_command_threw h1 more
  · intro hs
    subst hs
    rw [hline]
    simp only [scanLoop, scanStep_backslash hmode]
    simp [Except.map, finishLine]

/-- The lines `a\ b` and `a\`. -/
theorem backslash_before_blank_witness :
    scan_line [] [] "a\\ b" = Except.error ScanError.InvalidEscape ∧
    get_command { lines := ["a\\ b", "c"] } = Result.threw ScanError.InvalidEscape ∧
    scan_line [] [] "a\\" = Except.ok (["a"], []) :=
  have h1 := backslash_before_blank [] [] ['a'] [' ', 'b'] ScanMode.body (some 'a')
    { current_token := ['a'] } rfl rfl rfl
  have h2 := backslash_before_blank [] [] ['a'] [] ScanMode.body (some 'a')
    { current_token := ['a'] } rfl rfl rfl
  ⟨(h1.1 ' ' ['b'] rfl rfl).1, (h1.1 ' ' ['b'] rfl rfl).2 rfl rfl ["c"], h2.2 rfl⟩

/-- An escaped double quote or less-than sign is appended to the token in progress. -/
theorem scanStep_escaped_literal {c : Char} (hc : c = '"' ∨ c = '<') (next prev)
    (st : ScanState) (he : st.backslash_escape = true) :
    scanStep c next prev ScanMode.body st =
      Except.ok (ScanMode.body, appendChar { st with backslash_escape := false } c) := by
  rcases hc with rfl | rfl
  · simp [scanStep, isBlank, he]
  · simp [scanStep, isBlank, he]

/-- An escaped character other than a quote, a less-than sign and a backslash is refused. -/
theorem scanStep_escaped_other {c : Char} (h1 : c ≠ '"') (h2 : c ≠ '<') (h3 : c ≠ '\\')
    (next prev) (st : ScanState) (he : st.backslash_escape = true) :
    scanStep c next prev ScanMode.body st = Except.error ScanError.InvalidEscape := by
  by_cases hb : isBlank c = true
  · exact scanStep_escaped_blank hb next prev st he
  · simp [scanStep, h1, h2, h3, hb, he]

/-- C24, counterexample: a backslash before the ordinary letter `n` does not give the
letter: the scan of `a\nb` fails with InvalidEscape; and the two backslashes of `a\\b` give no
character at all. -/
theorem C24_counterexample :
    scan_line [] [] "a\\nb" = Except.error ScanError.InvalidEscape ∧
    scan_line [] [] "a\\\\b" = Except.ok (["ab"], []) :=
  ⟨rfl, rfl⟩

/-- C24 (amended): when the scan of a line reaches an unescaped backslash outside a sentinel
mark and the next character `c` is a double quote or `<`, the scan goes on after `c` with the
backslash dropped and `c` appended to the token in progress, the quoted mode, the tokens and
the sentinels being as before the backslash; when `c` is any other character except a
backslash, `scan_line` fails with InvalidEscape. -/
theorem C24_escape_amended (tokens sentinels : List String) (pre rest : List Char) (c : Char)
    (mode : ScanMode) (prev : Option Char) (st : ScanState)
    (hreach : scanTo pre ('\\' :: c :: rest) ScanMode.body none
      { tokens := tokens, sentinels := sentinels } = Except.ok (mode, prev, st))
    (hmode : mode.outside = true) (hesc : st.backslash_escape = false) :
    (c = '"' ∨ c = '<' →
      scanTo (pre ++ ['\\', c]) rest ScanMode.body none
        { tokens := tokens, sentinels := sentinels } =
          Except.ok (ScanMode.body, some c, appendChar st c)) ∧
    (c ≠ '"' → c ≠ '<' → c ≠ '\\' →
      scan_line tokens sentinels (String.mk (pre ++ '\\' :: c :: rest)) =
        Except.error ScanError.InvalidEscape) := by
  constructor
  · intro hc
    rw [scanTo_append]
    have e : ['\\', c] ++ rest = '\\' :: c :: rest := rfl
    rw [e, hreach]
    simp only [scanTo, scanStep_backslash hmode]
    rw [scanStep_escaped_literal hc _ _ _ (by simp [hesc])]
    obtain ⟨t, s, b, q, k⟩ := st
    simp only at hesc
    subst hesc
    rfl
  · intro h1 h2 h3
    rw [scan_line_of_scanTo hreach]
    simp only [scanLoop, scanStep_backslash hmode]
    rw [scanStep_escaped_other h1 h2 h3 _ _ _ (by simp [hesc])]
    rfl

/-- C24 (amended), on the lines `a\"b c` (one token `a"b`, then `c`) and `a\nb`. -/
theorem C24_escape_amended_witness :
    scanTo ['a', '\\', '"'] ['b', ' ', 'c'] ScanMode.body none {} =
      Except.ok (ScanMode.body, some '"', { current_token := ['a', '"'] }) ∧
    scan_line [] [] "a\\\"b c" = Except.ok (["a\"b", "c"], []) ∧
    scan_line [] [] "a\\nb" = Except.error ScanError.InvalidEscape :=
  ⟨(C24_escape_amended [] [] ['a'] ['b', ' ', 'c'] '"' ScanMode.body (some 'a')
      { current_token := ['a'] } rfl rfl rfl).1 (Or.inl rfl),
    rfl,
    (C24_escape_amended [] [] ['a'] ['b'] 'n' ScanMode.body (some 'a')
      { current_token := ['a'] } rfl rfl rfl).2 (by decide) (by decide) (by decide)⟩

theorem isBlank_not_forbidden {c : Char} (h : isBlank c = true) :
    c ≠ '<' ∧ c ≠ '"' ∧ c ≠ '\\' := by
  refine ⟨?_, ?_, ?_⟩ <;> rintro rfl <;> simp [isBlank] at h

theorem scanLoop_mark (suffix : List Char) : ∀ (m : List Char) (prev : Option Char)
    (st : ScanState), (∀ c ∈ markOf suffix, sentinelForbidden c = false) →
    scanLoop suffix (ScanMode.mark m) prev st =
      match endMark st (m ++ markOf suffix) with
      | Except.error e => Except.error e
      | Except.ok st1 =>
        scanLoop (afterMark suffix).tail ScanMode.blanks (afterMark suffix).head? st1 := by
  induction suffix with
  | nil =>
    intro m prev st _
    simp only [markOf, afterMark, List.takeWhile_nil, List.dropWhile_nil, List.append_nil,
      scanLoop, List.tail_nil]
    cases endMark st m <;> rfl
  | cons c rest ih =>
    intro m prev st hall
    by_cases hb : isBlank c = true
    · obtain ⟨h1, h2, h3⟩ := isBlank_not_forbidden hb
      simp only [markOf, afterMark, List.takeWhile_cons, List.dropWhile_cons, hb, Bool.not_true,
        Bool.false_eq_true, if_false, List.append_nil, List.tail_cons, List.head?_cons,
        scanLoop, scanStep, h1, h2, h3, false_or, if_true]
      cases endMark st m <;> rfl
    · have hb1 : isBlank c = false := by simpa using hb
      have hmem : c ∈ markOf (c :: rest) := by simp [markOf, List.takeWhile_cons, hb1]
      have hf := hall c hmem
      have hrest : ∀ d ∈ markOf rest, sentinelForbidden d = false := by
        intro d hd
        apply hall
        simp only [markOf, List.takeWhile_cons, hb1, Bool.not_false, if_true]
        exact List.mem_cons_of_mem _ hd
      simp only [sentinelForbidden, Bool.or_eq_false_iff, decide_eq_false_iff_not] at hf
      obtain ⟨⟨h1, h2⟩, h3⟩ := hf
      have hstep : scanStep c rest.head? prev (ScanMode.mark m) st =
          Except.ok (ScanMode.mark (m ++ [c]), st) := by
        simp [scanStep, h1, h2, h3, hb1]
      simp only [scanLoop, hstep]
      rw [ih (m ++ [c]) (some c) st hrest]
      simp [markOf, afterMark, List.takeWhile_cons, List.dropWhile_cons, hb1]

theorem scanLoop_mark_forbidden (suffix : List Char) : ∀ (m : List Char) (prev : Option Char)
    (st : ScanState), (∃ c ∈ markOf suffix, sentinelForbidden c = true) →
    scanLoop suffix (ScanMode.mark m) prev st =
      Except.error ScanError.InvalidSentinelChar := by
  induction suffix with
  | nil => intro m prev st h; simp [markOf] at h
  | cons c rest ih =>
    intro m prev st h
    by_cases hb : isBlank c = true
    · simp [markOf, List.takeWhile_cons, hb] at h
    · have hb1 : isBlank c = false := by simpa using hb
      by_cases hf : sentinelForbidden c = true
      · have : c = '<' ∨ c = '"' ∨ c = '\\' := by
          simpa [sentinelForbidden, or_assoc] using hf
        simp [scanLoop, scanStep, this]
      · have hf1 : sentinelForbidden c = false := by simpa using hf
        have hrest : ∃ d ∈ markOf rest, sentinelForbidden d = true := by
          obtain ⟨d, hd, hdf⟩ := h
          simp only [markOf, List.takeWhile_cons, hb1, Bool.not_false, if_true,
            List.mem_cons] at hd
          rcases hd with rfl | hd
          · rw [hf1] at hdf; cases hdf
          · exact ⟨d, hd, hdf⟩
        simp only [sentinelForbidden, Bool.or_eq_false_iff, decide_eq_false_iff_not] at hf1
        obtain ⟨⟨h1, h2⟩, h3⟩ := hf1
        have hstep : scanStep c rest.head? prev (ScanMode.mark m) st =
            Except.ok (ScanMode.mark (m ++ [c]), st) := by
          simp [scanStep, h1, h2, h3, hb1]
        simp only [scanLoop, hstep]
        exact ih (m ++ [c]) (some c) st hrest

/-- The step at the first `<` of an unescaped `<<` outside a sentinel mark. -/
theorem scanStep_sentinel {mode : ScanMode} (hm : mode.outside = true) (prev : Option Char)
    (st : ScanState) (he : st.backslash_escape = false) :
    scanStep '<' (some '<') prev mode st =
      if (match prev with | none => false | some p => !isBlank p) = true then
        Except.error ScanError.SentinelNotPrecededByWhitespace
      else Except.ok (ScanMode.second, st) := by
  cases mode with
  | body => simp [scanStep, isBlank, he]
  | blanks => simp [scanStep, isBlank, he]
  | second => simp [ScanMode.outside] at hm
  | mark m => simp [ScanMode.outside] at hm

/-- C27: when the scan of a line reaches an unescaped `<<` outside a sentinel mark (inside or
outside quotes), with `mark` the maximal run of characters other than space and tab after it:
the scan fails with SentinelNotPrecededByWhitespace if a character other than space and tab
precedes the `<<`; otherwise it fails with InvalidSentinelChar if `mark` contains `<`, a double
quote or a backslash; otherwise it fails with EmptySentinel if `mark` is empty; otherwise
`mark` is appended to the sentinel queue, the token made of a newline and `mark` is appended to
the tokens, and the scan goes on after the blank that ends `mark`. -/
theorem C27_sentinel_validation (tokens sentinels : List String) (pre suffix : List Char)
    (mode : ScanMode) (prev : Option Char) (st : ScanState)
    (hreach : scanTo pre ('<' :: '<' :: suffix) ScanMode.body none
      { tokens := tokens, sentinels := sentinels } = Except.ok (mode, prev, st))
    (hmode : mode.outside = true) (hesc : st.backslash_escape = false) :
    ((∃ p, pre.getLast? = some p ∧ isBlank p = false) →
      scan_line tokens sentinels (String.mk (pre ++ '<' :: '<' :: suffix)) =
        Except.error ScanError.SentinelNotPrecededByWhitespace) ∧
    ((∀ p, pre.getLast? = some p → isBlank p = true) →
      ((∃ c ∈ markOf suffix, sentinelForbidden c = true) →
        scan_line tokens sentinels (String.mk (pre ++ '<' :: '<' :: suffix)) =
          Except.error ScanError.InvalidSentinelChar) ∧
      ((∀ c ∈ markOf suffix, sentinelForbidden c = false) →
        (markOf suffix = [] →
          scan_line tokens sentinels (String.mk (pre ++ '<' :: '<' :: suffix)) =
            Except.error ScanError.EmptySentinel) ∧
        (markOf suffix ≠ [] →
          scan_line tokens sentinels (String.mk (pre ++ '<' :: '<' :: suffix)) =
            (scanLoop (afterMark suffix).tail ScanMode.blanks (afterMark suffix).head?
              (withSentinel st (markOf suffix))).map finishLine))) := by
  have hprev : prev = pre.getLast? := by
    have := scanTo_prev pre _ _ _ _ _ _ _ hreach
    simpa using this
  subst hprev
  have hline := scan_line_of_scanTo hreach
  have hstep := scanStep_sentinel hmode pre.getLast? st hesc
  constructor
  · rintro ⟨p, hp, hb⟩
    rw [hline]
    simp only [scanLoop, List.head?_cons]
    rw [hstep]
    simp only [hp, hb, Bool.not_false, if_true]
    rfl
  · intro hblank
    have hstep1 : scanStep '<' (some '<') pre.getLast? mode st =
        Except.ok (ScanMode.second, st) := by
      rw [hstep]
      cases hl : pre.getLast? with
      | none => simp
      | some p => simp [hblank p hl]
    have hgo : scan_line tokens sentinels (String.mk (pre ++ '<' :: '<' :: suffix)) =
        (scanLoop suffix (ScanMode.mark []) (some '<') st).map finishLine := by
      rw [hline]
      simp only [scanLoop, List.head?_cons]
      rw [hstep1]
      simp only [scanStep]
    constructor
    · intro hbad
      rw [hgo, scanLoop_mark_forbidden suffix _ _ _ hbad]
      rfl
    · intro hgood
      rw [hgo, scanLoop_mark suffix _ _ _ hgood, List.nil_append]
      constructor
      · intro he
        simp [he, endMark, Except.map]
      · intro hne
        simp [endMark, hne, withSentinel]

/-- C27, on the lines `echo <<END x`, `a<<END`, `a <<E"D` and `a << END`. -/
theorem C27_sentinel_validation_witness :
    scan_line [] [] "echo <<END x" = Except.ok (["echo", "\nEND", "x"], ["END"]) ∧
    scan_line [] [] "a<<END" = Except.error ScanError.SentinelNotPrecededByWhitespace ∧
    scan_line [] [] "a <<E\"D" = Except.error ScanError.InvalidSentinelChar ∧
    scan_line [] [] "a << END" = Except.error ScanError.EmptySentinel :=
  ⟨((((C27_sentinel_validation [] [] ['e', 'c', 'h', 'o', ' '] ['E', 'N', 'D', ' ', 'x']
      ScanMode.blanks (some ' ') { tokens := ["echo"] } rfl rfl rfl).2
        (by intro p hp; cases hp; rfl)).2 (by decide)).2 (by decide)).trans rfl,
    (C27_sentinel_validation [] [] ['a'] ['E', 'N', 'D']
      ScanMode.body (some 'a') { current_token := ['a'] } rfl rfl rfl).1 ⟨'a', rfl, rfl⟩,
    ((C27_sentinel_validation [] [] ['a', ' '] ['E', '"', 'D']
      ScanMode.blanks (some ' ') { tokens := ["a"] } rfl rfl rfl).2
        (by intro p hp; cases hp; rfl)).1 ⟨'"', by decide, rfl⟩,
    (((C27_sentinel_validation [] [] ['a', ' '] [' ', 'E', 'N', 'D']
      ScanMode.blanks (some ' ') { tokens := ["a"] } rfl rfl rfl).2
        (by intro p hp; cases hp; rfl)).2 (by decide)).1 (by decide)⟩

theorem endMark_ne_unterminated (st : ScanState) (m : List Char) :
    endMark st m ≠ Except.error ScanError.UnterminatedSentinel := by
  unfold endMark
  split <;> simp

theorem scanStep_ne_unterminated (c : Char) (next prev : Option Char) (mode : ScanMode)
    (st : ScanState) :
    scanStep c next prev mode st ≠ Except.error ScanError.UnterminatedSentinel := by
  unfold scanStep
  split
  · simp
  · split
    · simp
    · split
      · have := endMark_ne_unterminated st ‹_›
        split
        · rename_i e he
          intro h
          injection h with h
          subst h
          exact this he
        · simp
      · simp
  · repeat (first | simp | split)

theorem scanLoop_ne_unterminated (chars : List Char) : ∀ (mode : ScanMode)
    (prev : Option Char) (st : ScanState),
    scanLoop chars mode prev st ≠ Except.error ScanError.UnterminatedSentinel := by
  induction chars with
  | nil =>
    intro mode prev st
    cases mode <;> simp [scanLoop, endMark_ne_unterminated]
  | cons c rest ih =>
    intro mode prev st
    simp only [scanLoop]
    cases hs : scanStep c rest.head? prev mode st with
    | error e =>
      simp only
      intro h
      injection h with h
      subst h
      exact scanStep_ne_unterminated _ _ _ _ _ hs
    | ok r => exact ih _ _ _

theorem scan_line_ne_unterminated (tokens sentinels : List String) (line : String) :
    scan_line tokens sentinels line ≠ Except.error ScanError.UnterminatedSentinel := by
  unfold scan_line
  cases h : scanLoop line.data ScanMode.body none { tokens := tokens, sentinels := sentinels } with
  | error e =>
    intro h1
    simp only [Except.map] at h1
    injection h1 with h1
    subst h1
    exact scanLoop_ne_unterminated _ _ _ _ h
  | ok r => simp [Except.map]

theorem getline_badbit (din : IStream) (line : String) :
    (getline din line).1.badbit = din.badbit := by
  unfold getline
  split
  · rfl
  · split
    · rfl
    · split <;> rfl

theorem commandLoop_badbit : ∀ (fuel : Nat) (din : IStream) (sentinels : List String)
    (to_return : String) (din1 : IStream) (to_return1 : String),
    commandLoop fuel din sentinels to_return = some (din1, to_return1) →
    din1.badbit = din.badbit := by
  intro fuel
  induction fuel with
  | zero => intro din sentinels to_return din1 to_return1 h; simp [commandLoop] at h
  | succ fuel ih =>
    intro din sentinels to_return din1 to_return1 h
    simp only [commandLoop] at h
    split at h
    · rw [ih _ _ _ _ _ h, getline_badbit]
    · simp only [Option.some.injEq, Prod.mk.injEq] at h
      rw [← h.1]

/-- On a stream whose `badbit` is not set (the end of the stream does not set it),
`get_command` never signals that the stream ended before a sentinel. -/
theorem get_command_never_unterminated (din : IStream) (hb : din.badbit = false) :
    get_command din ≠ Result.threw ScanError.UnterminatedSentinel := by
  unfold get_command
  simp only
  cases hs : scan_line [] [] (getline din "").2 with
  | error e =>
    simp only
    intro h
    injection h with h
    subst h
    exact scan_line_ne_unterminated _ _ _ hs
  | ok r =>
    obtain ⟨t, s⟩ := r
    simp only
    cases hc : commandLoop (din.lines.length + 2) (getline din "").1 s
        ((getline din "").2 ++ "\n") with
    | none => simp
    | some r1 =>
      obtain ⟨din1, r⟩ := r1
      have := commandLoop_badbit _ _ _ _ _ _ hc
      rw [getline_badbit, hb] at this
      simp [IStream.bad, this]

/-- C25: the stream `echo <<END`, `foo` ends before a line
`END` has been read, with or without a last unterminated line; `get_command` does not fail
with UnterminatedSentinel but returns what it has read, and the stream ends with `eofbit`
set and `badbit` clear, which is why the test `din.bad()` before the `throw` is false. -/
theorem C25_unterminated_sentinel_returned :
    get_command { lines := ["echo <<END", "foo"] } =
      Result.ok ("echo <<END\nfoo\n\n",
        { lines := [], eofbit := true, failbit := true, badbit := false }) ∧
    get_command { lines := ["echo <<END", "foo"], rest := "bar" } =
      Result.ok ("echo <<END\nfoo\nbar\n",
        { lines := [], eofbit := true, failbit := false, badbit := false }) ∧
    get_command { lines := ["echo <<END"] } =
      Result.ok ("echo <<END\n\n",
        { lines := [], eofbit := true, failbit := true, badbit := false }) :=
  ⟨rfl, rfl, rfl⟩

/-- C26: in the line `"a <<END "` the scan reaches the `<<`
inside a double-quoted argument, after a space; `scan_line` records the sentinel `END` and
its marker token, and `get_command` reads the following lines up to `END` as the body. -/
theorem C26_quoted_sentinel_recorded :
    scanTo ['"', 'a', ' '] ['<', '<', 'E', 'N', 'D', ' ', '"'] ScanMode.body none {} =
      Except.ok (ScanMode.body, some ' ',
        { inside_double_quote := true, current_token := ['a', ' '] }) ∧
    scan_line [] [] "\"a <<END \"" = Except.ok (["\nEND", "a "], ["END"]) ∧
    get_command { lines := ["\"a <<END \"", "x", "END", "y"] } =
      Result.ok ("\"a <<END \"\nx\nEND\n", { lines := ["y"] }) :=
  ⟨rfl, rfl, rfl⟩

/-- C28: on `a ""` the reference tokenization gives the
tokens `a` and the empty quoted token, and `scan_line` gives `a` alone because the token in
progress at the end of the line is dropped when it is empty; on `"" a` and `a "" b`, where the
empty quoted token is followed by a blank, `scan_line` keeps it as the reference does. -/
theorem C28_trailing_empty_token_dropped :
    scan_line [] [] "a \"\"" = Except.ok (["a"], []) ∧
    referenceTokens "a \"\"" = ["a", ""] ∧
    scan_line [] [] "\"\" a" = Except.ok (referenceTokens "\"\" a", []) ∧
    referenceTokens "\"\" a" = ["", "a"] ∧
    scan_line [] [] "a \"\" b" = Except.ok (referenceTokens "a \"\" b", []) ∧
    referenceTokens "a \"\" b" = ["a", "", "b"] ∧
    scan_line [] [] "  a \"b  c\"d\t " = Except.ok (referenceTokens "  a \"b  c\"d\t ", []) ∧
    referenceTokens "  a \"b  c\"d\t " = ["a", "b  cd"] :=
  ⟨rfl, rfl, rfl, rfl, rfl, rfl, rfl, rfl⟩

theorem intercalate_go_eq (s : String) : ∀ (l : List String) (acc : String),
    String.intercalate.go acc s l = l.foldl (fun a x => a ++ (s ++ x)) acc := by
  intro l
  induction l with
  | nil => intro acc; rfl
  | cons x xs ih =>
    intro acc
    rw [String.intercalate.go, ih, List.foldl_cons, String.append_assoc]

theorem dropLast_lines (n : Char) : ∀ (bs : List (List Char)) (b : List Char),
    (b ++ [n] ++ (bs.map (fun l => l ++ [n])).flatten).dropLast =
      b ++ (bs.map (fun l => n :: l)).flatten := by
  intro bs
  induction bs with
  | nil => intro b; simp
  | cons c bs ih =>
    intro b
    have := ih (b ++ n :: c)
    simp only [List.map_cons, List.flatten_cons, List.append_assoc, List.cons_append,
      List.nil_append] at this ⊢
    exact this

theorem foldl_lines_data : ∀ (ls : List String) (acc : String),
    (ls.foldl (fun a l => a ++ (l ++ "\n")) acc).data =
      acc.data ++ (ls.map (fun l => l.data ++ ['\n'])).flatten := by
  intro ls
  induction ls with
  | nil => intro acc; simp
  | cons l ls ih =>
    intro acc
    rw [List.foldl_cons, ih]
    simp [String.data_append]

/-- The text collected by `bakery_execute` for a body, without its last character, is the
body joined by single newlines. -/
theorem body_joined (b : List String) :
    String.mk ((b.foldl (fun a l => a ++ (l ++ "\n")) "").data.dropLast) =
      String.intercalate "\n" b := by
  cases b with
  | nil => rfl
  | cons x xs =>
    apply String.ext
    rw [String.intercalate, intercalate_go_eq, foldl_newline_data, foldl_lines_data]
    simp only [List.map_cons, List.flatten_cons]
    have := dropLast_lines '\n' (xs.map String.data) x.data
    simp only [List.map_map, Function.comp_def] at this
    simpa [List.append_assoc] using this

theorem takeBody_here (M : String) (rest : List String) : ∀ (b : List String) (acc : String),
    (∀ l ∈ b, l ≠ M) →
    takeBody M (b ++ M :: rest) acc = some (b.foldl (fun a l => a ++ (l ++ "\n")) acc, rest) := by
  intro b
  induction b with
  | nil => intro acc _; simp [takeBody]
  | cons l ls ih =>
    intro acc h
    have hl : l ≠ M := h l (List.mem_cons_self _ _)
    simp only [List.cons_append, takeBody, hl, if_false, List.foldl_cons]
    exact ih _ (fun x hx => h x (List.mem_cons_of_mem _ hx))

theorem substituteBodies_here (more : List String) : ∀ (tokens : List String)
    (bodies : List (List String)), bodies.length = (markersOf tokens).length →
    (∀ d ∈ bodies.zip (markersOf tokens), ∀ l ∈ d.1, l ≠ d.2) →
    substituteBodies tokens (hereLines (bodies.zip (markersOf tokens)) ++ more) =
      some (withBodies tokens bodies) := by
  intro tokens
  induction tokens with
  | nil => intro bodies _ _; rfl
  | cons t ts ih =>
    intro bodies hlen hne
    by_cases hm : isMarker t = true
    · have hmk : markersOf (t :: ts) = String.mk (t.data.drop 1) :: markersOf ts := by
        simp [markersOf, List.filter_cons, hm]
      rw [hmk] at hlen hne ⊢
      cases bodies with
      | nil => simp at hlen
      | cons b bs =>
        have hm1 : t.data.head? = some '\n' := by simpa [isMarker] using hm
        have hb : ∀ l ∈ b, l ≠ String.mk (t.data.drop 1) :=
          hne (b, String.mk (t.data.drop 1)) (by simp)
        simp only [List.zip_cons_cons, hereLines, List.flatMap_cons, List.append_assoc,
          List.singleton_append, substituteBodies, hm1, if_true, List.cons_append]
        rw [takeBody_here _ _ b "" hb]
        have := ih bs (by simpa using hlen)
          (fun d hd => hne d (by simp only [List.zip_cons_cons]; exact List.mem_cons_of_mem _ hd))
        simp only [hereLines] at this
        simp only [List.nil_append, this, body_joined, withBodies, hm, if_true, List.headD_cons,
          List.tail_cons]
    · have hmk : markersOf (t :: ts) = markersOf ts := by
        simp [markersOf, List.filter_cons, hm]
      rw [hmk] at hlen hne ⊢
      have hm1 : ¬ t.data.head? = some '\n' := by simpa [isMarker] using hm
      simp only [substituteBodies, hm1, if_false, ih bodies hlen hne, withBodies, hm,
        Bool.false_eq_true]

theorem strsplit_lines : ∀ (ls : List String) (acc : List Char), '\n' ∉ acc →
    (∀ l ∈ ls, singleLine l) →
    (List.splitOnP (fun c => decide (c ∈ ['\n']))
        (acc ++ (ls.map (fun l => l.data ++ ['\n'])).flatten)) =
      match ls with
      | [] => [acc]
      | l :: rest => (acc ++ l.data) :: (rest.map String.data ++ [[]]) := by
  intro ls
  induction ls with
  | nil =>
    intro acc hacc _
    have := splitOn_single hacc
    simpa [List.splitOn] using this
  | cons l ls ih =>
    intro acc hacc hls
    have hl : '\n' ∉ l.data := hls l (List.mem_cons_self _ _)
    simp only [List.map_cons, List.flatten_cons]
    have e : acc ++ (l.data ++ ['\n'] ++ (ls.map (fun l => l.data ++ ['\n'])).flatten) =
        (acc ++ l.data) ++ '\n' :: ([] ++ (ls.map (fun l => l.data ++ ['\n'])).flatten) := by
      simp
    rw [e, splitOnP_append_sep _ _ (by simp)]
    rw [ih [] (by simp) (fun x hx => hls x (List.mem_cons_of_mem _ hx))]
    have h1 : List.splitOnP (fun c => decide (c ∈ ['\n'])) (acc ++ l.data) = [acc ++ l.data] := by
      have := @splitOn_single (acc ++ l.data) (by simp [hacc, hl])
      simpa [List.splitOn] using this
    rw [h1]
    cases ls with
    | nil => simp
    | cons x xs => simp

theorem strsplit_commandText (first : String) (ls : List String) (hf : singleLine first)
    (hls : ∀ l ∈ ls, singleLine l) :
    strsplit (commandText (first :: ls)) ['\n'] = first :: (ls ++ [""]) := by
  unfold strsplit commandText
  rw [foldl_lines_data]
  have := strsplit_lines (first :: ls) [] (by simp)
    (by intro l hl; rcases List.mem_cons.1 hl with rfl | h; exact hf; exact hls l h)
  have e : ("" : String).data = [] := rfl
  rw [e, this]
  simp only [List.nil_append, List.map_cons, List.map_append, List.map_map, List.map_nil]
  have hid : (String.mk ∘ String.data) = id := by funext x; rfl
  rw [hid, List.map_id]

theorem markersOf_append (ts : List String) (t : String) :
    markersOf (ts ++ [t]) =
      markersOf ts ++ (if isMarker t = true then [String.mk (t.data.drop 1)] else []) := by
  unfold markersOf
  by_cases h : isMarker t = true <;> simp [List.filter_append, List.filter_cons, h]

theorem isMarker_of_no_newline {cs : List Char} (h : '\n' ∉ cs) :
    isMarker (String.mk cs) = false := by
  cases cs with
  | nil => rfl
  | cons c cs =>
    have : c ≠ '\n' := fun e => h (by simp [e])
    simp [isMarker, this]

theorem scanInv_push {st : ScanState} (h : ScanInv st) (b : Bool) :
    ScanInv { st with
      tokens := if b = true then st.tokens ++ [String.mk st.current_token] else st.tokens,
      current_token := [] } := by
  obtain ⟨h1, h2, h3⟩ := h
  refine ⟨?_, h2, by simp⟩
  cases b
  · simpa using h1
  · simp only [if_true, markersOf_append, isMarker_of_no_newline h3, Bool.false_eq_true,
      if_false, List.append_nil]
    exact h1

theorem scanInv_endMark {st st1 : ScanState} {m : List Char} (h : ScanInv st)
    (hm : '\n' ∉ m) (he : endMark st m = Except.ok st1) : ScanInv st1 := by
  obtain ⟨h1, h2, h3⟩ := h
  unfold endMark at he
  split at he
  · cases he
  · injection he with he
    subst he
    refine ⟨?_, ?_, h3⟩
    · simp only [markersOf_append]
      rw [h1]
      simp [isMarker]
    · intro M hM
      rcases List.mem_append.1 hM with hM | hM
      · exact h2 M hM
      · simp only [List.mem_singleton] at hM
        subst hM
        exact hm

theorem scanInv_append {st : ScanState} (h : ScanInv st) {c : Char} (hc : c ≠ '\n')
    (e q : Bool) :
    ScanInv (appendChar { st with backslash_escape := e, inside_double_quote := q } c) := by
  obtain ⟨h1, h2, h3⟩ := h
  refine ⟨h1, h2, ?_⟩
  simp only [appendChar, List.mem_append, List.mem_singleton, not_or]
  exact ⟨h3, fun e => hc e.symm⟩

theorem scanInv_flags {st : ScanState} (h : ScanInv st) (e q : Bool) :
    ScanInv { st with backslash_escape := e, inside_double_quote := q } := h

theorem scanStep_inv {c : Char} (hc : c ≠ '\n') {next prev : Option Char} {mode mode1 : ScanMode}
    {st st1 : ScanState} (hi : ScanInv st) (hm : ModeInv mode)
    (h : scanStep c next prev mode st = Except.ok (mode1, st1)) :
    ScanInv st1 ∧ ModeInv mode1 := by
  unfold scanStep at h
  split at h
  · injection h with h
    cases h
    exact ⟨hi, by simp [ModeInv]⟩
  · rename_i m
    split at h
    · cases h
    · split at h
      · split at h
        · cases h
        · rename_i st2 he
          injection h with h
          cases h
          exact ⟨scanInv_endMark hi hm he, trivial⟩
      · injection h with h
        cases h
        refine ⟨hi, ?_⟩
        simp only [ModeInv, List.mem_append, List.mem_singleton, not_or]
        exact ⟨hm, fun e => hc e.symm⟩
  · repeat' split at h
    all_goals
      first
      | (injection h with h
         cases h
         first
         | exact ⟨hi, by simp [ModeInv]⟩
         | exact ⟨scanInv_append hi hc _ _, by simp [ModeInv]⟩
         | exact ⟨scanInv_flags hi _ _, by simp [ModeInv]⟩
         | exact ⟨by simpa using scanInv_push hi true, by simp [ModeInv]⟩
         | exact ⟨by simpa using scanInv_push hi false, by simp [ModeInv]⟩)
      | cases h

theorem scanLoop_inv (chars : List Char) : ∀ (mode : ScanMode) (prev : Option Char)
    (st st1 : ScanState), '\n' ∉ chars → ScanInv st → ModeInv mode →
    scanLoop chars mode prev st = Except.ok st1 → ScanInv st1 := by
  induction chars with
  | nil =>
    intro mode prev st st1 _ hi hm h
    cases mode with
    | body => simp only [scanLoop] at h; injection h with h; subst h; exact hi
    | blanks => simp only [scanLoop] at h; injection h with h; subst h; exact hi
    | second => exact scanInv_endMark hi (by simp) h
    | mark m => exact scanInv_endMark hi hm h
  | cons c rest ih =>
    intro mode prev st st1 hn hi hm h
    simp only [scanLoop] at h
    have hc : c ≠ '\n' := fun e => hn (by simp [e])
    have hr : '\n' ∉ rest := fun e => hn (List.mem_cons_of_mem _ e)
    cases hs : scanStep c rest.head? prev mode st with
    | error e => rw [hs] at h; cases h
    | ok r =>
      obtain ⟨m2, st2⟩ := r
      rw [hs] at h
      obtain ⟨hi2, hm2⟩ := scanStep_inv hc hi hm hs
      exact ih m2 (some c) st2 st1 hr hi2 hm2 h

/-- The marker tokens of a scanned line without newline carry the sentinel marks of the
queue, in order, and no mark holds a newline. -/
theorem scan_line_markers {line : String} {tokens sentinels : List String}
    (hl : singleLine line) (h : scan_line [] [] line = Except.ok (tokens, sentinels)) :
    markersOf tokens = sentinels ∧ ∀ M ∈ sentinels, singleLine M := by
  unfold scan_line at h
  cases hs : scanLoop line.data ScanMode.body none { tokens := [], sentinels := [] } with
  | error e => rw [hs] at h; cases h
  | ok st =>
    rw [hs] at h
    simp only [Except.map, finishLine, Except.ok.injEq, Prod.mk.injEq] at h
    obtain ⟨h1, h2, h3⟩ := scanLoop_inv _ ScanMode.body none _ _ hl
      (by refine ⟨rfl, ?_, ?_⟩ <;> simp) trivial hs
    obtain ⟨ht, hsn⟩ := h
    subst hsn
    refine ⟨?_, h2⟩
    rw [← ht]
    split
    · rw [markersOf_append, isMarker_of_no_newline h3]
      simpa using h1
    · exact h1

theorem commandLoop_step (fuel : Nat) (l r sent : String) (ls sents : List String)
    (acc : String) :
    commandLoop (fuel + 1) { lines := l :: ls, rest := r } (sent :: sents) acc =
      commandLoop fuel { lines := ls, rest := r } (if sent = l then sents else sent :: sents)
        (acc ++ (l ++ "\n")) := by
  rw [commandLoop]
  simp only [IStream.good, getline, Bool.not_false, Bool.and_self, List.length_cons, ne_eq,
    Nat.add_one_ne_zero, not_false_eq_true, decide_True, if_true, List.head?_cons,
    Option.some.injEq, List.tail_cons, Bool.not_true, Bool.false_eq_true, if_false]

theorem commandLoop_body (r M : String) (sents rest : List String) :
    ∀ (b : List String) (acc : String) (n : Nat), (∀ l ∈ b, l ≠ M) →
    commandLoop (n + (b.length + 1)) { lines := b ++ M :: rest, rest := r } (M :: sents) acc =
      commandLoop n { lines := rest, rest := r } sents
        ((b ++ [M]).foldl (fun a l => a ++ (l ++ "\n")) acc) := by
  intro b
  induction b with
  | nil =>
    intro acc n _
    have := commandLoop_step n M r M rest sents acc
    simpa using this
  | cons l ls ih =>
    intro acc n h
    have hl : l ≠ M := h l (List.mem_cons_self _ _)
    have e : n + ((l :: ls).length + 1) = (n + (ls.length + 1)) + 1 := by simp; omega
    rw [e, List.cons_append, commandLoop_step, if_neg (fun e => hl e.symm),
      ih (acc ++ (l ++ "\n")) n (fun x hx => h x (List.mem_cons_of_mem _ hx))]
    rfl

theorem commandLoop_here (r : String) (more : List String) :
    ∀ (docs : List (List String × String)) (acc : String) (n : Nat),
    (∀ d ∈ docs, ∀ l ∈ d.1, l ≠ d.2) →
    commandLoop (n + (hereLines docs).length + 1) { lines := hereLines docs ++ more, rest := r }
        (docs.map Prod.snd) acc =
      some ({ lines := more, rest := r },
        (hereLines docs).foldl (fun a l => a ++ (l ++ "\n")) acc) := by
  intro docs
  induction docs with
  | nil =>
    intro acc n _
    simp [commandLoop, hereLines]
  | cons d ds ih =>
    intro acc n h
    obtain ⟨b, M⟩ := d
    have e : n + (hereLines ((b, M) :: ds)).length + 1 =
        (n + (hereLines ds).length + 1) + (b.length + 1) := by
      simp [hereLines]; omega
    have e2 : hereLines ((b, M) :: ds) ++ more = b ++ M :: (hereLines ds ++ more) := by
      simp [hereLines]
    rw [e, e2, List.map_cons, commandLoop_body r M _ _ b acc _ (h (b, M) (by simp)),
      ih _ n (fun d hd => h d (List.mem_cons_of_mem _ hd))]
    simp [hereLines, List.foldl_append]

/-- C22: let `first` be a line without newline that `scan_line` accepts with the tokens
`tokens` and the sentinel queue `sentinels`, and let every sentinel be followed in the stream
by its body, lines without newline that differ from the mark, and by the line that holds the
mark.  Then the marker tokens carry the marks of the queue in order, `get_command` returns the
first line, the bodies and the mark lines as one command (each line followed by a newline) and
leaves the following lines in the stream, and the argument vector that `bakery_execute` builds
from that command is `tokens` with every marker token replaced by the lines of its body joined
by single newlines, without a newline at the end. -/
theorem C22_here_document (first : String) (tokens sentinels : List String)
    (bodies : List (List String)) (more : List String) (r : String)
    (hfirst : singleLine first)
    (hscan : scan_line [] [] first = Except.ok (tokens, sentinels))
    (hlen : bodies.length = sentinels.length)
    (hbody : ∀ d ∈ bodies.zip sentinels, ∀ l ∈ d.1, l ≠ d.2 ∧ singleLine l) :
    markersOf tokens = sentinels ∧
    get_command { lines := first :: (hereLines (bodies.zip sentinels) ++ more), rest := r } =
      Result.ok (commandText (first :: hereLines (bodies.zip sentinels)),
        { lines := more, rest := r }) ∧
    bakery_execute_tokens (commandText (first :: hereLines (bodies.zip sentinels))) =
      Result.ok (withBodies tokens bodies) := by
  obtain ⟨hmk, hsl⟩ := scan_line_markers hfirst hscan
  have hne : ∀ d ∈ bodies.zip sentinels, ∀ l ∈ d.1, l ≠ d.2 :=
    fun d hd l hl => (hbody d hd l hl).1
  have hsnd : (bodies.zip sentinels).map Prod.snd = sentinels :=
    List.map_snd_zip _ _ (by omega)
  refine ⟨hmk, ?_, ?_⟩
  · unfold get_command
    have hg : getline { lines := first :: (hereLines (bodies.zip sentinels) ++ more), rest := r }
        "" = ({ lines := hereLines (bodies.zip sentinels) ++ more, rest := r }, first) := by
      simp [getline, IStream.good]
    simp only [hg, hscan]
    have e : (first :: (hereLines (bodies.zip sentinels) ++ more)).length + 2 =
        (more.length + 2) + (hereLines (bodies.zip sentinels)).length + 1 := by
      simp; omega
    have := commandLoop_here r more (bodies.zip sentinels) (first ++ "\n") (more.length + 2) hne
    rw [hsnd] at this
    rw [e, this]
    simp [IStream.bad, commandText, String.empty_append]
  · have hall : ∀ l ∈ hereLines (bodies.zip sentinels), singleLine l := by
      intro l hl
      simp only [hereLines, List.mem_flatMap, List.mem_append, List.mem_singleton] at hl
      obtain ⟨d, hd, hl | hl⟩ := hl
      · exact (hbody d hd l hl).2
      · subst hl
        exact hsl _ (List.of_mem_zip hd).2
    unfold bakery_execute_tokens
    rw [strsplit_commandText first _ hfirst hall]
    simp only [hscan]
    rw [← hmk] at hlen hne ⊢
    rw [substituteBodies_here [""] tokens bodies hlen hne]

/-- C22, on the lines `echo <<END`, `foo`, `bar`, `END`: one command of four lines, and the
two tokens `echo` and `foo\nbar`. -/
theorem C22_here_document_witness :
    get_command { lines := ["echo <<END", "foo", "bar", "END"] } =
      Result.ok ("echo <<END\nfoo\nbar\nEND\n", { lines := [] }) ∧
    bakery_execute_tokens "echo <<END\nfoo\nbar\nEND\n" = Result.ok ["echo", "foo\nbar"] :=
  (C22_here_document "echo <<END" ["echo", "\nEND"] ["END"] [["foo", "bar"]] [] ""
    (by unfold singleLine; decide) rfl rfl
    (by
      intro d hd l hl
      simp only [List.zip_cons_cons, List.zip_nil_right, List.mem_singleton] at hd
      subst hd
      simp only [List.mem_cons, List.mem_singleton, List.not_mem_nil, or_false] at hl
      rcases hl with rfl | rfl <;> (unfold singleLine; decide))).2

theorem splitOnP_none (p : Char → Bool) : ∀ cs : List Char, (∀ c ∈ cs, p c = false) →
    List.splitOnP p cs = [cs] := by
  intro cs
  induction cs with
  | nil => intro _; simp
  | cons c cs ih =>
    intro h
    rw [List.splitOnP_cons, ih (fun x hx => h x (List.mem_cons_of_mem _ hx))]
    simp [h c (List.mem_cons_self _ _)]

theorem tokenize_word {w : String} {delimiters : List Char} (hne : w ≠ "")
    (hw : ∀ c ∈ w.data, c ∉ delimiters) : tokenize w delimiters = [w] := by
  unfold tokenize
  rw [splitOnP_none _ _ (fun c hc => by simpa using hw c hc)]
  have : w.data ≠ [] := fun e => hne (String.ext e)
  simp [this]

theorem tokenize_sep (a b : List Char) {sep : Char} {delimiters : List Char}
    (hsep : sep ∈ delimiters) :
    tokenize (String.mk (a ++ sep :: b)) delimiters =
      tokenize (String.mk a) delimiters ++ tokenize (String.mk b) delimiters := by
  unfold tokenize
  simp only
  rw [splitOnP_append_sep _ sep (by simpa using hsep), List.filter_append, List.map_append]

theorem tokenize_nil (delimiters : List Char) : tokenize "" delimiters = [] := by
  simp [tokenize]

theorem tokenize_line_end (a : String) {delimiters : List Char} (hnl : '\n' ∈ delimiters) :
    tokenize (a ++ "\n") delimiters = tokenize a delimiters := by
  have e : a ++ "\n" = String.mk (a.data ++ '\n' :: []) := by
    apply String.ext; simp [String.data_append]
  rw [e, tokenize_sep _ _ hnl]
  simp [tokenize]

/-- The command read from a stream whose only line holds no sentinel. -/
theorem get_command_single {S : String} {toks : List String}
    (h : scan_line [] [] S = Except.ok (toks, [])) (more : List String) :
    get_command { lines := S :: more } = Result.ok (S ++ "\n", { lines := more }) := by
  unfold get_command
  simp [getline, IStream.good, h, commandLoop, IStream.bad]

/-- At the end of the stream `get_command` returns the command `"\n"`. -/
theorem get_command_end :
    get_command { lines := [] } =
      Result.ok ("\n", { lines := [], eofbit := true, failbit := true }) := by
  rfl

/-- After `set_callback(n, c)` on an existing symbol the value of `n` is as before. -/
theorem set_callback_value {D : DepSystem} {n v : String} {s1 : Symbol}
    (hs : findSym D.symbols n = some s1) (hv : s1.value = v) (c : Option Nat) :
    ∃ D2, set_callback D n c = Outcome.ok D2 ∧ has_symbol D2 n = true ∧
      get_value D2 n = Outcome.ok v := by
  refine ⟨_, by unfold set_callback; rw [hs], ?_, ?_⟩
  · unfold has_symbol countSym
    simp only
    rw [findSym_putSym]
    simp [findSym_name hs]
  · unfold get_value
    simp only
    rw [findSym_putSym]
    simp [findSym_name hs, hv]

/-- Under the graph invariants `add_set_symbol(n, v); set_callback(n, dep_callback)` returns,
and afterwards `n` exists with the value `v`. -/
theorem addWithCallback_returns {D : DepSystem} {n v : String} {fuel : Nat}
    (hE : EdgeSymmetric D) (hA : Acyclic D) (hR : RevListsExact D) (hO : ShadowOwnersExist D)
    (hfuel : D.symbols.length + 1 ≤ fuel) :
    ∃ D2, addWithCallback fuel D n v = Result.ok D2 ∧ has_symbol D2 n = true ∧
      get_value D2 n = Outcome.ok v := by
  obtain ⟨D1, hD1⟩ : ∃ D1, add_set_symbol fuel D n v = Outcome.ok D1 := by
    cases hf : findSym D.symbols n with
    | none => exact add_set_symbol_insert_returns hE hA hR hO hf hfuel
    | some cur =>
      by_cases hv : cur.value = v
      · exact ⟨D, by unfold add_set_symbol; rw [hf]; simp [hv]⟩
      · exact add_set_symbol_update_returns hE hA hR hf hv (by omega)
  obtain ⟨s1, hs1, hv1⟩ := add_set_symbol_value hD1
  obtain ⟨D2, hD2, hh, hg⟩ := set_callback_value hs1 hv1 (some dep_callback)
  exact ⟨D2, by simp [addWithCallback, hD1, liftOutcome, hD2], hh, hg⟩

/-- The loop of `augment_depsystem` after the last statement of the stream. -/
theorem augmentLoop_end (fuel : Nat) (mutator : String → String) (delimiters : List Char)
    (steps : Nat) (D D1 : DepSystem) (line t0 : String) (rest : List String)
    (hl : line ≠ "\n") (ht : tokenize line delimiters = t0 :: rest)
    (hs : augmentStatement fuel mutator D line t0 rest = Result.ok D1) :
    augmentLoop fuel mutator delimiters (steps + 2) { lines := [] } D line =
      Result.ok (D1, { lines := [], eofbit := true, failbit := true }) := by
  rw [augmentLoop]
  simp only [hl, if_false, ht, hs, get_command_end]
  rw [augmentLoop]
  simp

/-- C29: from the empty `DepSystem`, the statement `x echo hi` gives `x` the value `echo hi`
followed by a newline, and the statement `x` alone gives `x` the value made of one newline,
not the empty string, when the delimiters of `tokenize` are space, tab and newline; when the
only delimiter is the space, `x echo hi` gives the same value and `x` alone creates no symbol
`x` (the symbol is named `x` followed by a newline).  A symbol that the dependency statement
`x / y` creates has the empty value. -/
theorem C29_value_keeps_newline :
    (∃ D1 din1, augment_depsystem 2 { lines := ["x echo hi"] } {} id [' ', '\t', '\n'] =
        Result.ok (D1, din1) ∧ get_value D1 "x" = Outcome.ok "echo hi\n") ∧
    (∃ D1 din1, augment_depsystem 2 { lines := ["x"] } {} id [' ', '\t', '\n'] =
        Result.ok (D1, din1) ∧ get_value D1 "x" = Outcome.ok "\n") ∧
    (∃ D1 din1, augment_depsystem 2 { lines := ["x echo hi"] } {} id [' '] =
        Result.ok (D1, din1) ∧ get_value D1 "x" = Outcome.ok "echo hi\n") ∧
    (∃ D1 din1, augment_depsystem 2 { lines := ["x"] } {} id [' '] =
        Result.ok (D1, din1) ∧ has_symbol D1 "x" = false) ∧
    (∃ D1 din1, augment_depsystem 4 { lines := ["x / y"] } {} id [' ', '\t', '\n'] =
        Result.ok (D1, din1) ∧ get_value D1 "x" = Outcome.ok "") :=
  ⟨⟨_, _, rfl, rfl⟩, ⟨_, _, rfl, rfl⟩, ⟨_, _, rfl, rfl⟩, ⟨_, _, rfl, rfl⟩, ⟨_, _, rfl, rfl⟩⟩

theorem augment_single {fuel : Nat} {D D1 : DepSystem} {S t0 : String} {rest toks : List String}
    {mutator : String → String} {delimiters : List Char}
    (hscan : scan_line [] [] S = Except.ok (toks, []))
    (hl : S ++ "\n" ≠ "\n") (ht : tokenize (S ++ "\n") delimiters = t0 :: rest)
    (hs : augmentStatement fuel mutator D (S ++ "\n") t0 rest = Result.ok D1) :
    augment_depsystem fuel { lines := [S] } D mutator delimiters =
      Result.ok (D1, { lines := [], eofbit := true, failbit := true }) := by
  unfold augment_depsystem
  rw [get_command_single hscan []]
  exact augmentLoop_end fuel mutator delimiters 1 D D1 _ t0 rest hl ht hs

/-- What an assignment statement stores: for a `DepSystem` that satisfies the graph
invariants, a nonempty name without delimiter character and a command text with at least one token, whose first token is
not `/`, such that the command scanner accepts the statement `NAME COMMAND` without sentinel:
augmenting with that statement (identity mutator) returns, and afterwards `NAME` exists and
its value is `COMMAND` followed by one newline; for the statement `NAME` alone the value is
one newline.  The delimiters of `tokenize` are any set that holds the space and the
newline. -/
theorem assignment_stores_rest_of_line (D : DepSystem) (fuel : Nat) (NAME : String)
    (delimiters : List Char)
    (hE : EdgeSymmetric D) (hA : Acyclic D) (hR : RevListsExact D) (hO : ShadowOwnersExist D)
    (hfuel : D.symbols.length + 1 ≤ fuel)
    (hsp : ' ' ∈ delimiters) (hnl : '\n' ∈ delimiters)
    (hname : NAME ≠ "") (hnd : ∀ c ∈ NAME.data, c ∉ delimiters) :
    (∀ COMMAND toks, singleLine COMMAND →
      scan_line [] [] (NAME ++ " " ++ COMMAND) = Except.ok (toks, []) →
      tokenize COMMAND delimiters ≠ [] → (tokenize COMMAND delimiters).head? ≠ some "/" →
      ∃ D1 din1,
        augment_depsystem fuel { lines := [NAME ++ " " ++ COMMAND] } D id delimiters =
          Result.ok (D1, din1) ∧
        has_symbol D1 NAME = true ∧ get_value D1 NAME = Outcome.ok (COMMAND ++ "\n")) ∧
    (∀ toks, scan_line [] [] NAME = Except.ok (toks, []) →
      ∃ D1 din1,
        augment_depsystem fuel { lines := [NAME] } D id delimiters = Result.ok (D1, din1) ∧
        has_symbol D1 NAME = true ∧ get_value D1 NAME = Outcome.ok "\n") := by
  have hnd0 : NAME.data ≠ [] := fun e => hname (String.ext e)
  constructor
  · intro COMMAND toks _ hscan htok hslash
    have hdata : (NAME ++ " " ++ COMMAND ++ "\n").data =
        NAME.data ++ ' ' :: (COMMAND ++ "\n").data := by
      simp [String.data_append]
    have hline : NAME ++ " " ++ COMMAND ++ "\n" =
        String.mk (NAME.data ++ ' ' :: (COMMAND ++ "\n").data) := String.ext hdata
    have ht : tokenize (NAME ++ " " ++ COMMAND ++ "\n") delimiters =
        NAME :: tokenize COMMAND delimiters := by
      rw [hline, tokenize_sep _ _ hsp]
      show tokenize NAME delimiters ++ tokenize (COMMAND ++ "\n") delimiters = _
      rw [tokenize_word hname hnd, tokenize_line_end _ hnl]
      rfl
    have hl : NAME ++ " " ++ COMMAND ++ "\n" ≠ "\n" := by
      intro e
      have this : (NAME ++ " " ++ COMMAND ++ "\n").data.length = ("\n" : String).data.length := by
        rw [e]
      rw [hdata, List.length_append, List.length_cons] at this
      have h0 : 0 < NAME.data.length := List.length_pos.2 hnd0
      have h1 : ("\n" : String).data.length = 1 := rfl
      omega
    cases htc : tokenize COMMAND delimiters with
    | nil => exact absurd htc htok
    | cons t1 rest =>
      rw [htc] at ht hslash
      have ht1 : t1 ≠ "/" := fun e => hslash (by simp [e])
      obtain ⟨D1, hD1, hh, hg⟩ := addWithCallback_returns (n := NAME) (v := COMMAND ++ "\n")
        hE hA hR hO hfuel
      have hs : augmentStatement fuel id D (NAME ++ " " ++ COMMAND ++ "\n") NAME (t1 :: rest) =
          Result.ok D1 := by
        simp only [augmentStatement, ht1, ne_eq, not_false_eq_true, if_true, id]
        rw [hdata]
        have : (NAME.data ++ ' ' :: (COMMAND ++ "\n").data).drop (NAME.length + 1) =
            (COMMAND ++ "\n").data := by
          have e : NAME.data ++ ' ' :: (COMMAND ++ "\n").data =
              (NAME.data ++ [' ']) ++ (COMMAND ++ "\n").data := by simp
          rw [e, List.drop_left' (by rw [List.length_append]; rfl)]
        rw [this]
        exact hD1
      exact ⟨D1, _, augment_single hscan hl ht hs, hh, hg⟩
  · intro toks hscan
    have hl : NAME ++ "\n" ≠ "\n" := by
      intro e
      have this : (NAME ++ "\n").data.length = ("\n" : String).data.length := by rw [e]
      rw [String.data_append, List.length_append] at this
      have h0 : 0 < NAME.data.length := List.length_pos.2 hnd0
      have h1 : ("\n" : String).data.length = 1 := rfl
      omega
    have ht : tokenize (NAME ++ "\n") delimiters = [NAME] := by
      rw [tokenize_line_end _ hnl, tokenize_word hname hnd]
    obtain ⟨D1, hD1, hh, hg⟩ := addWithCallback_returns (n := NAME) (v := "\n")
      hE hA hR hO hfuel
    have hs : augmentStatement fuel id D (NAME ++ "\n") NAME [] = Result.ok D1 := by
      simp only [augmentStatement, id, Nat.add_zero]
      have : (NAME ++ "\n").data.drop NAME.length = "\n".data := by
        rw [String.data_append]
        exact @List.drop_left' Char NAME.data ("\n" : String).data NAME.length rfl
      rw [this]
      exact hD1
    exact ⟨D1, _, augment_single hscan hl ht hs, hh, hg⟩

/-- The statements `n cc -c n.c` and `n` on `planExample`. -/
theorem assignment_stores_rest_of_line_witness :
    (EdgeSymmetric planExample ∧ Acyclic planExample ∧ RevListsExact planExample ∧
      ShadowOwnersExist planExample ∧ planExample.symbols.length + 1 ≤ 4 ∧
      scan_line [] [] ("n" ++ " " ++ "cc -c n.c") = Except.ok (["n", "cc", "-c", "n.c"], []) ∧
      tokenize "cc -c n.c" [' ', '\t', '\n'] = ["cc", "-c", "n.c"]) ∧
    (∃ D1 din1,
      augment_depsystem 4 { lines := ["n" ++ " " ++ "cc -c n.c"] } planExample id
        [' ', '\t', '\n'] = Result.ok (D1, din1) ∧
      has_symbol D1 "n" = true ∧ get_value D1 "n" = Outcome.ok ("cc -c n.c" ++ "\n")) ∧
    ∃ D1 din1,
      augment_depsystem 4 { lines := ["n"] } planExample id [' ', '\t', '\n'] =
        Result.ok (D1, din1) ∧
      has_symbol D1 "n" = true ∧ get_value D1 "n" = Outcome.ok "\n" :=
  have h := assignment_stores_rest_of_line planExample 4 "n" [' ', '\t', '\n'] planExample_edges
    planExample_acyclic planExample_revlists planExample_owners (by decide) (by decide)
    (by decide) (by decide) (by decide)
  have ht : tokenize "cc -c n.c" [' ', '\t', '\n'] = ["cc", "-c", "n.c"] := rfl
  ⟨⟨planExample_edges, planExample_acyclic, planExample_revlists, planExample_owners,
      by decide, rfl, ht⟩,
    h.1 "cc -c n.c" ["n", "cc", "-c", "n.c"] (by unfold singleLine; decide) rfl
      (by rw [ht]; simp) (by rw [ht]; simp),
    h.2 ["n"] rfl⟩

theorem augmentInv_of_invariants {D : DepSystem} (hE : EdgeSymmetric D) (hA : Acyclic D)
    (hR : RevListsExact D) (hO : ShadowOwnersExist D) : AugmentInv D D.symbols.length :=
  ⟨hE, hA, fun _ _ h => revDep_closed hE hR h,
    fun _ hc => bounded_revDep hE hA hR hc (le_refl _),
    fun _ hc => bounded_dep hE hA hc (le_refl _), hO⟩

/-- The records after the insert path of `add_set_symbol`. -/
theorem add_set_symbol_insert_added {fuel : Nat} {D D1 : DepSystem} {n v : String}
    (hO : ShadowOwnersExist D) (hn : findSym D.symbols n = none)
    (h : add_set_symbol fuel D n v = Outcome.ok D1) : Added D D1 n v := by
  unfold add_set_symbol at h
  rw [hn] at h
  simp only at h
  cases hst : foldOpt (shadowOwner n) (D.symbols, [])
      ((D.shadowers.filter (fun e => decide (e.1 = n))).map Prod.snd) with
  | none => rw [hst] at h; cases h
  | some st =>
    rw [hst] at h
    simp only at h
    obtain ⟨hsh, hinv0⟩ := invalidate_dependents_after (by rw [h]; rfl)
    have hinv : StatesInvalidated (insertSym st.1 (freshSymbol n v st.2)) D1.symbols := hinv0
    obtain ⟨hshrink, hst2⟩ := shadowLoop_shrink _ _ _ hst
    have hagree : Agree noRevLists D.symbols st.1 := shadowLoop_agree hst
    have hnone1 : findSym st.1 n = none := findSym_none_of_agree hagree hn
    have hfind2 : ∀ m, findSym (insertSym st.1 (freshSymbol n v st.2)) m =
        if n = m then some (freshSymbol n v st.2) else findSym st.1 m :=
      fun m => findSym_insertSym (s := freshSymbol n v st.2) hnone1 m
    simp only at hsh
    refine ⟨hn, ?_, ?_, ?_, ?_⟩
    · obtain ⟨r, hr⟩ : ∃ s1, findSym D1.symbols n = some s1 ∧
          (s1 = freshSymbol n v st.2 ∨
            s1 = { freshSymbol n v st.2 with state := invalidated VALID }) := by
        rcases hinv n with e | e
        · rw [hfind2 n] at e
          simp only [if_true] at e
          exact ⟨_, e, Or.inl rfl⟩
        · rw [hfind2 n] at e
          simp only [if_true, Option.map_some'] at e
          exact ⟨_, e, Or.inr rfl⟩
      have hmem : ∀ d ∈ st.2, countSym D.symbols d = true := by
        intro d hd
        rcases hst2 d hd with e | e
        · cases e
        · obtain ⟨e1, he1, rfl⟩ := List.mem_map.1 e
          exact hO e1 (List.mem_filter.1 he1).1
      rcases hr.2 with e | e
      · exact ⟨r, hr.1, by rw [e]; rfl, by rw [e]; rfl, by rw [e]; rfl, by rw [e]; rfl,
          by rw [e]; exact hmem⟩
      · exact ⟨r, hr.1, by rw [e]; rfl, by rw [e]; rfl, by rw [e]; rfl, by rw [e]; rfl,
          by rw [e]; exact hmem⟩
    · intro m s1 hm hs1
      obtain ⟨s2, hs2, hcase⟩ := hinv.state hs1
      rw [hfind2 m, if_neg (fun e => hm (Eq.symm e))] at hs2
      obtain ⟨s, hs, e1, m1⟩ := hshrink m s2 hs2
      obtain ⟨s', hs', hcore⟩ := hagree.find hs2
      have hs0 : findSym D.symbols m = some s := hs
      rw [hs0] at hs'
      cases hs'
      have hv : s2.value = s.value := by
        have := congrArg Symbol.value hcore; exact this
      have hde : s2.dependency_edges = s.dependency_edges := by
        have := congrArg Symbol.dependency_edges hcore; exact this
      have hdl : s2.dependency_list_list = s.dependency_list_list := by
        have := congrArg Symbol.dependency_list_list hcore; exact this
      rcases hcase with e | e
      · subst e
        exact ⟨s, hs0, hv, hde, e1, hdl, m1⟩
      · subst e
        exact ⟨s, hs0, hv, hde, e1, hdl, m1⟩
    · intro m hm
      have h1 : countSym st.1 m = true := by rw [hagree.count]; exact hm
      have h2 : countSym (insertSym st.1 (freshSymbol n v st.2)) m = true := by
        unfold countSym
        rw [hfind2 m]
        by_cases e : n = m
        · simp [e]
        · simpa [e, countSym] using h1
      rw [hinv.agree.count]
      exact h2
    · intro e he
      rw [hsh] at he
      exact (List.mem_filter.1 he).1

/-- The insert path of `add_set_symbol` returns when the reverse sets name existing symbols
only, the chains of dependents have at most `b < fuel` steps and every shadower owner
exists. -/
theorem add_set_symbol_insert_defined {D : DepSystem} {n v : String} {fuel b : Nat}
    (hC : ∀ a d, RevDep D a d → countSym D.symbols d = true)
    (hB : ∀ c, countSym D.symbols c = true → Bounded (RevDep D) b c)
    (hO : ShadowOwnersExist D)
    (hn : findSym D.symbols n = none) (hfuel : b + 1 ≤ fuel) :
    ∃ D1, add_set_symbol fuel D n v = Outcome.ok D1 := by
  have hrange : ∀ o ∈ (D.shadowers.filter (fun e => decide (e.1 = n))).map Prod.snd,
      countSym D.symbols o = true := by
    intro o ho
    obtain ⟨e, he, rfl⟩ := List.mem_map.1 ho
    exact hO e (List.mem_filter.1 he).1
  obtain ⟨st, hst⟩ : ∃ st, foldOpt (shadowOwner n) (D.symbols, [])
      ((D.shadowers.filter (fun e => decide (e.1 = n))).map Prod.snd) = some st :=
    shadowLoop_defined _ (D.symbols, []) hrange
  obtain ⟨hshrink, hst2⟩ := shadowLoop_shrink _ _ _ hst
  have hagree : Agree noRevLists D.symbols st.1 := shadowLoop_agree hst
  have hnone1 : findSym st.1 n = none := findSym_none_of_agree hagree hn
  obtain ⟨D2, hD2⟩ : ∃ D2 : DepSystem,
      D2 = { symbols := insertSym st.1 (freshSymbol n v st.2),
             shadowers := D.shadowers.filter (fun e => decide (e.1 ≠ n)) } := ⟨_, rfl⟩
  have hfind2 : ∀ m, findSym D2.symbols m =
      if n = m then some (freshSymbol n v st.2) else findSym st.1 m := by
    intro m
    rw [hD2]
    exact findSym_insertSym (s := freshSymbol n v st.2) hnone1 m
  have hcount2 : ∀ m, countSym D.symbols m = true → countSym D2.symbols m = true := by
    intro m hm
    unfold countSym
    rw [hfind2 m]
    by_cases hnm : n = m
    · simp [hnm]
    · simp only [hnm, if_false]
      have := hagree.count m
      unfold countSym at this hm
      rw [this]; exact hm
  have hroot : ∀ d, RevDep D2 n d → countSym D.symbols d = true := by
    rintro d ⟨sa, hsa, hd⟩
    rw [hfind2 n] at hsa
    simp only [if_true, Option.some.injEq] at hsa
    subst hsa
    rcases hd with hd | hd
    · simp [freshSymbol] at hd
    · rcases hst2 d hd with e | e
      · cases e
      · exact hrange d e
  have hold : ∀ a d, countSym D.symbols a = true → RevDep D2 a d →
      RevDep D a d ∧ countSym D.symbols d = true := by
    rintro a d ha ⟨sa, hsa, hd⟩
    have hna : ¬ n = a := by
      rintro rfl
      rw [countSym_eq_true] at ha
      obtain ⟨s, hs⟩ := ha
      rw [hn] at hs; cases hs
    rw [hfind2 a] at hsa
    simp only [hna, if_false] at hsa
    obtain ⟨s, hs, e1, m1⟩ := hshrink a sa hsa
    have hrd : RevDep D a d := by
      refine ⟨s, hs, ?_⟩
      rcases hd with hd | hd
      · exact Or.inl (e1 ▸ hd)
      · exact Or.inr (m1 d hd)
    exact ⟨hrd, hC a d hrd⟩
  have hclosed : ∀ a d, RevDep D2 a d → countSym D2.symbols d = true := by
    intro a d h
    by_cases hna : n = a
    · subst hna; exact hcount2 d (hroot d h)
    · have ha : countSym D.symbols a = true := by
        obtain ⟨sa, hsa, -⟩ := h
        rw [hfind2 a] at hsa
        simp only [hna, if_false] at hsa
        rw [← hagree.count]
        exact countSym_eq_true.2 ⟨sa, hsa⟩
      exact hcount2 d (hold a d ha h).2
  have hx : countSym D2.symbols n = true := by
    unfold countSym; rw [hfind2 n]; simp
  obtain ⟨k, rfl⟩ : ∃ k, fuel = k + 1 := ⟨fuel - 1, by omega⟩
  have hb : Bounded (RevDep D2) (k + 1) n :=
    Bounded.mk k n (fun c hc =>
      bounded_transfer (fun a => countSym D.symbols a = true) hold
        ((hB c (hroot c hc)).weaken k (by omega)) (hroot c hc))
  obtain ⟨D1, hD1, -⟩ := invalidate_dependents_spec hclosed hx hb
  refine ⟨D1, ?_⟩
  unfold add_set_symbol
  rw [hn]
  simp only [hst]
  rw [← hD1, hD2]
  rfl

/-- Setting the callback of the new symbol keeps the description of the records. -/
theorem added_set_callback {D D1 : DepSystem} {n v : String} (h : Added D D1 n v)
    (c : Option Nat) : ∃ D2, set_callback D1 n c = Outcome.ok D2 ∧ Added D D2 n v := by
  obtain ⟨hn, ⟨s1, hs1, hv, h1, h2, h3, h4⟩, hold, hcount, hsh⟩ := h
  have hname : s1.name = n := findSym_name hs1
  have hfind : ∀ m, findSym (putSym D1.symbols { s1 with callback := c }) m =
      if n = m then some { s1 with callback := c } else findSym D1.symbols m := by
    intro m
    rw [findSym_putSym]
    simp only [hname]
  refine ⟨{ D1 with symbols := putSym D1.symbols { s1 with callback := c } },
    by unfold set_callback; rw [hs1], hn, ?_, ?_, ?_, hsh⟩
  · exact ⟨{ s1 with callback := c }, by rw [hfind]; simp, hv, h1, h2, h3, h4⟩
  · intro m s2 hm hs2
    rw [hfind, if_neg (fun e => hm e.symm)] at hs2
    exact hold m s2 hm hs2
  · intro m hm
    have := hcount m hm
    unfold countSym at this ⊢
    rw [hfind]
    by_cases e : n = m
    · simp [e]
    · simpa [e] using this

theorem added_count {D D1 : DepSystem} {n v : String} (h : Added D D1 n v) (m : String) :
    countSym D1.symbols m = true ↔ m = n ∨ countSym D.symbols m = true := by
  obtain ⟨-, ⟨s1, hs1, -⟩, hold, hcount, -⟩ := h
  constructor
  · intro hm
    by_cases e : m = n
    · exact Or.inl e
    · obtain ⟨s2, hs2⟩ := countSym_eq_true.1 hm
      obtain ⟨s, hs, -⟩ := hold m s2 e hs2
      exact Or.inr (countSym_eq_true.2 ⟨s, hs⟩)
  · rintro (rfl | hm)
    · exact countSym_eq_true.2 ⟨s1, hs1⟩
    · exact hcount m hm

theorem firstExisting_added {L L1 : List Symbol} {n : String}
    (h1 : ∀ m, countSym L m = true → countSym L1 m = true)
    (h2 : ∀ m, m ≠ n → countSym L1 m = true → countSym L m = true) :
    ∀ (l : List String) (p : String), firstExisting L1 l = some p → p ≠ n →
      firstExisting L l = some p := by
  intro l
  induction l with
  | nil => intro p h; simp [firstExisting] at h
  | cons x xs ih =>
    intro p h hp
    unfold firstExisting at h ⊢
    by_cases hx : countSym L1 x = true
    · simp only [hx, if_true, Option.some.injEq] at h
      subst h
      simp [h2 x hp hx]
    · have hx0 : ¬ countSym L x = true := fun e => hx (h1 x e)
      simp only [hx, Bool.false_eq_true, if_false] at h
      simp only [hx0, Bool.false_eq_true, if_false]
      exact ih p h hp

theorem added_dep {D D1 : DepSystem} {n v : String} (h : Added D D1 n v) {q p : String}
    (hd : Dep D1 q p) : q ≠ n ∧ (p = n ∨ Dep D q p) := by
  have hcnt := added_count h
  obtain ⟨-, ⟨s1, hs1, -, he1, -, hl1, -⟩, hold, hcount, -⟩ := h
  obtain ⟨sq, hsq, hc⟩ := hd
  have hq : q ≠ n := by
    rintro rfl
    rw [hs1] at hsq
    cases hsq
    rcases hc with hc | ⟨l, hl, -⟩
    · rw [he1] at hc; cases hc
    · rw [hl1] at hl; cases hl
  refine ⟨hq, ?_⟩
  by_cases hp : p = n
  · exact Or.inl hp
  · right
    obtain ⟨s, hs, -, hde, -, hdl, -⟩ := hold q sq hq hsq
    refine ⟨s, hs, ?_⟩
    rcases hc with hc | ⟨l, hl, hfe⟩
    · exact Or.inl (hde ▸ hc)
    · refine Or.inr ⟨l, hdl ▸ hl, ?_⟩
      exact firstExisting_added hcount
        (fun m hm hm1 => ((hcnt m).1 hm1).resolve_left hm) l p hfe hp

theorem added_revDep {D D1 : DepSystem} {n v : String} (h : Added D D1 n v) {a d : String}
    (hd : RevDep D1 a d) :
    (a = n ∧ countSym D.symbols d = true) ∨ (a ≠ n ∧ RevDep D a d) := by
  obtain ⟨-, ⟨s1, hs1, -, -, hr1, -, hm1⟩, hold, -, -⟩ := h
  obtain ⟨sa, hsa, hc⟩ := hd
  by_cases ha : a = n
  · subst ha
    rw [hs1] at hsa
    cases hsa
    rcases hc with hc | hc
    · rw [hr1] at hc; cases hc
    · exact Or.inl ⟨rfl, hm1 d hc⟩
  · obtain ⟨s, hs, -, -, hre, -, hsub⟩ := hold a sa ha hsa
    refine Or.inr ⟨ha, ⟨s, hs, ?_⟩⟩
    rcases hc with hc | hc
    · exact Or.inl (hre ▸ hc)
    · exact Or.inr (hsub d hc)

theorem added_reaches {D D1 : DepSystem} {n v : String} (h : Added D D1 n v) {a b : String}
    (hr : Reaches D1 a b) : a ≠ n ∧ (b = n ∨ Reaches D a b) := by
  induction hr with
  | single hd =>
    obtain ⟨h1, h2⟩ := added_dep h hd
    exact ⟨h1, h2.imp id Relation.TransGen.single⟩
  | tail hab hd ih =>
    obtain ⟨h1, h2⟩ := added_dep h hd
    obtain ⟨h3, h4⟩ := ih
    refine ⟨h3, ?_⟩
    rcases h2 with e | e
    · exact Or.inl e
    · exact Or.inr (Relation.TransGen.tail (h4.resolve_left h1) e)

theorem added_bounded_dep {D D1 : DepSystem} {n v : String} (h : Added D D1 n v) {k : Nat}
    {c : String} (hb : Bounded (Dep D) k c) : Bounded (Dep D1) (k + 1) c := by
  induction hb with
  | mk k s _ ih =>
    refine Bounded.mk (k + 1) s (fun c hc => ?_)
    obtain ⟨-, h2⟩ := added_dep h hc
    rcases h2 with e | e
    · subst e
      exact Bounded.mk k c (fun c1 hc1 => absurd rfl (added_dep h hc1).1)
    · exact ih c e

/-- Adding a missing symbol keeps what the statements of `augment_depsystem` need, with
chains one step longer. -/
theorem augmentInv_added {D D1 : DepSystem} {n v : String} {b : Nat} (hI : AugmentInv D b)
    (h : Added D D1 n v) : AugmentInv D1 (b + 1) := by
  obtain ⟨hE, hA, hC, hBr, hBd, hO⟩ := hI
  have hcnt := added_count h
  have hn : findSym D.symbols n = none := h.1
  have hn0 : ¬ countSym D.symbols n = true := by
    intro e
    obtain ⟨s, hs⟩ := countSym_eq_true.1 e
    rw [hn] at hs; cases hs
  refine ⟨?_, ?_, ?_, ?_, ?_, ?_⟩
  · intro b1 sb hsb
    obtain ⟨-, ⟨s1, hs1, -, he1, hr1, -, -⟩, hold, hcount, -⟩ := h
    by_cases hb1 : b1 = n
    · subst hb1
      rw [hs1] at hsb
      cases hsb
      exact ⟨fun a ha => (by rw [he1] at ha; cases ha),
        fun a ha => (by rw [hr1] at ha; cases ha)⟩
    · obtain ⟨s, hs, -, hde, hre, -, -⟩ := hold b1 sb hb1 hsb
      obtain ⟨hf, hr⟩ := hE b1 s hs
      constructor
      · intro a ha
        obtain ⟨sa, hsa, hm⟩ := hf a (hde ▸ ha)
        have han : a ≠ n := by rintro rfl; rw [hn] at hsa; cases hsa
        obtain ⟨sa1, hsa1⟩ := countSym_eq_true.1 (hcount a (countSym_eq_true.2 ⟨sa, hsa⟩))
        obtain ⟨s', hs', -, -, hre', -, -⟩ := hold a sa1 han hsa1
        rw [hsa] at hs'
        cases hs'
        exact ⟨sa1, hsa1, hre' ▸ hm⟩
      · intro a ha
        obtain ⟨sa, hsa, hm⟩ := hr a (hre ▸ ha)
        have han : a ≠ n := by rintro rfl; rw [hn] at hsa; cases hsa
        obtain ⟨sa1, hsa1⟩ := countSym_eq_true.1 (hcount a (countSym_eq_true.2 ⟨sa, hsa⟩))
        obtain ⟨s', hs', -, hde', -, -, -⟩ := hold a sa1 han hsa1
        rw [hsa] at hs'
        cases hs'
        exact ⟨sa1, hsa1, hde' ▸ hm⟩
  · intro s hs
    obtain ⟨h1, h2⟩ := added_reaches h hs
    exact hA s (h2.resolve_left h1)
  · intro a d hd
    rcases added_revDep h hd with ⟨-, hc⟩ | ⟨-, hr⟩
    · exact (hcnt d).2 (Or.inr hc)
    · exact (hcnt d).2 (Or.inr (hC a d hr))
  · have hold : ∀ c, countSym D.symbols c = true → Bounded (RevDep D1) b c := by
      intro c hc
      refine bounded_transfer (fun a => countSym D.symbols a = true) ?_ (hBr c hc) hc
      intro a d ha hd
      rcases added_revDep h hd with ⟨e, -⟩ | ⟨-, hr⟩
      · subst e; exact absurd ha hn0
      · exact ⟨hr, hC a d hr⟩
    intro c hc
    rcases (hcnt c).1 hc with e | e
    · subst e
      refine Bounded.mk b c (fun d hd => ?_)
      rcases added_revDep h hd with ⟨-, hd1⟩ | ⟨hne, -⟩
      · exact hold d hd1
      · exact absurd rfl hne
    · exact (hold c e).weaken (b + 1) (by omega)
  · intro c hc
    rcases (hcnt c).1 hc with e | e
    · subst e
      exact Bounded.mk b c (fun c1 hc1 => absurd rfl (added_dep h hc1).1)
    · exact added_bounded_dep h (hBd c e)
  · intro e he
    exact (hcnt e.2).2 (Or.inr (hO e (h.2.2.2.2 e he)))

theorem added_keeps {D D1 : DepSystem} {n v : String} (h : Added D D1 n v) : Keeps D D1 := by
  intro m s hs
  obtain ⟨hn, -, hold, hcount, -⟩ := h
  have hm : m ≠ n := by rintro rfl; rw [hn] at hs; cases hs
  obtain ⟨s1, hs1⟩ := countSym_eq_true.1 (hcount m (countSym_eq_true.2 ⟨s, hs⟩))
  obtain ⟨s', hs', hv, hde, -⟩ := hold m s1 hm hs1
  rw [hs] at hs'
  cases hs'
  exact ⟨s1, hs1, hv, hde⟩

/-- The lambda `add_if_not_present` on a name inside the working directory returns; the
symbol exists afterwards, with the value `v` and no dependency edge when it was created, and
the other records keep their value and dependency edges. -/
theorem add_if_not_present_spec {D : DepSystem} {n v : String} {fuel b : Nat}
    (hI : AugmentInv D b) (hfuel : b + 1 ≤ fuel) (hout : startsOutside n = false) :
    ∃ D1, add_if_not_present fuel D n v = Result.ok D1 ∧ AugmentInv D1 (b + 1) ∧
      has_symbol D1 n = true ∧ Keeps D D1 ∧
      (∀ m, has_symbol D1 m = true ↔ m = n ∨ has_symbol D m = true) ∧
      (has_symbol D n = false →
        ∃ s1, findSym D1.symbols n = some s1 ∧ s1.value = v ∧ s1.dependency_edges = []) := by
  by_cases hh : has_symbol D n = true
  · refine ⟨D, by simp [add_if_not_present, hh], ?_, hh, fun m s hs => ⟨s, hs, rfl, rfl⟩, ?_,
      fun e => by rw [hh] at e; cases e⟩
    · obtain ⟨hE, hA, hC, hBr, hBd, hO⟩ := hI
      exact ⟨hE, hA, hC, fun c hc => (hBr c hc).weaken _ (by omega),
        fun c hc => (hBd c hc).weaken _ (by omega), hO⟩
    · intro m
      constructor
      · exact fun e => Or.inr e
      · rintro (rfl | e)
        · exact hh
        · exact e
  · have hh0 : has_symbol D n = false := by simpa using hh
    have hn : findSym D.symbols n = none := countSym_eq_false.1 hh0
    obtain ⟨D1, hD1⟩ := add_set_symbol_insert_defined (v := v) hI.2.2.1 hI.2.2.2.1
      hI.2.2.2.2.2 hn hfuel
    have hadd := add_set_symbol_insert_added hI.2.2.2.2.2 hn hD1
    obtain ⟨D2, hD2, hadd2⟩ := added_set_callback hadd (some dep_callback)
    obtain ⟨s1, hs1, hv, he, -⟩ := hadd2.2.1
    refine ⟨D2, ?_, augmentInv_added hI hadd2, countSym_eq_true.2 ⟨s1, hs1⟩,
      added_keeps hadd2, added_count hadd2, fun _ => ⟨s1, hs1, hv, he⟩⟩
    simp [add_if_not_present, hh0, hout, addWithCallback, hD1, liftOutcome, hD2]

/-- When the edge closes no cycle, `add_dependency` returns the system with the edge. -/
theorem add_dependency_returns {D : DepSystem} {f t : String} {fuel : Nat} {F T : Symbol}
    (hE : EdgeSymmetric D) (hb : Bounded (Dep D) fuel t)
    (hF : findSym D.symbols f = some F) (hT : findSym D.symbols t = some T)
    (hno : ¬ (t = f ∨ Reaches D t f)) :
    add_dependency fuel D f t = Outcome.ok (withEdge D F T f t) := by
  have hdet : detect_cycle (withEdge D F T f t) fuel t f = some false := by
    rw [detect_cycle_congr (D := D) f (fun n => (withEdge_agree hF hT).count n) ?_ fuel t]
    · obtain ⟨x, hx, hP⟩ := detect_cycle_spec hE f fuel t hb (countSym_eq_true.2 ⟨T, hT⟩)
      rw [hx]
      cases x with
      | false => rfl
      | true => exact absurd (hP.1 rfl) hno
    · intro n s1 hn hs1
      rw [findSym_withEdge hF hT] at hs1
      by_cases htn : t = n
      · subst htn
        simp only [if_true, Option.some.injEq] at hs1
        subst hs1
        exact ⟨T, hT, rfl, rfl⟩
      · have hfn : ¬ f = n := fun e => hn e.symm
        simp only [htn, hfn, if_false] at hs1
        exact ⟨s1, hs1, rfl, rfl⟩
  unfold add_dependency
  rw [hF, hT]
  change (match detect_cycle (withEdge D F T f t) fuel t f with
    | none => Outcome.undefined
    | some false => Outcome.ok (withEdge D F T f t)
    | some true =>
      match delete_dependency (withEdge D F T f t) f t with
      | Outcome.ok D2 => Outcome.threw Error.CyclicDependency D2
      | other => other) = _
  rw [hdet]

theorem tokenize_dependency {A B : String} {delimiters : List Char}
    (hsp : ' ' ∈ delimiters) (hnl : '\n' ∈ delimiters) (hslash : '/' ∉ delimiters)
    (hAne : A ≠ "") (hAd : ∀ c ∈ A.data, c ∉ delimiters)
    (hBne : B ≠ "") (hBd : ∀ c ∈ B.data, c ∉ delimiters) :
    tokenize (A ++ " / " ++ B ++ "\n") delimiters = [A, "/", B] := by
  have hline : A ++ " / " ++ B ++ "\n" =
      String.mk (A.data ++ ' ' :: (['/'] ++ ' ' :: (B ++ "\n").data)) := by
    apply String.ext
    simp [String.data_append]
  rw [hline, tokenize_sep _ _ hsp, tokenize_sep _ _ hsp]
  show tokenize A delimiters ++ (tokenize "/" delimiters ++ tokenize (B ++ "\n") delimiters) = _
  rw [tokenize_word hAne hAd, tokenize_line_end _ hnl, tokenize_word hBne hBd,
    tokenize_word (by decide) (by
      intro c hc
      have : c = '/' := by simpa using hc
      rw [this]; exact hslash)]
  rfl

/-- The statement `A / B` on a system that satisfies the invariants, for names inside the
working directory such that the new edge closes no cycle. -/
theorem augmentDependency_spec {D : DepSystem} {fuel b : Nat} {A B : String}
    (hI : AugmentInv D b) (hfuel : b + 2 ≤ fuel)
    (hAout : startsOutside A = false) (hBout : startsOutside B = false) (hAB : A ≠ B)
    (hnc : ∀ Da Db, add_if_not_present fuel D A "" = Result.ok Da →
      add_if_not_present fuel Da B "" = Result.ok Db → ¬ Reaches Db A B) :
    ∃ D1, augmentDependency fuel D A B = Result.ok D1 ∧
      has_symbol D1 A = true ∧ has_symbol D1 B = true ∧
      has_dependency D1 B A = Outcome.ok true ∧
      (∃ x, has_dependency D1 A B = Outcome.ok x ∧
        (x = true ↔ has_dependency D A B = Outcome.ok true)) ∧
      (has_symbol D A = false → get_value D1 A = Outcome.ok "") ∧
      (has_symbol D B = false → get_value D1 B = Outcome.ok "") ∧
      (∀ v, get_value D A = Outcome.ok v → get_value D1 A = Outcome.ok v) ∧
      ∀ v, get_value D B = Outcome.ok v → get_value D1 B = Outcome.ok v := by
  obtain ⟨Da, hDa, hIa, hAa, hKa, hCa, hNa⟩ :=
    add_if_not_present_spec (v := "") hI (by omega : b + 1 ≤ fuel) hAout
  obtain ⟨Db, hDb, hIb, hBb, hKb, hCb, hNb⟩ :=
    add_if_not_present_spec (v := "") hIa (by omega : b + 1 + 1 ≤ fuel) hBout
  have hAb : has_symbol Db A = true := (hCb A).2 (Or.inr hAa)
  obtain ⟨T, hT⟩ := countSym_eq_true.1 hAb
  obtain ⟨F, hF⟩ := countSym_eq_true.1 hBb
  have hno : ¬ (A = B ∨ Reaches Db A B) := by
    rintro (e | e)
    · exact hAB e
    · exact hnc Da Db hDa hDb e
  have hadd := add_dependency_returns hIb.1
    ((hIb.2.2.2.2.1 A hAb).weaken fuel (by omega)) hF hT hno
  have hBA : ¬ B = A := fun e => hAB e.symm
  have hfA : findSym (withEdge Db F T B A).symbols A =
      some { T with reverse_dependency_edges := setInsert B T.reverse_dependency_edges } := by
    rw [findSym_withEdge hF hT]; simp
  have hfB : findSym (withEdge Db F T B A).symbols B =
      some { F with dependency_edges := setInsert A F.dependency_edges } := by
    rw [findSym_withEdge hF hT]; simp [hAB]
  -- the records of `A` and `B` before the edge is added
  have hkeep : Keeps D Db := fun m s hs => by
    obtain ⟨s1, hs1, hv1, he1⟩ := hKa m s hs
    obtain ⟨s2, hs2, hv2, he2⟩ := hKb m s1 hs1
    exact ⟨s2, hs2, hv2.trans hv1, he2.trans he1⟩
  have hnewA : has_symbol D A = false → T.value = "" ∧ T.dependency_edges = [] := by
    intro hA0
    obtain ⟨s1, hs1, hv1, he1⟩ := hNa hA0
    obtain ⟨s2, hs2, hv2, he2⟩ := hKb A s1 hs1
    rw [hT] at hs2
    cases hs2
    exact ⟨hv2.trans hv1, he2.trans he1⟩
  have hnewB : has_symbol D B = false → F.value = "" := by
    intro hB0
    have hBa : has_symbol Da B = false := by
      cases hx : has_symbol Da B with
      | false => rfl
      | true =>
        rcases (hCa B).1 hx with e | e
        · exact absurd e hBA
        · rw [hB0] at e; cases e
    obtain ⟨s1, hs1, hv1, -⟩ := hNb hBa
    rw [hF] at hs1
    cases hs1
    exact hv1
  refine ⟨withEdge Db F T B A, ?_, ?_, ?_, ?_, ?_, ?_, ?_, ?_, ?_⟩
  · simp [augmentDependency, hDa, hDb, hBout, hadd, liftOutcome]
  · exact countSym_eq_true.2 ⟨_, hfA⟩
  · exact countSym_eq_true.2 ⟨_, hfB⟩
  · unfold has_dependency
    rw [hfB, hfA]
    simp [mem_setInsert]
  · refine ⟨decide (B ∈ T.dependency_edges), ?_, ?_⟩
    · unfold has_dependency
      rw [hfA, hfB]
    · simp only [decide_eq_true_eq]
      unfold has_dependency
      constructor
      · intro hm
        cases hA0 : findSym D.symbols A with
        | none =>
          have := (hnewA (countSym_eq_false.2 hA0)).2
          rw [this] at hm; cases hm
        | some sa =>
          obtain ⟨s2, hs2, -, he2⟩ := hkeep A sa hA0
          rw [hT] at hs2
          cases hs2
          obtain ⟨sb, hsb, -⟩ := (hI.1 A sa hA0).1 B (he2 ▸ hm)
          simp only [hsb]
          rw [he2] at hm
          simp [hm]
      · intro hd
        cases hA0 : findSym D.symbols A with
        | none => rw [hA0] at hd; cases hd
        | some sa =>
          rw [hA0] at hd
          simp only at hd
          cases hB0 : findSym D.symbols B with
          | none => rw [hB0] at hd; cases hd
          | some sb =>
            rw [hB0] at hd
            simp only [Outcome.ok.injEq, decide_eq_true_eq] at hd
            obtain ⟨s2, hs2, -, he2⟩ := hkeep A sa hA0
            rw [hT] at hs2
            cases hs2
            rw [he2]; exact hd
  · intro hA0
    unfold get_value
    rw [hfA]
    simp [(hnewA hA0).1]
  · intro hB0
    unfold get_value
    rw [hfB]
    simp [hnewB hB0]
  · intro v hv
    unfold get_value at hv ⊢
    cases hA0 : findSym D.symbols A with
    | none => rw [hA0] at hv; cases hv
    | some sa =>
      rw [hA0] at hv
      simp only [Outcome.ok.injEq] at hv
      obtain ⟨s2, hs2, hv2, -⟩ := hkeep A sa hA0
      rw [hT] at hs2
      cases hs2
      rw [hfA]
      simp [hv2, hv]
  · intro v hv
    unfold get_value at hv ⊢
    cases hB0 : findSym D.symbols B with
    | none => rw [hB0] at hv; cases hv
    | some sb =>
      rw [hB0] at hv
      simp only [Outcome.ok.injEq] at hv
      obtain ⟨s2, hs2, hv2, -⟩ := hkeep B sb hB0
      rw [hF] at hs2
      cases hs2
      rw [hfB]
      simp [hv2, hv]

/-- C30: for a `DepSystem` that satisfies the graph invariants, and nonempty names `A`, `B`
without delimiter character that do not start with `../`, such that the command scanner
accepts the statement `A / B` without sentinel and the edge from `B` to `A` closes no cycle
(`A` and `B` differ and, once both symbols exist, `A` does not reach `B`): augmenting with the
statement `A / B` (identity mutator) returns; afterwards `A` and `B` exist,
`has_dependency(B, A)` is true and `has_dependency(A, B)` is true exactly when it was true
before; a symbol among `A`, `B` that did not exist has the empty value, and one that existed
keeps its value.  The delimiters of `tokenize` are any set that holds the space and the
newline and not the slash. -/
theorem C30_bif_dependency (D : DepSystem) (fuel : Nat) (A B : String)
    (delimiters : List Char) (toks : List String)
    (hE : EdgeSymmetric D) (hA : Acyclic D) (hR : RevListsExact D) (hO : ShadowOwnersExist D)
    (hfuel : D.symbols.length + 2 ≤ fuel)
    (hsp : ' ' ∈ delimiters) (hnl : '\n' ∈ delimiters) (hslash : '/' ∉ delimiters)
    (hAne : A ≠ "") (hAd : ∀ c ∈ A.data, c ∉ delimiters)
    (hBne : B ≠ "") (hBd : ∀ c ∈ B.data, c ∉ delimiters)
    (hAout : startsOutside A = false) (hBout : startsOutside B = false)
    (hscan : scan_line [] [] (A ++ " / " ++ B) = Except.ok (toks, []))
    (hAB : A ≠ B)
    (hnc : ∀ Da Db, add_if_not_present fuel D A "" = Result.ok Da →
      add_if_not_present fuel Da B "" = Result.ok Db → ¬ Reaches Db A B) :
    ∃ D1 din1,
      augment_depsystem fuel { lines := [A ++ " / " ++ B] } D id delimiters =
        Result.ok (D1, din1) ∧
      has_symbol D1 A = true ∧ has_symbol D1 B = true ∧
      has_dependency D1 B A = Outcome.ok true ∧
      (∃ x, has_dependency D1 A B = Outcome.ok x ∧
        (x = true ↔ has_dependency D A B = Outcome.ok true)) ∧
      (has_symbol D A = false → get_value D1 A = Outcome.ok "") ∧
      (has_symbol D B = false → get_value D1 B = Outcome.ok "") ∧
      (∀ v, get_value D A = Outcome.ok v → get_value D1 A = Outcome.ok v) ∧
      ∀ v, get_value D B = Outcome.ok v → get_value D1 B = Outcome.ok v := by
  obtain ⟨D1, hD1, hrest⟩ := augmentDependency_spec
    (augmentInv_of_invariants hE hA hR hO) hfuel hAout hBout hAB hnc
  have ht := tokenize_dependency hsp hnl hslash hAne hAd hBne hBd
  have hl : A ++ " / " ++ B ++ "\n" ≠ "\n" := by
    intro e
    rw [e] at ht
    have h2 : tokenize "\n" delimiters = [] := by
      have := tokenize_line_end "" hnl
      rw [tokenize_nil] at this
      exact this
    rw [h2] at ht
    cases ht
  have hs : augmentStatement fuel id D (A ++ " / " ++ B ++ "\n") A ["/", B] = Result.ok D1 := by
    simp only [augmentStatement, ne_eq, not_true_eq_false, if_false, id]
    exact hD1
  exact ⟨D1, _, augment_single hscan hl ht hs, hrest⟩

/-- C30, on `planExample` with the statement `c / n`: `c` exists and `n` is created. -/
theorem C30_bif_dependency_witness :
    (EdgeSymmetric planExample ∧ Acyclic planExample ∧ RevListsExact planExample ∧
      ShadowOwnersExist planExample ∧ planExample.symbols.length + 2 ≤ 5 ∧
      scan_line [] [] ("c" ++ " / " ++ "n") = Except.ok (["c", "/", "n"], []) ∧
      has_symbol planExample "c" = true ∧ has_symbol planExample "n" = false) ∧
    ∃ D1 din1,
      augment_depsystem 5 { lines := ["c" ++ " / " ++ "n"] } planExample id
        [' ', '\t', '\n'] = Result.ok (D1, din1) ∧
      has_symbol D1 "c" = true ∧ has_symbol D1 "n" = true ∧
      has_dependency D1 "n" "c" = Outcome.ok true ∧
      (∃ x, has_dependency D1 "c" "n" = Outcome.ok x ∧
        (x = true ↔ has_dependency planExample "c" "n" = Outcome.ok true)) ∧
      (has_symbol planExample "c" = false → get_value D1 "c" = Outcome.ok "") ∧
      (has_symbol planExample "n" = false → get_value D1 "n" = Outcome.ok "") ∧
      (∀ v, get_value planExample "c" = Outcome.ok v → get_value D1 "c" = Outcome.ok v) ∧
      ∀ v, get_value planExample "n" = Outcome.ok v → get_value D1 "n" = Outcome.ok v :=
  ⟨⟨planExample_edges, planExample_acyclic, planExample_revlists, planExample_owners,
      by decide, rfl, rfl, rfl⟩,
    C30_bif_dependency planExample 5 "c" "n" [' ', '\t', '\n'] ["c", "/", "n"]
      planExample_edges planExample_acyclic planExample_revlists planExample_owners
      (by decide) (by decide) (by decide) (by decide) (by decide) (by decide) (by decide)
      (by decide) rfl rfl rfl (by decide)
      (by
        intro Da Db h1 h2 hr
        have e1 : add_if_not_present 5 planExample "c" "" = Result.ok planExample := rfl
        rw [e1] at h1
        injection h1 with h1
        subst h1
        obtain ⟨p, hd, -⟩ := Relation.TransGen.head'_iff.1 hr
        obtain ⟨sq, hsq, hc⟩ := hd
        have hq : ∃ D2, add_if_not_present 5 planExample "n" "" = Result.ok D2 ∧
            findSym D2.symbols "c" =
              some { name := "c", value := "", state := VALID } := ⟨_, rfl, rfl⟩
        obtain ⟨D2, hD2, hf⟩ := hq
        rw [hD2] at h2
        injection h2 with h2
        subst h2
        rw [hf] at hsq
        injection hsq with hsq
        subst hsq
        simp at hc)⟩

/-- C32: for every sub-directory name `S` and every name `x`, the output mutator applied to
the input mutator's result `../x` returns `x`; and for every name `y` that does not begin with
`../` the output mutator returns `S`, a slash and `y`. -/
theorem C32_path_mutator_round_trip (S : String) :
    (∀ x, output_mutator S (input_mutator x) = x) ∧
    ∀ y, startsOutside y = false → output_mutator S y = S ++ "/" ++ y := by
  constructor
  · intro x
    have hd : (input_mutator x).data = '.' :: '.' :: '/' :: x.data := by
      simp [input_mutator, String.data_append]
    have hs : startsOutside (input_mutator x) = true := by
      simp [startsOutside, hd]
    unfold output_mutator
    rw [if_pos hs, hd]
    rfl
  · intro y hy
    unfold output_mutator
    simp [hy]

/-- C32, on the sub-directory `sub` and the names `a.o` and `b.c`. -/
theorem C32_path_mutator_round_trip_witness :
    output_mutator "sub" (input_mutator "a.o") = "a.o" ∧
    startsOutside "b.c" = false ∧ output_mutator "sub" "b.c" = "sub" ++ "/" ++ "b.c" :=
  ⟨(C32_path_mutator_round_trip "sub").1 "a.o", rfl,
    (C32_path_mutator_round_trip "sub").2 "b.c" rfl⟩

/-- C33: in a `DepSystem` with symmetric edges and no cycle, for existing symbols `from` and
`target` and fuel for the depth of the graph, `detect_cycle(from, target)` returns, and it
returns true exactly when `target` is `from` or `from` reaches `target` through dependency
edges and first existing elements of ordered lists. -/
theorem C33_detect_cycle_reachability (D : DepSystem) (from_name target : String) (fuel : Nat)
    (hE : EdgeSymmetric D) (hA : Acyclic D)
    (hf : has_symbol D from_name = true) (_ht : has_symbol D target = true)
    (hfuel : D.symbols.length ≤ fuel) :
    ∃ b, detect_cycle D fuel from_name target = some b ∧
      (b = true ↔ target = from_name ∨ Reaches D from_name target) := by
  obtain ⟨b, hb, hP⟩ := detect_cycle_spec hE target fuel from_name
    (bounded_dep hE hA hf hfuel) hf
  refine ⟨b, hb, hP.trans ?_⟩
  constructor
  · rintro (e | e)
    · exact Or.inl e.symm
    · exact Or.inr e
  · rintro (e | e)
    · exact Or.inl e.symm
    · exact Or.inr e

/-- C33, on `chainExample` (`a → b → c`): from `a` the search finds `c`, from `c` it does not
find `a`. -/
theorem C33_detect_cycle_reachability_witness :
    (EdgeSymmetric chainExample ∧ Acyclic chainExample ∧ chainExample.symbols.length ≤ 3) ∧
    (∃ b, detect_cycle chainExample 3 "a" "c" = some b ∧
      (b = true ↔ "c" = "a" ∨ Reaches chainExample "a" "c")) ∧
    detect_cycle chainExample 3 "a" "c" = some true ∧
    detect_cycle chainExample 3 "c" "a" = some false :=
  ⟨⟨chainExample_edges, chainExample_acyclic, by decide⟩,
    C33_detect_cycle_reachability chainExample "a" "c" 3 chainExample_edges
      chainExample_acyclic rfl rfl (by decide),
    by decide, by decide⟩

/-- On a line that is not the end-of-stream command and has no token, the loop of
`augment_depsystem` has not ended after any number of iterations. -/
theorem augmentLoop_no_token (fuel : Nat) (mutator : String → String)
    (delimiters : List Char) (din : IStream) (D : DepSystem) (line : String)
    (hl : line ≠ "\n") (ht : tokenize line delimiters = []) :
    ∀ steps, augmentLoop fuel mutator delimiters steps din D line = Result.undefined := by
  intro steps
  induction steps with
  | zero => rfl
  | succ k ih =>
    rw [augmentLoop]
    simp only [hl, if_false, ht]
    exact ih

/-- C35: on the stream whose lines are one space and then `x echo`, `get_command` returns the
command made of the space and a newline, which has no token for the delimiters space, tab and
newline; the loop takes the `continue` and examines the same command again, so that after any
number of iterations it has neither returned nor failed and the line `x echo` is still unread.
The same happens for a line made of a tab.  Without the blank line the stream is read to its
end. -/
theorem C35_blank_line_loops_forever :
    get_command { lines := [" ", "x echo"] } = Result.ok (" \n", { lines := ["x echo"] }) ∧
    tokenize " \n" [' ', '\t', '\n'] = [] ∧
    (∀ steps, augmentLoop 5 id [' ', '\t', '\n'] steps { lines := ["x echo"] } {} " \n" =
      Result.undefined) ∧
    augment_depsystem 5 { lines := [" ", "x echo"] } {} id [' ', '\t', '\n'] =
      Result.undefined ∧
    (∀ steps, augmentLoop 5 id [' ', '\t', '\n'] steps { lines := [] } {} "\t\n" =
      Result.undefined) ∧
    ∃ D1 din1, augment_depsystem 5 { lines := ["x echo"] } {} id [' ', '\t', '\n'] =
      Result.ok (D1, din1) ∧ din1.lines = [] :=
  ⟨rfl, rfl,
    augmentLoop_no_token 5 id [' ', '\t', '\n'] { lines := ["x echo"] } {} " \n" (by decide) rfl,
    augmentLoop_no_token 5 id [' ', '\t', '\n'] { lines := ["x echo"] } {} " \n" (by decide)
      rfl 4,
    augmentLoop_no_token 5 id [' ', '\t', '\n'] { lines := [] } {} "\t\n" (by decide) rfl,
    ⟨_, _, rfl, rfl⟩⟩

/-- An exception of the first statement of the stream leaves `augment_depsystem`. -/
theorem augment_first_threw {fuel : Nat} {D : DepSystem} {S t0 : String}
    {rest toks more : List String} {mutator : String → String} {delimiters : List Char}
    {e : BakeError × DepSystem}
    (hscan : scan_line [] [] S = Except.ok (toks, []))
    (hl : S ++ "\n" ≠ "\n") (ht : tokenize (S ++ "\n") delimiters = t0 :: rest)
    (hs : augmentStatement fuel mutator D (S ++ "\n") t0 rest = Result.threw e) :
    augment_depsystem fuel { lines := S :: more } D mutator delimiters = Result.threw e := by
  unfold augment_depsystem
  rw [get_command_single hscan more]
  simp only [List.length_cons]
  rw [augmentLoop]
  simp only [hl, if_false, ht, hs]

/-- Adding an edge that is there already changes nothing. -/
theorem add_dependency_existing {D : DepSystem} {f t : String} {fuel : Nat}
    (hE : EdgeSymmetric D) (hA : Acyclic D) (hfuel : D.symbols.length ≤ fuel)
    (h : has_dependency D f t = Outcome.ok true) :
    add_dependency fuel D f t = Outcome.ok D := by
  unfold has_dependency at h
  cases hF : findSym D.symbols f with
  | none => rw [hF] at h; cases h
  | some F =>
    rw [hF] at h
    simp only at h
    cases hT : findSym D.symbols t with
    | none => rw [hT] at h; cases h
    | some T =>
      rw [hT] at h
      simp only [Outcome.ok.injEq, decide_eq_true_eq] at h
      obtain ⟨T1, hT1, hrev⟩ := (hE f F hF).1 t h
      rw [hT] at hT1
      cases hT1
      have hd : Dep D f t := ⟨F, hF, Or.inl h⟩
      have hno : ¬ (t = f ∨ Reaches D t f) := by
        rintro (e | e)
        · subst e
          exact hA t (Relation.TransGen.single hd)
        · exact hA f (Relation.TransGen.head hd e)
      rw [add_dependency_returns hE
        (bounded_dep hE hA (countSym_eq_true.2 ⟨T, hT⟩) hfuel) hF hT hno]
      have e1 : setInsert t F.dependency_edges = F.dependency_edges := by
        unfold setInsert; rw [if_pos h]
      have e2 : setInsert f T.reverse_dependency_edges = T.reverse_dependency_edges := by
        unfold setInsert; rw [if_pos hrev]
      have hFn : findSym D.symbols F.name = some F := by rw [findSym_name hF]; exact hF
      have hTn : findSym D.symbols T.name = some T := by rw [findSym_name hT]; exact hT
      unfold withEdge
      simp only [e1, e2]
      rw [putSym_self hFn, putSym_self hTn]

/-- C31: let `A / B` be a statement whose names are nonempty and without delimiter character
and which the command scanner accepts without sentinel, and let `m` be the mutator.
(1) When `m(B)` begins with `../` and `D` has both symbols but not the dependency from `m(B)`
to `m(A)`, `augment_depsystem` fails with OutOfScopeDependency and leaves `D` as it was.
(2) When `m(B)` begins with `../` and `D`, with symmetric edges and no cycle, has that
dependency already, the statement is accepted and the result is `D`.
(3) When `m(A)` does not exist and begins with `../`, the statement fails and leaves `D`; when
`m(B)` does not exist and begins with `../`, it fails after `add_if_not_present` for `m(A)`
has returned.  The failure of (3) is "Attempted to add symbol outside working directory.".
The delimiters of `tokenize` are any set that holds the space and the newline and not the
slash. -/
theorem C31_out_of_scope_dependency (D : DepSystem) (fuel : Nat) (m : String → String)
    (A B : String) (delimiters : List Char) (toks more : List String)
    (hsp : ' ' ∈ delimiters) (hnl : '\n' ∈ delimiters) (hslash : '/' ∉ delimiters)
    (hAne : A ≠ "") (hAd : ∀ c ∈ A.data, c ∉ delimiters)
    (hBne : B ≠ "") (hBd : ∀ c ∈ B.data, c ∉ delimiters)
    (hscan : scan_line [] [] (A ++ " / " ++ B) = Except.ok (toks, [])) :
    (startsOutside (m B) = true → has_dependency D (m B) (m A) = Outcome.ok false →
      augment_depsystem fuel { lines := (A ++ " / " ++ B) :: more } D m delimiters =
        Result.threw (BakeError.OutOfScopeDependency, D)) ∧
    (startsOutside (m B) = true → has_dependency D (m B) (m A) = Outcome.ok true →
      EdgeSymmetric D → Acyclic D → D.symbols.length ≤ fuel →
      ∃ din1, augment_depsystem fuel { lines := [A ++ " / " ++ B] } D m delimiters =
        Result.ok (D, din1)) ∧
    (startsOutside (m A) = true → has_symbol D (m A) = false →
      augment_depsystem fuel { lines := (A ++ " / " ++ B) :: more } D m delimiters =
        Result.threw (BakeError.SymbolOutsideWorkingDirectory, D)) ∧
    (startsOutside (m B) = true → ∀ Da, add_if_not_present fuel D (m A) "" = Result.ok Da →
      has_symbol Da (m B) = false →
      augment_depsystem fuel { lines := (A ++ " / " ++ B) :: more } D m delimiters =
        Result.threw (BakeError.SymbolOutsideWorkingDirectory, Da)) := by
  have ht := tokenize_dependency hsp hnl hslash hAne hAd hBne hBd
  have hl : A ++ " / " ++ B ++ "\n" ≠ "\n" := by
    intro e
    rw [e] at ht
    have h2 : tokenize "\n" delimiters = [] := by
      have := tokenize_line_end "" hnl
      rw [tokenize_nil] at this
      exact this
    rw [h2] at ht
    cases ht
  have hst : augmentStatement fuel m D (A ++ " / " ++ B ++ "\n") A ["/", B] =
      augmentDependency fuel D (m A) (m B) := by
    simp only [augmentStatement, ne_eq, not_true_eq_false, if_false]
  have hboth : ∀ {x : Bool}, has_dependency D (m B) (m A) = Outcome.ok x →
      has_symbol D (m A) = true ∧ has_symbol D (m B) = true := by
    intro x h
    unfold has_dependency at h
    cases hF : findSym D.symbols (m B) with
    | none => rw [hF] at h; cases h
    | some F =>
      rw [hF] at h
      simp only at h
      cases hT : findSym D.symbols (m A) with
      | none => rw [hT] at h; cases h
      | some T => exact ⟨countSym_eq_true.2 ⟨T, hT⟩, countSym_eq_true.2 ⟨F, hF⟩⟩
  refine ⟨?_, ?_, ?_, ?_⟩
  · intro hout hdep
    obtain ⟨hA1, hB1⟩ := hboth hdep
    apply augment_first_threw hscan hl ht
    rw [hst]
    simp [augmentDependency, add_if_not_present, hA1, hB1, hout, hdep]
  · intro hout hdep hE hA hfuel
    obtain ⟨hA1, hB1⟩ := hboth hdep
    refine ⟨_, augment_single hscan hl ht ?_⟩
    rw [hst]
    simp [augmentDependency, add_if_not_present, hA1, hB1, hout, hdep,
      add_dependency_existing hE hA hfuel hdep, liftOutcome]
  · intro hout hA0
    apply augment_first_threw hscan hl ht
    rw [hst]
    simp [augmentDependency, add_if_not_present, hA0, hout]
  · intro hout Da hDa hB0
    apply augment_first_threw hscan hl ht
    rw [hst]
    simp [augmentDependency, hDa]
    simp [add_if_not_present, hB0, hout]

theorem outsideExample_edges : EdgeSymmetric outsideExample :=
  edgeSymmetric_of_check (by decide)

theorem outsideExample_acyclic : Acyclic outsideExample :=
  acyclic_of_rank (fun n => if n = "../app" then 1 else 0) (by decide)

/-- C31, on `outsideExample` with the input mutator of the sub mode: `app / lib` asks for the
new dependency of `../lib` on `../app` and fails; `lib / app` repeats the dependency that is
there and is accepted; `x / lib` and `lib / y` name a symbol outside that does not exist and
fail. -/
theorem C31_out_of_scope_dependency_witness :
    (EdgeSymmetric outsideExample ∧ Acyclic outsideExample ∧
      outsideExample.symbols.length ≤ 2 ∧
      has_dependency outsideExample "../lib" "../app" = Outcome.ok false ∧
      has_dependency outsideExample "../app" "../lib" = Outcome.ok true ∧
      has_symbol outsideExample "../x" = false ∧ has_symbol outsideExample "../y" = false) ∧
    augment_depsystem 2 { lines := ["app" ++ " / " ++ "lib"] } outsideExample input_mutator
      [' ', '\t', '\n'] = Result.threw (BakeError.OutOfScopeDependency, outsideExample) ∧
    (∃ din1, augment_depsystem 2 { lines := ["lib" ++ " / " ++ "app"] } outsideExample
      input_mutator [' ', '\t', '\n'] = Result.ok (outsideExample, din1)) ∧
    augment_depsystem 2 { lines := ["x" ++ " / " ++ "lib"] } outsideExample input_mutator
      [' ', '\t', '\n'] =
        Result.threw (BakeError.SymbolOutsideWorkingDirectory, outsideExample) ∧
    augment_depsystem 2 { lines := ["lib" ++ " / " ++ "y"] } outsideExample input_mutator
      [' ', '\t', '\n'] =
        Result.threw (BakeError.SymbolOutsideWorkingDirectory, outsideExample) :=
  ⟨⟨outsideExample_edges, outsideExample_acyclic, by decide, rfl, rfl, rfl, rfl⟩,
    (C31_out_of_scope_dependency outsideExample 2 input_mutator "app" "lib" [' ', '\t', '\n']
      ["app", "/", "lib"] [] (by decide) (by decide) (by decide) (by decide) (by decide)
      (by decide) (by decide) rfl).1 rfl rfl,
    (C31_out_of_scope_dependency outsideExample 2 input_mutator "lib" "app" [' ', '\t', '\n']
      ["lib", "/", "app"] [] (by decide) (by decide) (by decide) (by decide) (by decide)
      (by decide) (by decide) rfl).2.1 rfl rfl outsideExample_edges outsideExample_acyclic
      (by decide),
    (C31_out_of_scope_dependency outsideExample 2 input_mutator "x" "lib" [' ', '\t', '\n']
      ["x", "/", "lib"] [] (by decide) (by decide) (by decide) (by decide) (by decide)
      (by decide) (by decide) rfl).2.2.1 rfl rfl,
    (C31_out_of_scope_dependency outsideExample 2 input_mutator "lib" "y" [' ', '\t', '\n']
      ["lib", "/", "y"] [] (by decide) (by decide) (by decide) (by decide) (by decide)
      (by decide) (by decide) rfl).2.2.2 rfl outsideExample rfl rfl⟩

/-- C36: after `add_set_symbol("f","")`, `add_set_symbol("b","")`,
`add_dependency_list(["f"],"b")` and `delete_symbol("b")`, the symbol `b` is gone and `f`,
the active element of the list `b` owned, still has `b` in its
`reverse_dependency_list_set`; from there `get_dependents("f")`, `invalidate_dependents("f")`
and `add_set_symbol("f","new")` look up the missing `b` and have no defined result, whatever
the fuel. -/
theorem C36_dangling_reverse_list_entry :
    run 5 DepSystem.empty
        [Op.add_set_symbol "f" "", Op.add_set_symbol "b" "",
          Op.add_dependency_list ["f"] "b", Op.delete_symbol "b"] =
      some { symbols := [{ name := "f", value := "", state := VALID,
                           reverse_dependency_list_set := ["b"] }],
             shadowers := [] } ∧
    has_symbol { symbols := [{ name := "f", value := "", state := VALID,
                               reverse_dependency_list_set := ["b"] }],
                 shadowers := [] } "b" = false ∧
    (∀ fuel, get_dependents fuel
      { symbols := [{ name := "f", value := "", state := VALID,
                      reverse_dependency_list_set := ["b"] }],
        shadowers := [] } "f" selectAll = Outcome.undefined) ∧
    (∀ fuel, invalidate_dependents fuel
      { symbols := [{ name := "f", value := "", state := VALID,
                      reverse_dependency_list_set := ["b"] }],
        shadowers := [] } "f" = Outcome.undefined) ∧
    ∀ fuel, add_set_symbol fuel
      { symbols := [{ name := "f", value := "", state := VALID,
                      reverse_dependency_list_set := ["b"] }],
        shadowers := [] } "f" "new" = Outcome.undefined := by
  refine ⟨by decide, rfl, ?_, ?_, ?_⟩
  · intro fuel
    rcases fuel with _ | _ | fuel <;> rfl
  · intro fuel
    rcases fuel with _ | _ | fuel <;> rfl
  · intro fuel
    rcases fuel with _ | _ | fuel <;> rfl

/-- C37: after `add_set_symbol("t","")`, `add_dependency_list(["a"],"t")` with `a` absent and
`delete_symbol("t")`, no symbol is left and `shadowers` still holds the entry `a → t`; from
there `add_set_symbol("a","v")` looks up the missing owner `t` and has no defined result,
whatever the fuel. -/
theorem C37_dangling_shadower_owner :
    run 5 DepSystem.empty
        [Op.add_set_symbol "t" "", Op.add_dependency_list ["a"] "t", Op.delete_symbol "t"] =
      some { symbols := [], shadowers := [("a", "t")] } ∧
    has_symbol { symbols := [], shadowers := [("a", "t")] } "t" = false ∧
    ¬ ShadowOwnersExist { symbols := [], shadowers := [("a", "t")] } ∧
    ∀ fuel, add_set_symbol fuel { symbols := [], shadowers := [("a", "t")] } "a" "v" =
      Outcome.undefined := by
  refine ⟨by decide, rfl, ?_, fun fuel => rfl⟩
  intro h
  have := h ("a", "t") (by simp)
  simp [countSym, findSym] at this

theorem foldOpt_fixed {σ α : Type} {f : σ → α → Option σ} {s : σ} :
    ∀ l : List α, (∀ x ∈ l, f s x = some s) → foldOpt f s l = some s := by
  intro l
  induction l with
  | nil => intro _; rfl
  | cons x xs ih =>
    intro h
    unfold foldOpt
    rw [h x (List.mem_cons_self _ _)]
    exact ih (fun y hy => h y (List.mem_cons_of_mem _ hy))

/-- The first element of `l` that exists or is the absent name `n` is `n` only when `n` is
among the names that stand before the first existing element. -/
theorem findIf_name_shadowing {L : List Symbol} {n : String} (hn : countSym L n = false) :
    ∀ (l rest : List String),
      findIf (fun val => countSym L val || decide (val = n)) l = n :: rest →
      n ∈ shadowingNames L l := by
  intro l
  induction l with
  | nil => intro rest h; simp [findIf] at h
  | cons x xs ih =>
    intro rest h
    unfold findIf at h
    by_cases hx : (countSym L x || decide (x = n)) = true
    · rw [if_pos hx] at h
      have e : x = n := (List.cons.inj h).1
      subst e
      simp [shadowingNames, List.takeWhile_cons, hn]
    · rw [if_neg hx] at h
      have hx1 : countSym L x = false := by
        cases hc : countSym L x with
        | false => rfl
        | true => simp [hc] at hx
      have := ih rest h
      simp only [shadowingNames, List.takeWhile_cons, hx1, Bool.not_false, if_true,
        List.mem_cons]
      exact Or.inr this

/-- A list in which the new name is not in shadowing position is skipped. -/
theorem shadowList_skip {name : String} {affected : Symbol} {st : List Symbol × List String}
    {deplist : List String} (hn : countSym st.1 name = false)
    (hpos : name ∉ shadowingNames st.1 deplist) :
    shadowList name affected st deplist = some st := by
  unfold shadowList
  cases hf : findIf (fun val => countSym st.1 val || decide (val = name)) deplist with
  | nil => rfl
  | cons p rest =>
    by_cases hp : p = name
    · subst hp
      exact absurd (findIf_name_shadowing hn deplist rest hf) hpos
    · simp [hp]

/-- Handling a list of another owner neither removes `t` from a
`reverse_dependency_list_set` nor adds `t` to the set of the new symbol. -/
theorem shadowList_other {name t : String} {affected : Symbol}
    {st st1 : List Symbol × List String} {deplist : List String}
    (h : shadowList name affected st deplist = some st1) (ht : affected.name ≠ t) :
    (∀ x sx, findSym st.1 x = some sx → t ∈ sx.reverse_dependency_list_set →
      ∃ sx1, findSym st1.1 x = some sx1 ∧ t ∈ sx1.reverse_dependency_list_set) ∧
    (t ∉ st.2 → t ∉ st1.2) := by
  have hins : t ∉ st.2 → t ∉ setInsert affected.name st.2 := by
    intro h1 h2
    rcases mem_setInsert.1 h2 with e | e
    · exact ht e.symm
    · exact h1 e
  unfold shadowList at h
  split at h
  · cases h
    exact ⟨fun x sx hx hm => ⟨sx, hx, hm⟩, id⟩
  · split at h
    · cases h
      exact ⟨fun x sx hx hm => ⟨sx, hx, hm⟩, id⟩
    · split at h
      · cases h
        exact ⟨fun x sx hx hm => ⟨sx, hx, hm⟩, hins⟩
      · rename_i q rest2 hq
        cases hs : findSym st.1 q with
        | none => rw [hs] at h; cases h
        | some shadowed =>
          rw [hs] at h
          simp only [Option.some.injEq] at h
          subst h
          refine ⟨fun x sx hx hm => ?_, hins⟩
          simp only
          rw [findSym_putSym]
          have hq2 : shadowed.name = q := findSym_name hs
          by_cases hxq : q = x
          · subst hxq
            rw [hs] at hx
            cases hx
            simp only [hq2, if_true]
            exact ⟨_, rfl, mem_setErase.2 ⟨hm, fun e => ht e.symm⟩⟩
          · simp only [hq2, hxq, if_false]
            exact ⟨sx, hx, hm⟩

/-- The loop over the shadower entries of the new name `c`, when `c` is in shadowing position
in no list of `t`: `t` stays in the `reverse_dependency_list_set` of `f` and does not enter the
set of the new symbol. -/
theorem shadowLoop_keeps_owner {D : DepSystem} {c t f : String} {st0 : Symbol}
    (hc : countSym D.symbols c = false) (ht : findSym D.symbols t = some st0)
    (hpos : ∀ l ∈ st0.dependency_list_list, c ∉ shadowingNames D.symbols l) :
    ∀ (range : List String) (s s1 : List Symbol × List String),
      (Agree noRevLists D.symbols s.1 ∧
        (∃ sf, findSym s.1 f = some sf ∧ t ∈ sf.reverse_dependency_list_set) ∧ t ∉ s.2) →
      foldOpt (shadowOwner c) s range = some s1 →
      Agree noRevLists D.symbols s1.1 ∧
        (∃ sf, findSym s1.1 f = some sf ∧ t ∈ sf.reverse_dependency_list_set) ∧ t ∉ s1.2 := by
  refine foldOpt_induct _ ?_
  rintro s owner s1 ⟨hag, hf, hnt⟩ hstep
  unfold shadowOwner at hstep
  cases ha : findSym s.1 owner with
  | none => rw [ha] at hstep; cases hstep
  | some affected =>
    rw [ha] at hstep
    simp only at hstep
    by_cases hot : owner = t
    · subst hot
      obtain ⟨s0, hs0, hcore⟩ := hag.find ha
      rw [ht] at hs0
      cases hs0
      have hlists : affected.dependency_list_list = st0.dependency_list_list := by
        have := congrArg Symbol.dependency_list_list hcore; exact this
      have hcs : countSym s.1 c = false := by rw [hag.count]; exact hc
      have hfix := foldOpt_fixed (f := shadowList c affected) (s := s)
        affected.dependency_list_list (by
          intro l hl
          apply shadowList_skip hcs
          rw [shadowingNames_congr (fun n => hag.count n)]
          exact hpos l (hlists ▸ hl))
      rw [hfix] at hstep
      cases hstep
      exact ⟨hag, hf, hnt⟩
    · have hname : affected.name ≠ t := by rw [findSym_name ha]; exact hot
      exact foldOpt_induct
        (fun u => Agree noRevLists D.symbols u.1 ∧
          (∃ sf, findSym u.1 f = some sf ∧ t ∈ sf.reverse_dependency_list_set) ∧ t ∉ u.2)
        (fun u l u1 hu hl => by
          obtain ⟨hag1, ⟨sf, hsf, hm⟩, hn1⟩ := hu
          obtain ⟨h1, h2⟩ := shadowList_other (t := t) hl hname
          exact ⟨hag1.trans (shadowList_agree hl), h1 f sf hsf hm, h2 hn1⟩)
        _ _ _ ⟨hag, hf, hnt⟩ hstep

/-- C38 (amended): let `t` own the list `L` whose first existing element is `f`, with the
bookkeeping of the active elements in order, and let the absent name `c` stand in no list of
`t` before the first existing element, nor in a list of `t` without existing element.  Then
after `add_set_symbol(c, v)` the owner `t` is still in `reverse_dependency_list_set(f)` and is
not in `reverse_dependency_list_set(c)`; and under the graph invariants the call returns. -/
theorem C38_lower_priority_amended (D : DepSystem) (fuel : Nat) (t f c v : String)
    (st0 : Symbol) (L : List String)
    (hc : has_symbol D c = false)
    (ht : findSym D.symbols t = some st0) (hL : L ∈ st0.dependency_list_list)
    (hf : firstExisting D.symbols L = some f) (hbook : ActiveBookkeeping D)
    (hpos : ∀ l ∈ st0.dependency_list_list, c ∉ shadowingNames D.symbols l) :
    (∀ D1, add_set_symbol fuel D c v = Outcome.ok D1 →
      (∃ sf, findSym D1.symbols f = some sf ∧ t ∈ sf.reverse_dependency_list_set) ∧
      ∃ sc, findSym D1.symbols c = some sc ∧ t ∉ sc.reverse_dependency_list_set) ∧
    (EdgeSymmetric D → Acyclic D → RevListsExact D → ShadowOwnersExist D →
      D.symbols.length + 1 ≤ fuel → ∃ D1, add_set_symbol fuel D c v = Outcome.ok D1) := by
  have hn : findSym D.symbols c = none := countSym_eq_false.1 hc
  refine ⟨?_, fun hE hA hR hO hfuel => add_set_symbol_insert_returns hE hA hR hO hn hfuel⟩
  intro D1 h
  obtain ⟨⟨sf0, hsf0, hm0⟩, -⟩ := hbook t st0 ht L hL f hf
  have hfc : f ≠ c := by
    rintro rfl
    rw [hn] at hsf0; cases hsf0
  unfold add_set_symbol at h
  rw [hn] at h
  simp only at h
  cases hst : foldOpt (shadowOwner c) (D.symbols, [])
      ((D.shadowers.filter (fun e => decide (e.1 = c))).map Prod.snd) with
  | none => rw [hst] at h; cases h
  | some st =>
    rw [hst] at h
    simp only at h
    obtain ⟨-, hinv0⟩ := invalidate_dependents_after (by rw [h]; rfl)
    have hinv : StatesInvalidated (insertSym st.1 (freshSymbol c v st.2)) D1.symbols := hinv0
    obtain ⟨hag, ⟨sf, hsf, hm⟩, hnt⟩ := shadowLoop_keeps_owner (f := f) hc ht hpos _
      (D.symbols, []) st ⟨Agree.refl _ _, ⟨sf0, hsf0, hm0⟩, by simp⟩ hst
    have hnone1 : findSym st.1 c = none := findSym_none_of_agree hag hn
    have hfind2 : ∀ m, findSym (insertSym st.1 (freshSymbol c v st.2)) m =
        if c = m then some (freshSymbol c v st.2) else findSym st.1 m :=
      fun m => findSym_insertSym (s := freshSymbol c v st.2) hnone1 m
    constructor
    · rcases hinv f with e | e
      · rw [hfind2 f, if_neg (fun e => hfc e.symm), hsf] at e
        exact ⟨sf, e, hm⟩
      · rw [hfind2 f, if_neg (fun e => hfc e.symm), hsf] at e
        exact ⟨_, e, hm⟩
    · rcases hinv c with e | e
      · rw [hfind2 c, if_pos rfl] at e
        exact ⟨_, e, hnt⟩
      · rw [hfind2 c, if_pos rfl] at e
        exact ⟨_, e, hnt⟩

theorem noActiveExample_bookkeeping : ActiveBookkeeping noActiveExample := by
  intro b sb hsb l hl f hf
  have hmem := findSym_mem hsb
  have hname := findSym_name hsb
  simp only [noActiveExample, List.mem_cons, List.mem_singleton, List.not_mem_nil, or_false]
    at hmem
  rcases hmem with rfl | rfl
  · subst hname
    simp only [List.mem_cons, List.mem_singleton, List.not_mem_nil, or_false] at hl
    rcases hl with rfl | rfl
    · have : f = "f" := by
        have h2 : firstExisting noActiveExample.symbols ["f", "c"] = some "f" := rfl
        rw [h2] at hf; exact (Option.some.inj hf).symm
      subst this
      exact ⟨⟨_, rfl, by decide⟩, by decide⟩
    · have h2 : firstExisting noActiveExample.symbols ["c"] = none := rfl
      rw [h2] at hf; cases hf
  · cases hl

theorem noActiveExample_shadowers : ShadowersExact noActiveExample := by
  intro n b
  constructor
  · intro h
    simp only [noActiveExample, List.mem_singleton, Prod.mk.injEq] at h
    obtain ⟨rfl, rfl⟩ := h
    exact ⟨rfl, _, rfl, ["c"], by decide, by decide⟩
  · rintro ⟨hn, sb, hsb, l, hl, hm⟩
    have hmem := findSym_mem hsb
    have hname := findSym_name hsb
    simp only [noActiveExample, List.mem_cons, List.mem_singleton, List.not_mem_nil, or_false]
      at hmem
    rcases hmem with rfl | rfl
    · subst hname
      simp only [List.mem_cons, List.mem_singleton, List.not_mem_nil, or_false] at hl
      rcases hl with rfl | rfl
      · have h2 : shadowingNames noActiveExample.symbols ["f", "c"] = [] := rfl
        rw [h2] at hm; cases hm
      · have h2 : shadowingNames noActiveExample.symbols ["c"] = ["c"] := rfl
        rw [h2] at hm
        simp only [List.mem_singleton] at hm
        subst hm
        simp [noActiveExample]
    · cases hl

/-- C38, counterexample: `noActiveExample` is reached by public operations and satisfies the
graph invariants; `t` owns the list `["f","c"]` whose first existing element is `f`, the
absent name `c` occurs in it only after `f`, and in the other list `["c"]` there is no active
element for `c` to stand before.  After `add_set_symbol("c","v")` the owner `t` is in
`reverse_dependency_list_set("c")`, `c` being the active element of the list `["c"]`. -/
theorem C38_counterexample :
    run 5 DepSystem.empty
        [Op.add_set_symbol "t" "", Op.add_set_symbol "f" "",
          Op.add_dependency_list ["f", "c"] "t", Op.add_dependency_list ["c"] "t"] =
      some noActiveExample ∧
    (EdgeSymmetric noActiveExample ∧ Acyclic noActiveExample ∧
      ActiveBookkeeping noActiveExample ∧ ShadowersExact noActiveExample ∧
      RevListsExact noActiveExample) ∧
    has_symbol noActiveExample "c" = false ∧
    get_dependency_lists noActiveExample "t" = Outcome.ok [["f", "c"], ["c"]] ∧
    firstExisting noActiveExample.symbols ["f", "c"] = some "f" ∧
    firstExisting noActiveExample.symbols ["c"] = none ∧
    ∃ D1 sf sc, add_set_symbol 5 noActiveExample "c" "v" = Outcome.ok D1 ∧
      findSym D1.symbols "f" = some sf ∧ "t" ∈ sf.reverse_dependency_list_set ∧
      findSym D1.symbols "c" = some sc ∧ "t" ∈ sc.reverse_dependency_list_set ∧
      firstExisting D1.symbols ["c"] = some "c" :=
  ⟨by decide,
    ⟨edgeSymmetric_of_check (by decide),
      acyclic_of_rank (fun n => if n = "t" then 1 else 0) (by decide),
      noActiveExample_bookkeeping, noActiveExample_shadowers,
      revListsExact_of_check (by decide)⟩,
    rfl, rfl, rfl, rfl, ⟨_, _, _, rfl, rfl, by decide, rfl, by decide, rfl⟩⟩

theorem lowerPriorityExample_bookkeeping : ActiveBookkeeping lowerPriorityExample := by
  intro b sb hsb l hl f hf
  have hmem := findSym_mem hsb
  have hname := findSym_name hsb
  simp only [lowerPriorityExample, List.mem_cons, List.mem_singleton, List.not_mem_nil,
    or_false] at hmem
  rcases hmem with rfl | rfl | rfl
  · subst hname
    simp only [List.mem_singleton] at hl
    subst hl
    have : f = "f" := by
      have h2 : firstExisting lowerPriorityExample.symbols ["f", "c"] = some "f" := rfl
      rw [h2] at hf; exact (Option.some.inj hf).symm
    subst this
    exact ⟨⟨_, rfl, by decide⟩, by decide⟩
  · subst hname
    simp only [List.mem_singleton] at hl
    subst hl
    have : f = "f" := by
      have h2 : firstExisting lowerPriorityExample.symbols ["c", "f"] = some "f" := rfl
      rw [h2] at hf; exact (Option.some.inj hf).symm
    subst this
    exact ⟨⟨_, rfl, by decide⟩, by decide⟩
  · cases hl

/-- C38 (amended), on `lowerPriorityExample`: adding `c` takes the owner `u` over from `f`,
and `t` stays with `f`. -/
theorem C38_lower_priority_amended_witness :
    (has_symbol lowerPriorityExample "c" = false ∧
      firstExisting lowerPriorityExample.symbols ["f", "c"] = some "f" ∧
      ActiveBookkeeping lowerPriorityExample ∧ EdgeSymmetric lowerPriorityExample ∧
      Acyclic lowerPriorityExample ∧ RevListsExact lowerPriorityExample ∧
      ShadowOwnersExist lowerPriorityExample ∧ lowerPriorityExample.symbols.length + 1 ≤ 4) ∧
    (∀ D1, add_set_symbol 4 lowerPriorityExample "c" "v" = Outcome.ok D1 →
      (∃ sf, findSym D1.symbols "f" = some sf ∧ "t" ∈ sf.reverse_dependency_list_set) ∧
      ∃ sc, findSym D1.symbols "c" = some sc ∧ "t" ∉ sc.reverse_dependency_list_set) ∧
    ∃ D1, add_set_symbol 4 lowerPriorityExample "c" "v" = Outcome.ok D1 :=
  have hE : EdgeSymmetric lowerPriorityExample := edgeSymmetric_of_check (by decide)
  have hA : Acyclic lowerPriorityExample :=
    acyclic_of_rank (fun n => if n = "f" then 0 else 1) (by decide)
  have hR : RevListsExact lowerPriorityExample := revListsExact_of_check (by decide)
  have hO : ShadowOwnersExist lowerPriorityExample := by
    intro e he
    simp only [lowerPriorityExample, List.mem_singleton] at he
    subst he
    rfl
  have h := C38_lower_priority_amended lowerPriorityExample 4 "t" "f" "c" "v"
    { name := "t", value := "", state := VALID, dependency_list_list := [["f", "c"]] }
    ["f", "c"] rfl rfl (by decide) rfl lowerPriorityExample_bookkeeping
    (by
      intro l hl
      simp only [List.mem_singleton] at hl
      subst hl
      decide)
  ⟨⟨rfl, rfl, lowerPriorityExample_bookkeeping, hE, hA, hR, hO, by decide⟩, h.1,
    h.2 hE hA hR hO (by decide)⟩

theorem line_ne_newline {S : String} (h : S ≠ "") : S ++ "\n" ≠ "\n" := by
  intro e
  have this : (S ++ "\n").data.length = ("\n" : String).data.length := by rw [e]
  rw [String.data_append, List.length_append] at this
  have h0 : 0 < S.data.length := List.length_pos.2 (fun e => h (String.ext e))
  have h1 : ("\n" : String).data.length = 1 := rfl
  omega

theorem augmentLines_cons {fuel : Nat} {mutator : String → String} {delimiters : List Char}
    {D D1 : DepSystem} {S : String} {more : List String}
    (h : augmentLines fuel mutator delimiters D (S :: more) = Result.ok D1) :
    ∃ t0 rest Dm, tokenize (S ++ "\n") delimiters = t0 :: rest ∧
      augmentStatement fuel mutator D (S ++ "\n") t0 rest = Result.ok Dm ∧
      augmentLines fuel mutator delimiters Dm more = Result.ok D1 := by
  rw [augmentLines] at h
  cases ht : tokenize (S ++ "\n") delimiters with
  | nil => simp only [ht] at h; cases h
  | cons t0 rest =>
    simp only [ht] at h
    cases hs : augmentStatement fuel mutator D (S ++ "\n") t0 rest with
    | ok Dm => simp only [hs] at h; exact ⟨t0, rest, Dm, rfl, hs, h⟩
    | threw e => simp only [hs] at h; cases h
    | undefined => simp only [hs] at h; cases h

/-- The loop of `augment_depsystem` on a stream of one-line commands. -/
theorem augmentLoop_lines (fuel : Nat) (mutator : String → String) (delimiters : List Char) :
    ∀ (more : List String) (k : Nat) (D D1 : DepSystem) (S : String), S ≠ "" →
      (∀ T ∈ more, T ≠ "" ∧ ∃ toks, scan_line [] [] T = Except.ok (toks, [])) →
      augmentLines fuel mutator delimiters D (S :: more) = Result.ok D1 →
      augmentLoop fuel mutator delimiters (k + more.length + 2) { lines := more } D
          (S ++ "\n") =
        Result.ok (D1, { lines := [], eofbit := true, failbit := true }) := by
  intro more
  induction more with
  | nil =>
    intro k D D1 S hS _ h
    obtain ⟨t0, rest, Dm, ht, hs, hm⟩ := augmentLines_cons h
    rw [augmentLines] at hm
    have e : Dm = D1 := by injection hm
    rw [← e]
    exact augmentLoop_end fuel mutator delimiters k D Dm _ t0 rest (line_ne_newline hS) ht hs
  | cons T more ih =>
    intro k D D1 S hS hall h
    obtain ⟨t0, rest, Dm, ht, hs, hm⟩ := augmentLines_cons h
    obtain ⟨hT, toks, hscan⟩ := hall T (List.mem_cons_self _ _)
    show augmentLoop fuel mutator delimiters ((k + more.length + 2) + 1) _ _ _ = _
    rw [augmentLoop]
    simp only [line_ne_newline hS, if_false, ht, hs, get_command_single hscan more]
    exact ih k Dm D1 T hT (fun U hU => hall U (List.mem_cons_of_mem _ hU)) hm

/-- The run of `augment_depsystem` on a stream of one-line commands: the whole stream is
read. -/
theorem augment_lines {fuel : Nat} {mutator : String → String} {delimiters : List Char}
    {D D1 : DepSystem} {stmts : List String}
    (hall : ∀ T ∈ stmts, T ≠ "" ∧ ∃ toks, scan_line [] [] T = Except.ok (toks, []))
    (h : augmentLines fuel mutator delimiters D stmts = Result.ok D1) :
    augment_depsystem fuel { lines := stmts } D mutator delimiters =
      Result.ok (D1, { lines := [], eofbit := true, failbit := true }) := by
  cases stmts with
  | nil =>
    rw [augmentLines] at h
    cases h
    rfl
  | cons S more =>
    obtain ⟨hS, toks, hscan⟩ := hall S (List.mem_cons_self _ _)
    unfold augment_depsystem
    rw [get_command_single hscan more]
    have := augmentLoop_lines fuel mutator delimiters more 1 D D1 S hS
      (fun U hU => hall U (List.mem_cons_of_mem _ hU)) h
    have e : ({ lines := S :: more } : IStream).lines.length + 2 = 1 + more.length + 2 := by
      simp only [List.length_cons]; omega
    rw [e]
    exact this

theorem augmentLines_append {fuel : Nat} {mutator : String → String} {delimiters : List Char} :
    ∀ (l1 l2 : List String) (D D1 D2 : DepSystem),
      augmentLines fuel mutator delimiters D l1 = Result.ok D1 →
      augmentLines fuel mutator delimiters D1 l2 = Result.ok D2 →
      augmentLines fuel mutator delimiters D (l1 ++ l2) = Result.ok D2 := by
  intro l1
  induction l1 with
  | nil => intro l2 D D1 D2 h1 h2; rw [augmentLines] at h1; cases h1; exact h2
  | cons S l1 ih =>
    intro l2 D D1 D2 h1 h2
    obtain ⟨t0, rest, Dm, ht, hs, hm⟩ := augmentLines_cons h1
    show augmentLines fuel mutator delimiters D (S :: (l1 ++ l2)) = _
    rw [augmentLines]
    simp only [ht, hs]
    exact ih l2 Dm D1 D2 hm h2

theorem readBack_dep {D Dk : DepSystem} {P : List String} {G : List (String × String)}
    (h : ReadBack D Dk P G) (q p : String) : Dep Dk q p ↔ (q, p) ∈ G := by
  obtain ⟨_, hcount, hG, hrec⟩ := h
  constructor
  · rintro ⟨sq, hsq, hd⟩
    obtain ⟨_, hde, _, hl, _⟩ := hrec q sq hsq
    rcases hd with hd | ⟨l, hl1, _⟩
    · exact (hde p).1 hd
    · rw [hl] at hl1; cases hl1
  · intro hqp
    obtain ⟨sq, hsq⟩ := countSym_eq_true.1 ((hcount q).2 (hG _ hqp).1)
    exact ⟨sq, hsq, Or.inl (((hrec q sq hsq).2.1 p).2 hqp)⟩

theorem readBack_revDep {D Dk : DepSystem} {P : List String} {G : List (String × String)}
    (h : ReadBack D Dk P G) (a d : String) : RevDep Dk a d ↔ (d, a) ∈ G := by
  obtain ⟨_, hcount, hG, hrec⟩ := h
  constructor
  · rintro ⟨sa, hsa, hd⟩
    obtain ⟨_, _, hre, _, hrl⟩ := hrec a sa hsa
    rcases hd with hd | hd
    · exact (hre d).1 hd
    · rw [hrl] at hd; cases hd
  · intro hda
    obtain ⟨sa, hsa⟩ := countSym_eq_true.1 ((hcount a).2 (hG _ hda).2.1)
    exact ⟨sa, hsa, Or.inl (((hrec a sa hsa).2.2.1 d).2 hda)⟩

theorem readBack_reaches {D Dk : DepSystem} {P : List String} {G : List (String × String)}
    (h : ReadBack D Dk P G) {a b : String} (hab : Reaches Dk a b) : Reaches D a b :=
  Relation.TransGen.mono (fun q p hqp => (h.2.2.1 _ ((readBack_dep h q p).1 hqp)).2.2) hab

theorem readBack_augmentInv {D Dk : DepSystem} {P : List String} {G : List (String × String)}
    (hA : Acyclic D) (h : ReadBack D Dk P G) : AugmentInv Dk P.length := by
  have hacyc : Acyclic Dk := fun s hs => hA s (readBack_reaches h hs)
  refine ⟨?_, hacyc, ?_, ?_, ?_, ?_⟩
  · intro b sb hsb
    obtain ⟨_, hde, hre, _, _⟩ := h.2.2.2 b sb hsb
    constructor
    · intro a ha
      have hG := (hde a).1 ha
      obtain ⟨sa, hsa⟩ := countSym_eq_true.1 ((h.2.1 a).2 (h.2.2.1 _ hG).2.1)
      exact ⟨sa, hsa, ((h.2.2.2 a sa hsa).2.2.1 b).2 hG⟩
    · intro a ha
      have hG := (hre a).1 ha
      obtain ⟨sa, hsa⟩ := countSym_eq_true.1 ((h.2.1 a).2 (h.2.2.1 _ hG).1)
      exact ⟨sa, hsa, ((h.2.2.2 a sa hsa).2.1 b).2 hG⟩
  · intro a d had
    exact (h.2.1 d).2 (h.2.2.1 _ ((readBack_revDep h a d).1 had)).1
  · intro c hc
    refine bounded_of_acyclic (RevDep Dk) P ?_ ?_ c ((h.2.1 c).1 hc)
    · intro a d had
      exact (h.2.2.1 _ ((readBack_revDep h a d).1 had)).1
    · intro s hs
      have h1 : Relation.TransGen (Function.swap (Dep D)) s s :=
        Relation.TransGen.mono
          (fun a d had => (h.2.2.1 _ ((readBack_revDep h a d).1 had)).2.2) hs
      exact hA s (Relation.transGen_swap.1 h1)
  · intro c hc
    refine bounded_of_acyclic (Dep Dk) P ?_ ?_ c ((h.2.1 c).1 hc)
    · intro q p hqp
      exact (h.2.2.1 _ ((readBack_dep h q p).1 hqp)).2.1
    · exact hacyc
  · intro e he
    rw [h.1] at he
    cases he

/-- The reader state before anything is read. -/
theorem readBack_empty (D : DepSystem) : ReadBack D {} [] [] := by
  refine ⟨rfl, ?_, ?_, ?_⟩
  · intro x; simp [countSym, findSym]
  · intro e he; cases he
  · intro x rk h; simp [findSym] at h

/-- Without shadower the record `add_set_symbol` inserts has an empty
`reverse_dependency_list_set`. -/
theorem add_set_symbol_insert_plain {fuel : Nat} {D D1 : DepSystem} {n v : String}
    (hsh : D.shadowers = []) (hn : findSym D.symbols n = none)
    (h : add_set_symbol fuel D n v = Outcome.ok D1) :
    ∃ s1, findSym D1.symbols n = some s1 ∧ s1.reverse_dependency_list_set = [] := by
  unfold add_set_symbol at h
  rw [hn, hsh] at h
  simp only [List.filter_nil, List.map_nil, foldOpt] at h
  obtain ⟨-, hinv0⟩ := invalidate_dependents_after (by rw [h]; rfl)
  have hinv : StatesInvalidated (insertSym D.symbols (freshSymbol n v [])) D1.symbols := hinv0
  have hfind : findSym (insertSym D.symbols (freshSymbol n v [])) n =
      some (freshSymbol n v []) := by
    rw [@findSym_insertSym D.symbols (freshSymbol n v []) hn n]
    simp [freshSymbol]
  rcases hinv n with e | e
  · rw [hfind] at e
    exact ⟨_, e, rfl⟩
  · rw [hfind] at e
    exact ⟨_, e, rfl⟩

theorem set_callback_record {D D2 : DepSystem} {n : String} {s1 : Symbol} {c : Option Nat}
    (hs : findSym D.symbols n = some s1) (h : set_callback D n c = Outcome.ok D2) :
    findSym D2.symbols n = some { s1 with callback := c } := by
  unfold set_callback at h
  rw [hs] at h
  simp only at h
  have e : D2 = { D with symbols := putSym D.symbols { s1 with callback := c } } := by
    injection h with h; exact h.symm
  rw [e]
  show findSym (putSym D.symbols { s1 with callback := c }) n = _
  rw [findSym_putSym]
  simp [findSym_name hs]

/-- The reader of the interchange format at the statement `s value`, `s` not read before. -/
theorem readBack_assign {D Dk : DepSystem} {P : List String} {G : List (String × String)}
    {s : String} {r : Symbol} {fuel : Nat}
    (hA : Acyclic D) (h : ReadBack D Dk P G) (hs : s ∉ P)
    (hr : findSym D.symbols s = some r) (hfuel : P.length + 1 ≤ fuel) :
    ∃ Dk1, addWithCallback fuel Dk s (r.value ++ "\n") = Result.ok Dk1 ∧
      ReadBack D Dk1 (P ++ [s]) G := by
  obtain ⟨hE, -, hC, hB, -, hO⟩ := readBack_augmentInv hA h
  have hn : findSym Dk.symbols s = none := by
    rw [← countSym_eq_false]
    cases hc : countSym Dk.symbols s with
    | false => rfl
    | true => exact absurd ((h.2.1 s).1 hc) hs
  obtain ⟨D1, hD1⟩ := @add_set_symbol_insert_defined Dk s (r.value ++ "\n") fuel P.length
    hC hB hO hn hfuel
  have hadd1 := add_set_symbol_insert_added hO hn hD1
  obtain ⟨s1, hs1, hrl1⟩ := add_set_symbol_insert_plain h.1 hn hD1
  obtain ⟨D2, hD2, hadd⟩ := added_set_callback hadd1 (some dep_callback)
  have hs2 := set_callback_record hs1 hD2
  refine ⟨D2, ?_, ?_, ?_, ?_, ?_⟩
  · unfold addWithCallback
    rw [hD1]
    simp only [liftOutcome]
    rw [hD2]
  · exact List.eq_nil_iff_forall_not_mem.2 (fun e he => by
      have := hadd.2.2.2.2 e he
      rw [h.1] at this
      cases this)
  · intro x
    rw [added_count hadd x, List.mem_append, List.mem_singleton, h.2.1 x]
    exact or_comm
  · intro e he
    obtain ⟨h1, h2, h3⟩ := h.2.2.1 e he
    exact ⟨List.mem_append_left _ h1, List.mem_append_left _ h2, h3⟩
  · intro x rk hx
    by_cases hxs : x = s
    · subst hxs
      obtain ⟨-, ⟨t, ht, hv, hde, hre, hdl, -⟩, -⟩ := hadd
      rw [hx] at ht hs2
      cases ht
      refine ⟨⟨r, hr, hv⟩, ?_, ?_, hdl, ?_⟩
      · intro a
        rw [hde]
        constructor
        · intro ha; cases ha
        · intro ha; exact absurd (h.2.2.1 _ ha).1 hs
      · intro y
        rw [hre]
        constructor
        · intro hy; cases hy
        · intro hy; exact absurd (h.2.2.1 _ hy).2.1 hs
      · have := congrArg Symbol.reverse_dependency_list_set (Option.some.inj hs2)
        rw [this]
        exact hrl1
    · obtain ⟨r0, hr0, hv, hde, hre, hdl, hrl⟩ := hadd.2.2.1 x rk hxs hx
      obtain ⟨hval, h1, h2, h3, h4⟩ := h.2.2.2 x r0 hr0
      refine ⟨?_, ?_, ?_, ?_, ?_⟩
      · rw [hv]; exact hval
      · rw [hde]; exact h1
      · rw [hre]; exact h2
      · rw [hdl]; exact h3
      · exact List.eq_nil_iff_forall_not_mem.2 (fun d hd => by
          have := hrl d hd
          rw [h4] at this
          cases this)

/-- The reader of the interchange format at the statement `d / s`, both symbols read before
and `d` a dependency of `s` in `D`. -/
theorem readBack_edge {D Dk : DepSystem} {P : List String} {G : List (String × String)}
    {s d : String} {fuel : Nat}
    (hA : Acyclic D) (h : ReadBack D Dk P G) (hs : s ∈ P) (hd : d ∈ P) (hdep : Dep D s d)
    (hfuel : P.length ≤ fuel) (hout : startsOutside s = false) :
    ∃ Dk1, augmentDependency fuel Dk d s = Result.ok Dk1 ∧ ReadBack D Dk1 P ((s, d) :: G) := by
  obtain ⟨hE, -, -, -, hBD, -⟩ := readBack_augmentInv hA h
  have hcs : countSym Dk.symbols s = true := (h.2.1 s).2 hs
  have hcd : countSym Dk.symbols d = true := (h.2.1 d).2 hd
  obtain ⟨F, hF⟩ := countSym_eq_true.1 hcs
  obtain ⟨T, hT⟩ := countSym_eq_true.1 hcd
  have hsd : s ≠ d := by
    intro e
    rw [e] at hdep
    exact hA d (Relation.TransGen.single hdep)
  have hno : ¬ (d = s ∨ Reaches Dk d s) := by
    rintro (e | e)
    · exact hsd e.symm
    · exact hA s (Relation.TransGen.head hdep (readBack_reaches h e))
  have hadd := add_dependency_returns hE ((hBD d hcd).weaken fuel hfuel) hF hT hno
  have hfind := @findSym_withEdge Dk F T s d hF hT
  refine ⟨withEdge Dk F T s d, ?_, ?_, ?_, ?_, ?_⟩
  · unfold augmentDependency add_if_not_present
    simp only [has_symbol, hcd, hcs, Bool.not_true, Bool.false_eq_true, if_false, hout]
    rw [hadd]
    rfl
  · exact h.1
  · intro x
    rw [← h.2.1 x]
    unfold countSym
    rw [hfind x]
    by_cases e1 : d = x
    · subst e1; simp [hT]
    · by_cases e2 : s = x
      · subst e2; simp [e1, hF]
      · simp [e1, e2]
  · intro e he
    rcases List.mem_cons.1 he with rfl | he
    · exact ⟨hs, hd, hdep⟩
    · exact h.2.2.1 e he
  · intro x rk hx
    rw [hfind x] at hx
    by_cases e1 : d = x
    · subst e1
      rw [if_pos rfl] at hx
      obtain ⟨hval, h1, h2, h3, h4⟩ := h.2.2.2 d T hT
      have e : rk = { T with reverse_dependency_edges := setInsert s T.reverse_dependency_edges } :=
        (Option.some.inj hx).symm
      subst e
      refine ⟨hval, ?_, ?_, h3, h4⟩
      · intro a
        rw [List.mem_cons]
        constructor
        · intro ha; exact Or.inr ((h1 a).1 ha)
        · rintro (ha | ha)
          · exact absurd (Prod.mk.inj ha).1.symm hsd
          · exact (h1 a).2 ha
      · intro y
        show y ∈ setInsert s T.reverse_dependency_edges ↔ _
        rw [mem_setInsert, List.mem_cons, h2 y]
        constructor
        · rintro (e | e)
          · exact Or.inl (by rw [e])
          · exact Or.inr e
        · rintro (e | e)
          · exact Or.inl (Prod.mk.inj e).1
          · exact Or.inr e
    · rw [if_neg e1] at hx
      by_cases e2 : s = x
      · subst e2
        rw [if_pos rfl] at hx
        obtain ⟨hval, h1, h2, h3, h4⟩ := h.2.2.2 s F hF
        have e : rk = { F with dependency_edges := setInsert d F.dependency_edges } :=
          (Option.some.inj hx).symm
        subst e
        refine ⟨hval, ?_, ?_, h3, h4⟩
        · intro a
          show a ∈ setInsert d F.dependency_edges ↔ _
          rw [mem_setInsert, List.mem_cons, h1 a]
          constructor
          · rintro (e | e)
            · exact Or.inl (by rw [e])
            · exact Or.inr e
          · rintro (e | e)
            · exact Or.inl (Prod.mk.inj e).2
            · exact Or.inr e
        · intro y
          rw [List.mem_cons]
          constructor
          · intro hy; exact Or.inr ((h2 y).1 hy)
          · rintro (hy | hy)
            · exact absurd (Prod.mk.inj hy).2 hsd
            · exact (h2 y).2 hy
      · rw [if_neg e2] at hx
        obtain ⟨hval, h1, h2, h3, h4⟩ := h.2.2.2 x rk hx
        refine ⟨hval, ?_, ?_, h3, h4⟩
        · intro a
          rw [List.mem_cons, h1 a]
          constructor
          · intro ha; exact Or.inr ha
          · rintro (ha | ha)
            · exact absurd (Prod.mk.inj ha).1.symm e2
            · exact ha
        · intro y
          rw [List.mem_cons, h2 y]
          constructor
          · intro hy; exact Or.inr hy
          · rintro (hy | hy)
            · exact absurd (Prod.mk.inj hy).2.symm e1
            · exact hy

theorem singleLine_append {a b : String} (ha : singleLine a) (hb : singleLine b) :
    singleLine (a ++ b) := by
  unfold singleLine at *
  rw [String.data_append, List.mem_append]
  exact fun h => h.elim ha hb

theorem singleLine_word {w : String} {delimiters : List Char} (hnl : '\n' ∈ delimiters)
    (hw : ∀ c ∈ w.data, c ∉ delimiters) : singleLine w := by
  unfold singleLine
  exact fun h => hw _ h hnl

/-- The statement `NAME COMMAND` read by the loop of `augment_depsystem`. -/
theorem augmentLines_assign {fuel : Nat} {delimiters : List Char} {D D1 : DepSystem}
    {NAME COMMAND : String} (more : List String)
    (hsp : ' ' ∈ delimiters) (hnl : '\n' ∈ delimiters)
    (hname : NAME ≠ "") (hnd : ∀ c ∈ NAME.data, c ∉ delimiters)
    (htok : tokenize COMMAND delimiters ≠ [])
    (hslash : (tokenize COMMAND delimiters).head? ≠ some "/")
    (h : addWithCallback fuel D NAME (COMMAND ++ "\n") = Result.ok D1) :
    augmentLines fuel id delimiters D ((NAME ++ " " ++ COMMAND) :: more) =
      augmentLines fuel id delimiters D1 more := by
  have hdata : (NAME ++ " " ++ COMMAND ++ "\n").data =
      NAME.data ++ ' ' :: (COMMAND ++ "\n").data := by
    simp [String.data_append]
  have hline : NAME ++ " " ++ COMMAND ++ "\n" =
      String.mk (NAME.data ++ ' ' :: (COMMAND ++ "\n").data) := String.ext hdata
  have ht : tokenize (NAME ++ " " ++ COMMAND ++ "\n") delimiters =
      NAME :: tokenize COMMAND delimiters := by
    rw [hline, tokenize_sep _ _ hsp]
    show tokenize NAME delimiters ++ tokenize (COMMAND ++ "\n") delimiters = _
    rw [tokenize_word hname hnd, tokenize_line_end _ hnl]
    rfl
  cases htc : tokenize COMMAND delimiters with
  | nil => exact absurd htc htok
  | cons t1 rest =>
    rw [htc] at ht hslash
    have ht1 : t1 ≠ "/" := fun e => hslash (by simp [e])
    have hs : augmentStatement fuel id D (NAME ++ " " ++ COMMAND ++ "\n") NAME (t1 :: rest) =
        Result.ok D1 := by
      simp only [augmentStatement, ht1, ne_eq, not_false_eq_true, if_true, id]
      rw [hdata]
      have : (NAME.data ++ ' ' :: (COMMAND ++ "\n").data).drop (NAME.length + 1) =
          (COMMAND ++ "\n").data := by
        have e : NAME.data ++ ' ' :: (COMMAND ++ "\n").data =
            (NAME.data ++ [' ']) ++ (COMMAND ++ "\n").data := by simp
        rw [e, List.drop_left' (by rw [List.length_append]; rfl)]
      rw [this]
      exact h
    rw [augmentLines]
    simp only [ht, hs]

/-- The statement `A / B` read by the loop of `augment_depsystem`. -/
theorem augmentLines_edge {fuel : Nat} {delimiters : List Char} {D D1 : DepSystem}
    {A B : String} (more : List String)
    (hsp : ' ' ∈ delimiters) (hnl : '\n' ∈ delimiters) (hslash : '/' ∉ delimiters)
    (hAne : A ≠ "") (hAd : ∀ c ∈ A.data, c ∉ delimiters)
    (hBne : B ≠ "") (hBd : ∀ c ∈ B.data, c ∉ delimiters)
    (h : augmentDependency fuel D A B = Result.ok D1) :
    augmentLines fuel id delimiters D ((A ++ " / " ++ B) :: more) =
      augmentLines fuel id delimiters D1 more := by
  rw [augmentLines]
  simp only [tokenize_dependency hsp hnl hslash hAne hAd hBne hBd, augmentStatement, ne_eq,
    not_true_eq_false, if_false, id, h]

theorem readBack_exists {D Dk : DepSystem} {P : List String} {G : List (String × String)}
    (h : ReadBack D Dk P G) {x : String} (hx : x ∈ P) : ∃ r, findSym D.symbols x = some r := by
  obtain ⟨rk, hrk⟩ := countSym_eq_true.1 ((h.2.1 x).2 hx)
  obtain ⟨⟨r, hr, -⟩, -⟩ := h.2.2.2 x rk hrk
  exact ⟨r, hr⟩

/-- The reader of the interchange format over the dependency statements of one symbol. -/
theorem readBack_edges {D : DepSystem} {P : List String} {s : String} {fuel : Nat}
    {delimiters : List Char}
    (hsp : ' ' ∈ delimiters) (hnl : '\n' ∈ delimiters) (hslash : '/' ∉ delimiters)
    (hA : Acyclic D)
    (hgood : ∀ n r, findSym D.symbols n = some r →
      n ≠ "" ∧ (∀ c ∈ n.data, c ∉ delimiters) ∧ startsOutside n = false)
    (hs : s ∈ P) (hfuel : P.length ≤ fuel) (more : List String) :
    ∀ (ds : List String) (Dk : DepSystem) (G : List (String × String)),
      ReadBack D Dk P G → (∀ d ∈ ds, d ∈ P ∧ Dep D s d) →
      ∃ Dk1 G1,
        augmentLines fuel id delimiters Dk (ds.map (fun d => d ++ " / " ++ s) ++ more) =
          augmentLines fuel id delimiters Dk1 more ∧
        ReadBack D Dk1 P G1 ∧ ∀ e, e ∈ G1 ↔ e ∈ G ∨ ∃ d ∈ ds, e = (s, d) := by
  intro ds
  induction ds with
  | nil =>
    intro Dk G h _
    exact ⟨Dk, G, rfl, h, fun e => by simp⟩
  | cons d ds ih =>
    intro Dk G h hds
    obtain ⟨hdP, hdep⟩ := hds d (List.mem_cons_self _ _)
    obtain ⟨rs, hrs⟩ := readBack_exists h hs
    obtain ⟨rd, hrd⟩ := readBack_exists h hdP
    obtain ⟨hsne, hsd, hsout⟩ := hgood s rs hrs
    obtain ⟨hdne, hdd, -⟩ := hgood d rd hrd
    obtain ⟨Dk1, hDk1, h1⟩ := readBack_edge hA h hs hdP hdep hfuel hsout
    obtain ⟨Dk2, G2, hDk2, h2, hG2⟩ := ih Dk1 ((s, d) :: G) h1
      (fun x hx => hds x (List.mem_cons_of_mem _ hx))
    refine ⟨Dk2, G2, ?_, h2, ?_⟩
    · rw [List.map_cons, List.cons_append,
        augmentLines_edge _ hsp hnl hslash hdne hdd hsne hsd hDk1]
      exact hDk2
    · intro e
      rw [hG2 e, List.mem_cons]
      constructor
      · rintro ((he | he) | ⟨x, hx, he⟩)
        · exact Or.inr ⟨d, List.mem_cons_self _ _, he⟩
        · exact Or.inl he
        · exact Or.inr ⟨x, List.mem_cons_of_mem _ hx, he⟩
      · rintro (he | ⟨x, hx, he⟩)
        · exact Or.inl (Or.inr he)
        · rcases List.mem_cons.1 hx with rfl | hx
          · exact Or.inl (Or.inl he)
          · exact Or.inr ⟨x, hx, he⟩

/-- The reader of the interchange format over the statements of the symbols `Q`, written in an
order in which every symbol comes after its dependencies. -/
theorem readBack_symbols {D : DepSystem} {fuel : Nat} {delimiters : List Char}
    (hsp : ' ' ∈ delimiters) (hnl : '\n' ∈ delimiters) (hslash : '/' ∉ delimiters)
    (hA : Acyclic D)
    (hgood : ∀ n r, findSym D.symbols n = some r →
      n ≠ "" ∧ (∀ c ∈ n.data, c ∉ delimiters) ∧ startsOutside n = false)
    (hvalue : ∀ n r, findSym D.symbols n = some r →
      r.dependency_list_list = [] ∧ tokenize r.value delimiters ≠ [] ∧
      (tokenize r.value delimiters).head? ≠ some "/")
    (more : List String) :
    ∀ (Q P : List String) (Dk : DepSystem) (G : List (String × String)),
      ReadBack D Dk P G → (P ++ Q).Nodup → (P ++ Q).length ≤ fuel →
      (∀ x ∈ Q, countSym D.symbols x = true) →
      (∀ Q1 s Q2, Q = Q1 ++ s :: Q2 → ∀ d, Dep D s d → d ∈ P ++ Q1) →
      ∃ Dk1 G1,
        augmentLines fuel id delimiters Dk (Q.flatMap (statementsOf D) ++ more) =
          augmentLines fuel id delimiters Dk1 more ∧
        ReadBack D Dk1 (P ++ Q) G1 ∧
        ∀ e, e ∈ G1 ↔ e ∈ G ∨ (e.1 ∈ Q ∧ Dep D e.1 e.2) := by
  intro Q
  induction Q with
  | nil =>
    intro P Dk G h _ _ _ _
    exact ⟨Dk, G, rfl, by rw [List.append_nil]; exact h, fun e => by simp⟩
  | cons s Q ih =>
    intro P Dk G h hnd hlen hex htopo
    obtain ⟨r, hr⟩ := countSym_eq_true.1 (hex s (List.mem_cons_self _ _))
    obtain ⟨hsne, hsd, -⟩ := hgood s r hr
    obtain ⟨hnl0, htok, hsl⟩ := hvalue s r hr
    have hsP : s ∉ P := fun hs =>
      (List.nodup_append.1 hnd).2.2 hs (List.mem_cons_self _ _)
    have hlen1 : P.length + 1 ≤ fuel := by
      rw [List.length_append, List.length_cons] at hlen
      omega
    have happ : P ++ s :: Q = (P ++ [s]) ++ Q := by simp
    obtain ⟨Dk1, hDk1, h1⟩ := readBack_assign hA h hsP hr hlen1
    have hlen2 : (P ++ [s]).length ≤ fuel := by
      rw [List.length_append]
      exact hlen1
    obtain ⟨Dk2, G2, hDk2, h2, hG2⟩ := readBack_edges hsp hnl hslash hA hgood
      (List.mem_append_right P (List.mem_singleton_self s)) hlen2
      (Q.flatMap (statementsOf D) ++ more) r.dependency_edges Dk1 G h1
      (fun d hd => by
        have hdep : Dep D s d := ⟨r, hr, Or.inl hd⟩
        have := htopo [] s Q rfl d hdep
        rw [List.append_nil] at this
        exact ⟨List.mem_append_left _ this, hdep⟩)
    obtain ⟨Dk3, G3, hDk3, h3, hG3⟩ := ih (P ++ [s]) Dk2 G2 h2 (by rw [← happ]; exact hnd)
      (by rw [← happ]; exact hlen) (fun x hx => hex x (List.mem_cons_of_mem _ hx))
      (fun Q1 t Q2 hQ d hd => by
        have := htopo (s :: Q1) t Q2 (by rw [hQ]; rfl) d hd
        rw [List.append_assoc]
        exact this)
    refine ⟨Dk3, G3, ?_, by rw [happ]; exact h3, ?_⟩
    · have hst : statementsOf D s =
          (s ++ " " ++ r.value) ::
            r.dependency_edges.map (fun depsym => depsym ++ " / " ++ s) := by
        unfold statementsOf
        rw [hr]
      rw [List.flatMap_cons, hst, List.append_assoc, List.cons_append,
        augmentLines_assign _ hsp hnl hsne hsd htok hsl hDk1, hDk2]
      exact hDk3
    · intro e
      rw [hG3 e, hG2 e, List.mem_cons]
      have hdep : ∀ p, Dep D s p ↔ p ∈ r.dependency_edges := by
        intro p
        constructor
        · rintro ⟨sq, hsq, hd⟩
          rw [hr] at hsq
          cases hsq
          rcases hd with hd | ⟨l, hl, -⟩
          · exact hd
          · rw [hnl0] at hl; cases hl
        · intro hp
          exact ⟨r, hr, Or.inl hp⟩
      constructor
      · rintro ((he | ⟨d, hd, he⟩) | ⟨he1, he2⟩)
        · exact Or.inl he
        · subst he
          exact Or.inr ⟨Or.inl rfl, (hdep d).2 hd⟩
        · exact Or.inr ⟨Or.inr he1, he2⟩
      · rintro (he | ⟨he1 | he1, he2⟩)
        · exact Or.inl (Or.inl he)
        · refine Or.inl (Or.inr ⟨e.2, ?_, ?_⟩)
          · rw [he1] at he2; exact (hdep e.2).1 he2
          · rw [← he1]
        · exact Or.inr ⟨he1, he2⟩

/-- What `output_depsystem` writes for the symbols `l` with the identity mutator. -/
theorem outputLoop_statements {D : DepSystem} {delimiters : List Char}
    (hnl : '\n' ∈ delimiters) (hE : EdgeSymmetric D)
    (hgood : ∀ n r, findSym D.symbols n = some r →
      n ≠ "" ∧ (∀ c ∈ n.data, c ∉ delimiters) ∧ startsOutside n = false)
    (hline : ∀ n r, findSym D.symbols n = some r → singleLine r.value) :
    ∀ l : List String, (∀ x ∈ l, countSym D.symbols x = true) →
      outputLoop D id l = Outcome.ok (l.flatMap (statementsOf D)) := by
  intro l
  induction l with
  | nil => intro _; rfl
  | cons s l ih =>
    intro hex
    obtain ⟨r, hr⟩ := countSym_eq_true.1 (hex s (List.mem_cons_self _ _))
    have hs1 : singleLine s := singleLine_word hnl (hgood s r hr).2.1
    have hsp : singleLine " " := by unfold singleLine; decide
    have hsl : singleLine " / " := by unfold singleLine; decide
    have hedges : r.dependency_edges.flatMap (fun depsym => fieldLines (depsym ++ " / " ++ s)) =
        r.dependency_edges.map (fun depsym => depsym ++ " / " ++ s) := by
      have : ∀ es : List String, (∀ d ∈ es, singleLine d) →
          es.flatMap (fun depsym => fieldLines (depsym ++ " / " ++ s)) =
            es.map (fun depsym => depsym ++ " / " ++ s) := by
        intro es
        induction es with
        | nil => intro _; rfl
        | cons d es ihe =>
          intro hd
          rw [List.flatMap_cons, List.map_cons,
            ihe (fun x hx => hd x (List.mem_cons_of_mem _ hx)),
            fieldLines_single (singleLine_append (singleLine_append
              (hd d (List.mem_cons_self _ _)) hsl) hs1)]
          rfl
      apply this
      intro d hd
      obtain ⟨sd, hsd, -⟩ := (hE s r hr).1 d hd
      exact singleLine_word hnl (hgood d sd hsd).2.1
    rw [outputLoop]
    simp only [get_value, get_dependency_edges, hr, ih (fun x hx => hex x (List.mem_cons_of_mem _ hx)),
      id, hedges,
      fieldLines_single (singleLine_append (singleLine_append hs1 hsp) (hline s r hr))]
    rw [List.flatMap_cons]
    unfold statementsOf
    rw [hr]
    simp

/-- In a duplicate-free list in which `[d, s]` is a sublist, `d` stands before every place of
`s`. -/
theorem mem_prefix_of_sublist {d s : String} {Q1 Q2 : List String}
    (hnd : (Q1 ++ s :: Q2).Nodup) (h : List.Sublist [d, s] (Q1 ++ s :: Q2)) : d ∈ Q1 := by
  have hs1 : s ∉ Q1 := fun hs => (List.nodup_append.1 hnd).2.2 hs (List.mem_cons_self _ _)
  have hs2 : s ∉ Q2 := (List.nodup_cons.1 (List.nodup_append.1 hnd).2.1).1
  obtain ⟨a, b, hab, ha, hb⟩ := List.sublist_append_iff.1 h
  cases a with
  | nil =>
    rw [List.nil_append] at hab
    subst hab
    have : List.Sublist [s] Q2 := by
      cases hb with
      | cons _ h1 => exact (List.sublist_of_cons_sublist h1)
      | cons₂ _ h1 => exact h1
    exact absurd (List.singleton_sublist.1 this) hs2
  | cons x a =>
    rw [List.cons_append] at hab
    injection hab with hx hab
    subst hx
    cases a with
    | nil => exact List.singleton_sublist.1 ha
    | cons y a =>
      rw [List.cons_append] at hab
      injection hab with hy hab
      subst hy
      exact absurd (ha.subset (List.mem_cons_of_mem _ (List.mem_cons_self _ _))) hs1

theorem length_le_of_names {D : DepSystem} {l : List String} (hnd : l.Nodup)
    (hex : ∀ n ∈ l, countSym D.symbols n = true) : l.length ≤ D.symbols.length := by
  have hsub : l ⊆ D.symbols.map Symbol.name := by
    intro n hn
    obtain ⟨s, hs⟩ := countSym_eq_true.1 (hex n hn)
    exact List.mem_map.2 ⟨s, findSym_mem hs, findSym_name hs⟩
  have := (hnd.subperm hsub).length_le
  rwa [List.length_map] at this

theorem append_ne_empty {a : String} (b : String) (h : a ≠ "") : a ++ b ≠ "" := by
  intro e
  have h1 : (a ++ b).data.length = 0 := by rw [e]; rfl
  rw [String.data_append, List.length_append] at h1
  have h0 : 0 < a.data.length := List.length_pos.2 (fun e => h (String.ext e))
  omega

/-- The round trip through the interchange format up to the newline the reader keeps: for a
`DepSystem` with duplicate-free symbol table, symmetric edges and no
cycle, without ordered dependency list, whose symbol names are nonempty, contain no delimiter
and do not start with `../`, whose values are one line with at least one token, the first one
not `/`, and whose statements the command scanner accepts without sentinel:
`output_depsystem` (identity mutator) returns a text; `augment_depsystem` (identity mutator)
from the empty `DepSystem` reads the whole text and returns a `DepSystem` with the same symbol
names, for every symbol the value followed by one newline, and the same dependency edges.  The
delimiters of `tokenize` are any set that holds the space and the newline and not the
slash. -/
theorem bif_round_trip_up_to_newline (D : DepSystem) (fuel : Nat) (delimiters : List Char)
    (hN : (D.symbols.map Symbol.name).Nodup) (hE : EdgeSymmetric D) (hA : Acyclic D)
    (hfuel : D.symbols.length ≤ fuel)
    (hsp : ' ' ∈ delimiters) (hnl : '\n' ∈ delimiters) (hslash : '/' ∉ delimiters)
    (hgood : ∀ n r, findSym D.symbols n = some r →
      n ≠ "" ∧ (∀ c ∈ n.data, c ∉ delimiters) ∧ startsOutside n = false ∧
      r.dependency_list_list = [] ∧ singleLine r.value ∧
      tokenize r.value delimiters ≠ [] ∧ (tokenize r.value delimiters).head? ≠ some "/" ∧
      (∃ toks, scan_line [] [] (n ++ " " ++ r.value) = Except.ok (toks, [])) ∧
      ∀ d ∈ r.dependency_edges,
        ∃ toks, scan_line [] [] (d ++ " / " ++ n) = Except.ok (toks, [])) :
    ∃ text D1, output_depsystem fuel D id = Outcome.ok text ∧
      augment_depsystem fuel { lines := text } {} id delimiters =
        Result.ok (D1, { lines := [], eofbit := true, failbit := true }) ∧
      (∀ n, has_symbol D1 n = has_symbol D n) ∧
      (∀ n v, get_value D n = Outcome.ok v → get_value D1 n = Outcome.ok (v ++ "\n")) ∧
      ∀ n es, get_dependency_edges D n = Outcome.ok es →
        ∃ es1, get_dependency_edges D1 n = Outcome.ok es1 ∧ ∀ a, a ∈ es1 ↔ a ∈ es := by
  obtain ⟨st, hst, hnd, hex, htopo, hall⟩ := get_symbols_loop hN hE hA hfuel
  have hnames : ∀ n r, findSym D.symbols n = some r →
      n ≠ "" ∧ (∀ c ∈ n.data, c ∉ delimiters) ∧ startsOutside n = false :=
    fun n r h => ⟨(hgood n r h).1, (hgood n r h).2.1, (hgood n r h).2.2.1⟩
  have hsyms : get_symbols fuel D selectAll = Outcome.ok st.1 := by
    unfold get_symbols
    rw [hst]
    simp only [selectLoop_selectAll st.1 hex]
  have hout : output_depsystem fuel D id = Outcome.ok (st.1.flatMap (statementsOf D)) := by
    unfold output_depsystem
    rw [hsyms]
    exact outputLoop_statements hnl hE hnames (fun n r h => (hgood n r h).2.2.2.2.1) st.1 hex
  obtain ⟨Dk1, G1, hrun, hrb, hG⟩ := @readBack_symbols D fuel delimiters hsp hnl hslash hA hnames
    (fun n r h => ⟨(hgood n r h).2.2.2.1, (hgood n r h).2.2.2.2.2.1,
      (hgood n r h).2.2.2.2.2.2.1⟩)
    [] st.1 [] {} [] (readBack_empty D) (by rw [List.nil_append]; exact hnd)
    (by rw [List.nil_append]; exact le_trans (length_le_of_names hnd hex) hfuel) hex
    (fun Q1 s Q2 hQ d hd => by
      rw [List.nil_append]
      have hs : s ∈ st.1 := by rw [hQ]; exact List.mem_append_right _ (List.mem_cons_self _ _)
      have h1 := htopo s hs d hd
      rw [hQ] at h1 hnd
      exact mem_prefix_of_sublist hnd h1)
  rw [List.append_nil] at hrun
  rw [List.nil_append] at hrb
  have hend : augmentLines fuel id delimiters Dk1 [] = Result.ok Dk1 := by rw [augmentLines]
  rw [hend] at hrun
  have hlines : ∀ T ∈ st.1.flatMap (statementsOf D),
      T ≠ "" ∧ ∃ toks, scan_line [] [] T = Except.ok (toks, []) := by
    intro T hT
    obtain ⟨s, hs, hTs⟩ := List.mem_flatMap.1 hT
    obtain ⟨r, hr⟩ := countSym_eq_true.1 (hex s hs)
    unfold statementsOf at hTs
    rw [hr] at hTs
    rcases List.mem_cons.1 hTs with e | e
    · rw [e]
      exact ⟨append_ne_empty _ (append_ne_empty _ (hgood s r hr).1),
        (hgood s r hr).2.2.2.2.2.2.2.1⟩
    · obtain ⟨d, hd, rfl⟩ := List.mem_map.1 e
      obtain ⟨sd, hsd, -⟩ := (hE s r hr).1 d hd
      exact ⟨append_ne_empty _ (append_ne_empty _ (hgood d sd hsd).1),
        (hgood s r hr).2.2.2.2.2.2.2.2 d hd⟩
  have hmem : ∀ n r, findSym D.symbols n = some r → n ∈ st.1 := by
    intro n r hr
    have := hall r (findSym_mem hr)
    rwa [findSym_name hr] at this
  refine ⟨_, Dk1, hout, augment_lines hlines hrun, ?_, ?_, ?_⟩
  · intro n
    apply Bool.eq_iff_iff.2
    unfold has_symbol
    rw [hrb.2.1 n]
    constructor
    · exact hex n
    · intro hn
      obtain ⟨r, hr⟩ := countSym_eq_true.1 hn
      exact hmem n r hr
  · intro n v hv
    unfold get_value at hv ⊢
    cases hr : findSym D.symbols n with
    | none => rw [hr] at hv; cases hv
    | some r =>
      rw [hr] at hv
      obtain ⟨rk, hrk⟩ := countSym_eq_true.1 ((hrb.2.1 n).2 (hmem n r hr))
      obtain ⟨⟨r1, hr1, hval⟩, -⟩ := hrb.2.2.2 n rk hrk
      rw [hr] at hr1
      cases hr1
      rw [hrk]
      simp only at hv ⊢
      rw [hval]
      injection hv with hv
      rw [hv]
  · intro n es hes
    unfold get_dependency_edges at hes ⊢
    cases hr : findSym D.symbols n with
    | none => rw [hr] at hes; cases hes
    | some r =>
      rw [hr] at hes
      obtain ⟨rk, hrk⟩ := countSym_eq_true.1 ((hrb.2.1 n).2 (hmem n r hr))
      obtain ⟨-, hde, -⟩ := hrb.2.2.2 n rk hrk
      rw [hrk]
      refine ⟨rk.dependency_edges, rfl, ?_⟩
      have hes1 : r.dependency_edges = es := by injection hes
      intro a
      rw [hde a, hG (n, a), ← hes1]
      constructor
      · rintro (h | ⟨-, sq, hsq, hd⟩)
        · cases h
        · rw [hr] at hsq
          cases hsq
          rcases hd with hd | ⟨l, hl, -⟩
          · exact hd
          · rw [(hgood n r hr).2.2.2.1] at hl; cases hl
      · intro ha
        exact Or.inr ⟨hmem n r hr, r, hr, Or.inl ha⟩

/-- C34: `valueExample` has no ordered list, names without whitespace that do not start with
`../`, and one-line values; `output_depsystem` writes the lines `x echo hi` and `y ` (the name,
a space, the empty value); `augment_depsystem` reads the whole text, and in the result the
value of `x` is `echo hi` followed by a newline and the value of `y` is a space followed by a
newline.  The system that `augment_depsystem` builds from the statements `x echo hi`,
`y cc -c y.c`, `x / y` is written with an empty line after each value, and reading that text
stops at the first empty line: only `x` is read, and three lines stay in the stream. -/
theorem C34_round_trip_changes_values :
    (∀ s ∈ valueExample.symbols, s.dependency_list_list = [] ∧ singleLine s.value ∧
      startsOutside s.name = false ∧ ∀ c ∈ s.name.data, c ∉ [' ', '\t', '\n']) ∧
    output_depsystem 2 valueExample id = Outcome.ok ["x echo hi", "y "] ∧
    ∃ D1, augment_depsystem 2 { lines := ["x echo hi", "y "] } {} id [' ', '\t', '\n'] =
        Result.ok (D1, { lines := [], eofbit := true, failbit := true }) ∧
      get_value valueExample "x" = Outcome.ok "echo hi" ∧
      get_value D1 "x" = Outcome.ok "echo hi\n" ∧
      get_value valueExample "y" = Outcome.ok "" ∧
      get_value D1 "y" = Outcome.ok " \n" ∧
    ∃ D2 D3 din3,
      augment_depsystem 4 { lines := ["x echo hi", "y cc -c y.c", "x / y"] } {} id
          [' ', '\t', '\n'] =
        Result.ok (D2, { lines := [], eofbit := true, failbit := true }) ∧
      output_depsystem 4 D2 id =
        Outcome.ok ["x echo hi", "", "y cc -c y.c", "", "x / y"] ∧
      augment_depsystem 4 { lines := ["x echo hi", "", "y cc -c y.c", "", "x / y"] } {} id
          [' ', '\t', '\n'] = Result.ok (D3, din3) ∧
      din3.lines = ["y cc -c y.c", "", "x / y"] ∧
      has_symbol D2 "y" = true ∧ has_symbol D3 "y" = false :=
  ⟨by unfold singleLine; decide, rfl, _, rfl, rfl, rfl, rfl, rfl,
    _, _, _, rfl, rfl, rfl, rfl, rfl, rfl⟩

theorem bifExample_edges : EdgeSymmetric bifExample :=
  edgeSymmetric_of_check (by decide)

theorem bifExample_acyclic : Acyclic bifExample :=
  acyclic_of_rank (fun n => if n = "app" then 1 else 0) (by decide)

theorem bifExample_statements : ∀ n r, findSym bifExample.symbols n = some r →
    n ≠ "" ∧ (∀ c ∈ n.data, c ∉ [' ', '\t', '\n']) ∧ startsOutside n = false ∧
    r.dependency_list_list = [] ∧ singleLine r.value ∧
    tokenize r.value [' ', '\t', '\n'] ≠ [] ∧
    (tokenize r.value [' ', '\t', '\n']).head? ≠ some "/" ∧
    (∃ toks, scan_line [] [] (n ++ " " ++ r.value) = Except.ok (toks, [])) ∧
    ∀ d ∈ r.dependency_edges,
      ∃ toks, scan_line [] [] (d ++ " / " ++ n) = Except.ok (toks, []) := by
  intro n r h
  have h1 : tokenize "cc -o app lib.o" [' ', '\t', '\n'] = ["cc", "-o", "app", "lib.o"] := rfl
  have h2 : tokenize "cc -c lib.c" [' ', '\t', '\n'] = ["cc", "-c", "lib.c"] := rfl
  unfold bifExample at h
  simp only [findSym] at h
  split_ifs at h with e1 e2
  · cases h
    subst e1
    refine ⟨by decide, by decide, by decide, rfl, by unfold singleLine; decide,
      by rw [h1]; simp, by rw [h1]; simp, ⟨_, rfl⟩, ?_⟩
    intro d hd
    rcases List.mem_singleton.1 hd with rfl
    exact ⟨_, rfl⟩
  · cases h
    subst e2
    refine ⟨by decide, by decide, by decide, rfl, by unfold singleLine; decide,
      by rw [h2]; simp, by rw [h2]; simp, ⟨_, rfl⟩, ?_⟩
    intro d hd
    cases hd

/-- The round trip of `bifExample`, whose text is `lib.o cc -c lib.c`, `app cc -o app lib.o`,
`lib.o / app`. -/
theorem bif_round_trip_up_to_newline_witness :
    ((bifExample.symbols.map Symbol.name).Nodup ∧ EdgeSymmetric bifExample ∧
      Acyclic bifExample ∧ bifExample.symbols.length ≤ 2 ∧
      output_depsystem 2 bifExample id =
        Outcome.ok ["lib.o cc -c lib.c", "app cc -o app lib.o", "lib.o / app"]) ∧
    ∃ text D1, output_depsystem 2 bifExample id = Outcome.ok text ∧
      augment_depsystem 2 { lines := text } {} id [' ', '\t', '\n'] =
        Result.ok (D1, { lines := [], eofbit := true, failbit := true }) ∧
      (∀ n, has_symbol D1 n = has_symbol bifExample n) ∧
      (∀ n v, get_value bifExample n = Outcome.ok v →
        get_value D1 n = Outcome.ok (v ++ "\n")) ∧
      ∀ n es, get_dependency_edges bifExample n = Outcome.ok es →
        ∃ es1, get_dependency_edges D1 n = Outcome.ok es1 ∧ ∀ a, a ∈ es1 ↔ a ∈ es :=
  ⟨⟨by decide, bifExample_edges, bifExample_acyclic, by decide, rfl⟩,
    bif_round_trip_up_to_newline bifExample 2 [' ', '\t', '\n'] (by decide) bifExample_edges
      bifExample_acyclic (by decide) (by decide) (by decide) (by decide)
      bifExample_statements⟩

end DepLib
